import Mathlib

set_option linter.unusedSectionVars false

/-!
Verification of the bcoin wallet transaction database (TXDB),
a shallow embedding of `lib/wallet/txdb.js`.

The key-value store is modelled per key-prefix: each tagged key family of the
database layout (`t`, `c`, `d`, `s`, `p`, `m`, `h`, `T`, `P`, `M`, `H`, `C`,
`r`, `b`, `R`) becomes one association-list map in the `DB` structure.  Since
every codec in the source round-trips, byte-for-byte equality of the stored
database is equality of lookups in these maps.  Transaction hashes are
abstracted to `Nat`; the path resolver (`wallet.getPath`) is abstracted by
letting each output and each stored coin carry the `Option Nat` account the
resolver would return for its address.
-/

namespace Txdb

instance instDecEqExcept {E A : Type} [DecidableEq E] [DecidableEq A] :
    DecidableEq (Except E A) := fun a b =>
  match a, b with
  | .error e1, .error e2 =>
    if h : e1 = e2 then .isTrue (by rw [h]) else .isFalse (by intro hc; cases hc; exact h rfl)
  | .error _, .ok _ => .isFalse (by intro hc; cases hc)
  | .ok _, .error _ => .isFalse (by intro hc; cases hc)
  | .ok a1, .ok a2 =>
    if h : a1 = a2 then .isTrue (by rw [h]) else .isFalse (by intro hc; cases hc; exact h rfl)

section AssocMap

variable {K V : Type} [DecidableEq K]

/-- `db.get(key)` on one tagged key family: first binding of the key, if any. -/
def findA (m : List (K × V)) (k : K) : Option V :=
  (List.find? (fun p => decide (p.1 = k)) m).map (·.2)

/-- `batch.del(key)`: remove every binding of the key. -/
def eraseA (m : List (K × V)) (k : K) : List (K × V) :=
  m.filter (fun p => decide (p.1 ≠ k))

/-- `batch.put(key, value)`: bind the key, replacing any previous binding. -/
def insertA (m : List (K × V)) (k : K) (v : V) : List (K × V) :=
  (k, v) :: eraseA m k

/-- The keys are pairwise distinct (canonical representation of a map). -/
def WfA (m : List (K × V)) : Prop := (m.map Prod.fst).Nodup

instance instWfADec (m : List (K × V)) : Decidable (WfA m) := by
  unfold WfA; exact inferInstance

@[simp] theorem findA_nil (k : K) : findA ([] : List (K × V)) k = none := rfl

@[simp] theorem findA_cons (p : K × V) (m : List (K × V)) (k : K) :
    findA (p :: m) k = if p.1 = k then some p.2 else findA m k := by
  by_cases h : p.1 = k <;> simp [findA, List.find?, h]

@[simp] theorem eraseA_nil (k : K) : eraseA ([] : List (K × V)) k = [] := rfl

theorem eraseA_cons (p : K × V) (m : List (K × V)) (k : K) :
    eraseA (p :: m) k = if p.1 = k then eraseA m k else p :: eraseA m k := by
  by_cases h : p.1 = k <;> simp [eraseA, List.filter_cons, h]

theorem findA_eq_none_of_not_mem (m : List (K × V)) (k : K)
    (h : k ∉ m.map Prod.fst) : findA m k = none := by
  induction m with
  | nil => rfl
  | cons p m ih =>
    simp only [List.map_cons, List.mem_cons, not_or] at h
    rw [findA_cons, if_neg (fun hc => h.1 hc.symm)]
    exact ih h.2

theorem eraseA_eq_self_of_not_mem (m : List (K × V)) (k : K)
    (h : k ∉ m.map Prod.fst) : eraseA m k = m := by
  induction m with
  | nil => rfl
  | cons p m ih =>
    simp only [List.map_cons, List.mem_cons, not_or] at h
    rw [eraseA_cons, if_neg (fun hc => h.1 hc.symm), ih h.2]

@[simp] theorem findA_eraseA_self (m : List (K × V)) (k : K) :
    findA (eraseA m k) k = none := by
  induction m with
  | nil => rfl
  | cons p m ih =>
    rw [eraseA_cons]
    by_cases h : p.1 = k
    · simpa [h] using ih
    · rw [if_neg h, findA_cons, if_neg h]; exact ih

@[simp] theorem findA_eraseA_ne (m : List (K × V)) (k k' : K) (h : k' ≠ k) :
    findA (eraseA m k) k' = findA m k' := by
  induction m with
  | nil => rfl
  | cons p m ih =>
    rw [eraseA_cons]
    by_cases hp : p.1 = k
    · have hp' : p.1 ≠ k' := by rw [hp]; exact fun hc => h hc.symm
      rw [if_pos hp, findA_cons, if_neg hp']
      exact ih
    · rw [if_neg hp, findA_cons, findA_cons]
      by_cases hk : p.1 = k'
      · simp [hk]
      · rw [if_neg hk, if_neg hk]; exact ih

@[simp] theorem findA_insertA_self (m : List (K × V)) (k : K) (v : V) :
    findA (insertA m k v) k = some v := by
  simp [insertA]

@[simp] theorem findA_insertA_ne (m : List (K × V)) (k k' : K) (v : V) (h : k' ≠ k) :
    findA (insertA m k v) k' = findA m k' := by
  have hne : k ≠ k' := fun hc => h hc.symm
  rw [insertA, findA_cons]
  simp only [if_neg hne]
  exact findA_eraseA_ne m k k' h

theorem eraseA_wf (m : List (K × V)) (k : K) (h : WfA m) : WfA (eraseA m k) := by
  unfold WfA at h ⊢
  exact List.Nodup.sublist ((List.filter_sublist m).map Prod.fst) h

theorem not_mem_keys_eraseA (m : List (K × V)) (k : K) :
    k ∉ (eraseA m k).map Prod.fst := by
  intro hc
  rcases List.mem_map.mp hc with ⟨q, hq, hq1⟩
  have h2 := (List.mem_filter.mp hq).2
  rw [hq1] at h2
  simp at h2

theorem insertA_wf (m : List (K × V)) (k : K) (v : V) (h : WfA m) :
    WfA (insertA m k v) := by
  unfold WfA
  simp only [insertA, List.map_cons, List.nodup_cons]
  exact ⟨not_mem_keys_eraseA m k, eraseA_wf m k h⟩

/-- Total contribution of an entry list under a weight function; used to state
the balance invariants (sum over all stored credits). -/
def sumA (f : K → V → Int) (m : List (K × V)) : Int :=
  (m.map (fun p => f p.1 p.2)).sum

/-- Contribution of a single optional binding. -/
def contribA (f : K → V → Int) (k : K) : Option V → Int
  | none => 0
  | some v => f k v

@[simp] theorem contribA_none (f : K → V → Int) (k : K) : contribA f k none = 0 := rfl

@[simp] theorem contribA_some (f : K → V → Int) (k : K) (v : V) :
    contribA f k (some v) = f k v := rfl

@[simp] theorem sumA_nil (f : K → V → Int) : sumA f ([] : List (K × V)) = 0 := rfl

@[simp] theorem sumA_cons (f : K → V → Int) (p : K × V) (m : List (K × V)) :
    sumA f (p :: m) = f p.1 p.2 + sumA f m := rfl

theorem sumA_eraseA (f : K → V → Int) (m : List (K × V)) (k : K) (h : WfA m) :
    sumA f (eraseA m k) = sumA f m - contribA f k (findA m k) := by
  induction m with
  | nil => simp
  | cons p m ih =>
    unfold WfA at h
    simp only [List.map_cons, List.nodup_cons] at h
    rw [eraseA_cons]
    by_cases hp : p.1 = k
    · have hnot : k ∉ m.map Prod.fst := by rw [← hp]; exact h.1
      rw [if_pos hp, eraseA_eq_self_of_not_mem m k hnot, findA_cons, if_pos hp,
        sumA_cons, contribA_some, ← hp]
      ring
    · rw [if_neg hp, sumA_cons, ih h.2, findA_cons, if_neg hp, sumA_cons]
      ring

theorem sumA_insertA (f : K → V → Int) (m : List (K × V)) (k : K) (v : V) (h : WfA m) :
    sumA f (insertA m k v) = sumA f m + f k v - contribA f k (findA m k) := by
  rw [insertA, sumA_cons, sumA_eraseA f m k h]
  ring

end AssocMap

/-! ## Data model (`primitives/outpoint.js`, `primitives/coin.js`, `txdb.js`) -/

/-- `Outpoint`: pair of transaction hash and output index. -/
structure Outpoint where
  hash : Nat
  index : Nat
deriving DecidableEq, Repr

/-- `Coin`: an output materialized from a transaction.  `account` abstracts the
wallet path resolver: it is the account `getPath` returns for the coin's
address, or `none` when the address is foreign.  The script is subsumed by
`account` together with `value`. -/
structure Coin where
  hash : Nat
  index : Nat
  value : Int
  height : Int
  account : Option Nat
deriving DecidableEq, Repr

/-- `Credit`: a coin plus the mempool-spent flag (txdb.js `function Credit`). -/
structure Credit where
  coin : Coin
  spent : Bool
deriving DecidableEq, Repr

/-- A transaction input: its previous outpoint. `inputAccount` abstracts the
`hasPath(input)` address-extraction hack used by the SPV orphan tracker. -/
structure Input where
  prevout : Outpoint
  inputAccount : Option Nat := none
deriving DecidableEq, Repr

/-- A transaction output: value and resolved account (`none` = foreign). -/
structure Output where
  value : Int
  account : Option Nat
deriving DecidableEq, Repr

/-- A transaction in bcoin's extended serialization: canonical data plus the
wallet-local metadata (ps, height, block, ts, index) that `toExtended`
appends.  `rbf` is the protocol-level `tx.isRBF()` flag, `mutableFlag` is
`tx.mutable`, `coinbase` is `tx.isCoinbase()`. -/
structure TX where
  hash : Nat
  inputs : List Input
  outputs : List Output
  height : Int := -1
  block : Option Nat := none
  ts : Nat := 0
  index : Int := -1
  ps : Nat := 0
  rbf : Bool := false
  mutableFlag : Bool := false
  coinbase : Bool := false
deriving DecidableEq, Repr

/-- `Credit.fromTX(tx, i)`: fresh unspent credit for output `i` of `tx`
(`output` must be `tx.outputs[i]` at every call site). -/
def Credit.fromTX (tx : TX) (i : Nat) (output : Output) : Credit :=
  { coin := { hash := tx.hash, index := i, value := output.value,
              height := tx.height, account := output.account },
    spent := false }

/-- `BlockMeta`: the `block` argument handed to the write entry points. -/
structure BlockMeta where
  bhash : Nat
  height : Int
  ts : Nat
deriving DecidableEq, Repr

/-- `BlockRecord`: persisted under `b[height]`. -/
structure BlockRecord where
  bhash : Nat
  height : Int
  ts : Nat
  hashes : List Nat
deriving DecidableEq, Repr

/-- `TXDBState`: the persisted counters (`function TXDBState`).  `committed`
is the in-memory flag set by `TXDBState.prototype.commit`. -/
structure TXDBState where
  tx : Int := 0
  coin : Int := 0
  unconfirmed : Int := 0
  confirmed : Int := 0
  committed : Bool := false
deriving DecidableEq, Repr

/-- `TXDBState.prototype.clone`: copies the counters, resets `committed`. -/
def TXDBState.clone (st : TXDBState) : TXDBState :=
  { tx := st.tx, coin := st.coin, unconfirmed := st.unconfirmed,
    confirmed := st.confirmed, committed := false }

/-- `Balance` (confirmed/unconfirmed only; wid and id are constant). -/
structure Balance where
  unconfirmed : Int := 0
  confirmed : Int := 0
deriving DecidableEq, Repr

/-- `TXDBState.prototype.toBalance`. -/
def TXDBState.toBalance (st : TXDBState) : Balance :=
  { unconfirmed := st.unconfirmed, confirmed := st.confirmed }

/-- The wallet-scoped key families of the database layout (see the layout
comment at the top of txdb.js).  Field names match the key tags. -/
structure DB where
  t : List (Nat × TX) := []
  c : List ((Nat × Nat) × Credit) := []
  d : List ((Nat × Nat) × Coin) := []
  s : List ((Nat × Nat) × Outpoint) := []
  p : List (Nat × Unit) := []
  m : List ((Nat × Nat) × Unit) := []
  h : List ((Int × Nat) × Unit) := []
  T : List ((Nat × Nat) × Unit) := []
  P : List ((Nat × Nat) × Unit) := []
  M : List ((Nat × Nat × Nat) × Unit) := []
  H : List ((Nat × Int × Nat) × Unit) := []
  C : List ((Nat × Nat × Nat) × Unit) := []
  r : List (Nat × Unit) := []
  b : List (Int × BlockRecord) := []
  R : Option TXDBState := none
deriving DecidableEq, Repr

/-- The committed, observable TXDB: flushed key-value content, the in-memory
committed state record, and the coin cache (in-memory LRU; capacity bounding
is irrelevant to the verified claims and omitted). -/
structure TXDB where
  db : DB
  state : TXDBState
  cache : List ((Nat × Nat) × Credit) := []
deriving DecidableEq, Repr

/-- Buffered wallet events (payloads are irrelevant to the claims). -/
inductive Event where
  | txEv (hash : Nat)
  | confirmedEv (hash : Nat)
  | unconfirmedEv (hash : Nat)
  | removeTxEv (hash : Nat)
  | conflictEv (hash : Nat)
  | balanceEv
deriving DecidableEq, Repr

/-- Errors surfaced to the caller.  `assertFail` stands for any `assert`
whose failure aborts the batch; named constructors model the explicit
`throw new Error(...)` sites and assertions with their own message. -/
inductive Err where
  | mutableTx
  | alreadyConfirmed
  | notEligible
  | assertFail
  | noFuel
deriving DecidableEq, Repr

/-- The in-flight batch: staged key-value view, pending state clone, staged
coin-cache overlay and buffered events.  `committedFlag` records whether
`pending.commit()` was serialized under `R` (txdb.js checks
`this.pending.committed` in `commit`). -/
structure Draft where
  db : DB
  pending : TXDBState
  cache : List ((Nat × Nat) × Credit)
  events : List Event
  committedFlag : Bool
deriving DecidableEq, Repr

/-- `TXDB.prototype.start`: clone state, snapshot cache, open a batch. -/
def Draft.start (b : TXDB) : Draft :=
  { db := b.db, pending := b.state.clone, cache := b.cache,
    events := [], committedFlag := false }

/-- `TXDB.prototype.commit` (successful flush): install the staged view; the
state record and the buffered events are published only when the pending
state was serialized (`pending.committed`). -/
def TXDB.commitDraft (b : TXDB) (dr : Draft) : TXDB × List Event :=
  if dr.committedFlag then
    (⟨dr.db, dr.pending, dr.cache⟩, dr.events)
  else
    (⟨dr.db, b.state, dr.cache⟩, [])

/-! ## Read helpers

Reads inside a batch go through `this.db.get` and therefore observe the
*committed* database, never the staged batch; every read helper takes the
committed `DB`. -/

/-- `getTX(hash)` (the stored extended transaction). -/
def getTX (base : DB) (hash : Nat) : Option TX := findA base.t hash

/-- `hasTX(hash)`. -/
def hasTX (base : DB) (hash : Nat) : Bool := (getTX base hash).isSome

/-- `getCredit(hash, index)`: the stored credit with `coin.hash` and
`coin.index` restored from the key (the binary coin codec omits them; the
source assigns them on every read).  Cache read-through is transparent: the
cache never diverges from the committed `c` family. -/
def getCredit (base : DB) (hash : Nat) (index : Nat) : Option Credit :=
  (findA base.c (hash, index)).map (fun credit =>
    { credit with coin := { credit.coin with hash := hash, index := index } })

/-- `getCoin(hash, index)`. -/
def getCoin (base : DB) (hash : Nat) (index : Nat) : Option Coin :=
  (getCredit base hash index).map (·.coin)

/-- `getSpent(hash, index)`: the spender outpoint recorded under `s`. -/
def getSpent (base : DB) (hash : Nat) (index : Nat) : Option Outpoint :=
  findA base.s (hash, index)

/-- `isSpent(hash, index)`. -/
def isSpent (base : DB) (hash : Nat) (index : Nat) : Bool :=
  (getSpent base hash index).isSome

/-- `hasSpentCoin(spent)`: whether an undo coin exists under the spender. -/
def hasSpentCoin (base : DB) (spent : Outpoint) : Bool :=
  (findA base.d (spent.hash, spent.index)).isSome

/-- `getSpentCoin(spent, prevout)`: undo coin with hash/index restored from
the prevout (the binary codec omits them). -/
def getSpentCoin (base : DB) (spent : Outpoint) (prevout : Outpoint) : Option Coin :=
  (findA base.d (spent.hash, spent.index)).map
    (fun coin => { coin with hash := prevout.hash, index := prevout.index })

/-- `getSpentCredits(tx)`: array aligned with `tx.inputs`; entry `i` is the
undo coin stored under `d[tx.hash, i]`, wrapped as an unspent credit with
hash/index from the input's prevout. -/
def getSpentCredits (base : DB) (tx : TX) : List (Option Credit) :=
  if tx.coinbase then tx.inputs.map (fun _ => none)
  else tx.inputs.enum.map (fun pr =>
    (findA base.d (tx.hash, pr.1)).map (fun coin =>
      { coin := { coin with hash := pr.2.prevout.hash, index := pr.2.prevout.index },
        spent := false }))

/-- `getBlock(height)`. -/
def getBlock (base : DB) (height : Int) : Option BlockRecord :=
  findA base.b height

/-- `isRBF(tx)`: protocol-level opt-in, or some input spends an outpoint
whose parent hash is tagged under `r`. -/
def isRBF (base : DB) (tx : TX) : Bool :=
  tx.rbf || tx.inputs.any (fun input => (findA base.r input.prevout.hash).isSome)

/-! ## Write primitives (staged into the draft) -/

/-- `saveCredit(credit, path)`: stage `c` and `C` puts and push the cache. -/
def saveCredit (credit : Credit) (account : Nat) (dr : Draft) : Draft :=
  { dr with
    db := { dr.db with
      c := insertA dr.db.c (credit.coin.hash, credit.coin.index) credit,
      C := insertA dr.db.C (account, credit.coin.hash, credit.coin.index) () },
    cache := insertA dr.cache (credit.coin.hash, credit.coin.index) credit }

/-- `removeCredit(credit, path)`: stage `c` and `C` deletes, unpush cache. -/
def removeCredit (credit : Credit) (account : Nat) (dr : Draft) : Draft :=
  { dr with
    db := { dr.db with
      c := eraseA dr.db.c (credit.coin.hash, credit.coin.index),
      C := eraseA dr.db.C (account, credit.coin.hash, credit.coin.index) },
    cache := eraseA dr.cache (credit.coin.hash, credit.coin.index) }

/-- `spendCredit(credit, tx, index)`: record the spent marker
`s[prevout] = Outpoint.fromTX(tx, index)` and the undo coin
`d[tx.hash, index] = credit.coin`.  `prevout` must be
`tx.inputs[index].prevout` and `spenderHash` the spender's hash. -/
def spendCredit (credit : Credit) (spenderHash : Nat) (index : Nat)
    (prevout : Outpoint) (dr : Draft) : Draft :=
  { dr with
    db := { dr.db with
      s := insertA dr.db.s (prevout.hash, prevout.index) ⟨spenderHash, index⟩,
      d := insertA dr.db.d (spenderHash, index) credit.coin } }

/-- `unspendCredit(tx, index)`: delete the spent marker and the undo coin. -/
def unspendCredit (spenderHash : Nat) (index : Nat) (prevout : Outpoint)
    (dr : Draft) : Draft :=
  { dr with
    db := { dr.db with
      s := eraseA dr.db.s (prevout.hash, prevout.index),
      d := eraseA dr.db.d (spenderHash, index) } }

/-- `writeInput(tx, index)`: bare spent marker for an unrecognized input. -/
def writeInput (spenderHash : Nat) (index : Nat) (prevout : Outpoint)
    (dr : Draft) : Draft :=
  { dr with
    db := { dr.db with
      s := insertA dr.db.s (prevout.hash, prevout.index) ⟨spenderHash, index⟩ } }

/-- `removeInput(tx, index)`: delete the bare spent marker. -/
def removeInput (prevout : Outpoint) (dr : Draft) : Draft :=
  { dr with db := { dr.db with s := eraseA dr.db.s (prevout.hash, prevout.index) } }

/-- `updateSpentCoin(tx, index)`: rewrite the undo coin of output
`(txHash, index)` with a new height, when both the spent marker and the
undo coin exist. -/
def updateSpentCoin (base : DB) (txHash : Nat) (newHeight : Int) (index : Nat)
    (dr : Draft) : Draft :=
  match getSpent base txHash index with
  | none => dr
  | some spent =>
    match getSpentCoin base spent ⟨txHash, index⟩ with
    | none => dr
    | some coin =>
      { dr with
        db := { dr.db with
          d := insertA dr.db.d (spent.hash, spent.index)
                 { coin with height := newHeight } } }

/-- `addBlock(tx, entry)`: append the hash to the block record at
`tx.height`, creating it from the tx's block fields when missing. -/
def addBlock (base : DB) (tx : TX) (dr : Draft) : Draft :=
  let rec0 := match getBlock base tx.height with
    | none => { bhash := tx.block.getD 0, height := tx.height, ts := tx.ts,
                hashes := [] : BlockRecord }
    | some blk => blk
  if tx.hash ∈ rec0.hashes then dr
  else { dr with
    db := { dr.db with
      b := insertA dr.db.b tx.height { rec0 with hashes := rec0.hashes ++ [tx.hash] } } }

/-- Rewrite or delete a block record after `block.remove(hash)` dropped a
hash from it (`hashes` is the remaining list). -/
def blockRemoveStep (height : Int) (blk : BlockRecord) (hashes : List Nat)
    (dr : Draft) : Draft :=
  if hashes = [] then
    { dr with db := { dr.db with b := eraseA dr.db.b height } }
  else
    { dr with db := { dr.db with b := insertA dr.db.b height { blk with hashes := hashes } } }

/-- `removeBlock(tx, height)`: drop the hash from the block record; delete
the record when it becomes empty. -/
def removeBlock (base : DB) (txHash : Nat) (height : Int) (dr : Draft) : Draft :=
  match getBlock base height with
  | none => dr
  | some blk =>
    if txHash ∈ blk.hashes then
      blockRemoveStep height blk (blk.hashes.filter (fun x => decide (x ≠ txHash))) dr
    else dr

/-- `this.put(layout.R, this.pending.commit())`. -/
def putState (dr : Draft) : Draft :=
  { dr with db := { dr.db with R := some dr.pending }, committedFlag := true }

/-- `this.emit(event, ...)`: buffer an event. -/
def emitEv (ev : Event) (dr : Draft) : Draft :=
  { dr with events := dr.events ++ [ev] }

/-- `utils.binaryInsert(this.accounts, account, cmp, true)`: record an
account once (list of touched accounts, dedup). -/
def pushAccount (account : Nat) (accounts : List Nat) : List Nat :=
  if account ∈ accounts then accounts else accounts ++ [account]

/-! ## The write pipeline -/

/-- `resolveInput(tx, i, path)`: when output `i` of `tx` matches a
pre-existing bare spent marker, attach the undo coin to the spender; if the
spender is unconfirmed, also save a mempool-spent credit, crediting
`confirmed` when `tx` itself is mined.  Returns the updated draft and the
boolean result. -/
def resolveInput (base : DB) (tx : TX) (i : Nat) (account : Nat)
    (output : Output) (dr : Draft) : Except Err (Draft × Bool) :=
  match getSpent base tx.hash i with
  | none => .ok (dr, false)
  | some spent =>
    if hasSpentCoin base spent then .ok (dr, false)
    else
      match getTX base spent.hash with
      | none => .error .assertFail
      | some stx =>
        match stx.inputs.get? spent.index with
        | none => .error .assertFail
        | some sinput =>
          let credit := Credit.fromTX tx i output
          let dr := spendCredit credit stx.hash spent.index sinput.prevout dr
          if stx.height = -1 then
            let credit := { credit with spent := true }
            let dr := saveCredit credit account dr
            let dr :=
              if tx.height ≠ -1 then
                { dr with pending :=
                  { dr.pending with confirmed := dr.pending.confirmed + credit.coin.value } }
              else dr
            .ok (dr, true)
          else .ok (dr, true)

/-- The input loop of `insert` (txdb.js lines 1154–1216), iterating the
enumerated inputs; threads the draft, the `updated` flag and the touched
accounts. -/
def insertInputs (base : DB) (tx : TX) :
    List (Nat × Input) → Draft → Bool → List Nat →
    Except Err (Draft × Bool × List Nat)
  | [], dr, updated, accounts => .ok (dr, updated, accounts)
  | (i, input) :: rest, dr, updated, accounts =>
    match getCredit base input.prevout.hash input.prevout.index with
    | none =>
      insertInputs base tx rest (writeInput tx.hash i input.prevout dr) updated accounts
    | some credit =>
      match credit.coin.account with
      | none => .error .assertFail
      | some account =>
        let coin := credit.coin
        let dr := spendCredit credit tx.hash i input.prevout dr
        let dr := { dr with pending :=
          { dr.pending with coin := dr.pending.coin - 1,
                            unconfirmed := dr.pending.unconfirmed - coin.value } }
        if tx.height = -1 then
          let dr := saveCredit { credit with spent := true } account dr
          insertInputs base tx rest dr true (pushAccount account accounts)
        else
          let dr := { dr with pending :=
            { dr.pending with confirmed := dr.pending.confirmed - coin.value } }
          let dr := removeCredit credit account dr
          insertInputs base tx rest dr true (pushAccount account accounts)

/-- The output loop of `insert` (txdb.js lines 1220–1247). -/
def insertOutputs (base : DB) (tx : TX) :
    List (Nat × Output) → Draft → Bool → List Nat →
    Except Err (Draft × Bool × List Nat)
  | [], dr, updated, accounts => .ok (dr, updated, accounts)
  | (i, output) :: rest, dr, updated, accounts =>
    match output.account with
    | none => insertOutputs base tx rest dr updated accounts
    | some account =>
      match resolveInput base tx i account output dr with
      | .error e => .error e
      | .ok (dr, true) =>
        insertOutputs base tx rest dr true (pushAccount account accounts)
      | .ok (dr, false) =>
        let credit := Credit.fromTX tx i output
        let dr := { dr with pending :=
          { dr.pending with coin := dr.pending.coin + 1,
                            unconfirmed := dr.pending.unconfirmed + output.value } }
        let dr :=
          if tx.height ≠ -1 then
            { dr with pending :=
              { dr.pending with confirmed := dr.pending.confirmed + output.value } }
          else dr
        let dr := saveCredit credit account dr
        insertOutputs base tx rest dr true (pushAccount account accounts)

/-- Secondary-index writes for one account (`T`, `M`, and `P` or `H`). -/
def indexAccount (tx : TX) (dr : Draft) (account : Nat) : Draft :=
  let dr := { dr with db := { dr.db with
    T := insertA dr.db.T (account, tx.hash) (),
    M := insertA dr.db.M (account, tx.ps, tx.hash) () } }
  if tx.height = -1 then
    { dr with db := { dr.db with P := insertA dr.db.P (account, tx.hash) () } }
  else
    { dr with db := { dr.db with H := insertA dr.db.H (account, tx.height, tx.hash) () } }

/-- The indexing tail of `insert` (txdb.js lines 1259–1306): write `t`, `m`,
`p`/`h`, per-account secondaries, the block record when mined, bump
`tx_count`, serialize the state and buffer the events. -/
def indexTX (base : DB) (tx : TX) (accounts : List Nat) (dr : Draft) : Draft :=
  let dr := { dr with db := { dr.db with
    t := insertA dr.db.t tx.hash tx,
    m := insertA dr.db.m (tx.ps, tx.hash) () } }
  let dr :=
    if tx.height = -1 then
      { dr with db := { dr.db with p := insertA dr.db.p tx.hash () } }
    else
      { dr with db := { dr.db with h := insertA dr.db.h (tx.height, tx.hash) () } }
  let dr := accounts.foldl (indexAccount tx) dr
  let dr := if tx.height ≠ -1 then addBlock base tx dr else dr
  let dr := { dr with pending := { dr.pending with tx := dr.pending.tx + 1 } }
  let dr := putState dr
  let dr := emitEv (.txEv tx.hash) dr
  emitEv .balanceEv dr

/-- `insert(tx, block)`.  Returns the staged draft and the touched accounts
(`none` when the transaction turned out not to be ours, in which case the
batch was cleared back to a fresh draft over `b`). -/
def insert (b : TXDB) (tx : TX) (dr : Draft) :
    Except Err (Draft × Option (List Nat)) :=
  let step1 :=
    if tx.coinbase then Except.ok (dr, false, ([] : List Nat))
    else insertInputs b.db tx tx.inputs.enum dr false []
  match step1 with
  | .error e => .error e
  | .ok (dr, updated, accounts) =>
    match insertOutputs b.db tx tx.outputs.enum dr updated accounts with
    | .error e => .error e
    | .ok (dr, updated, accounts) =>
      if updated then .ok (indexTX b.db tx accounts dr, some accounts)
      else .ok (Draft.start b, none)

/-- The input loop of `_confirm` (txdb.js lines 1367–1406), iterating the
enumerated inputs zipped with `getSpentCredits`. -/
def confirmInputs (base : DB) (tx : TX) :
    List ((Nat × Input) × Option Credit) → Draft → List Nat →
    Except Err (Draft × List Nat)
  | [], dr, accounts => .ok (dr, accounts)
  | ((i, input), creditOpt) :: rest, dr, accounts =>
    let step : Option (Credit × Draft) :=
      match creditOpt with
      | some credit => some (credit, dr)
      | none =>
        match getCredit base input.prevout.hash input.prevout.index with
        | none => none
        | some credit =>
          let dr := spendCredit credit tx.hash i input.prevout dr
          let dr := { dr with pending :=
            { dr.pending with coin := dr.pending.coin - 1,
                              unconfirmed := dr.pending.unconfirmed - credit.coin.value } }
          some (credit, dr)
    match step with
    | none => confirmInputs base tx rest dr accounts
    | some (credit, dr) =>
      if credit.coin.height = -1 then .error .assertFail
      else
        match credit.coin.account with
        | none => .error .assertFail
        | some account =>
          let dr := { dr with pending :=
            { dr.pending with confirmed := dr.pending.confirmed - credit.coin.value } }
          let dr := removeCredit credit account dr
          confirmInputs base tx rest dr (pushAccount account accounts)

/-- The output loop of `_confirm` (txdb.js lines 1410–1437): update credit
heights (and the undo coin of a mempool-spent credit), credit `confirmed`. -/
def confirmOutputs (base : DB) (tx : TX) :
    List (Nat × Output) → Draft → List Nat →
    Except Err (Draft × List Nat)
  | [], dr, accounts => .ok (dr, accounts)
  | (i, output) :: rest, dr, accounts =>
    match output.account with
    | none => confirmOutputs base tx rest dr accounts
    | some account =>
      match getCredit base tx.hash i with
      | none => .error .assertFail
      | some credit =>
        let dr :=
          if credit.spent then updateSpentCoin base tx.hash tx.height i dr else dr
        let credit := { credit with coin := { credit.coin with height := tx.height } }
        let dr := { dr with pending :=
          { dr.pending with confirmed := dr.pending.confirmed + output.value } }
        let dr := saveCredit credit account dr
        confirmOutputs base tx rest dr (pushAccount account accounts)

/-- Per-account re-indexing of `_confirm`: `del P[account]`, `put H`. -/
def confirmAccountIndex (tx : TX) (dr : Draft) (account : Nat) : Draft :=
  let dr := { dr with db := { dr.db with P := eraseA dr.db.P (account, tx.hash) } }
  { dr with db := { dr.db with H := insertA dr.db.H (account, tx.height, tx.hash) () } }

/-- The re-indexing tail of `_confirm` (txdb.js lines 1440–1468): clear the
RBF marker, rewrite `t`, move `p → h` and `P → H`, append the block record,
commit the pending state, buffer events. -/
def confirmIndex (base : DB) (tx : TX) (accounts : List Nat) (dr : Draft) : Draft :=
  let dr := { dr with db := { dr.db with
    r := eraseA dr.db.r tx.hash,
    t := insertA dr.db.t tx.hash tx,
    p := eraseA dr.db.p tx.hash } }
  let dr := { dr with db := { dr.db with h := insertA dr.db.h (tx.height, tx.hash) () } }
  let dr := accounts.foldl (confirmAccountIndex tx) dr
  let dr := if tx.height ≠ -1 then addBlock base tx dr else dr
  let dr := putState dr
  let dr := emitEv (.confirmedEv tx.hash) dr
  emitEv .balanceEv dr

/-- `_confirm(tx, block)`: `tx` already carries the new block fields. -/
def confirmTX (base : DB) (tx : TX) (dr : Draft) :
    Except Err (Draft × List Nat) :=
  let credits := getSpentCredits base tx
  let step1 :=
    if tx.coinbase then Except.ok (dr, ([] : List Nat))
    else confirmInputs base tx (tx.inputs.enum.zip credits) dr []
  match step1 with
  | .error e => .error e
  | .ok (dr, accounts) =>
    match confirmOutputs base tx tx.outputs.enum dr accounts with
    | .error e => .error e
    | .ok (dr, accounts) => .ok (confirmIndex base tx accounts dr, accounts)

/-- The input loop of `erase` (txdb.js lines 1506–1537): restore each spent
credit from its undo coin, or drop the bare spent marker. -/
def eraseInputs (base : DB) (tx : TX) :
    List ((Nat × Input) × Option Credit) → Draft → List Nat →
    Except Err (Draft × List Nat)
  | [], dr, accounts => .ok (dr, accounts)
  | ((i, input), creditOpt) :: rest, dr, accounts =>
    match creditOpt with
    | none => eraseInputs base tx rest (removeInput input.prevout dr) accounts
    | some credit =>
      match credit.coin.account with
      | none => .error .assertFail
      | some account =>
        let coin := credit.coin
        let dr := { dr with pending :=
          { dr.pending with coin := dr.pending.coin + 1,
                            unconfirmed := dr.pending.unconfirmed + coin.value } }
        let dr :=
          if tx.height ≠ -1 then
            { dr with pending :=
              { dr.pending with confirmed := dr.pending.confirmed + coin.value } }
          else dr
        let dr := unspendCredit tx.hash i input.prevout dr
        let dr := saveCredit credit account dr
        eraseInputs base tx rest dr (pushAccount account accounts)

/-- The output loop of `erase` (txdb.js lines 1542–1560): delete every
credit this transaction created. -/
def eraseOutputs (base : DB) (tx : TX) :
    List (Nat × Output) → Draft → List Nat →
    Except Err (Draft × List Nat)
  | [], dr, accounts => .ok (dr, accounts)
  | (i, output) :: rest, dr, accounts =>
    match output.account with
    | none => eraseOutputs base tx rest dr accounts
    | some account =>
      let credit := Credit.fromTX tx i output
      let dr := { dr with pending :=
        { dr.pending with coin := dr.pending.coin - 1,
                          unconfirmed := dr.pending.unconfirmed - output.value } }
      let dr :=
        if tx.height ≠ -1 then
          { dr with pending :=
            { dr.pending with confirmed := dr.pending.confirmed - output.value } }
        else dr
      let dr := removeCredit credit account dr
      eraseOutputs base tx rest dr (pushAccount account accounts)

/-- Per-account unindexing of `erase`: `del T`, `del M`, `del P` or `H`. -/
def eraseAccountIndex (tx : TX) (dr : Draft) (account : Nat) : Draft :=
  let dr := { dr with db := { dr.db with
    T := eraseA dr.db.T (account, tx.hash),
    M := eraseA dr.db.M (account, tx.ps, tx.hash) } }
  if tx.height = -1 then
    { dr with db := { dr.db with P := eraseA dr.db.P (account, tx.hash) } }
  else
    { dr with db := { dr.db with H := eraseA dr.db.H (account, tx.height, tx.hash) } }

/-- The unindexing tail of `erase` (txdb.js lines 1562–1602). -/
def eraseIndex (base : DB) (tx : TX) (accounts : List Nat) (dr : Draft) : Draft :=
  let dr := { dr with db := { dr.db with
    r := eraseA dr.db.r tx.hash,
    t := eraseA dr.db.t tx.hash,
    m := eraseA dr.db.m (tx.ps, tx.hash) } }
  let dr :=
    if tx.height = -1 then
      { dr with db := { dr.db with p := eraseA dr.db.p tx.hash } }
    else
      { dr with db := { dr.db with h := eraseA dr.db.h (tx.height, tx.hash) } }
  let dr := accounts.foldl (eraseAccountIndex tx) dr
  let dr := if tx.height ≠ -1 then removeBlock base tx.hash tx.height dr else dr
  let dr := { dr with pending := { dr.pending with tx := dr.pending.tx - 1 } }
  let dr := putState dr
  let dr := emitEv (.removeTxEv tx.hash) dr
  emitEv .balanceEv dr

/-- `erase(tx)`: wipe all traces of this transaction. -/
def eraseTX (base : DB) (tx : TX) (dr : Draft) :
    Except Err (Draft × List Nat) :=
  let credits := getSpentCredits base tx
  let step1 :=
    if tx.coinbase then Except.ok (dr, ([] : List Nat))
    else eraseInputs base tx (tx.inputs.enum.zip credits) dr []
  match step1 with
  | .error e => .error e
  | .ok (dr, accounts) =>
    match eraseOutputs base tx tx.outputs.enum dr accounts with
    | .error e => .error e
    | .ok (dr, accounts) => .ok (eraseIndex base tx accounts dr, accounts)

/-- `tx.unsetBlock()`.  Modelled from the spec: the extended metadata of
`primitives/tx.js` is not part of the snippet; §4.5 “unset block fields”
clears height, block hash, timestamp and index back to the unmined
defaults. -/
def TX.unsetBlock (tx : TX) : TX :=
  { tx with height := -1, block := none, ts := 0, index := -1 }

/-- The input loop of `disconnect` (txdb.js lines 1705–1727): reconnect the
undo coins, mark the credits mempool-spent again. -/
def disconnectInputs (base : DB) (tx : TX) :
    List ((Nat × Input) × Option Credit) → Draft → List Nat →
    Except Err (Draft × List Nat)
  | [], dr, accounts => .ok (dr, accounts)
  | ((_, _), creditOpt) :: rest, dr, accounts =>
    match creditOpt with
    | none => disconnectInputs base tx rest dr accounts
    | some credit =>
      if credit.coin.height = -1 then .error .assertFail
      else
        match credit.coin.account with
        | none => .error .assertFail
        | some account =>
          let dr := { dr with pending :=
            { dr.pending with confirmed := dr.pending.confirmed + credit.coin.value } }
          let credit := { credit with spent := true }
          let dr := saveCredit credit account dr
          disconnectInputs base tx rest dr (pushAccount account accounts)

/-- The output loop of `disconnect` (txdb.js lines 1732–1760): `tx` has
already been `unsetBlock`ed, so its height is `-1`. -/
def disconnectOutputs (base : DB) (tx : TX) :
    List (Nat × Output) → Draft → List Nat →
    Except Err (Draft × List Nat)
  | [], dr, accounts => .ok (dr, accounts)
  | (i, output) :: rest, dr, accounts =>
    match output.account with
    | none => disconnectOutputs base tx rest dr accounts
    | some account =>
      match getCredit base tx.hash i with
      | none =>
        disconnectOutputs base tx rest (updateSpentCoin base tx.hash tx.height i dr) accounts
      | some credit =>
        let dr :=
          if credit.spent then updateSpentCoin base tx.hash tx.height i dr else dr
        let credit := { credit with coin := { credit.coin with height := -1 } }
        let dr := { dr with pending :=
          { dr.pending with confirmed := dr.pending.confirmed - output.value } }
        let dr := saveCredit credit account dr
        disconnectOutputs base tx rest dr (pushAccount account accounts)

/-- Per-account re-indexing of `disconnect`: `put P`, `del H[height]`. -/
def disconnectAccountIndex (txHash : Nat) (height : Int) (dr : Draft) (account : Nat) : Draft :=
  let dr := { dr with db := { dr.db with P := insertA dr.db.P (account, txHash) () } }
  { dr with db := { dr.db with H := eraseA dr.db.H (account, height, txHash) } }

/-- `disconnect(tx)` (a.k.a. unconfirm body). -/
def disconnectTX (base : DB) (tx : TX) (dr : Draft) :
    Except Err (Draft × List Nat) :=
  let height := tx.height
  if height = -1 then .error .assertFail
  else
    let utx := tx.unsetBlock
    let credits := getSpentCredits base utx
    let step1 :=
      if utx.coinbase then Except.ok (dr, ([] : List Nat))
      else disconnectInputs base utx (utx.inputs.enum.zip credits) dr []
    match step1 with
    | .error e => .error e
    | .ok (dr, accounts) =>
      match disconnectOutputs base utx utx.outputs.enum dr accounts with
      | .error e => .error e
      | .ok (dr, accounts) =>
        let dr := removeBlock base utx.hash height dr
        let dr := { dr with db := { dr.db with
          t := insertA dr.db.t utx.hash utx,
          p := insertA dr.db.p utx.hash () } }
        let dr := { dr with db := { dr.db with h := eraseA dr.db.h (height, utx.hash) } }
        let dr := accounts.foldl (disconnectAccountIndex utx.hash height) dr
        let dr := putState dr
        let dr := emitEv (.unconfirmedEv utx.hash) dr
        .ok (emitEv .balanceEv dr, accounts)

/-! ## Recursive removal and conflict handling

`removeRecursive` takes its own batches (it commits once per erased
transaction).  Its recursion over the spend graph terminates in the source
because the graph is acyclic; the embedding makes this explicit with a fuel
parameter, whose exhaustion is the distinguished error `noFuel`. -/

mutual

/-- `removeRecursive(tx)`: erase all spenders of `tx`'s outputs, then open a
batch, `erase(tx)` and commit.  Returns the new committed TXDB and the
events published by the commits performed.  The fuel decreases structurally
on every call (the source's recursion terminates because the spend graph is
acyclic; any fuel at least the number of stored transactions plus the
output count suffices). -/
def removeRecursive : Nat → TXDB → TX → (TXDB × List Event) × Except Err (List Nat)
  | 0, b, _ => ((b, []), .error .noFuel)
  | fuel' + 1, b, tx =>
    match removeSpenders fuel' b tx tx.outputs.length 0 with
    | ((b1, evs1), .error e) => ((b1, evs1), .error e)
    | ((b1, evs1), .ok _) =>
      let dr := Draft.start b1
      match eraseTX b1.db tx dr with
      | .error _ => ((b1, evs1), .error .assertFail)
      | .ok (dr, accounts) =>
        let committed := b1.commitDraft dr
        ((committed.1, evs1 ++ committed.2), .ok accounts)

/-- The spender loop of `removeRecursive` (txdb.js lines 1617–1629): for
each output index, fetch the spent marker and recursively remove the
spending transaction first. -/
def removeSpenders : Nat → TXDB → TX → Nat → Nat → (TXDB × List Event) × Except Err Unit
  | 0, b, _, _, _ => ((b, []), .error .noFuel)
  | fuel' + 1, b, tx, n, i =>
    if i < n then
      match getSpent b.db tx.hash i with
      | none => removeSpenders fuel' b tx n (i + 1)
      | some spent =>
        match getTX b.db spent.hash with
        | none => ((b, []), .error .assertFail)
        | some stx =>
          match removeRecursive fuel' b stx with
          | ((b1, evs1), .error e) => ((b1, evs1), .error e)
          | ((b1, evs1), .ok _) =>
            match removeSpenders fuel' b1 tx n (i + 1) with
            | ((b2, evs2), res) => ((b2, evs1 ++ evs2), res)
    else ((b, []), .ok ())

end

/-- `remove(hash)`: fetch and recursively remove; missing hash is benign. -/
def removeTX (fuel : Nat) (b : TXDB) (hash : Nat) :
    (TXDB × List Event) × Except Err (Option (List Nat)) :=
  match getTX b.db hash with
  | none => ((b, []), .ok none)
  | some tx =>
    match removeRecursive fuel b tx with
    | ((b1, evs), .error e) => ((b1, evs), .error e)
    | ((b1, evs), .ok accounts) => ((b1, evs), .ok (some accounts))

/-- `abandon(hash)`: requires the pending flag `p[hash]`, else throws
`'TX not eligible.'` before any batch is opened. -/
def abandon (fuel : Nat) (b : TXDB) (hash : Nat) :
    (TXDB × List Event) × Except Err (Option (List Nat)) :=
  if (findA b.db.p hash).isSome then removeTX fuel b hash
  else ((b, []), .error .notEligible)

/-- The gather phase of `removeConflicts` (txdb.js lines 1837–1858):
collect foreign spenders of the inputs; under `conf` a confirmed foreign
spender aborts with `none` (the boolean `false` result). -/
def gatherSpends (base : DB) (txHash : Nat) (conf : Bool) :
    List Input → Except Err (Option (List TX))
  | [] => .ok (some [])
  | input :: rest =>
    match getSpent base input.prevout.hash input.prevout.index with
    | none => gatherSpends base txHash conf rest
    | some spent =>
      if spent.hash = txHash then gatherSpends base txHash conf rest
      else
        match getTX base spent.hash with
        | none => .error .assertFail
        | some spender =>
          if conf ∧ spender.height ≠ -1 then .ok none
          else
            match gatherSpends base txHash conf rest with
            | .error e => .error e
            | .ok none => .ok none
            | .ok (some spends) => .ok (some (spender :: spends))

/-- `removeConflict(tx)`: drop the current batch, remove the conflicting
spender recursively (own batches), restart a fresh batch and buffer the
`conflict` event into it. -/
def removeConflict (fuel : Nat) (b : TXDB) (spender : TX) :
    (TXDB × List Event) × Except Err Draft :=
  match removeRecursive fuel b spender with
  | ((b1, evs), .error e) => ((b1, evs), .error e)
  | ((b1, evs), .ok _) =>
    ((b1, evs), .ok (emitEv (.conflictEv spender.hash) (Draft.start b1)))

/-- The removal phase of `removeConflicts`: each `removeConflict` discards
the current draft (and its buffered events) and hands back a fresh one. -/
def removeConflictList (fuel : Nat) (b : TXDB) (dr : Draft) :
    List TX → (TXDB × List Event) × Except Err Draft
  | [] => ((b, []), .ok dr)
  | spender :: rest =>
    match removeConflict fuel b spender with
    | ((b1, evs1), .error e) => ((b1, evs1), .error e)
    | ((b1, evs1), .ok dr1) =>
      match removeConflictList fuel b1 dr1 rest with
      | ((b2, evs2), res) => ((b2, evs1 ++ evs2), res)

/-- `removeConflicts(tx, conf)`: returns the (possibly rotated) draft and
the boolean result; `false` aborts the pending add. -/
def removeConflicts (fuel : Nat) (b : TXDB) (dr : Draft) (tx : TX) (conf : Bool) :
    (TXDB × List Event) × Except Err (Draft × Bool) :=
  if tx.coinbase then ((b, []), .ok (dr, true))
  else
    match gatherSpends b.db tx.hash conf tx.inputs with
    | .error e => ((b, []), .error e)
    | .ok none => ((b, []), .ok (dr, false))
    | .ok (some spends) =>
      match removeConflictList fuel b dr spends with
      | ((b1, evs), .error e) => ((b1, evs), .error e)
      | ((b1, evs), .ok dr1) => ((b1, evs), .ok (dr1, true))

/-! ## The `add` entry point -/

/-- Lines 1100–1104 of `_add`: copy the incoming block fields onto the
stored transaction before confirming it. -/
def copyBlockFields (existing tx : TX) : TX :=
  { existing with
    height := tx.height, block := tx.block, ts := tx.ts, index := tx.index }

/-- Lines 1329–1331 of `confirm`: set the block fields from the block meta. -/
def setBlockFields (tx : TX) (block : BlockMeta) : TX :=
  { tx with
    height := block.height, block := some block.bhash, ts := block.ts }

/-- `_add(tx, block)` (txdb.js lines 1084–1135): dispatch between the
no-op, promotion, RBF-taint, conflict-abort and plain-insert paths.
Threads the committed base (conflict removal commits its own batches) and
the events those commits published. -/
def addBody (fuel : Nat) (b : TXDB) (dr : Draft) (tx : TX) :
    (TXDB × List Event) × Except Err (Draft × Option (List Nat)) :=
  if tx.mutableFlag then ((b, []), .error .mutableTx)
  else
    match getTX b.db tx.hash with
    | some existing =>
      if existing.height ≠ -1 then ((b, []), .ok (dr, none))
      else if tx.height = -1 then ((b, []), .ok (dr, none))
      else
        let ex := copyBlockFields existing tx
        match confirmTX b.db ex dr with
        | .error e => ((b, []), .error e)
        | .ok (dr, accounts) => ((b, []), .ok (dr, some accounts))
    | none =>
      if tx.height = -1 then
        if isRBF b.db tx then
          ((b, []), .ok ({ dr with db := { dr.db with r := insertA dr.db.r tx.hash () } }, none))
        else
          match removeConflicts fuel b dr tx true with
          | ((b1, evs), .error e) => ((b1, evs), .error e)
          | ((b1, evs), .ok (dr, false)) => ((b1, evs), .ok (dr, none))
          | ((b1, evs), .ok (dr, true)) =>
            match insert b1 tx dr with
            | .error e => ((b1, evs), .error e)
            | .ok (dr, det) => ((b1, evs), .ok (dr, det))
      else
        match removeConflicts fuel b dr tx false with
        | ((b1, evs), .error e) => ((b1, evs), .error e)
        | ((b1, evs), .ok (dr, _)) =>
          let dr := { dr with db := { dr.db with r := eraseA dr.db.r tx.hash } }
          match insert b1 tx dr with
          | .error e => ((b1, evs), .error e)
          | .ok (dr, det) => ((b1, evs), .ok (dr, det))

/-- `add(tx, block)`: start a batch, run `_add`, drop on error and commit on
success.  Returns the committed TXDB, the published events and the result. -/
def add (fuel : Nat) (b : TXDB) (tx : TX) :
    TXDB × List Event × Except Err (Option (List Nat)) :=
  match addBody fuel b (Draft.start b) tx with
  | ((b1, evs), .error e) => (b1, evs, .error e)
  | ((b1, evs), .ok (dr, det)) =>
    let committed := b1.commitDraft dr
    (committed.1, evs ++ committed.2, .ok det)

/-- `confirm(hash, block)`: the public confirmation entry point. -/
def confirm (b : TXDB) (hash : Nat) (block : BlockMeta) :
    TXDB × List Event × Except Err (Option (List Nat)) :=
  match getTX b.db hash with
  | none => (b, [], .ok none)
  | some tx =>
    if tx.height ≠ -1 then (b, [], .error .alreadyConfirmed)
    else
      match confirmTX b.db (setBlockFields tx block) (Draft.start b) with
      | .error e => (b, [], .error e)
      | .ok (dr, accounts) =>
        let committed := b.commitDraft dr
        (committed.1, committed.2, .ok (some accounts))

/-- `unconfirm(hash)` / `_unconfirm`: the public disconnect entry point. -/
def unconfirm (b : TXDB) (hash : Nat) :
    TXDB × List Event × Except Err (Option (List Nat)) :=
  match getTX b.db hash with
  | none =>
    let committed := b.commitDraft (Draft.start b)
    (committed.1, committed.2, .ok none)
  | some tx =>
    match disconnectTX b.db tx (Draft.start b) with
    | .error e => (b, [], .error e)
    | .ok (dr, accounts) =>
      let committed := b.commitDraft dr
      (committed.1, committed.2, .ok (some accounts))

/-! ## SPV orphan tracker (`resolve` / `verifyInputs`, txdb.js lines 476–611)

Modelled with `options.verify = false` (script re-verification is out of
scope); the address-extraction test `hasPath(input)` is the input's
`inputAccount` field. -/

/-- One stashed orphan input (txdb.js `function Orphan`). -/
structure Orphan where
  tx : TX
  index : Nat
  block : Option BlockMeta
deriving DecidableEq, Repr

/-- The in-memory orphan tracker: `this.orphans`, `this.count` and
`this.totalOrphans`. -/
structure OrphanState where
  orphans : List ((Nat × Nat) × List Orphan) := []
  count : List (Nat × Nat) := []
  totalOrphans : Nat := 0
deriving DecidableEq, Repr

/-- Whether input `i` is regarded as an orphan input by the first loop of
`verifyInputs`: no known coin, no resolvable undo coin, and the scriptsig
suggests a wallet address. -/
def orphanFlag (base : DB) (input : Input) : Bool :=
  match getCoin base input.prevout.hash input.prevout.index with
  | some _ => false
  | none =>
    match getSpent base input.prevout.hash input.prevout.index with
    | some spent =>
      if (getSpentCoin base spent input.prevout).isSome then false
      else input.inputAccount.isSome
    | none => input.inputAccount.isSome

/-- One iteration of the stash loop of `verifyInputs` (txdb.js lines
568–603): purge everything when more than 20 orphans are tracked, then
stash the new orphan and bump the counters. -/
def stashOrphan (hash : Nat) (key : Nat × Nat) (orphan : Orphan)
    (os : OrphanState) : OrphanState :=
  let os := if os.totalOrphans > 20 then ⟨[], [], 0⟩ else os
  let prev := (findA os.orphans key).getD []
  let cnt := (findA os.count hash).getD 0
  { orphans := insertA os.orphans key (prev ++ [orphan]),
    count := insertA os.count hash (cnt + 1),
    totalOrphans := os.totalOrphans + 1 }

/-- `verifyInputs(tx, block)`: returns whether the transaction is fully
verified (no orphan inputs stashed) together with the updated tracker. -/
def verifyInputs (base : DB) (tx : TX) (block : Option BlockMeta)
    (os : OrphanState) : Bool × OrphanState :=
  if tx.coinbase then (true, os)
  else if ((findA os.count tx.hash).getD 0) ≠ 0 then (false, os)
  else
    let flagged := tx.inputs.enum.filter (fun pr => orphanFlag base pr.2)
    let os1 := flagged.foldl (fun acc pr =>
      stashOrphan tx.hash (pr.2.prevout.hash, pr.2.prevout.index)
        ⟨tx, pr.1, block⟩ acc) os
    (flagged.isEmpty, os1)

/-! ## Balance invariant (spec §8 / `getWalletBalance`) -/

/-- `getWalletBalance()`: recompute the balance by iterating every stored
credit (txdb.js lines 2790–2807). -/
def getWalletBalance (base : DB) : Balance :=
  base.c.foldl (fun bal pr =>
    let bal :=
      if pr.2.coin.height ≠ -1 then
        { bal with confirmed := bal.confirmed + pr.2.coin.value }
      else bal
    if pr.2.spent = false then
      { bal with unconfirmed := bal.unconfirmed + pr.2.coin.value }
    else bal) {}

/-- Contribution of one credit to the recomputed confirmed balance. -/
def confWeight (_k : Nat × Nat) (cr : Credit) : Int :=
  if cr.coin.height ≠ -1 then cr.coin.value else 0

/-- Contribution of one credit to the recomputed unconfirmed balance. -/
def unconfWeight (_k : Nat × Nat) (cr : Credit) : Int :=
  if cr.spent then 0 else cr.coin.value

theorem getWalletBalance_eq_sumA (base : DB) :
    getWalletBalance base =
      { unconfirmed := sumA unconfWeight base.c,
        confirmed := sumA confWeight base.c } := by
  suffices hgen : ∀ (l : List ((Nat × Nat) × Credit)) (bal : Balance),
      l.foldl (fun bal pr =>
        let bal :=
          if pr.2.coin.height ≠ -1 then
            { bal with confirmed := bal.confirmed + pr.2.coin.value }
          else bal
        if pr.2.spent = false then
          { bal with unconfirmed := bal.unconfirmed + pr.2.coin.value }
        else bal) bal =
      { unconfirmed := bal.unconfirmed + sumA unconfWeight l,
        confirmed := bal.confirmed + sumA confWeight l } by
    have h := hgen base.c {}
    simpa [getWalletBalance] using h
  intro l
  induction l with
  | nil => intro bal; simp [sumA]
  | cons pr rest ih =>
    intro bal
    rw [List.foldl_cons, ih]
    rcases pr with ⟨k, cr⟩
    by_cases hh : cr.coin.height ≠ -1 <;> by_cases hs : cr.spent <;>
      simp [sumA_cons, confWeight, unconfWeight, hh, hs] <;> ring_nf <;>
      constructor <;> ring

/-- The balance correspondence of claim C1: the committed counters equal
the balance recomputed from the stored credits. -/
def BalanceInv (b : TXDB) : Prop :=
  b.state.confirmed = (getWalletBalance b.db).confirmed ∧
    b.state.unconfirmed = (getWalletBalance b.db).unconfirmed

/-- Draft-level version of the balance correspondence, used through the
loop proofs. -/
def DraftInv (dr : Draft) : Prop :=
  dr.pending.confirmed = sumA confWeight dr.db.c ∧
    dr.pending.unconfirmed = sumA unconfWeight dr.db.c

/-! ## Claim theorems -/

/-- **C7.**  Whenever a spend of an outpoint is recorded — by `spendCredit`
or by `writeInput` — the value stored under the spent marker
`s[prevout.hash, prevout.index]` is the spender outpoint
`Outpoint.fromTX(tx, index)`, i.e. the spending transaction's hash paired
with the index of the consuming input, and not the prevout itself. -/
theorem spent_marker_stores_spender_outpoint (credit : Credit) (tx : TX)
    (i : Nat) (input : Input) (dr : Draft)
    (hin : tx.inputs.get? i = some input) :
    findA (spendCredit credit tx.hash i input.prevout dr).db.s
        (input.prevout.hash, input.prevout.index)
      = some (Outpoint.mk tx.hash i) ∧
    findA (writeInput tx.hash i input.prevout dr).db.s
        (input.prevout.hash, input.prevout.index)
      = some (Outpoint.mk tx.hash i) := by
  constructor <;> simp [spendCredit, writeInput]

theorem spent_marker_stores_spender_outpoint_witness :
    (TX.mk 5 [Input.mk ⟨9, 3⟩ none] [] (-1) none 0 (-1) 0 false false
        false).inputs.get? 0 = some (Input.mk ⟨9, 3⟩ none) ∧
    findA (spendCredit ⟨⟨9, 3, 7, -1, none⟩, false⟩ 5 0 ⟨9, 3⟩
        (Draft.start ⟨{}, {}, []⟩)).db.s (9, 3) = some (Outpoint.mk 5 0) := by
  refine ⟨by decide, ?_⟩
  exact (spent_marker_stores_spender_outpoint ⟨⟨9, 3, 7, -1, none⟩, false⟩
    (TX.mk 5 [Input.mk ⟨9, 3⟩ none] [] (-1) none 0 (-1) 0 false false false) 0
    (Input.mk ⟨9, 3⟩ none) (Draft.start ⟨{}, {}, []⟩) (by decide)).1

/-- **C10.**  `add(tx, block)` on a transaction whose mutable flag is set
throws the assertion `'Cannot add mutable TX to wallet.'`; since the batch
is dropped, the committed database, state, coin cache and event stream are
all unchanged (no events are published). -/
theorem add_mutable_throws_and_preserves (fuel : Nat) (b : TXDB) (tx : TX)
    (hmut : tx.mutableFlag = true) :
    add fuel b tx = (b, [], .error .mutableTx) := by
  simp [add, addBody, hmut]

theorem add_mutable_throws_and_preserves_witness :
    add 3 ⟨{}, {}, []⟩ { hash := 1, inputs := [], outputs := [], mutableFlag := true }
      = (⟨{}, {}, []⟩, [], .error .mutableTx) :=
  add_mutable_throws_and_preserves 3 ⟨{}, {}, []⟩
    { hash := 1, inputs := [], outputs := [], mutableFlag := true } rfl

/-- **C4.**  A not-yet-indexed mempool transaction recognized as
replace-by-fee by `isRBF` only gets the marker `r[hash]`: `add` commits a
database that differs from the original exactly in the `r` family, the
state counters are untouched and no events are published. -/
theorem add_rbf_writes_only_marker (fuel : Nat) (b : TXDB) (tx : TX)
    (hmut : tx.mutableFlag = false)
    (hnew : getTX b.db tx.hash = none)
    (hmem : tx.height = -1)
    (hrbf : isRBF b.db tx = true) :
    add fuel b tx =
      (⟨{ b.db with r := insertA b.db.r tx.hash () }, b.state, b.cache⟩,
        [], .ok none) := by
  simp [add, addBody, hmut, hnew, hmem, hrbf, TXDB.commitDraft, Draft.start]

theorem add_rbf_writes_only_marker_witness :
    getTX (DB.mk [] [] [] [] [] [] [] [] [] [] [] [] [] [] none) 4 = none ∧
    isRBF (DB.mk [] [] [] [] [] [] [] [] [] [] [] [] [] [] none)
        { hash := 4, inputs := [], outputs := [], rbf := true } = true ∧
    add 3 ⟨{}, {}, []⟩ { hash := 4, inputs := [], outputs := [], rbf := true }
      = (⟨{ (DB.mk [] [] [] [] [] [] [] [] [] [] [] [] [] [] none) with
            r := insertA [] 4 () }, {}, []⟩, [], .ok none) := by
  refine ⟨rfl, rfl, ?_⟩
  exact add_rbf_writes_only_marker 3 ⟨{}, {}, []⟩
    { hash := 4, inputs := [], outputs := [], rbf := true } rfl rfl rfl rfl

/-! Frame lemmas: the `erase` loops never touch the `t` family, and the
unindexing tail deletes exactly `t[hash]`. -/

theorem eraseInputs_t_frame (base : DB) (tx : TX) :
    ∀ (l : List ((Nat × Input) × Option Credit)) (dr : Draft) (accs : List Nat)
      (dr' : Draft) (accs' : List Nat),
      eraseInputs base tx l dr accs = .ok (dr', accs') → dr'.db.t = dr.db.t := by
  intro l
  induction l with
  | nil =>
    intro dr accs dr' accs' hok
    simp only [eraseInputs] at hok
    cases hok
    rfl
  | cons pr rest ih =>
    intro dr accs dr' accs' hok
    rcases pr with ⟨⟨i, input⟩, creditOpt⟩
    cases creditOpt with
    | none =>
      simp only [eraseInputs] at hok
      exact (ih _ _ _ _ hok).trans rfl
    | some credit =>
      simp only [eraseInputs] at hok
      cases hacct : credit.coin.account with
      | none => rw [hacct] at hok; exact absurd hok (by simp)
      | some account =>
        rw [hacct] at hok
        simp only at hok
        have := ih _ _ _ _ hok
        rw [this]
        by_cases hh : tx.height ≠ -1 <;>
          simp [hh, unspendCredit, saveCredit]

theorem eraseOutputs_t_frame (base : DB) (tx : TX) :
    ∀ (l : List (Nat × Output)) (dr : Draft) (accs : List Nat)
      (dr' : Draft) (accs' : List Nat),
      eraseOutputs base tx l dr accs = .ok (dr', accs') → dr'.db.t = dr.db.t := by
  intro l
  induction l with
  | nil =>
    intro dr accs dr' accs' hok
    simp only [eraseOutputs] at hok
    cases hok
    rfl
  | cons pr rest ih =>
    intro dr accs dr' accs' hok
    rcases pr with ⟨i, output⟩
    cases hacct : output.account with
    | none =>
      simp only [eraseOutputs, hacct] at hok
      exact ih _ _ _ _ hok
    | some account =>
      simp only [eraseOutputs, hacct] at hok
      have := ih _ _ _ _ hok
      rw [this]
      by_cases hh : tx.height ≠ -1 <;>
        simp [hh, removeCredit]

/-- Generic frame lemma for `foldl` over drafts: an observation preserved
by each step is preserved by the fold. -/
theorem foldl_draft_frame {α β : Type} (g : Draft → α) (f : Draft → β → Draft)
    (hf : ∀ dr a, g (f dr a) = g dr) :
    ∀ (l : List β) (dr : Draft), g (l.foldl f dr) = g dr := by
  intro l
  induction l with
  | nil => intro dr; rfl
  | cons a rest ih => intro dr; rw [List.foldl_cons, ih, hf]

@[simp] theorem emitEv_db (ev : Event) (dr : Draft) : (emitEv ev dr).db = dr.db := rfl

@[simp] theorem putState_db_t (dr : Draft) : (putState dr).db.t = dr.db.t := rfl

theorem removeBlock_db_t (base : DB) (txHash : Nat) (height : Int) (dr : Draft) :
    (removeBlock base txHash height dr).db.t = dr.db.t := by
  unfold removeBlock
  cases getBlock base height with
  | none => rfl
  | some blk =>
    dsimp only
    by_cases hmem : txHash ∈ blk.hashes
    · rw [if_pos hmem]
      unfold blockRemoveStep
      split <;> rfl
    · rw [if_neg hmem]

theorem eraseAccountIndex_db_t (tx : TX) (dr : Draft) (a : Nat) :
    (eraseAccountIndex tx dr a).db.t = dr.db.t := by
  unfold eraseAccountIndex
  split <;> rfl

theorem eraseIndex_t (base : DB) (tx : TX) (accs : List Nat) (dr : Draft) :
    (eraseIndex base tx accs dr).db.t = eraseA dr.db.t tx.hash := by
  unfold eraseIndex
  simp only [emitEv_db, putState_db_t]
  rw [show ∀ dr1 : Draft,
      ((if tx.height ≠ -1 then removeBlock base tx.hash tx.height dr1 else dr1)).db.t
        = dr1.db.t from ?side1]
  · rw [foldl_draft_frame (fun dr => dr.db.t) (eraseAccountIndex tx)
      (eraseAccountIndex_db_t tx) accs]
    split <;> rfl
  · intro dr1
    split
    · exact removeBlock_db_t base tx.hash tx.height dr1
    · rfl

theorem eraseTX_t (base : DB) (tx : TX) (dr dr' : Draft) (accs : List Nat)
    (hok : eraseTX base tx dr = .ok (dr', accs)) :
    dr'.db.t = eraseA dr.db.t tx.hash := by
  unfold eraseTX at hok
  cases hcb : tx.coinbase with
  | true =>
    rw [hcb] at hok
    simp only [if_true] at hok
    cases hout : eraseOutputs base tx tx.outputs.enum dr [] with
    | error e => rw [hout] at hok; exact absurd hok (by simp)
    | ok pr =>
      rw [hout] at hok
      simp only at hok
      cases hok
      rw [eraseIndex_t, eraseOutputs_t_frame base tx _ _ _ _ _ hout]
  | false =>
    rw [hcb] at hok
    simp only [Bool.false_eq_true, if_false] at hok
    cases hin : eraseInputs base tx (tx.inputs.enum.zip (getSpentCredits base tx)) dr [] with
    | error e => rw [hin] at hok; exact absurd hok (by simp)
    | ok pr =>
      rw [hin] at hok
      simp only at hok
      cases hout : eraseOutputs base tx tx.outputs.enum pr.1 pr.2 with
      | error e => rw [hout] at hok; exact absurd hok (by simp)
      | ok pr2 =>
        rw [hout] at hok
        simp only at hok
        cases hok
        rw [eraseIndex_t, eraseOutputs_t_frame base tx _ _ _ _ _ hout,
          eraseInputs_t_frame base tx _ _ _ _ _ hin]

/-- On a successful recursive removal, the transaction's `t` record is gone
from the committed database. -/
theorem removeRecursive_erases (fuel : Nat) (b : TXDB) (tx : TX)
    (b1 : TXDB) (evs : List Event) (accs : List Nat)
    (hok : removeRecursive fuel b tx = ((b1, evs), .ok accs)) :
    findA b1.db.t tx.hash = none := by
  cases fuel with
  | zero => exact absurd hok (by simp [removeRecursive])
  | succ fuel' =>
    rw [removeRecursive] at hok
    rcases hsp : removeSpenders fuel' b tx tx.outputs.length 0 with ⟨⟨b2, evs2⟩, res⟩
    rw [hsp] at hok
    cases res with
    | error e => exact absurd hok (by simp)
    | ok u =>
      simp only at hok
      cases her : eraseTX b2.db tx (Draft.start b2) with
      | error e => rw [her] at hok; exact absurd hok (by simp)
      | ok pr =>
        rw [her] at hok
        simp only at hok
        have hdb : b1.db = pr.1.db := by
          have h1 := congrArg (fun x => x.1.1) hok
          simp only at h1
          rw [← h1]
          unfold TXDB.commitDraft
          split <;> rfl
        rw [hdb, eraseTX_t b2.db tx (Draft.start b2) pr.1 pr.2 her]
        exact findA_eraseA_self _ _

/-- **C6.**  `abandon(hash)` throws the fatal `'TX not eligible.'` error
when the pending flag `p[hash]` is absent, leaving the database untouched
(no batch is even opened); when `p[hash]` exists it performs the recursive
removal `remove(hash)`, and a successful removal leaves no `t[hash]` record
in the committed database. -/
theorem abandon_requires_pending (fuel : Nat) (b : TXDB) (hash : Nat) :
    ((findA b.db.p hash).isSome = false →
        abandon fuel b hash = ((b, []), .error .notEligible)) ∧
    ((findA b.db.p hash).isSome = true →
        abandon fuel b hash = removeTX fuel b hash) ∧
    (∀ tx b1 evs accs, getTX b.db hash = some tx → tx.hash = hash →
        removeTX fuel b hash = ((b1, evs), .ok (some accs)) →
        findA b1.db.t hash = none) := by
  refine ⟨?_, ?_, ?_⟩
  · intro hno
    simp [abandon, hno]
  · intro hyes
    simp [abandon, hyes]
  · intro tx b1 evs accs htx hkey hrem
    unfold removeTX at hrem
    rw [htx] at hrem
    simp only at hrem
    rcases hrr : removeRecursive fuel b tx with ⟨⟨b2, evs2⟩, res⟩
    rw [hrr] at hrem
    cases res with
    | error e => exact absurd hrem (by simp)
    | ok accs2 =>
      simp only at hrem
      cases hrem
      rw [← hkey]
      exact removeRecursive_erases fuel b tx _ _ _ hrr

/-- Concrete fixture: a mempool transaction paying one wallet output. -/
def wtx : TX :=
  { hash := 101, inputs := [{ prevout := ⟨900, 0⟩ }],
    outputs := [{ value := 50, account := some 0 }], ps := 10 }

/-- Concrete fixture: the empty wallet database. -/
def wbase : TXDB := ⟨{}, {}, []⟩

/-- Concrete fixture: the committed database after `add(wtx)`. -/
def wadded : TXDB := (add 4 wbase wtx).1

theorem abandon_requires_pending_witness :
    (findA wadded.db.p 101).isSome = true ∧
    abandon 6 wadded 101 = removeTX 6 wadded 101 ∧
    findA ((removeTX 6 wadded 101).1.1).db.t 101 = none := by
  refine ⟨by decide, (abandon_requires_pending 6 wadded 101).2.1 (by decide), ?_⟩
  exact (abandon_requires_pending 6 wadded 101).2.2 wtx
    (removeTX 6 wadded 101).1.1 (removeTX 6 wadded 101).1.2 [0]
    (by decide) (by decide) (by decide)

/-! For C9: the `_confirm` body can only fail with `assertFail`, never with
the precondition error `'TX is already confirmed.'`. -/

theorem confirmInputs_err (base : DB) (tx : TX) :
    ∀ (l : List ((Nat × Input) × Option Credit)) (dr : Draft) (accs : List Nat)
      (e : Err), confirmInputs base tx l dr accs = .error e → e = .assertFail := by
  intro l
  induction l with
  | nil =>
    intro dr accs e herr
    exact absurd herr (by simp [confirmInputs])
  | cons pr rest ih =>
    intro dr accs e herr
    rcases pr with ⟨⟨i, input⟩, creditOpt⟩
    unfold confirmInputs at herr
    cases creditOpt with
    | none =>
      cases hcr : getCredit base input.prevout.hash input.prevout.index with
      | none =>
        rw [hcr] at herr
        exact ih _ _ _ herr
      | some credit =>
        rw [hcr] at herr
        simp only at herr
        by_cases hh : credit.coin.height = -1
        · rw [if_pos hh] at herr
          cases herr
          rfl
        · rw [if_neg hh] at herr
          cases hacct : credit.coin.account with
          | none => rw [hacct] at herr; cases herr; rfl
          | some account => rw [hacct] at herr; exact ih _ _ _ herr
    | some credit =>
      simp only at herr
      by_cases hh : credit.coin.height = -1
      · rw [if_pos hh] at herr
        cases herr
        rfl
      · rw [if_neg hh] at herr
        cases hacct : credit.coin.account with
        | none => rw [hacct] at herr; cases herr; rfl
        | some account => rw [hacct] at herr; exact ih _ _ _ herr

theorem resolveInput_err (base : DB) (tx : TX) (i : Nat) (account : Nat)
    (output : Output) (dr : Draft) (e : Err)
    (herr : resolveInput base tx i account output dr = .error e) :
    e = .assertFail := by
  unfold resolveInput at herr
  cases hsp : getSpent base tx.hash i with
  | none => rw [hsp] at herr; exact absurd herr (by simp)
  | some spent =>
    rw [hsp] at herr
    simp only at herr
    by_cases hd : hasSpentCoin base spent
    · rw [if_pos hd] at herr; exact absurd herr (by simp)
    · rw [if_neg hd] at herr
      cases hstx : getTX base spent.hash with
      | none => rw [hstx] at herr; cases herr; rfl
      | some stx =>
        rw [hstx] at herr
        simp only at herr
        cases hsi : stx.inputs.get? spent.index with
        | none => rw [hsi] at herr; cases herr; rfl
        | some sinput =>
          rw [hsi] at herr
          simp only at herr
          by_cases hh : stx.height = -1
          · rw [if_pos hh] at herr
            exact absurd herr (by simp)
          · rw [if_neg hh] at herr
            exact absurd herr (by simp)

theorem confirmOutputs_err (base : DB) (tx : TX) :
    ∀ (l : List (Nat × Output)) (dr : Draft) (accs : List Nat)
      (e : Err), confirmOutputs base tx l dr accs = .error e → e = .assertFail := by
  intro l
  induction l with
  | nil =>
    intro dr accs e herr
    exact absurd herr (by simp [confirmOutputs])
  | cons pr rest ih =>
    intro dr accs e herr
    rcases pr with ⟨i, output⟩
    unfold confirmOutputs at herr
    cases hacct : output.account with
    | none => rw [hacct] at herr; exact ih _ _ _ herr
    | some account =>
      rw [hacct] at herr
      simp only at herr
      cases hcr : getCredit base tx.hash i with
      | none => rw [hcr] at herr; cases herr; rfl
      | some credit =>
        rw [hcr] at herr
        simp only at herr
        exact ih _ _ _ herr

theorem confirmTX_err (base : DB) (tx : TX) (dr : Draft) (e : Err)
    (herr : confirmTX base tx dr = .error e) : e = .assertFail := by
  unfold confirmTX at herr
  cases hcb : tx.coinbase with
  | true =>
    rw [hcb] at herr
    simp only [if_true] at herr
    cases hout : confirmOutputs base tx tx.outputs.enum dr [] with
    | error e2 =>
      rw [hout] at herr
      cases herr
      exact confirmOutputs_err base tx _ _ _ _ hout
    | ok pr => rw [hout] at herr; exact absurd herr (by simp)
  | false =>
    rw [hcb] at herr
    simp only [Bool.false_eq_true, if_false] at herr
    cases hinp : confirmInputs base tx
        (tx.inputs.enum.zip (getSpentCredits base tx)) dr [] with
    | error e2 =>
      rw [hinp] at herr
      cases herr
      exact confirmInputs_err base tx _ _ _ _ hinp
    | ok pr =>
      rw [hinp] at herr
      simp only at herr
      cases hout : confirmOutputs base tx tx.outputs.enum pr.1 pr.2 with
      | error e2 =>
        rw [hout] at herr
        cases herr
        exact confirmOutputs_err base tx _ _ _ _ hout
      | ok pr2 => rw [hout] at herr; exact absurd herr (by simp)

/-- **C9.**  `confirm(hash, block)` on a hash with no stored transaction
returns `undefined` without throwing, without opening a batch and without
changing the committed database, state or cache, and publishes no events;
the fatal `'TX is already confirmed.'` error is raised exactly when a
stored transaction exists whose height is not `-1`. -/
theorem confirm_missing_is_noop (b : TXDB) (hash : Nat) (block : BlockMeta) :
    (getTX b.db hash = none → confirm b hash block = (b, [], .ok none)) ∧
    ((confirm b hash block).2.2 = .error .alreadyConfirmed ↔
      ∃ tx, getTX b.db hash = some tx ∧ tx.height ≠ -1) := by
  constructor
  · intro hnone
    simp [confirm, hnone]
  · constructor
    · intro herr
      unfold confirm at herr
      cases htx : getTX b.db hash with
      | none => rw [htx] at herr; exact absurd herr (by simp)
      | some tx =>
        rw [htx] at herr
        simp only at herr
        by_cases hh : tx.height ≠ -1
        · exact ⟨tx, rfl, hh⟩
        · exfalso
          rw [if_neg hh] at herr
          generalize hc : confirmTX b.db (setBlockFields tx block) (Draft.start b) = res at herr
          cases res with
          | error e =>
            dsimp only at herr
            have he : e = Err.alreadyConfirmed := by injection herr
            have hef := confirmTX_err _ _ _ _ hc
            rw [hef] at he
            exact absurd he (by decide)
          | ok pr =>
            dsimp only at herr
            exact absurd herr (by simp)
    · rintro ⟨tx, htx, hh⟩
      simp [confirm, htx, hh]

theorem confirm_missing_is_noop_witness :
    getTX wadded.db 555 = none ∧
    confirm wadded 555 ⟨77, 100, 50⟩ = (wadded, [], .ok none) := by
  refine ⟨by decide, ?_⟩
  exact (confirm_missing_is_noop wadded 555 ⟨77, 100, 50⟩).1 (by decide)

/-- **C3.**  `add(tx, block)` on a transaction already indexed under
`t[hash]`: if the stored copy is confirmed, or both the stored copy and the
incoming transaction are unconfirmed, nothing at all happens (no keys, no
state change, no events, result `undefined`); otherwise the incoming block
fields are copied onto the stored transaction and the `confirm` transition
is performed on it. -/
theorem add_existing_dispatch (fuel : Nat) (b : TXDB) (tx ex : TX)
    (hmut : tx.mutableFlag = false)
    (hex : getTX b.db tx.hash = some ex) :
    (ex.height ≠ -1 → add fuel b tx = (b, [], .ok none)) ∧
    (ex.height = -1 → tx.height = -1 → add fuel b tx = (b, [], .ok none)) ∧
    (ex.height = -1 → tx.height ≠ -1 →
      add fuel b tx =
        match confirmTX b.db (copyBlockFields ex tx) (Draft.start b) with
        | .error e => (b, [], .error e)
        | .ok (dr, accounts) =>
          ((b.commitDraft dr).1, (b.commitDraft dr).2, .ok (some accounts))) := by
  refine ⟨?_, ?_, ?_⟩
  · intro hconf
    simp [add, addBody, hmut, hex, hconf, TXDB.commitDraft, Draft.start]
  · intro hexm hm
    simp [add, addBody, hmut, hex, hexm, hm, TXDB.commitDraft, Draft.start]
  · intro hexm hm
    unfold add addBody
    simp only [hmut, Bool.false_eq_true, if_false, hex]
    rw [if_neg (by simpa using hexm), if_neg (by simpa using hm)]
    cases hc : confirmTX b.db (copyBlockFields ex tx) (Draft.start b) with
    | error e => simp
    | ok pr => simp

/-- Concrete fixture: the committed database after confirming `wtx`. -/
def wconfirmed : TXDB := (confirm wadded 101 ⟨77, 100, 50⟩).1

/-- Concrete fixture: the promoted copy of `wtx` arriving with a block. -/
def wtxC : TX :=
  { wtx with height := 100, block := some 77, ts := 50, index := 0 }

theorem add_existing_dispatch_witness :
    getTX wadded.db 101 = some wtx ∧
    add 4 wadded wtx = (wadded, [], .ok none) ∧
    add 4 wconfirmed wtx = (wconfirmed, [], .ok none) ∧
    add 4 wadded wtxC =
      (match confirmTX wadded.db (copyBlockFields wtx wtxC) (Draft.start wadded) with
        | .error e => (wadded, [], .error e)
        | .ok (dr, accounts) =>
          ((wadded.commitDraft dr).1, (wadded.commitDraft dr).2, .ok (some accounts))) := by
  refine ⟨by decide, ?_, ?_, ?_⟩
  · exact (add_existing_dispatch 4 wadded wtx wtx rfl (by decide)).2.1 (by decide) (by decide)
  · exact (add_existing_dispatch 4 wconfirmed wtx
      (setBlockFields wtx ⟨77, 100, 50⟩) rfl (by decide)).1 (by decide)
  · exact (add_existing_dispatch 4 wadded wtxC wtx rfl (by decide)).2.2 (by decide) (by decide)

/-! For C5: the gather phase of `removeConflicts`. -/

theorem gatherSpends_abort (base : DB) (txHash : Nat) :
    ∀ l : List Input,
      (∀ input ∈ l, ∀ spent,
        getSpent base input.prevout.hash input.prevout.index = some spent →
        spent.hash ≠ txHash → ∃ sp, getTX base spent.hash = some sp) →
      (∃ input ∈ l, ∃ spent,
        getSpent base input.prevout.hash input.prevout.index = some spent ∧
        spent.hash ≠ txHash ∧
        ∃ sp, getTX base spent.hash = some sp ∧ sp.height ≠ -1) →
      gatherSpends base txHash true l = .ok none := by
  intro l
  induction l with
  | nil =>
    intro _ hbad
    rcases hbad with ⟨input, hmem, _⟩
    exact absurd hmem (List.not_mem_nil input)
  | cons input rest ih =>
    intro hall hbad
    unfold gatherSpends
    cases hsp : getSpent base input.prevout.hash input.prevout.index with
    | none =>
      apply ih (fun inp hmem => hall inp (List.mem_cons_of_mem input hmem))
      rcases hbad with ⟨inp, hmem, spent, hspent, hrest⟩
      rcases List.mem_cons.mp hmem with heq | hmem2
      · rw [heq] at hspent
        rw [hsp] at hspent
        cases hspent
      · exact ⟨inp, hmem2, spent, hspent, hrest⟩
    | some spent =>
      simp only
      by_cases hself : spent.hash = txHash
      · rw [if_pos hself]
        apply ih (fun inp hmem => hall inp (List.mem_cons_of_mem input hmem))
        rcases hbad with ⟨inp, hmem, spent2, hspent2, hne2, hrest⟩
        rcases List.mem_cons.mp hmem with heq | hmem2
        · rw [heq] at hspent2
          rw [hsp] at hspent2
          cases hspent2
          exact absurd hself hne2
        · exact ⟨inp, hmem2, spent2, hspent2, hne2, hrest⟩
      · rw [if_neg hself]
        rcases hall input (List.mem_cons_self input rest) spent hsp hself with ⟨sp, hspn⟩
        rw [hspn]
        simp only
        by_cases hh : sp.height = -1
        · rw [if_neg (by simp [hh])]
          have htail : gatherSpends base txHash true rest = .ok none := by
            apply ih (fun inp hmem => hall inp (List.mem_cons_of_mem input hmem))
            rcases hbad with ⟨inp, hmem, spent2, hspent2, hne2, sp2, hsp2, hh2⟩
            rcases List.mem_cons.mp hmem with heq | hmem2
            · exfalso
              rw [heq] at hspent2
              rw [hsp] at hspent2
              cases hspent2
              rw [hspn] at hsp2
              cases hsp2
              exact hh2 hh
            · exact ⟨inp, hmem2, spent2, hspent2, hne2, sp2, hsp2, hh2⟩
          rw [htail]
        · rw [if_pos ⟨trivial, hh⟩]

theorem gatherSpends_selfonly (base : DB) (txHash : Nat) (conf : Bool) :
    ∀ l : List Input,
      (∀ input ∈ l, ∀ spent,
        getSpent base input.prevout.hash input.prevout.index = some spent →
        spent.hash = txHash) →
      gatherSpends base txHash conf l = .ok (some []) := by
  intro l
  induction l with
  | nil => intro _; rfl
  | cons input rest ih =>
    intro hall
    unfold gatherSpends
    cases hsp : getSpent base input.prevout.hash input.prevout.index with
    | none => exact ih (fun inp hmem => hall inp (List.mem_cons_of_mem input hmem))
    | some spent =>
      simp only
      rw [if_pos (hall input (List.mem_cons_self input rest) spent hsp)]
      exact ih (fun inp hmem => hall inp (List.mem_cons_of_mem input hmem))

/-- **C5.**  `removeConflicts(tx, conf=true)` returns `false` as soon as
some input's spent marker names a foreign spender whose stored transaction
is confirmed, and in that case nothing is removed: the committed database,
the draft and the event stream are all returned unchanged.  Spent markers
whose recorded spender is `tx` itself are ignored: if every marker is a
self-spend, the call succeeds without removing anything. -/
theorem removeConflicts_confirmed_abort (fuel : Nat) (b : TXDB) (dr : Draft)
    (tx : TX) (hcb : tx.coinbase = false) :
    ((∀ input ∈ tx.inputs, ∀ spent,
        getSpent b.db input.prevout.hash input.prevout.index = some spent →
        spent.hash ≠ tx.hash → ∃ sp, getTX b.db spent.hash = some sp) →
      (∃ input ∈ tx.inputs, ∃ spent,
        getSpent b.db input.prevout.hash input.prevout.index = some spent ∧
        spent.hash ≠ tx.hash ∧
        ∃ sp, getTX b.db spent.hash = some sp ∧ sp.height ≠ -1) →
      removeConflicts fuel b dr tx true = ((b, []), .ok (dr, false))) ∧
    ((∀ input ∈ tx.inputs, ∀ spent,
        getSpent b.db input.prevout.hash input.prevout.index = some spent →
        spent.hash = tx.hash) →
      ∀ conf, removeConflicts fuel b dr tx conf = ((b, []), .ok (dr, true))) := by
  constructor
  · intro hall hbad
    unfold removeConflicts
    rw [hcb]
    simp only [Bool.false_eq_true, if_false]
    rw [gatherSpends_abort b.db tx.hash tx.inputs hall hbad]
  · intro hself conf
    unfold removeConflicts
    rw [hcb]
    simp only [Bool.false_eq_true, if_false]
    rw [gatherSpends_selfonly b.db tx.hash conf tx.inputs hself]
    rfl

/-- Concrete fixture: a mempool spend of the confirmed coin `(101, 0)`. -/
def wspendTx : TX :=
  { hash := 202, inputs := [{ prevout := ⟨101, 0⟩ }],
    outputs := [{ value := 25, account := some 0 }], ps := 20 }

/-- Concrete fixture: the database after the spender confirmed at 101. -/
def wspentConf : TXDB :=
  (confirm ((add 6 wconfirmed wspendTx).1) 202 ⟨78, 101, 60⟩).1

/-- Concrete fixture: a conflicting double-spend of `(101, 0)`. -/
def wdouble : TX :=
  { hash := 303, inputs := [{ prevout := ⟨101, 0⟩ }],
    outputs := [{ value := 10, account := some 0 }], ps := 30 }

theorem removeConflicts_confirmed_abort_witness :
    getSpent wspentConf.db 101 0 = some ⟨202, 0⟩ ∧
    (∃ sp, getTX wspentConf.db 202 = some sp ∧ sp.height ≠ -1) ∧
    removeConflicts 4 wspentConf (Draft.start wspentConf) wdouble true
      = ((wspentConf, []), .ok (Draft.start wspentConf, false)) ∧
    removeConflicts 4 wadded (Draft.start wadded) wtx true
      = ((wadded, []), .ok (Draft.start wadded, true)) := by
  refine ⟨by decide, ⟨setBlockFields wspendTx ⟨78, 101, 60⟩, by decide, by decide⟩, ?_, ?_⟩
  · refine (removeConflicts_confirmed_abort 4 wspentConf (Draft.start wspentConf)
      wdouble rfl).1 ?_ ?_
    · intro input hmem spent hsp hne
      have hin : input = ⟨⟨101, 0⟩, none⟩ := by
        simpa [wdouble] using hmem
      subst hin
      have hval : some (Outpoint.mk 202 0) = some spent := by
        rw [← hsp]; decide
      cases hval
      exact ⟨setBlockFields wspendTx ⟨78, 101, 60⟩, by decide⟩
    · exact ⟨⟨⟨101, 0⟩, none⟩, by decide, ⟨202, 0⟩, by decide, by decide,
        setBlockFields wspendTx ⟨78, 101, 60⟩, by decide, by decide⟩
  · refine (removeConflicts_confirmed_abort 4 wadded (Draft.start wadded)
      wtx rfl).2 ?_ true
    intro input hmem spent hsp
    have hin : input = ⟨⟨900, 0⟩, none⟩ := by
      simpa [wtx] using hmem
    subst hin
    have hval : some (Outpoint.mk 101 0) = some spent := by
      rw [← hsp]; decide
    cases hval
    rfl

/-- Concrete fixture: a transaction with 21 orphan inputs (unknown prevouts
whose scriptsigs look like wallet addresses). -/
def orphanFloodTX : TX :=
  { hash := 500,
    inputs := (List.range 21).map
      (fun i => { prevout := ⟨600 + i, 0⟩, inputAccount := some 0 }),
    outputs := [] }

/-- **C8, counterexample.**  Feeding 21 orphan inputs into an empty tracker
(one `verifyInputs` call on an empty database) drives `totalOrphans` to 21,
strictly past the advertised cap of 20, with 21 entries still stashed in
the orphan map and the per-tx count at 21 — no purge was triggered.  The
purge only fires on the stash after the counter has already exceeded 20. -/
theorem orphan_cap_counterexample :
    ((verifyInputs {} orphanFloodTX none {}).2).totalOrphans = 21 ∧
    20 < ((verifyInputs {} orphanFloodTX none {}).2).totalOrphans ∧
    ((verifyInputs {} orphanFloodTX none {}).2).orphans.length = 21 ∧
    findA ((verifyInputs {} orphanFloodTX none {}).2).count 500 = some 21 := by
  decide

/-- **C8, amended.**  The orphan tracker is capped at 21, not 20: a stash
step that begins with `totalOrphans > 20` first resets the counter to 0 and
empties both the orphan map and the per-tx count map, and only then stashes
the new orphan; consequently a stash step never pushes the counter beyond
21, and `verifyInputs` preserves the bound `totalOrphans ≤ 21`. -/
theorem orphan_cap_amended (os : OrphanState) (hash : Nat) (key : Nat × Nat)
    (orphan : Orphan) :
    (os.totalOrphans > 20 →
      stashOrphan hash key orphan os =
        { orphans := insertA [] key [orphan], count := insertA [] hash 1,
          totalOrphans := 1 }) ∧
    (os.totalOrphans ≤ 21 → (stashOrphan hash key orphan os).totalOrphans ≤ 21) ∧
    (∀ (base : DB) (tx : TX) (block : Option BlockMeta),
      os.totalOrphans ≤ 21 →
      ((verifyInputs base tx block os).2).totalOrphans ≤ 21) := by
  have hstep : ∀ (os1 : OrphanState) (h1 : Nat) (k1 : Nat × Nat) (o1 : Orphan),
      os1.totalOrphans ≤ 21 → (stashOrphan h1 k1 o1 os1).totalOrphans ≤ 21 := by
    intro os1 h1 k1 o1 hle
    unfold stashOrphan
    by_cases hgt : os1.totalOrphans > 20
    · simp [hgt]
    · rw [if_neg hgt]
      show os1.totalOrphans + 1 ≤ 21
      omega
  refine ⟨?_, hstep os hash key orphan, ?_⟩
  · intro hgt
    unfold stashOrphan
    rw [if_pos hgt]
    simp
  · intro base tx block hle
    unfold verifyInputs
    by_cases hcb : tx.coinbase
    · simp [hcb, hle]
    · rw [if_neg hcb]
      by_cases hcnt : (findA os.count tx.hash).getD 0 ≠ 0
      · rw [if_pos hcnt]
        exact hle
      · rw [if_neg hcnt]
        generalize (tx.inputs.enum.filter (fun pr => orphanFlag base pr.2)) = flagged
        show (flagged.foldl _ os).totalOrphans ≤ 21
        clear hcnt
        induction flagged generalizing os with
        | nil => exact hle
        | cons pr rest ih =>
          rw [List.foldl_cons]
          exact ih _ (hstep _ _ _ _ hle)

/-- Concrete fixture: the tracker state holding 21 stashed orphans. -/
def os21 : OrphanState := (verifyInputs {} orphanFloodTX none {}).2

/-! ## C1: the balance correspondence is preserved by every write entry
point.

The hypotheses of the preservation theorem are the structural
well-formedness facts that hold of every observable TXDB state (spec §3
“Invariants” and §8); they relate the stored credits, undo coins and spent
markers touched by the operation. -/

/-- The `c`-family key of an input's previous outpoint. -/
def prevoutKey (input : Input) : Nat × Nat :=
  (input.prevout.hash, input.prevout.index)

/-- Well-formedness used by the `insert` path: distinct prevouts, no spend
of the transaction's own outputs, spendable stored credits (unspent, and
confirmed when the spender is confirmed), and no stale credits under the
transaction's own hash. -/
def WfInsert (base : DB) (tx : TX) : Prop :=
  (tx.inputs.map prevoutKey).Nodup ∧
  (∀ input ∈ tx.inputs, input.prevout.hash ≠ tx.hash) ∧
  (∀ input ∈ tx.inputs, ∀ cr, findA base.c (prevoutKey input) = some cr →
    cr.spent = false ∧ (tx.height ≠ -1 → cr.coin.height ≠ -1)) ∧
  (∀ i : Nat, findA base.c (tx.hash, i) = none)

/-- Well-formedness used by the `_confirm` path on a promoted transaction:
the transaction is mined, prevouts are distinct and foreign, every undo
coin corresponds to a stored mempool-spent credit of the same value backed
by a confirmed coin, inputs without undo coins point at unspent credits,
and the transaction's own output credits are unconfirmed with the output's
value. -/
def WfConfirm (base : DB) (tx : TX) : Prop :=
  tx.height ≠ -1 ∧
  (tx.inputs.map prevoutKey).Nodup ∧
  (∀ input ∈ tx.inputs, input.prevout.hash ≠ tx.hash) ∧
  (∀ pr ∈ tx.inputs.enum,
    (∀ dcoin, findA base.d (tx.hash, pr.1) = some dcoin →
      ∃ cr0, findA base.c (prevoutKey pr.2) = some cr0 ∧ cr0.spent = true ∧
        cr0.coin.value = dcoin.value ∧ cr0.coin.height ≠ -1) ∧
    (findA base.d (tx.hash, pr.1) = none →
      ∀ cr0, findA base.c (prevoutKey pr.2) = some cr0 → cr0.spent = false)) ∧
  (∀ pr ∈ tx.outputs.enum, ∀ cr0, findA base.c (tx.hash, pr.1) = some cr0 →
    cr0.coin.height = -1 ∧ cr0.coin.value = pr.2.value)

/-- Well-formedness used by the `disconnect` path: distinct foreign
prevouts, inputs with undo coins have no live credit (a confirmed spend
removed it), and the transaction's own output credits are confirmed with
the output's value. -/
def WfDisconnect (base : DB) (tx : TX) : Prop :=
  (tx.inputs.map prevoutKey).Nodup ∧
  (∀ input ∈ tx.inputs, input.prevout.hash ≠ tx.hash) ∧
  (∀ pr ∈ tx.inputs.enum, ∀ dcoin, findA base.d (tx.hash, pr.1) = some dcoin →
    findA base.c (prevoutKey pr.2) = none) ∧
  (∀ pr ∈ tx.outputs.enum, ∀ cr0, findA base.c (tx.hash, pr.1) = some cr0 →
    cr0.coin.height ≠ -1 ∧ cr0.coin.value = pr.2.value)

/-- Well-formedness used by the `erase` path: distinct foreign prevouts;
for a mempool transaction each undo coin matches a stored mempool-spent
credit of equal value and height, for a mined transaction the spent credit
is gone and the undo coin confirmed; each owned output has its credit
stored unspent with the output's value, confirmed iff the transaction is. -/
def WfErase (base : DB) (tx : TX) : Prop :=
  (tx.inputs.map prevoutKey).Nodup ∧
  (∀ input ∈ tx.inputs, input.prevout.hash ≠ tx.hash) ∧
  (∀ pr ∈ tx.inputs.enum, ∀ dcoin, findA base.d (tx.hash, pr.1) = some dcoin →
    if tx.height = -1 then
      ∃ cr0, findA base.c (prevoutKey pr.2) = some cr0 ∧ cr0.spent = true ∧
        cr0.coin.value = dcoin.value ∧ (cr0.coin.height = -1 ↔ dcoin.height = -1)
    else
      findA base.c (prevoutKey pr.2) = none ∧ dcoin.height ≠ -1) ∧
  (∀ pr ∈ tx.outputs.enum, pr.2.account.isSome →
    ∃ cr0, findA base.c (tx.hash, pr.1) = some cr0 ∧ cr0.spent = false ∧
      cr0.coin.value = pr.2.value ∧ (cr0.coin.height = -1 ↔ tx.height = -1))

/-- No input's outpoint is already marked spent by a foreign transaction
(so `removeConflicts` gathers nothing and removes nothing). -/
def NoForeignSpent (base : DB) (tx : TX) : Prop :=
  ∀ input ∈ tx.inputs, ∀ spent,
    getSpent base input.prevout.hash input.prevout.index = some spent →
    spent.hash = tx.hash

/-- The write entry points of claim C1.  `insert`, `confirm`, `disconnect`
and `erase` are the bodies committed by `add`, `confirm`, `unconfirm` and
`remove`/`abandon`/`zap` respectively; every committed state transition of
the TXDB is one of these. -/
inductive WOp where
  | addW (tx : TX)
  | confirmW (hash : Nat) (block : BlockMeta)
  | unconfirmW (hash : Nat)
  | removeW (hash : Nat)
deriving DecidableEq, Repr

/-- Run one write entry point. -/
def exec (fuel : Nat) (b : TXDB) : WOp → TXDB × List Event × Except Err (Option (List Nat))
  | .addW tx => add fuel b tx
  | .confirmW hash block => confirm b hash block
  | .unconfirmW hash => unconfirm b hash
  | .removeW hash =>
    match removeTX fuel b hash with
    | ((b1, evs), .error e) => (b1, evs, .error e)
    | ((b1, evs), .ok det) => (b1, evs, .ok det)

mutual

/-- Well-formedness of one `removeRecursive(tx)` run from the observable
state `b`: the spender recursion is well-formed, and the state it leaves
behind is fit for the final `erase(tx)` commit.  The predicate follows the
recursion itself (indexed by the same fuel), asserting `WfErase` of exactly
the intermediate committed state each `erase` runs against. -/
def RemovalWf : Nat → TXDB → TX → Prop
  | 0, _, _ => True
  | fuel' + 1, b, tx =>
    SpendersWf fuel' b tx tx.outputs.length 0 ∧
    ∀ b1 evs1,
      removeSpenders fuel' b tx tx.outputs.length 0 = ((b1, evs1), .ok ()) →
      WfErase b1.db tx

/-- Well-formedness of one spender-loop run of `removeRecursive`: whenever
output `i` carries a spent marker whose spending transaction is stored, that
spender's own recursive removal is well-formed, and the loop continuation is
well-formed from whatever state that removal commits. -/
def SpendersWf : Nat → TXDB → TX → Nat → Nat → Prop
  | 0, _, _, _, _ => True
  | fuel' + 1, b, tx, n, i =>
    i < n →
      (∀ spent, getSpent b.db tx.hash i = some spent →
        ∀ stx, getTX b.db spent.hash = some stx →
          RemovalWf fuel' b stx ∧
          ∀ b1 evs1 accs,
            removeRecursive fuel' b stx = ((b1, evs1), .ok accs) →
            SpendersWf fuel' b1 tx n (i + 1)) ∧
      (getSpent b.db tx.hash i = none → SpendersWf fuel' b tx n (i + 1))

end

/-- Well-formedness of the removal phase of `removeConflicts`: each
conflicting spender's recursive removal is well-formed from the state the
previous removals committed. -/
def ConflictListWf (fuel : Nat) : TXDB → List TX → Prop
  | _, [] => True
  | b, spender :: rest =>
    RemovalWf fuel b spender ∧
    ∀ b1 evs1 dr1,
      removeConflict fuel b spender = ((b1, evs1), .ok dr1) →
      ConflictListWf fuel b1 rest

/-- Well-formedness of one entry point invocation on an observable state,
indexed by the fuel the run is given.  Each case asserts the structural
well-formedness of the data the operation's commits actually touch, at the
intermediate committed state each commit runs against: for `add`, the
conflict-removal sub-commits (`ConflictListWf`) and the `insert` against the
post-conflict state; for `remove`, the recursive spender removal
(`RemovalWf`). -/
def WfOp (fuel : Nat) (b : TXDB) : WOp → Prop
  | .addW tx =>
    (∀ ex, getTX b.db tx.hash = some ex → ex.height = -1 → tx.height ≠ -1 →
      WfConfirm b.db (copyBlockFields ex tx)) ∧
    (getTX b.db tx.hash = none →
      (tx.coinbase = true → WfInsert b.db tx) ∧
      (∀ (conf : Bool) (spends : List TX),
        gatherSpends b.db tx.hash conf tx.inputs = .ok (some spends) →
        ConflictListWf fuel b spends ∧
        ∀ (dr : Draft) (b1 : TXDB) (evs : List Event) (dr1 : Draft),
          removeConflictList fuel b dr spends = ((b1, evs), .ok dr1) →
          WfInsert b1.db tx))
  | .confirmW hash block =>
    ∀ tx, getTX b.db hash = some tx → tx.height = -1 →
      WfConfirm b.db (setBlockFields tx block)
  | .unconfirmW hash =>
    ∀ tx, getTX b.db hash = some tx → WfDisconnect b.db tx.unsetBlock
  | .removeW hash =>
    ∀ tx, getTX b.db hash = some tx → RemovalWf fuel b tx

theorem removalWf_zero (b : TXDB) (tx : TX) : RemovalWf 0 b tx := by
  simp only [RemovalWf]

theorem removalWf_succ (fuel' : Nat) (b : TXDB) (tx : TX) :
    RemovalWf (fuel' + 1) b tx ↔
      (SpendersWf fuel' b tx tx.outputs.length 0 ∧
       ∀ b1 evs1,
         removeSpenders fuel' b tx tx.outputs.length 0 = ((b1, evs1), .ok ()) →
         WfErase b1.db tx) := by
  simp only [RemovalWf]

theorem spendersWf_zero (b : TXDB) (tx : TX) (n i : Nat) :
    SpendersWf 0 b tx n i := by
  simp only [SpendersWf]

theorem spendersWf_succ (fuel' : Nat) (b : TXDB) (tx : TX) (n i : Nat) :
    SpendersWf (fuel' + 1) b tx n i ↔
      (i < n →
        (∀ spent, getSpent b.db tx.hash i = some spent →
          ∀ stx, getTX b.db spent.hash = some stx →
            RemovalWf fuel' b stx ∧
            ∀ b1 evs1 accs,
              removeRecursive fuel' b stx = ((b1, evs1), .ok accs) →
              SpendersWf fuel' b1 tx n (i + 1)) ∧
        (getSpent b.db tx.hash i = none → SpendersWf fuel' b tx n (i + 1))) := by
  simp only [SpendersWf]

theorem conflictListWf_nil (fuel : Nat) (b : TXDB) : ConflictListWf fuel b [] := by
  simp only [ConflictListWf]

theorem conflictListWf_cons (fuel : Nat) (b : TXDB) (spender : TX) (rest : List TX) :
    ConflictListWf fuel b (spender :: rest) ↔
      (RemovalWf fuel b spender ∧
       ∀ b1 evs1 dr1,
         removeConflict fuel b spender = ((b1, evs1), .ok dr1) →
         ConflictListWf fuel b1 rest) := by
  simp only [ConflictListWf]

/-- A transaction none of whose outputs carries a spent marker has a
trivially well-formed spender loop: every step takes the `none` branch. -/
theorem spendersWf_of_none (b : TXDB) (tx : TX)
    (hns : ∀ i : Nat, getSpent b.db tx.hash i = none) :
    ∀ (fuel n i : Nat), SpendersWf fuel b tx n i := by
  intro fuel
  induction fuel with
  | zero => intro n i; exact spendersWf_zero b tx n i
  | succ fuel' ih =>
    intro n i
    rw [spendersWf_succ]
    intro _
    refine ⟨?_, fun _ => ih n (i + 1)⟩
    intro spent hsp
    rw [hns i] at hsp
    exact Option.noConfusion hsp

/-- The committed database is always the staged one, whatever the flag. -/
theorem commitDraft_db (b : TXDB) (dr : Draft) :
    (b.commitDraft dr).1.db = dr.db := by
  unfold TXDB.commitDraft
  cases hflag : dr.committedFlag with
  | true => simp only [if_true]
  | false => simp only [Bool.false_eq_true, if_false]

/-- A draft whose staged credits match `b`'s and whose pending counters are
`b`'s committed counters satisfies the draft invariant whenever `b`
satisfies the balance invariant. -/
theorem draftInv_of_parts (b : TXDB) (dr : Draft)
    (hc : dr.db.c = b.db.c)
    (hcf : dr.pending.confirmed = b.state.confirmed)
    (huc : dr.pending.unconfirmed = b.state.unconfirmed)
    (hbal : BalanceInv b) : DraftInv dr := by
  unfold DraftInv
  unfold BalanceInv at hbal
  rw [getWalletBalance_eq_sumA] at hbal
  rw [hc, hcf, huc]
  exact ⟨hbal.1, hbal.2⟩

theorem balanceInv_iff_start (b : TXDB) :
    BalanceInv b ↔ DraftInv (Draft.start b) := by
  unfold BalanceInv DraftInv Draft.start TXDBState.clone
  rw [getWalletBalance_eq_sumA]

/-! Projection lemmas for the write primitives: which primitive touches
which part of the draft. -/

@[simp] theorem spendCredit_db_c (cr : Credit) (sh i : Nat) (pv : Outpoint) (dr : Draft) :
    (spendCredit cr sh i pv dr).db.c = dr.db.c := rfl

@[simp] theorem spendCredit_pending (cr : Credit) (sh i : Nat) (pv : Outpoint) (dr : Draft) :
    (spendCredit cr sh i pv dr).pending = dr.pending := rfl

@[simp] theorem writeInput_db_c (sh i : Nat) (pv : Outpoint) (dr : Draft) :
    (writeInput sh i pv dr).db.c = dr.db.c := rfl

@[simp] theorem writeInput_pending (sh i : Nat) (pv : Outpoint) (dr : Draft) :
    (writeInput sh i pv dr).pending = dr.pending := rfl

@[simp] theorem removeInput_db_c (pv : Outpoint) (dr : Draft) :
    (removeInput pv dr).db.c = dr.db.c := rfl

@[simp] theorem removeInput_pending (pv : Outpoint) (dr : Draft) :
    (removeInput pv dr).pending = dr.pending := rfl

@[simp] theorem unspendCredit_db_c (sh i : Nat) (pv : Outpoint) (dr : Draft) :
    (unspendCredit sh i pv dr).db.c = dr.db.c := rfl

@[simp] theorem unspendCredit_pending (sh i : Nat) (pv : Outpoint) (dr : Draft) :
    (unspendCredit sh i pv dr).pending = dr.pending := rfl

@[simp] theorem saveCredit_db_c (cr : Credit) (a : Nat) (dr : Draft) :
    (saveCredit cr a dr).db.c = insertA dr.db.c (cr.coin.hash, cr.coin.index) cr := rfl

@[simp] theorem saveCredit_pending (cr : Credit) (a : Nat) (dr : Draft) :
    (saveCredit cr a dr).pending = dr.pending := rfl

@[simp] theorem removeCredit_db_c (cr : Credit) (a : Nat) (dr : Draft) :
    (removeCredit cr a dr).db.c = eraseA dr.db.c (cr.coin.hash, cr.coin.index) := rfl

@[simp] theorem removeCredit_pending (cr : Credit) (a : Nat) (dr : Draft) :
    (removeCredit cr a dr).pending = dr.pending := rfl

theorem updateSpentCoin_db_c (base : DB) (h : Nat) (ht : Int) (i : Nat) (dr : Draft) :
    (updateSpentCoin base h ht i dr).db.c = dr.db.c := by
  unfold updateSpentCoin
  cases getSpent base h i with
  | none => rfl
  | some spent =>
    dsimp only
    cases getSpentCoin base spent ⟨h, i⟩ with
    | none => rfl
    | some coin => rfl

theorem updateSpentCoin_pending (base : DB) (h : Nat) (ht : Int) (i : Nat) (dr : Draft) :
    (updateSpentCoin base h ht i dr).pending = dr.pending := by
  unfold updateSpentCoin
  cases getSpent base h i with
  | none => rfl
  | some spent =>
    dsimp only
    cases getSpentCoin base spent ⟨h, i⟩ with
    | none => rfl
    | some coin => rfl

theorem addBlock_db_c (base : DB) (tx : TX) (dr : Draft) :
    (addBlock base tx dr).db.c = dr.db.c := by
  unfold addBlock
  cases getBlock base tx.height with
  | none => dsimp only; split <;> rfl
  | some blk => dsimp only; split <;> rfl

theorem addBlock_pending (base : DB) (tx : TX) (dr : Draft) :
    (addBlock base tx dr).pending = dr.pending := by
  unfold addBlock
  cases getBlock base tx.height with
  | none => dsimp only; split <;> rfl
  | some blk => dsimp only; split <;> rfl

theorem removeBlock_db_c (base : DB) (h : Nat) (ht : Int) (dr : Draft) :
    (removeBlock base h ht dr).db.c = dr.db.c := by
  unfold removeBlock
  cases getBlock base ht with
  | none => rfl
  | some blk =>
    dsimp only
    split
    · unfold blockRemoveStep; split <;> rfl
    · rfl

theorem removeBlock_pending (base : DB) (h : Nat) (ht : Int) (dr : Draft) :
    (removeBlock base h ht dr).pending = dr.pending := by
  unfold removeBlock
  cases getBlock base ht with
  | none => rfl
  | some blk =>
    dsimp only
    split
    · unfold blockRemoveStep; split <;> rfl
    · rfl

@[simp] theorem putState_db_c (dr : Draft) : (putState dr).db.c = dr.db.c := rfl

@[simp] theorem putState_pending (dr : Draft) : (putState dr).pending = dr.pending := rfl

@[simp] theorem emitEv_pending (ev : Event) (dr : Draft) :
    (emitEv ev dr).pending = dr.pending := rfl

theorem indexAccount_db_c (tx : TX) (dr : Draft) (a : Nat) :
    (indexAccount tx dr a).db.c = dr.db.c := by
  unfold indexAccount
  split <;> rfl

theorem indexAccount_pending (tx : TX) (dr : Draft) (a : Nat) :
    (indexAccount tx dr a).pending = dr.pending := by
  unfold indexAccount
  split <;> rfl

theorem confirmAccountIndex_db_c (tx : TX) (dr : Draft) (a : Nat) :
    (confirmAccountIndex tx dr a).db.c = dr.db.c := rfl

theorem confirmAccountIndex_pending (tx : TX) (dr : Draft) (a : Nat) :
    (confirmAccountIndex tx dr a).pending = dr.pending := rfl

theorem eraseAccountIndex_db_c (tx : TX) (dr : Draft) (a : Nat) :
    (eraseAccountIndex tx dr a).db.c = dr.db.c := by
  unfold eraseAccountIndex
  split <;> rfl

theorem eraseAccountIndex_pending (tx : TX) (dr : Draft) (a : Nat) :
    (eraseAccountIndex tx dr a).pending = dr.pending := by
  unfold eraseAccountIndex
  split <;> rfl

theorem disconnectAccountIndex_db_c (h : Nat) (ht : Int) (dr : Draft) (a : Nat) :
    (disconnectAccountIndex h ht dr a).db.c = dr.db.c := rfl

theorem disconnectAccountIndex_pending (h : Nat) (ht : Int) (dr : Draft) (a : Nat) :
    (disconnectAccountIndex h ht dr a).pending = dr.pending := rfl

/-- `getCredit` unfolded to the stored binding. -/
theorem getCredit_eq (base : DB) (h i : Nat) :
    getCredit base h i = (findA base.c (h, i)).map (fun credit =>
      { credit with coin := { credit.coin with hash := h, index := i } }) := rfl

/-- The indexing tail of `insert` preserves the credit family and the two
balance counters (it only bumps `tx` and stages index keys). -/
theorem indexTX_frame (base : DB) (tx : TX) (accs : List Nat) (dr : Draft) :
    (indexTX base tx accs dr).db.c = dr.db.c ∧
    (indexTX base tx accs dr).pending.confirmed = dr.pending.confirmed ∧
    (indexTX base tx accs dr).pending.unconfirmed = dr.pending.unconfirmed := by
  unfold indexTX
  simp only [emitEv_db, emitEv_pending, putState_db_c, putState_pending]
  generalize hdr2 : (if tx.height = -1 then _ else _ : Draft) = dr2
  have hc2 : dr2.db.c = dr.db.c ∧ dr2.pending = dr.pending := by
    rw [← hdr2]; split <;> exact ⟨rfl, rfl⟩
  generalize hdr3 : accs.foldl (indexAccount tx) dr2 = dr3
  have hc3 : dr3.db.c = dr2.db.c ∧ dr3.pending = dr2.pending := by
    rw [← hdr3]
    exact ⟨foldl_draft_frame (fun d => d.db.c) _ (indexAccount_db_c tx) accs dr2,
      foldl_draft_frame (fun d => d.pending) _ (indexAccount_pending tx) accs dr2⟩
  constructor
  · split
    · rw [addBlock_db_c, hc3.1, hc2.1]
    · rw [hc3.1, hc2.1]
  constructor
  · split
    · rw [addBlock_pending, hc3.2, hc2.2]
    · rw [hc3.2, hc2.2]
  · split
    · rw [addBlock_pending, hc3.2, hc2.2]
    · rw [hc3.2, hc2.2]

/-- `resolveInput` preserves the balance correspondence when output `i` has
no stored credit yet: it either only records the spend (`s`/`d`), or saves
a mempool-spent credit while crediting `confirmed` exactly when the new
credit counts toward the confirmed sum. -/
theorem resolveInput_inv (base : DB) (tx : TX) (i : Nat) (account : Nat)
    (output : Output) (dr dr' : Draft) (res : Bool)
    (hok : resolveInput base tx i account output dr = .ok (dr', res))
    (hfresh : findA dr.db.c (tx.hash, i) = none)
    (hwfc : WfA dr.db.c) (hinv : DraftInv dr) :
    DraftInv dr' ∧ WfA dr'.db.c ∧
    (∀ k, k ≠ (tx.hash, i) → findA dr'.db.c k = findA dr.db.c k) ∧
    (res = false → dr' = dr) := by
  unfold resolveInput at hok
  cases hsp : getSpent base tx.hash i with
  | none =>
    rw [hsp] at hok
    cases hok
    exact ⟨hinv, hwfc, fun k _ => rfl, fun _ => rfl⟩
  | some spent =>
    rw [hsp] at hok
    dsimp only at hok
    by_cases hd : hasSpentCoin base spent
    · rw [if_pos hd] at hok
      cases hok
      exact ⟨hinv, hwfc, fun k _ => rfl, fun _ => rfl⟩
    · rw [if_neg hd] at hok
      cases hstx : getTX base spent.hash with
      | none => rw [hstx] at hok; exact absurd hok (by simp)
      | some stx =>
        rw [hstx] at hok
        dsimp only at hok
        cases hsi : stx.inputs.get? spent.index with
        | none => rw [hsi] at hok; exact absurd hok (by simp)
        | some sinput =>
          rw [hsi] at hok
          dsimp only at hok
          by_cases hh : stx.height = -1
          · rw [if_pos hh] at hok
            by_cases hm : tx.height ≠ -1
            · rw [if_pos hm] at hok
              cases hok
              refine ⟨⟨?_, ?_⟩, insertA_wf _ _ _ hwfc, ?_, fun hc => nomatch hc⟩
              · simp only [saveCredit_db_c, spendCredit_db_c, saveCredit_pending,
                  spendCredit_pending, Credit.fromTX]
                rw [sumA_insertA _ _ _ _ hwfc, hfresh, hinv.1]
                simp [confWeight, hm]
              · simp only [saveCredit_db_c, spendCredit_db_c, saveCredit_pending,
                  spendCredit_pending, Credit.fromTX]
                rw [sumA_insertA _ _ _ _ hwfc, hfresh, hinv.2]
                simp [unconfWeight]
              · intro k hk
                simp only [saveCredit_db_c, spendCredit_db_c, Credit.fromTX]
                exact findA_insertA_ne _ _ _ _ hk
            · rw [if_neg hm] at hok
              cases hok
              refine ⟨⟨?_, ?_⟩, insertA_wf _ _ _ hwfc, ?_, fun hc => nomatch hc⟩
              · simp only [saveCredit_db_c, spendCredit_db_c, saveCredit_pending,
                  spendCredit_pending, Credit.fromTX]
                rw [sumA_insertA _ _ _ _ hwfc, hfresh, hinv.1]
                simp only [not_not] at hm
                simp [confWeight, hm]
              · simp only [saveCredit_db_c, spendCredit_db_c, saveCredit_pending,
                  spendCredit_pending, Credit.fromTX]
                rw [sumA_insertA _ _ _ _ hwfc, hfresh, hinv.2]
                simp [unconfWeight]
              · intro k hk
                simp only [saveCredit_db_c, spendCredit_db_c, Credit.fromTX]
                exact findA_insertA_ne _ _ _ _ hk
          · rw [if_neg hh] at hok
            cases hok
            exact ⟨hinv, hwfc, fun k _ => rfl, fun hc => nomatch hc⟩

/-- The input loop of `insert` preserves the balance correspondence under
the `WfInsert` facts: each recognized spend marks the credit
mempool-spent (mempool case) or removes it outright (confirmed case), and
the counters move by exactly the stored credit's value. -/
theorem insertInputs_inv (base : DB) (tx : TX) :
    ∀ (l : List (Nat × Input)) (dr : Draft) (upd : Bool) (accs : List Nat)
      (dr' : Draft) (upd' : Bool) (accs' : List Nat),
      insertInputs base tx l dr upd accs = .ok (dr', upd', accs') →
      (l.map (fun pr => (pr.2.prevout.hash, pr.2.prevout.index))).Nodup →
      (∀ pr ∈ l, findA dr.db.c (pr.2.prevout.hash, pr.2.prevout.index)
          = findA base.c (pr.2.prevout.hash, pr.2.prevout.index)) →
      (∀ pr ∈ l, ∀ cr, findA base.c (pr.2.prevout.hash, pr.2.prevout.index) = some cr →
        cr.spent = false ∧ (tx.height ≠ -1 → cr.coin.height ≠ -1)) →
      WfA dr.db.c → DraftInv dr →
      DraftInv dr' ∧ WfA dr'.db.c ∧
      (∀ k, (∀ pr ∈ l, k ≠ (pr.2.prevout.hash, pr.2.prevout.index)) →
        findA dr'.db.c k = findA dr.db.c k) := by
  intro l
  induction l with
  | nil =>
    intro dr upd accs dr' upd' accs' hok _ _ _ hwfc hinv
    simp only [insertInputs] at hok
    cases hok
    exact ⟨hinv, hwfc, fun k _ => rfl⟩
  | cons pr rest ih =>
    intro dr upd accs dr' upd' accs' hok hnodup hagree hfacts hwfc hinv
    rcases pr with ⟨i, input⟩
    rw [List.map_cons] at hnodup
    obtain ⟨hknotin, hnodup'⟩ := List.nodup_cons.mp hnodup
    unfold insertInputs at hok
    rw [getCredit_eq] at hok
    cases hcr : findA base.c (input.prevout.hash, input.prevout.index) with
    | none =>
      rw [hcr] at hok
      simp only [Option.map_none'] at hok
      obtain ⟨hinv', hwf', hframe'⟩ := ih _ _ _ _ _ _ hok hnodup'
        (fun qr hq => hagree qr (List.mem_cons_of_mem _ hq))
        (fun qr hq => hfacts qr (List.mem_cons_of_mem _ hq)) hwfc hinv
      exact ⟨hinv', hwf',
        fun k hk => (hframe' k (fun qr hq => hk qr (List.mem_cons_of_mem _ hq))).trans rfl⟩
    | some cr0 =>
      rw [hcr] at hok
      simp only [Option.map_some'] at hok
      obtain ⟨hspent0, hconf0⟩ :=
        hfacts (i, input) (List.mem_cons_self _ _) cr0 hcr
      have hfind_dr : findA dr.db.c (input.prevout.hash, input.prevout.index) = some cr0 := by
        rw [hagree _ (List.mem_cons_self _ _), hcr]
      cases hacct : cr0.coin.account with
      | none =>
        rw [hacct] at hok
        exact absurd hok (by simp)
      | some account =>
        rw [hacct] at hok
        dsimp only at hok
        by_cases hm : tx.height = -1
        · rw [if_pos hm] at hok
          obtain ⟨hinv', hwf', hframe'⟩ := ih _ _ _ _ _ _ hok hnodup'
            (by
              intro qr hq
              simp only [saveCredit_db_c, spendCredit_db_c]
              rw [findA_insertA_ne]
              · exact hagree qr (List.mem_cons_of_mem _ hq)
              · intro hc
                exact hknotin (hc ▸ List.mem_map_of_mem
                  (fun qr => (qr.2.prevout.hash, qr.2.prevout.index)) hq))
            (fun qr hq => hfacts qr (List.mem_cons_of_mem _ hq))
            (insertA_wf _ _ _ hwfc)
            (by
              constructor
              · simp only [saveCredit_db_c, spendCredit_db_c, saveCredit_pending,
                  spendCredit_pending]
                rw [sumA_insertA _ _ _ _ hwfc, hfind_dr, hinv.1]
                simp [confWeight, contribA]
              · simp only [saveCredit_db_c, spendCredit_db_c, saveCredit_pending,
                  spendCredit_pending]
                rw [sumA_insertA _ _ _ _ hwfc, hfind_dr, hinv.2]
                simp [unconfWeight, contribA, hspent0])
          refine ⟨hinv', hwf', fun k hk => (hframe' k
            (fun qr hq => hk qr (List.mem_cons_of_mem _ hq))).trans ?_⟩
          simp only [saveCredit_db_c, spendCredit_db_c]
          exact findA_insertA_ne _ _ _ _ (hk (i, input) (List.mem_cons_self _ _))
        · rw [if_neg hm] at hok
          obtain ⟨hinv', hwf', hframe'⟩ := ih _ _ _ _ _ _ hok hnodup'
            (by
              intro qr hq
              simp only [removeCredit_db_c, spendCredit_db_c]
              rw [findA_eraseA_ne]
              · exact hagree qr (List.mem_cons_of_mem _ hq)
              · intro hc
                exact hknotin (hc ▸ List.mem_map_of_mem
                  (fun qr => (qr.2.prevout.hash, qr.2.prevout.index)) hq))
            (fun qr hq => hfacts qr (List.mem_cons_of_mem _ hq))
            (eraseA_wf _ _ hwfc)
            (by
              constructor
              · simp only [removeCredit_db_c, spendCredit_db_c, removeCredit_pending,
                  spendCredit_pending]
                rw [sumA_eraseA _ _ _ hwfc, hfind_dr, hinv.1]
                simp [confWeight, contribA, hconf0 hm]
              · simp only [removeCredit_db_c, spendCredit_db_c, removeCredit_pending,
                  spendCredit_pending]
                rw [sumA_eraseA _ _ _ hwfc, hfind_dr, hinv.2]
                simp [unconfWeight, contribA, hspent0])
          refine ⟨hinv', hwf', fun k hk => (hframe' k
            (fun qr hq => hk qr (List.mem_cons_of_mem _ hq))).trans ?_⟩
          simp only [removeCredit_db_c, spendCredit_db_c]
          exact findA_eraseA_ne _ _ _ (hk (i, input) (List.mem_cons_self _ _))

/-- The output loop of `insert` preserves the balance correspondence when
the transaction's own output credits are all fresh. -/
theorem insertOutputs_inv (base : DB) (tx : TX) :
    ∀ (l : List (Nat × Output)) (dr : Draft) (upd : Bool) (accs : List Nat)
      (dr' : Draft) (upd' : Bool) (accs' : List Nat),
      insertOutputs base tx l dr upd accs = .ok (dr', upd', accs') →
      (l.map Prod.fst).Nodup →
      (∀ pr ∈ l, findA dr.db.c (tx.hash, pr.1) = none) →
      WfA dr.db.c → DraftInv dr →
      DraftInv dr' ∧ WfA dr'.db.c := by
  intro l
  induction l with
  | nil =>
    intro dr upd accs dr' upd' accs' hok _ _ hwfc hinv
    simp only [insertOutputs] at hok
    cases hok
    exact ⟨hinv, hwfc⟩
  | cons pr rest ih =>
    intro dr upd accs dr' upd' accs' hok hnodup hfresh hwfc hinv
    rcases pr with ⟨i, output⟩
    rw [List.map_cons] at hnodup
    obtain ⟨hinotin, hnodup'⟩ := List.nodup_cons.mp hnodup
    have hne_rest : ∀ qr ∈ rest, (tx.hash, qr.1) ≠ ((tx.hash, i) : Nat × Nat) := by
      intro qr hq hc
      apply hinotin
      have hq1 : qr.1 = i := by
        have := congrArg Prod.snd hc
        simpa using this
      exact List.mem_map.mpr ⟨qr, hq, hq1⟩
    unfold insertOutputs at hok
    cases hacct : output.account with
    | none =>
      rw [hacct] at hok
      exact ih _ _ _ _ _ _ hok hnodup'
        (fun qr hq => hfresh qr (List.mem_cons_of_mem _ hq)) hwfc hinv
    | some account =>
      rw [hacct] at hok
      dsimp only at hok
      cases hres : resolveInput base tx i account output dr with
      | error e => rw [hres] at hok; exact absurd hok (by simp)
      | ok pr2 =>
        rw [hres] at hok
        rcases pr2 with ⟨dr2, res⟩
        obtain ⟨hinv2, hwf2, hframe2, hfalse⟩ :=
          resolveInput_inv base tx i account output dr dr2 res hres
            (hfresh (i, output) (List.mem_cons_self _ _)) hwfc hinv
        cases res with
        | true =>
          dsimp only at hok
          exact ih _ _ _ _ _ _ hok hnodup'
            (fun qr hq => (hframe2 (tx.hash, qr.1) (hne_rest qr hq)).trans
              (hfresh qr (List.mem_cons_of_mem _ hq))) hwf2 hinv2
        | false =>
          dsimp only at hok
          have hdr2 : dr2 = dr := hfalse rfl
          subst hdr2
          by_cases hm : tx.height ≠ -1
          · rw [if_pos hm] at hok
            refine ih _ _ _ _ _ _ hok hnodup' ?_ (insertA_wf _ _ _ hwf2) ?_
            · intro qr hq
              simp only [saveCredit_db_c, Credit.fromTX]
              rw [findA_insertA_ne _ _ _ _ (hne_rest qr hq)]
              exact hfresh qr (List.mem_cons_of_mem _ hq)
            · constructor
              · simp only [saveCredit_db_c, saveCredit_pending, Credit.fromTX]
                rw [sumA_insertA _ _ _ _ hwf2,
                  hfresh (i, output) (List.mem_cons_self _ _), hinv2.1]
                simp [confWeight, hm]
              · simp only [saveCredit_db_c, saveCredit_pending, Credit.fromTX]
                rw [sumA_insertA _ _ _ _ hwf2,
                  hfresh (i, output) (List.mem_cons_self _ _), hinv2.2]
                simp [unconfWeight]
          · rw [if_neg hm] at hok
            refine ih _ _ _ _ _ _ hok hnodup' ?_ (insertA_wf _ _ _ hwf2) ?_
            · intro qr hq
              simp only [saveCredit_db_c, Credit.fromTX]
              rw [findA_insertA_ne _ _ _ _ (hne_rest qr hq)]
              exact hfresh qr (List.mem_cons_of_mem _ hq)
            · constructor
              · simp only [saveCredit_db_c, saveCredit_pending, Credit.fromTX]
                rw [sumA_insertA _ _ _ _ hwf2,
                  hfresh (i, output) (List.mem_cons_self _ _), hinv2.1]
                simp only [not_not] at hm
                simp [confWeight, hm]
              · simp only [saveCredit_db_c, saveCredit_pending, Credit.fromTX]
                rw [sumA_insertA _ _ _ _ hwf2,
                  hfresh (i, output) (List.mem_cons_self _ _), hinv2.2]
                simp [unconfWeight]

theorem mem_snd_of_mem_enum {α : Type} {l : List α} {pr : Nat × α}
    (h : pr ∈ l.enum) : pr.2 ∈ l := by
  have h2 := List.mem_map_of_mem Prod.snd h
  rwa [List.enum_map_snd] at h2

theorem enum_map_snd_comp {α β : Type} (l : List α) (f : α → β) :
    l.enum.map (fun pr => f pr.2) = l.map f := by
  rw [show (fun pr : Nat × α => f pr.2) = f ∘ Prod.snd from rfl,
    ← List.map_map, List.enum_map_snd]

theorem enum_fst_nodup {α : Type} (l : List α) :
    (l.enum.map Prod.fst).Nodup := by
  rw [List.enum_map_fst]
  exact List.nodup_range _

/-- `insert` preserves the balance correspondence: on a state whose staged
credit view is still the committed one, a successful insert yields a draft
whose pending counters again match the credit sums. -/
theorem insert_inv (b : TXDB) (tx : TX) (dr dr' : Draft) (det : Option (List Nat))
    (hok : insert b tx dr = .ok (dr', det))
    (hwf : WfInsert b.db tx)
    (hc0 : dr.db.c = b.db.c)
    (hinv : DraftInv dr)
    (hwfcb : WfA b.db.c)
    (hbal : BalanceInv b) :
    DraftInv dr' ∧ WfA dr'.db.c := by
  obtain ⟨hnodup, hnoself, hcredits, hfreshout⟩ := hwf
  have hwfc : WfA dr.db.c := by rw [hc0]; exact hwfcb
  unfold insert at hok
  have houtputs : ∀ (dr1 : Draft) (upd1 : Bool) (accs1 : List Nat),
      DraftInv dr1 → WfA dr1.db.c →
      (∀ pr ∈ tx.outputs.enum, findA dr1.db.c (tx.hash, pr.1) = none) →
      (match insertOutputs b.db tx tx.outputs.enum dr1 upd1 accs1 with
        | .error e => Except.error e
        | .ok (dr2, updated, accounts) =>
          if updated then Except.ok (indexTX b.db tx accounts dr2, some accounts)
          else Except.ok (Draft.start b, none)) = .ok (dr', det) →
      DraftInv dr' ∧ WfA dr'.db.c := by
    intro dr1 upd1 accs1 hinv1 hwfc1 hfresh1 hok1
    cases hout : insertOutputs b.db tx tx.outputs.enum dr1 upd1 accs1 with
    | error e => rw [hout] at hok1; exact absurd hok1 (by simp)
    | ok tr =>
      rw [hout] at hok1
      rcases tr with ⟨dr2, upd2, accs2⟩
      obtain ⟨hinv2, hwf2⟩ := insertOutputs_inv b.db tx tx.outputs.enum dr1 upd1
        accs1 dr2 upd2 accs2 hout (enum_fst_nodup tx.outputs) hfresh1 hwfc1 hinv1
      cases upd2 with
      | true =>
        simp only [if_true] at hok1
        cases hok1
        obtain ⟨hfc, hfcf, hfu⟩ := indexTX_frame b.db tx accs2 dr2
        constructor
        · constructor
          · rw [hfcf, hfc, hinv2.1]
          · rw [hfu, hfc, hinv2.2]
        · rw [hfc]; exact hwf2
      | false =>
        simp only [Bool.false_eq_true, if_false] at hok1
        cases hok1
        exact ⟨(balanceInv_iff_start b).mp hbal, hwfcb⟩
  cases hcb : tx.coinbase with
  | true =>
    rw [hcb] at hok
    simp only [if_true] at hok
    refine houtputs dr false [] hinv hwfc ?_ hok
    intro pr _
    rw [hc0]
    exact hfreshout pr.1
  | false =>
    rw [hcb] at hok
    simp only [Bool.false_eq_true, if_false] at hok
    cases hin : insertInputs b.db tx tx.inputs.enum dr false [] with
    | error e => rw [hin] at hok; exact absurd hok (by simp)
    | ok tr =>
      rw [hin] at hok
      rcases tr with ⟨dr1, upd1, accs1⟩
      obtain ⟨hinv1, hwf1, hframe1⟩ := insertInputs_inv b.db tx tx.inputs.enum dr
        false [] dr1 upd1 accs1 hin
        (by
          rw [enum_map_snd_comp tx.inputs
            (fun inp => (inp.prevout.hash, inp.prevout.index))]
          exact hnodup)
        (fun pr _ => by rw [hc0])
        (fun pr hpr => hcredits pr.2 (mem_snd_of_mem_enum hpr))
        hwfc hinv
      refine houtputs dr1 upd1 accs1 hinv1 hwf1 ?_ hok
      intro pr _
      rw [hframe1 (tx.hash, pr.1) ?_, hc0]
      · exact hfreshout pr.1
      · intro qr hqr hc
        exact hnoself qr.2 (mem_snd_of_mem_enum hqr) (congrArg Prod.fst hc).symm

/-- The credit that `getSpentCredits` attaches to enumerated input `pr`. -/
def spentCreditOf (base : DB) (tx : TX) (pr : Nat × Input) : Option Credit :=
  (findA base.d (tx.hash, pr.1)).map (fun coin =>
    { coin := { coin with hash := pr.2.prevout.hash, index := pr.2.prevout.index },
      spent := false })

theorem getSpentCredits_eq_map (base : DB) (tx : TX) (hcb : tx.coinbase = false) :
    getSpentCredits base tx = tx.inputs.enum.map (spentCreditOf base tx) := by
  unfold getSpentCredits spentCreditOf
  rw [hcb]
  simp only [Bool.false_eq_true, if_false]

theorem zip_map_self {α β : Type} (l : List α) (f : α → β) :
    l.zip (l.map f) = l.map (fun x => (x, f x)) := by
  induction l with
  | nil => rfl
  | cons a t ih => simp only [List.map_cons, List.zip_cons_cons, ih]

/-- The input loop of `_confirm` preserves the balance correspondence under
the `WfConfirm` facts: a spend carrying an undo coin removes a confirmed
mempool-spent credit and debits `confirmed`; a recognized spend without an
undo coin records the spend and removes the unspent credit, debiting both
counters. -/
theorem confirmInputs_inv (base : DB) (tx : TX) :
    ∀ (l : List ((Nat × Input) × Option Credit)) (dr : Draft) (accs : List Nat)
      (dr' : Draft) (accs' : List Nat),
      confirmInputs base tx l dr accs = .ok (dr', accs') →
      (l.map (fun e => prevoutKey e.1.2)).Nodup →
      (∀ e ∈ l, findA dr.db.c (prevoutKey e.1.2) = findA base.c (prevoutKey e.1.2)) →
      (∀ e ∈ l, ∀ credit, e.2 = some credit →
        credit.coin.hash = e.1.2.prevout.hash ∧
        credit.coin.index = e.1.2.prevout.index ∧
        ∃ cr0, findA base.c (prevoutKey e.1.2) = some cr0 ∧ cr0.spent = true ∧
          cr0.coin.value = credit.coin.value ∧ cr0.coin.height ≠ -1) →
      (∀ e ∈ l, e.2 = none →
        ∀ cr0, findA base.c (prevoutKey e.1.2) = some cr0 → cr0.spent = false) →
      WfA dr.db.c → DraftInv dr →
      DraftInv dr' ∧ WfA dr'.db.c ∧
      (∀ k, (∀ e ∈ l, k ≠ prevoutKey e.1.2) →
        findA dr'.db.c k = findA dr.db.c k) := by
  intro l
  induction l with
  | nil =>
    intro dr accs dr' accs' hok _ _ _ _ hwfc hinv
    simp only [confirmInputs] at hok
    cases hok
    exact ⟨hinv, hwfc, fun k _ => rfl⟩
  | cons e rest ih =>
    intro dr accs dr' accs' hok hnodup hagree hsfacts hnfacts hwfc hinv
    rcases e with ⟨⟨i, input⟩, creditOpt⟩
    rw [List.map_cons] at hnodup
    obtain ⟨hknotin, hnodup'⟩ := List.nodup_cons.mp hnodup
    unfold confirmInputs at hok
    cases hco : creditOpt with
    | some credit =>
      rw [hco] at hok
      dsimp only at hok
      obtain ⟨hh1, hh2, cr0, hcr0, hsp0, hval0, hht0⟩ :=
        hsfacts ((i, input), creditOpt) (List.mem_cons_self _ _) credit hco
      dsimp only at hh1 hh2 hcr0 hknotin
      have hkey : ((credit.coin.hash, credit.coin.index) : Nat × Nat)
          = prevoutKey input := by rw [hh1, hh2]; rfl
      have hfind_dr : findA dr.db.c (prevoutKey input) = some cr0 := by
        have := hagree ((i, input), creditOpt) (List.mem_cons_self _ _)
        dsimp only at this
        rw [this, hcr0]
      by_cases hht : credit.coin.height = -1
      · rw [if_pos hht] at hok
        exact absurd hok (by simp)
      · rw [if_neg hht] at hok
        cases hacct : credit.coin.account with
        | none => rw [hacct] at hok; exact absurd hok (by simp)
        | some account =>
          rw [hacct] at hok
          dsimp only at hok
          obtain ⟨hinv', hwf', hframe'⟩ := ih _ _ _ _ hok hnodup'
            (by
              intro qr hq
              simp only [removeCredit_db_c]
              rw [hkey, findA_eraseA_ne]
              · exact hagree qr (List.mem_cons_of_mem _ hq)
              · intro hc
                exact hknotin (hc ▸ List.mem_map_of_mem
                  (fun e => prevoutKey e.1.2) hq))
            (fun qr hq => hsfacts qr (List.mem_cons_of_mem _ hq))
            (fun qr hq => hnfacts qr (List.mem_cons_of_mem _ hq))
            (eraseA_wf _ _ hwfc)
            (by
              constructor
              · simp only [removeCredit_db_c, removeCredit_pending]
                rw [hkey, sumA_eraseA _ _ _ hwfc, hfind_dr, hinv.1]
                simp [confWeight, contribA, hht0, hval0]
              · simp only [removeCredit_db_c, removeCredit_pending]
                rw [hkey, sumA_eraseA _ _ _ hwfc, hfind_dr, hinv.2]
                simp [unconfWeight, contribA, hsp0])
          refine ⟨hinv', hwf', fun k hk => (hframe' k
            (fun qr hq => hk qr (List.mem_cons_of_mem _ hq))).trans ?_⟩
          simp only [removeCredit_db_c]
          rw [hkey]
          exact findA_eraseA_ne _ _ _
            (by
              have := hk ((i, input), some credit) (List.mem_cons_self _ _)
              dsimp only at this
              exact this)
    | none =>
      rw [hco] at hok
      dsimp only at hok
      rw [getCredit_eq] at hok
      cases hcr : findA base.c (input.prevout.hash, input.prevout.index) with
      | none =>
        rw [hcr] at hok
        simp only [Option.map_none'] at hok
        obtain ⟨hinv', hwf', hframe'⟩ := ih _ _ _ _ hok hnodup'
          (fun qr hq => hagree qr (List.mem_cons_of_mem _ hq))
          (fun qr hq => hsfacts qr (List.mem_cons_of_mem _ hq))
          (fun qr hq => hnfacts qr (List.mem_cons_of_mem _ hq))
          hwfc hinv
        exact ⟨hinv', hwf', fun k hk => (hframe' k
          (fun qr hq => hk qr (List.mem_cons_of_mem _ hq))).trans rfl⟩
      | some cr0 =>
        rw [hcr] at hok
        simp only [Option.map_some'] at hok
        have hsp0 : cr0.spent = false :=
          hnfacts ((i, input), creditOpt) (List.mem_cons_self _ _) hco cr0 hcr
        have hfind_dr : findA dr.db.c (prevoutKey input) = some cr0 := by
          have := hagree ((i, input), creditOpt) (List.mem_cons_self _ _)
          dsimp only at this
          rw [this]
          exact hcr
        dsimp only at hknotin
        by_cases hht : cr0.coin.height = -1
        · rw [if_pos hht] at hok
          exact absurd hok (by simp)
        · rw [if_neg hht] at hok
          cases hacct : cr0.coin.account with
          | none => rw [hacct] at hok; exact absurd hok (by simp)
          | some account =>
            rw [hacct] at hok
            dsimp only at hok
            obtain ⟨hinv', hwf', hframe'⟩ := ih _ _ _ _ hok hnodup'
              (by
                intro qr hq
                simp only [removeCredit_db_c, spendCredit_db_c]
                rw [show ((input.prevout.hash, input.prevout.index) : Nat × Nat)
                  = prevoutKey input from rfl, findA_eraseA_ne]
                · exact hagree qr (List.mem_cons_of_mem _ hq)
                · intro hc
                  exact hknotin (hc ▸ List.mem_map_of_mem
                    (fun e => prevoutKey e.1.2) hq))
              (fun qr hq => hsfacts qr (List.mem_cons_of_mem _ hq))
              (fun qr hq => hnfacts qr (List.mem_cons_of_mem _ hq))
              (eraseA_wf _ _ hwfc)
              (by
                constructor
                · simp only [removeCredit_db_c, spendCredit_db_c,
                    removeCredit_pending, spendCredit_pending]
                  rw [show ((input.prevout.hash, input.prevout.index) : Nat × Nat)
                    = prevoutKey input from rfl, sumA_eraseA _ _ _ hwfc,
                    hfind_dr, hinv.1]
                  simp [confWeight, contribA, hht]
                · simp only [removeCredit_db_c, spendCredit_db_c,
                    removeCredit_pending, spendCredit_pending]
                  rw [show ((input.prevout.hash, input.prevout.index) : Nat × Nat)
                    = prevoutKey input from rfl, sumA_eraseA _ _ _ hwfc,
                    hfind_dr, hinv.2]
                  simp [unconfWeight, contribA, hsp0])
            refine ⟨hinv', hwf', fun k hk => (hframe' k
              (fun qr hq => hk qr (List.mem_cons_of_mem _ hq))).trans ?_⟩
            simp only [removeCredit_db_c, spendCredit_db_c]
            rw [show ((input.prevout.hash, input.prevout.index) : Nat × Nat)
              = prevoutKey input from rfl]
            exact findA_eraseA_ne _ _ _
              (by
                have := hk ((i, input), none) (List.mem_cons_self _ _)
                dsimp only at this
                exact this)

/-- The output loop of `_confirm` preserves the balance correspondence: each
owned output credit is rewritten at the mined height, crediting `confirmed`
by exactly the output value. -/
theorem confirmOutputs_inv (base : DB) (tx : TX) (htx : tx.height ≠ -1) :
    ∀ (l : List (Nat × Output)) (dr : Draft) (accs : List Nat)
      (dr' : Draft) (accs' : List Nat),
      confirmOutputs base tx l dr accs = .ok (dr', accs') →
      (l.map Prod.fst).Nodup →
      (∀ pr ∈ l, findA dr.db.c (tx.hash, pr.1) = findA base.c (tx.hash, pr.1)) →
      (∀ pr ∈ l, ∀ cr0, findA base.c (tx.hash, pr.1) = some cr0 →
        cr0.coin.height = -1 ∧ cr0.coin.value = pr.2.value) →
      WfA dr.db.c → DraftInv dr →
      DraftInv dr' ∧ WfA dr'.db.c := by
  intro l
  induction l with
  | nil =>
    intro dr accs dr' accs' hok _ _ _ hwfc hinv
    simp only [confirmOutputs] at hok
    cases hok
    exact ⟨hinv, hwfc⟩
  | cons pr rest ih =>
    intro dr accs dr' accs' hok hnodup hagree hfacts hwfc hinv
    rcases pr with ⟨i, output⟩
    rw [List.map_cons] at hnodup
    obtain ⟨hinotin, hnodup'⟩ := List.nodup_cons.mp hnodup
    have hne_rest : ∀ qr ∈ rest, ((tx.hash, qr.1) : Nat × Nat) ≠ (tx.hash, i) := by
      intro qr hq hc
      apply hinotin
      have hq1 : qr.1 = i := by
        have := congrArg Prod.snd hc
        simpa using this
      exact List.mem_map.mpr ⟨qr, hq, hq1⟩
    unfold confirmOutputs at hok
    cases hacct : output.account with
    | none =>
      rw [hacct] at hok
      exact ih _ _ _ _ hok hnodup'
        (fun qr hq => hagree qr (List.mem_cons_of_mem _ hq))
        (fun qr hq => hfacts qr (List.mem_cons_of_mem _ hq)) hwfc hinv
    | some account =>
      rw [hacct] at hok
      dsimp only at hok
      rw [getCredit_eq] at hok
      cases hcr : findA base.c (tx.hash, i) with
      | none => rw [hcr] at hok; exact absurd hok (by simp)
      | some cr0 =>
        rw [hcr] at hok
        simp only [Option.map_some'] at hok
        dsimp only at hok
        obtain ⟨hht0, hval0⟩ := hfacts (i, output) (List.mem_cons_self _ _) cr0 hcr
        have hfind_dr : findA dr.db.c ((tx.hash, i) : Nat × Nat) = some cr0 := by
          rw [hagree (i, output) (List.mem_cons_self _ _)]
          exact hcr
        have husc_c : ∀ dr0 : Draft,
            (if cr0.spent = true then updateSpentCoin base tx.hash tx.height i dr0
              else dr0).db.c = dr0.db.c := by
          intro dr0
          split
          · rw [updateSpentCoin_db_c]
          · rfl
        have husc_p : ∀ dr0 : Draft,
            (if cr0.spent = true then updateSpentCoin base tx.hash tx.height i dr0
              else dr0).pending = dr0.pending := by
          intro dr0
          split
          · rw [updateSpentCoin_pending]
          · rfl
        refine ih _ _ _ _ hok hnodup' ?_
          (fun qr hq => hfacts qr (List.mem_cons_of_mem _ hq)) ?_ ?_
        · intro qr hq
          simp only [saveCredit_db_c]
          rw [findA_insertA_ne _ _ _ _ (hne_rest qr hq), husc_c]
          exact hagree qr (List.mem_cons_of_mem _ hq)
        · refine insertA_wf _ _ _ ?_
          show WfA (if cr0.spent = true then _ else _ : Draft).db.c
          rw [husc_c]
          exact hwfc
        · constructor
          · simp only [saveCredit_db_c, saveCredit_pending]
            rw [husc_p, husc_c, sumA_insertA _ _ _ _ hwfc, hfind_dr, hinv.1]
            simp [confWeight, contribA, hht0, hval0, htx]
          · simp only [saveCredit_db_c, saveCredit_pending]
            rw [husc_p, husc_c, sumA_insertA _ _ _ _ hwfc, hfind_dr, hinv.2]
            cases hs : cr0.spent <;>
              simp [unconfWeight, contribA, hs]

/-- The re-indexing tail of `_confirm` leaves the credit family and both
balance counters unchanged. -/
theorem confirmIndex_frame (base : DB) (tx : TX) (accs : List Nat) (dr : Draft) :
    (confirmIndex base tx accs dr).db.c = dr.db.c ∧
    (confirmIndex base tx accs dr).pending.confirmed = dr.pending.confirmed ∧
    (confirmIndex base tx accs dr).pending.unconfirmed = dr.pending.unconfirmed := by
  unfold confirmIndex
  simp only [emitEv_db, emitEv_pending, putState_db_c, putState_pending]
  generalize hdr3 : accs.foldl (confirmAccountIndex tx) _ = dr3
  have hc3 : dr3.db.c = dr.db.c ∧ dr3.pending = dr.pending := by
    rw [← hdr3]
    constructor
    · rw [foldl_draft_frame (fun d => d.db.c) _ (confirmAccountIndex_db_c tx) accs _]
    · rw [foldl_draft_frame (fun d => d.pending) _ (confirmAccountIndex_pending tx) accs _]
  constructor
  · split
    · rw [addBlock_db_c, hc3.1]
    · rw [hc3.1]
  constructor
  · split
    · rw [addBlock_pending, hc3.2]
    · rw [hc3.2]
  · split
    · rw [addBlock_pending, hc3.2]
    · rw [hc3.2]

/-- `_confirm` preserves the balance correspondence: on a draft whose staged
credit view is still the committed one, a successful confirmation yields a
draft whose pending counters again match the credit sums. -/
theorem confirmTX_inv (base : DB) (tx : TX) (dr dr' : Draft) (accs' : List Nat)
    (hok : confirmTX base tx dr = .ok (dr', accs'))
    (hwf : WfConfirm base tx)
    (hc0 : dr.db.c = base.c)
    (hwfcb : WfA base.c)
    (hinv : DraftInv dr) :
    DraftInv dr' ∧ WfA dr'.db.c := by
  obtain ⟨hmined, hnodup, hnoself, hinfacts, houtfacts⟩ := hwf
  have hwfc : WfA dr.db.c := by rw [hc0]; exact hwfcb
  unfold confirmTX at hok
  have houtputs : ∀ (dr1 : Draft) (accs1 : List Nat),
      DraftInv dr1 → WfA dr1.db.c →
      (∀ pr ∈ tx.outputs.enum,
        findA dr1.db.c (tx.hash, pr.1) = findA base.c (tx.hash, pr.1)) →
      (match confirmOutputs base tx tx.outputs.enum dr1 accs1 with
        | .error e => Except.error e
        | .ok (dr2, accounts) =>
          Except.ok (confirmIndex base tx accounts dr2, accounts)) = .ok (dr', accs') →
      DraftInv dr' ∧ WfA dr'.db.c := by
    intro dr1 accs1 hinv1 hwfc1 hagree1 hok1
    cases hout : confirmOutputs base tx tx.outputs.enum dr1 accs1 with
    | error e => rw [hout] at hok1; exact absurd hok1 (by simp)
    | ok tr =>
      rw [hout] at hok1
      rcases tr with ⟨dr2, accs2⟩
      dsimp only at hok1
      cases hok1
      obtain ⟨hinv2, hwf2⟩ := confirmOutputs_inv base tx hmined tx.outputs.enum
        dr1 accs1 dr2 accs' hout (enum_fst_nodup _) hagree1 houtfacts hwfc1 hinv1
      obtain ⟨hfc, hfcf, hfu⟩ := confirmIndex_frame base tx accs' dr2
      exact ⟨⟨by rw [hfcf, hfc, hinv2.1], by rw [hfu, hfc, hinv2.2]⟩,
        by rw [hfc]; exact hwf2⟩
  cases hcb : tx.coinbase with
  | true =>
    rw [hcb] at hok
    simp only [if_true] at hok
    exact houtputs dr [] hinv hwfc (fun pr _ => by rw [hc0]) hok
  | false =>
    rw [hcb] at hok
    simp only [Bool.false_eq_true, if_false] at hok
    rw [getSpentCredits_eq_map base tx hcb, zip_map_self] at hok
    cases hin : confirmInputs base tx
        (tx.inputs.enum.map (fun pr => (pr, spentCreditOf base tx pr))) dr [] with
    | error e => rw [hin] at hok; exact absurd hok (by simp)
    | ok tr =>
      rw [hin] at hok
      rcases tr with ⟨dr1, accs1⟩
      obtain ⟨hinv1, hwf1, hframe1⟩ := confirmInputs_inv base tx _ dr [] dr1 accs1 hin
        (by
          rw [List.map_map,
            show ((fun e : (Nat × Input) × Option Credit => prevoutKey e.1.2) ∘
              (fun pr => (pr, spentCreditOf base tx pr)))
              = fun pr : Nat × Input => prevoutKey pr.2 from rfl,
            enum_map_snd_comp tx.inputs prevoutKey]
          exact hnodup)
        (by
          intro e he
          rw [hc0])
        (by
          intro e he credit hce
          obtain ⟨pr, hpr, hpre⟩ := List.mem_map.mp he
          obtain ⟨hic, hdc⟩ := hinfacts pr hpr
          rw [← hpre] at hce ⊢
          dsimp only at hce ⊢
          unfold spentCreditOf at hce
          cases hd : findA base.d (tx.hash, pr.1) with
          | none => rw [hd] at hce; exact absurd hce (by simp)
          | some dcoin =>
            rw [hd] at hce
            simp only [Option.map_some', Option.some.injEq] at hce
            obtain ⟨cr0, hcr0, hsp0, hval0, hht0⟩ := hic dcoin hd
            refine ⟨by rw [← hce], by rw [← hce], cr0, hcr0, hsp0, ?_, hht0⟩
            rw [← hce, hval0])
        (by
          intro e he hce
          obtain ⟨pr, hpr, hpre⟩ := List.mem_map.mp he
          obtain ⟨hic, hdc⟩ := hinfacts pr hpr
          rw [← hpre] at hce ⊢
          dsimp only at hce ⊢
          unfold spentCreditOf at hce
          cases hd : findA base.d (tx.hash, pr.1) with
          | some dcoin => rw [hd] at hce; exact absurd hce (by simp)
          | none => exact hdc hd)
        hwfc hinv
      refine houtputs dr1 accs1 hinv1 hwf1 ?_ hok
      intro pr _
      rw [hframe1 (tx.hash, pr.1) ?_, hc0]
      intro qr hqr hc
      obtain ⟨qr0, hqr0, hqre⟩ := List.mem_map.mp hqr
      apply hnoself qr0.2 (mem_snd_of_mem_enum hqr0)
      rw [← hqre] at hc
      exact (congrArg Prod.fst hc).symm

/-- The input loop of `erase` preserves the balance correspondence under the
`WfErase` facts: restoring an undo coin re-saves the spendable credit and
credits `unconfirmed` (and `confirmed` when the erased transaction was
mined) by exactly the credit's value. -/
theorem eraseInputs_inv (base : DB) (tx : TX) :
    ∀ (l : List ((Nat × Input) × Option Credit)) (dr : Draft) (accs : List Nat)
      (dr' : Draft) (accs' : List Nat),
      eraseInputs base tx l dr accs = .ok (dr', accs') →
      (l.map (fun e => prevoutKey e.1.2)).Nodup →
      (∀ e ∈ l, findA dr.db.c (prevoutKey e.1.2) = findA base.c (prevoutKey e.1.2)) →
      (∀ e ∈ l, ∀ credit, e.2 = some credit →
        credit.coin.hash = e.1.2.prevout.hash ∧
        credit.coin.index = e.1.2.prevout.index ∧ credit.spent = false ∧
        (tx.height = -1 →
          ∃ cr0, findA base.c (prevoutKey e.1.2) = some cr0 ∧ cr0.spent = true ∧
            cr0.coin.value = credit.coin.value ∧
            (cr0.coin.height = -1 ↔ credit.coin.height = -1)) ∧
        (tx.height ≠ -1 →
          findA base.c (prevoutKey e.1.2) = none ∧ credit.coin.height ≠ -1)) →
      WfA dr.db.c → DraftInv dr →
      DraftInv dr' ∧ WfA dr'.db.c ∧
      (∀ k, (∀ e ∈ l, k ≠ prevoutKey e.1.2) →
        findA dr'.db.c k = findA dr.db.c k) := by
  intro l
  induction l with
  | nil =>
    intro dr accs dr' accs' hok _ _ _ hwfc hinv
    simp only [eraseInputs] at hok
    cases hok
    exact ⟨hinv, hwfc, fun k _ => rfl⟩
  | cons e rest ih =>
    intro dr accs dr' accs' hok hnodup hagree hsfacts hwfc hinv
    rcases e with ⟨⟨i, input⟩, creditOpt⟩
    rw [List.map_cons] at hnodup
    obtain ⟨hknotin, hnodup'⟩ := List.nodup_cons.mp hnodup
    unfold eraseInputs at hok
    cases hco : creditOpt with
    | none =>
      rw [hco] at hok
      dsimp only at hok
      obtain ⟨hinv', hwf', hframe'⟩ := ih _ _ _ _ hok hnodup'
        (by
          intro qr hq
          simp only [removeInput_db_c]
          exact hagree qr (List.mem_cons_of_mem _ hq))
        (fun qr hq => hsfacts qr (List.mem_cons_of_mem _ hq))
        hwfc hinv
      exact ⟨hinv', hwf', fun k hk => (hframe' k
        (fun qr hq => hk qr (List.mem_cons_of_mem _ hq))).trans rfl⟩
    | some credit =>
      rw [hco] at hok
      dsimp only at hok
      obtain ⟨hh1, hh2, hcsp, hmem, hmined⟩ :=
        hsfacts ((i, input), creditOpt) (List.mem_cons_self _ _) credit hco
      dsimp only at hh1 hh2 hknotin
      have hkey : ((credit.coin.hash, credit.coin.index) : Nat × Nat)
          = prevoutKey input := by rw [hh1, hh2]; rfl
      have hagree0 : findA dr.db.c (prevoutKey input)
          = findA base.c (prevoutKey input) := by
        have := hagree ((i, input), creditOpt) (List.mem_cons_self _ _)
        exact this
      cases hacct : credit.coin.account with
      | none => rw [hacct] at hok; exact absurd hok (by simp)
      | some account =>
        rw [hacct] at hok
        dsimp only at hok
        by_cases hm : tx.height = -1
        · rw [if_neg (fun hne => hne hm)] at hok
          obtain ⟨cr0, hcr0, hsp0, hval0, hiff⟩ := hmem hm
          dsimp only at hcr0
          have hfind_dr : findA dr.db.c (prevoutKey input) = some cr0 := by
            rw [hagree0]; exact hcr0
          obtain ⟨hinv', hwf', hframe'⟩ := ih _ _ _ _ hok hnodup'
            (by
              intro qr hq
              simp only [saveCredit_db_c, unspendCredit_db_c]
              rw [hkey, findA_insertA_ne]
              · exact hagree qr (List.mem_cons_of_mem _ hq)
              · intro hc
                exact hknotin (hc ▸ List.mem_map_of_mem
                  (fun e => prevoutKey e.1.2) hq))
            (fun qr hq => hsfacts qr (List.mem_cons_of_mem _ hq))
            (insertA_wf _ _ _ hwfc)
            (by
              constructor
              · simp only [saveCredit_db_c, unspendCredit_db_c,
                  saveCredit_pending, unspendCredit_pending]
                rw [hkey, sumA_insertA _ _ _ _ hwfc, hfind_dr, hinv.1]
                by_cases hch : credit.coin.height = -1
                · have hch0 : cr0.coin.height = -1 := hiff.mpr hch
                  simp [confWeight, contribA, hch, hch0]
                · have hch0 : ¬ cr0.coin.height = -1 := fun hc => hch (hiff.mp hc)
                  simp [confWeight, contribA, hch, hch0, hval0]
              · simp only [saveCredit_db_c, unspendCredit_db_c,
                  saveCredit_pending, unspendCredit_pending]
                rw [hkey, sumA_insertA _ _ _ _ hwfc, hfind_dr, hinv.2]
                simp [unconfWeight, contribA, hcsp, hsp0])
          refine ⟨hinv', hwf', fun k hk => (hframe' k
            (fun qr hq => hk qr (List.mem_cons_of_mem _ hq))).trans ?_⟩
          simp only [saveCredit_db_c, unspendCredit_db_c]
          rw [hkey]
          exact findA_insertA_ne _ _ _ _
            (by
              have := hk ((i, input), some credit) (List.mem_cons_self _ _)
              dsimp only at this
              exact this)
        · rw [if_pos hm] at hok
          obtain ⟨hnone, hch⟩ := hmined hm
          dsimp only at hnone
          have hfind_dr : findA dr.db.c (prevoutKey input) = none := by
            rw [hagree0]; exact hnone
          obtain ⟨hinv', hwf', hframe'⟩ := ih _ _ _ _ hok hnodup'
            (by
              intro qr hq
              simp only [saveCredit_db_c, unspendCredit_db_c]
              rw [hkey, findA_insertA_ne]
              · exact hagree qr (List.mem_cons_of_mem _ hq)
              · intro hc
                exact hknotin (hc ▸ List.mem_map_of_mem
                  (fun e => prevoutKey e.1.2) hq))
            (fun qr hq => hsfacts qr (List.mem_cons_of_mem _ hq))
            (insertA_wf _ _ _ hwfc)
            (by
              constructor
              · simp only [saveCredit_db_c, unspendCredit_db_c,
                  saveCredit_pending, unspendCredit_pending]
                rw [hkey, sumA_insertA _ _ _ _ hwfc, hfind_dr, hinv.1]
                simp [confWeight, contribA, hch]
              · simp only [saveCredit_db_c, unspendCredit_db_c,
                  saveCredit_pending, unspendCredit_pending]
                rw [hkey, sumA_insertA _ _ _ _ hwfc, hfind_dr, hinv.2]
                simp [unconfWeight, contribA, hcsp])
          refine ⟨hinv', hwf', fun k hk => (hframe' k
            (fun qr hq => hk qr (List.mem_cons_of_mem _ hq))).trans ?_⟩
          simp only [saveCredit_db_c, unspendCredit_db_c]
          rw [hkey]
          exact findA_insertA_ne _ _ _ _
            (by
              have := hk ((i, input), some credit) (List.mem_cons_self _ _)
              dsimp only at this
              exact this)

/-- The output loop of `erase` preserves the balance correspondence: deleting
an owned output credit debits `unconfirmed` (and `confirmed` when the
transaction was mined) by exactly the output value. -/
theorem eraseOutputs_inv (base : DB) (tx : TX) :
    ∀ (l : List (Nat × Output)) (dr : Draft) (accs : List Nat)
      (dr' : Draft) (accs' : List Nat),
      eraseOutputs base tx l dr accs = .ok (dr', accs') →
      (l.map Prod.fst).Nodup →
      (∀ pr ∈ l, findA dr.db.c (tx.hash, pr.1) = findA base.c (tx.hash, pr.1)) →
      (∀ pr ∈ l, pr.2.account.isSome →
        ∃ cr0, findA base.c (tx.hash, pr.1) = some cr0 ∧ cr0.spent = false ∧
          cr0.coin.value = pr.2.value ∧ (cr0.coin.height = -1 ↔ tx.height = -1)) →
      WfA dr.db.c → DraftInv dr →
      DraftInv dr' ∧ WfA dr'.db.c := by
  intro l
  induction l with
  | nil =>
    intro dr accs dr' accs' hok _ _ _ hwfc hinv
    simp only [eraseOutputs] at hok
    cases hok
    exact ⟨hinv, hwfc⟩
  | cons pr rest ih =>
    intro dr accs dr' accs' hok hnodup hagree hfacts hwfc hinv
    rcases pr with ⟨i, output⟩
    rw [List.map_cons] at hnodup
    obtain ⟨hinotin, hnodup'⟩ := List.nodup_cons.mp hnodup
    have hne_rest : ∀ qr ∈ rest, ((tx.hash, qr.1) : Nat × Nat) ≠ (tx.hash, i) := by
      intro qr hq hc
      apply hinotin
      have hq1 : qr.1 = i := by
        have := congrArg Prod.snd hc
        simpa using this
      exact List.mem_map.mpr ⟨qr, hq, hq1⟩
    unfold eraseOutputs at hok
    cases hacct : output.account with
    | none =>
      rw [hacct] at hok
      exact ih _ _ _ _ hok hnodup'
        (fun qr hq => hagree qr (List.mem_cons_of_mem _ hq))
        (fun qr hq => hfacts qr (List.mem_cons_of_mem _ hq)) hwfc hinv
    | some account =>
      rw [hacct] at hok
      dsimp only at hok
      obtain ⟨cr0, hcr0, hsp0, hval0, hiff⟩ :=
        hfacts (i, output) (List.mem_cons_self _ _) (by rw [hacct]; rfl)
      have hfind_dr : findA dr.db.c ((tx.hash, i) : Nat × Nat) = some cr0 := by
        rw [hagree (i, output) (List.mem_cons_self _ _)]
        exact hcr0
      by_cases hm : tx.height = -1
      · rw [if_neg (fun hne => hne hm)] at hok
        refine ih _ _ _ _ hok hnodup' ?_
          (fun qr hq => hfacts qr (List.mem_cons_of_mem _ hq))
          (eraseA_wf _ _ hwfc) ?_
        · intro qr hq
          simp only [removeCredit_db_c, Credit.fromTX]
          rw [findA_eraseA_ne _ _ _ (hne_rest qr hq)]
          exact hagree qr (List.mem_cons_of_mem _ hq)
        · constructor
          · simp only [removeCredit_db_c, removeCredit_pending, Credit.fromTX]
            rw [sumA_eraseA _ _ _ hwfc, hfind_dr, hinv.1]
            have hch0 : cr0.coin.height = -1 := hiff.mpr hm
            simp [confWeight, contribA, hch0]
          · simp only [removeCredit_db_c, removeCredit_pending, Credit.fromTX]
            rw [sumA_eraseA _ _ _ hwfc, hfind_dr, hinv.2]
            simp [unconfWeight, contribA, hsp0, hval0]
      · rw [if_pos hm] at hok
        refine ih _ _ _ _ hok hnodup' ?_
          (fun qr hq => hfacts qr (List.mem_cons_of_mem _ hq))
          (eraseA_wf _ _ hwfc) ?_
        · intro qr hq
          simp only [removeCredit_db_c, Credit.fromTX]
          rw [findA_eraseA_ne _ _ _ (hne_rest qr hq)]
          exact hagree qr (List.mem_cons_of_mem _ hq)
        · constructor
          · simp only [removeCredit_db_c, removeCredit_pending, Credit.fromTX]
            rw [sumA_eraseA _ _ _ hwfc, hfind_dr, hinv.1]
            have hch0 : ¬ cr0.coin.height = -1 := fun hc => hm (hiff.mp hc)
            simp [confWeight, contribA, hch0, hval0]
          · simp only [removeCredit_db_c, removeCredit_pending, Credit.fromTX]
            rw [sumA_eraseA _ _ _ hwfc, hfind_dr, hinv.2]
            simp [unconfWeight, contribA, hsp0, hval0]

/-- The unindexing tail of `erase` leaves the credit family and both balance
counters unchanged (it decrements only the `tx` counter). -/
theorem eraseIndex_frame (base : DB) (tx : TX) (accs : List Nat) (dr : Draft) :
    (eraseIndex base tx accs dr).db.c = dr.db.c ∧
    (eraseIndex base tx accs dr).pending.confirmed = dr.pending.confirmed ∧
    (eraseIndex base tx accs dr).pending.unconfirmed = dr.pending.unconfirmed := by
  unfold eraseIndex
  simp only [emitEv_db, emitEv_pending, putState_db_c, putState_pending]
  generalize hdr2 : (if tx.height = -1 then _ else _ : Draft) = dr2
  have hc2 : dr2.db.c = dr.db.c ∧ dr2.pending = dr.pending := by
    rw [← hdr2]; split <;> exact ⟨rfl, rfl⟩
  generalize hdr3 : accs.foldl (eraseAccountIndex tx) dr2 = dr3
  have hc3 : dr3.db.c = dr2.db.c ∧ dr3.pending = dr2.pending := by
    rw [← hdr3]
    exact ⟨foldl_draft_frame (fun d => d.db.c) _ (eraseAccountIndex_db_c tx) accs dr2,
      foldl_draft_frame (fun d => d.pending) _ (eraseAccountIndex_pending tx) accs dr2⟩
  generalize hdr4 : (if tx.height ≠ -1 then
    removeBlock base tx.hash tx.height dr3 else dr3 : Draft) = dr4
  have hc4 : dr4.db.c = dr3.db.c ∧ dr4.pending = dr3.pending := by
    rw [← hdr4]
    split
    · exact ⟨removeBlock_db_c _ _ _ _, removeBlock_pending _ _ _ _⟩
    · exact ⟨rfl, rfl⟩
  refine ⟨?_, ?_, ?_⟩
  · show dr4.db.c = dr.db.c
    rw [hc4.1, hc3.1, hc2.1]
  · show dr4.pending.confirmed = dr.pending.confirmed
    rw [hc4.2, hc3.2, hc2.2]
  · show dr4.pending.unconfirmed = dr.pending.unconfirmed
    rw [hc4.2, hc3.2, hc2.2]

/-- `erase` preserves the balance correspondence: on a draft whose staged
credit view is still the committed one, a successful erase yields a draft
whose pending counters again match the credit sums. -/
theorem eraseTX_inv (base : DB) (tx : TX) (dr dr' : Draft) (accs' : List Nat)
    (hok : eraseTX base tx dr = .ok (dr', accs'))
    (hwf : WfErase base tx)
    (hc0 : dr.db.c = base.c)
    (hwfcb : WfA base.c)
    (hinv : DraftInv dr) :
    DraftInv dr' ∧ WfA dr'.db.c := by
  obtain ⟨hnodup, hnoself, hinfacts, houtfacts⟩ := hwf
  have hwfc : WfA dr.db.c := by rw [hc0]; exact hwfcb
  unfold eraseTX at hok
  have houtputs : ∀ (dr1 : Draft) (accs1 : List Nat),
      DraftInv dr1 → WfA dr1.db.c →
      (∀ pr ∈ tx.outputs.enum,
        findA dr1.db.c (tx.hash, pr.1) = findA base.c (tx.hash, pr.1)) →
      (match eraseOutputs base tx tx.outputs.enum dr1 accs1 with
        | .error e => Except.error e
        | .ok (dr2, accounts) =>
          Except.ok (eraseIndex base tx accounts dr2, accounts)) = .ok (dr', accs') →
      DraftInv dr' ∧ WfA dr'.db.c := by
    intro dr1 accs1 hinv1 hwfc1 hagree1 hok1
    cases hout : eraseOutputs base tx tx.outputs.enum dr1 accs1 with
    | error e => rw [hout] at hok1; exact absurd hok1 (by simp)
    | ok tr =>
      rw [hout] at hok1
      rcases tr with ⟨dr2, accs2⟩
      dsimp only at hok1
      cases hok1
      obtain ⟨hinv2, hwf2⟩ := eraseOutputs_inv base tx tx.outputs.enum
        dr1 accs1 dr2 accs' hout (enum_fst_nodup _) hagree1 houtfacts hwfc1 hinv1
      obtain ⟨hfc, hfcf, hfu⟩ := eraseIndex_frame base tx accs' dr2
      exact ⟨⟨by rw [hfcf, hfc, hinv2.1], by rw [hfu, hfc, hinv2.2]⟩,
        by rw [hfc]; exact hwf2⟩
  cases hcb : tx.coinbase with
  | true =>
    rw [hcb] at hok
    simp only [if_true] at hok
    exact houtputs dr [] hinv hwfc (fun pr _ => by rw [hc0]) hok
  | false =>
    rw [hcb] at hok
    simp only [Bool.false_eq_true, if_false] at hok
    rw [getSpentCredits_eq_map base tx hcb, zip_map_self] at hok
    cases hin : eraseInputs base tx
        (tx.inputs.enum.map (fun pr => (pr, spentCreditOf base tx pr))) dr [] with
    | error e => rw [hin] at hok; exact absurd hok (by simp)
    | ok tr =>
      rw [hin] at hok
      rcases tr with ⟨dr1, accs1⟩
      obtain ⟨hinv1, hwf1, hframe1⟩ := eraseInputs_inv base tx _ dr [] dr1 accs1 hin
        (by
          rw [List.map_map,
            show ((fun e : (Nat × Input) × Option Credit => prevoutKey e.1.2) ∘
              (fun pr => (pr, spentCreditOf base tx pr)))
              = fun pr : Nat × Input => prevoutKey pr.2 from rfl,
            enum_map_snd_comp tx.inputs prevoutKey]
          exact hnodup)
        (by
          intro e he
          rw [hc0])
        (by
          intro e he credit hce
          obtain ⟨pr, hpr, hpre⟩ := List.mem_map.mp he
          have hic := hinfacts pr hpr
          rw [← hpre] at hce ⊢
          dsimp only at hce ⊢
          unfold spentCreditOf at hce
          cases hd : findA base.d (tx.hash, pr.1) with
          | none => rw [hd] at hce; exact absurd hce (by simp)
          | some dcoin =>
            rw [hd] at hce
            simp only [Option.map_some', Option.some.injEq] at hce
            have hic2 := hic dcoin hd
            refine ⟨by rw [← hce], by rw [← hce], by rw [← hce], ?_, ?_⟩
            · intro ht
              rw [if_pos ht] at hic2
              obtain ⟨cr0, hcr0, hsp0, hval0, hiff⟩ := hic2
              exact ⟨cr0, hcr0, hsp0, by rw [← hce]; exact hval0,
                by rw [← hce]; exact hiff⟩
            · intro ht
              rw [if_neg ht] at hic2
              exact ⟨hic2.1, by rw [← hce]; exact hic2.2⟩)
        hwfc hinv
      refine houtputs dr1 accs1 hinv1 hwf1 ?_ hok
      intro pr _
      rw [hframe1 (tx.hash, pr.1) ?_, hc0]
      intro qr hqr hc
      obtain ⟨qr0, hqr0, hqre⟩ := List.mem_map.mp hqr
      apply hnoself qr0.2 (mem_snd_of_mem_enum hqr0)
      rw [← hqre] at hc
      exact (congrArg Prod.fst hc).symm

/-- The input loop of `disconnect` preserves the balance correspondence
under the `WfDisconnect` facts: each restored credit is saved back
mempool-spent and `confirmed` is credited by exactly the credit's value. -/
theorem disconnectInputs_inv (base : DB) (tx : TX) :
    ∀ (l : List ((Nat × Input) × Option Credit)) (dr : Draft) (accs : List Nat)
      (dr' : Draft) (accs' : List Nat),
      disconnectInputs base tx l dr accs = .ok (dr', accs') →
      (l.map (fun e => prevoutKey e.1.2)).Nodup →
      (∀ e ∈ l, findA dr.db.c (prevoutKey e.1.2) = findA base.c (prevoutKey e.1.2)) →
      (∀ e ∈ l, ∀ credit, e.2 = some credit →
        credit.coin.hash = e.1.2.prevout.hash ∧
        credit.coin.index = e.1.2.prevout.index ∧
        findA base.c (prevoutKey e.1.2) = none) →
      WfA dr.db.c → DraftInv dr →
      DraftInv dr' ∧ WfA dr'.db.c ∧
      (∀ k, (∀ e ∈ l, k ≠ prevoutKey e.1.2) →
        findA dr'.db.c k = findA dr.db.c k) := by
  intro l
  induction l with
  | nil =>
    intro dr accs dr' accs' hok _ _ _ hwfc hinv
    simp only [disconnectInputs] at hok
    cases hok
    exact ⟨hinv, hwfc, fun k _ => rfl⟩
  | cons e rest ih =>
    intro dr accs dr' accs' hok hnodup hagree hsfacts hwfc hinv
    rcases e with ⟨⟨i, input⟩, creditOpt⟩
    rw [List.map_cons] at hnodup
    obtain ⟨hknotin, hnodup'⟩ := List.nodup_cons.mp hnodup
    unfold disconnectInputs at hok
    cases hco : creditOpt with
    | none =>
      rw [hco] at hok
      dsimp only at hok
      obtain ⟨hinv', hwf', hframe'⟩ := ih _ _ _ _ hok hnodup'
        (fun qr hq => hagree qr (List.mem_cons_of_mem _ hq))
        (fun qr hq => hsfacts qr (List.mem_cons_of_mem _ hq))
        hwfc hinv
      exact ⟨hinv', hwf', fun k hk => (hframe' k
        (fun qr hq => hk qr (List.mem_cons_of_mem _ hq))).trans rfl⟩
    | some credit =>
      rw [hco] at hok
      dsimp only at hok
      obtain ⟨hh1, hh2, hnone⟩ :=
        hsfacts ((i, input), creditOpt) (List.mem_cons_self _ _) credit hco
      dsimp only at hh1 hh2 hnone hknotin
      have hkey : ((credit.coin.hash, credit.coin.index) : Nat × Nat)
          = prevoutKey input := by rw [hh1, hh2]; rfl
      have hfind_dr : findA dr.db.c (prevoutKey input) = none := by
        have := hagree ((i, input), creditOpt) (List.mem_cons_self _ _)
        dsimp only at this
        rw [this]
        exact hnone
      by_cases hht : credit.coin.height = -1
      · rw [if_pos hht] at hok
        exact absurd hok (by simp)
      · rw [if_neg hht] at hok
        cases hacct : credit.coin.account with
        | none => rw [hacct] at hok; exact absurd hok (by simp)
        | some account =>
          rw [hacct] at hok
          dsimp only at hok
          obtain ⟨hinv', hwf', hframe'⟩ := ih _ _ _ _ hok hnodup'
            (by
              intro qr hq
              simp only [saveCredit_db_c]
              rw [hkey, findA_insertA_ne]
              · exact hagree qr (List.mem_cons_of_mem _ hq)
              · intro hc
                exact hknotin (hc ▸ List.mem_map_of_mem
                  (fun e => prevoutKey e.1.2) hq))
            (fun qr hq => hsfacts qr (List.mem_cons_of_mem _ hq))
            (insertA_wf _ _ _ hwfc)
            (by
              constructor
              · simp only [saveCredit_db_c, saveCredit_pending]
                rw [hkey, sumA_insertA _ _ _ _ hwfc, hfind_dr, hinv.1]
                simp [confWeight, contribA, hht]
              · simp only [saveCredit_db_c, saveCredit_pending]
                rw [hkey, sumA_insertA _ _ _ _ hwfc, hfind_dr, hinv.2]
                simp [unconfWeight, contribA])
          refine ⟨hinv', hwf', fun k hk => (hframe' k
            (fun qr hq => hk qr (List.mem_cons_of_mem _ hq))).trans ?_⟩
          simp only [saveCredit_db_c]
          rw [hkey]
          exact findA_insertA_ne _ _ _ _
            (by
              have := hk ((i, input), some credit) (List.mem_cons_self _ _)
              dsimp only at this
              exact this)

/-- The output loop of `disconnect` preserves the balance correspondence:
each owned output credit is re-saved at the mempool height and `confirmed`
is debited by exactly the output value. -/
theorem disconnectOutputs_inv (base : DB) (tx : TX) :
    ∀ (l : List (Nat × Output)) (dr : Draft) (accs : List Nat)
      (dr' : Draft) (accs' : List Nat),
      disconnectOutputs base tx l dr accs = .ok (dr', accs') →
      (l.map Prod.fst).Nodup →
      (∀ pr ∈ l, findA dr.db.c (tx.hash, pr.1) = findA base.c (tx.hash, pr.1)) →
      (∀ pr ∈ l, ∀ cr0, findA base.c (tx.hash, pr.1) = some cr0 →
        cr0.coin.height ≠ -1 ∧ cr0.coin.value = pr.2.value) →
      WfA dr.db.c → DraftInv dr →
      DraftInv dr' ∧ WfA dr'.db.c := by
  intro l
  induction l with
  | nil =>
    intro dr accs dr' accs' hok _ _ _ hwfc hinv
    simp only [disconnectOutputs] at hok
    cases hok
    exact ⟨hinv, hwfc⟩
  | cons pr rest ih =>
    intro dr accs dr' accs' hok hnodup hagree hfacts hwfc hinv
    rcases pr with ⟨i, output⟩
    rw [List.map_cons] at hnodup
    obtain ⟨hinotin, hnodup'⟩ := List.nodup_cons.mp hnodup
    have hne_rest : ∀ qr ∈ rest, ((tx.hash, qr.1) : Nat × Nat) ≠ (tx.hash, i) := by
      intro qr hq hc
      apply hinotin
      have hq1 : qr.1 = i := by
        have := congrArg Prod.snd hc
        simpa using this
      exact List.mem_map.mpr ⟨qr, hq, hq1⟩
    unfold disconnectOutputs at hok
    cases hacct : output.account with
    | none =>
      rw [hacct] at hok
      exact ih _ _ _ _ hok hnodup'
        (fun qr hq => hagree qr (List.mem_cons_of_mem _ hq))
        (fun qr hq => hfacts qr (List.mem_cons_of_mem _ hq)) hwfc hinv
    | some account =>
      rw [hacct] at hok
      dsimp only at hok
      rw [getCredit_eq] at hok
      cases hcr : findA base.c (tx.hash, i) with
      | none =>
        rw [hcr] at hok
        simp only [Option.map_none'] at hok
        refine ih _ _ _ _ hok hnodup' ?_
          (fun qr hq => hfacts qr (List.mem_cons_of_mem _ hq)) ?_ ?_
        · intro qr hq
          rw [updateSpentCoin_db_c]
          exact hagree qr (List.mem_cons_of_mem _ hq)
        · show WfA (updateSpentCoin base tx.hash tx.height i dr).db.c
          rw [updateSpentCoin_db_c]
          exact hwfc
        · constructor
          · rw [updateSpentCoin_pending, updateSpentCoin_db_c]
            exact hinv.1
          · rw [updateSpentCoin_pending, updateSpentCoin_db_c]
            exact hinv.2
      | some cr0 =>
        rw [hcr] at hok
        simp only [Option.map_some'] at hok
        obtain ⟨hht0, hval0⟩ := hfacts (i, output) (List.mem_cons_self _ _) cr0 hcr
        have hfind_dr : findA dr.db.c ((tx.hash, i) : Nat × Nat) = some cr0 := by
          rw [hagree (i, output) (List.mem_cons_self _ _)]
          exact hcr
        have husc_c : ∀ dr0 : Draft,
            (if cr0.spent = true then updateSpentCoin base tx.hash tx.height i dr0
              else dr0).db.c = dr0.db.c := by
          intro dr0
          split
          · rw [updateSpentCoin_db_c]
          · rfl
        have husc_p : ∀ dr0 : Draft,
            (if cr0.spent = true then updateSpentCoin base tx.hash tx.height i dr0
              else dr0).pending = dr0.pending := by
          intro dr0
          split
          · rw [updateSpentCoin_pending]
          · rfl
        refine ih _ _ _ _ hok hnodup' ?_
          (fun qr hq => hfacts qr (List.mem_cons_of_mem _ hq)) ?_ ?_
        · intro qr hq
          simp only [saveCredit_db_c]
          rw [findA_insertA_ne _ _ _ _ (hne_rest qr hq), husc_c]
          exact hagree qr (List.mem_cons_of_mem _ hq)
        · refine insertA_wf _ _ _ ?_
          show WfA (if cr0.spent = true then _ else _ : Draft).db.c
          rw [husc_c]
          exact hwfc
        · constructor
          · simp only [saveCredit_db_c, saveCredit_pending]
            rw [husc_p, husc_c, sumA_insertA _ _ _ _ hwfc, hfind_dr, hinv.1]
            simp [confWeight, contribA, hht0, hval0]
          · simp only [saveCredit_db_c, saveCredit_pending]
            rw [husc_p, husc_c, sumA_insertA _ _ _ _ hwfc, hfind_dr, hinv.2]
            cases hs : cr0.spent <;>
              simp [unconfWeight, contribA, hs]

/-- `disconnect` preserves the balance correspondence: on a draft whose
staged credit view is still the committed one, a successful disconnect
yields a draft whose pending counters again match the credit sums. -/
theorem disconnectTX_inv (base : DB) (tx : TX) (dr dr' : Draft) (accs' : List Nat)
    (hok : disconnectTX base tx dr = .ok (dr', accs'))
    (hwf : WfDisconnect base tx.unsetBlock)
    (hc0 : dr.db.c = base.c)
    (hwfcb : WfA base.c)
    (hinv : DraftInv dr) :
    DraftInv dr' ∧ WfA dr'.db.c := by
  obtain ⟨hnodup, hnoself, hinfacts, houtfacts⟩ := hwf
  have hwfc : WfA dr.db.c := by rw [hc0]; exact hwfcb
  unfold disconnectTX at hok
  by_cases hh : tx.height = -1
  · rw [if_pos hh] at hok
    exact absurd hok (by simp)
  · rw [if_neg hh] at hok
    dsimp only at hok
    have htail : ∀ (dr2 : Draft) (accs2 : List Nat),
        DraftInv dr2 → WfA dr2.db.c →
        ∀ (dr3 : Draft),
        dr3.db.c = dr2.db.c → dr3.pending = dr2.pending →
        DraftInv (emitEv .balanceEv (emitEv (.unconfirmedEv tx.unsetBlock.hash)
            (putState (accs2.foldl
              (disconnectAccountIndex tx.unsetBlock.hash tx.height) dr3)))) ∧
        WfA (emitEv .balanceEv (emitEv (.unconfirmedEv tx.unsetBlock.hash)
            (putState (accs2.foldl
              (disconnectAccountIndex tx.unsetBlock.hash tx.height) dr3)))).db.c := by
      intro dr2 accs2 hinv2 hwf2 dr3 h3c h3p
      have hfc : (accs2.foldl
          (disconnectAccountIndex tx.unsetBlock.hash tx.height) dr3).db.c
            = dr3.db.c :=
        foldl_draft_frame (fun d => d.db.c) _
          (disconnectAccountIndex_db_c tx.unsetBlock.hash tx.height) accs2 dr3
      have hfp : (accs2.foldl
          (disconnectAccountIndex tx.unsetBlock.hash tx.height) dr3).pending
            = dr3.pending :=
        foldl_draft_frame (fun d => d.pending) _
          (disconnectAccountIndex_pending tx.unsetBlock.hash tx.height) accs2 dr3
      constructor
      · constructor
        · show (accs2.foldl _ dr3).pending.confirmed
            = sumA confWeight (accs2.foldl _ dr3).db.c
          rw [hfc, hfp, h3c, h3p, hinv2.1]
        · show (accs2.foldl _ dr3).pending.unconfirmed
            = sumA unconfWeight (accs2.foldl _ dr3).db.c
          rw [hfc, hfp, h3c, h3p, hinv2.2]
      · show WfA (accs2.foldl _ dr3).db.c
        rw [hfc, h3c]
        exact hwf2
    have houtputs : ∀ (dr1 : Draft) (accs1 : List Nat),
        DraftInv dr1 → WfA dr1.db.c →
        (∀ pr ∈ tx.unsetBlock.outputs.enum,
          findA dr1.db.c (tx.unsetBlock.hash, pr.1)
            = findA base.c (tx.unsetBlock.hash, pr.1)) →
        ∀ (dr2 : Draft) (accs2 : List Nat),
        disconnectOutputs base tx.unsetBlock tx.unsetBlock.outputs.enum dr1 accs1
          = .ok (dr2, accs2) →
        DraftInv dr2 ∧ WfA dr2.db.c := by
      intro dr1 accs1 hinv1 hwfc1 hagree1 dr2 accs2 hout
      exact disconnectOutputs_inv base tx.unsetBlock tx.unsetBlock.outputs.enum
        dr1 accs1 dr2 accs2 hout (enum_fst_nodup _) hagree1 houtfacts hwfc1 hinv1
    cases hucb : tx.unsetBlock.coinbase with
    | true =>
      rw [hucb] at hok
      simp only [if_true] at hok
      cases hout : disconnectOutputs base tx.unsetBlock tx.unsetBlock.outputs.enum
          dr [] with
      | error e => rw [hout] at hok; exact absurd hok (by simp)
      | ok tr =>
        rw [hout] at hok
        rcases tr with ⟨dr2, accs2⟩
        dsimp only at hok
        cases hok
        obtain ⟨hinv2, hwf2⟩ := houtputs dr [] hinv hwfc
          (fun pr _ => by rw [hc0]) dr2 accs' hout
        exact htail dr2 accs' hinv2 hwf2 _ (by rw [removeBlock_db_c])
          (by rw [removeBlock_pending])
    | false =>
      rw [hucb] at hok
      simp only [Bool.false_eq_true, if_false] at hok
      rw [getSpentCredits_eq_map base tx.unsetBlock hucb, zip_map_self] at hok
      cases hin : disconnectInputs base tx.unsetBlock
          (tx.unsetBlock.inputs.enum.map
            (fun pr => (pr, spentCreditOf base tx.unsetBlock pr))) dr [] with
      | error e => rw [hin] at hok; exact absurd hok (by simp)
      | ok tr =>
        rw [hin] at hok
        rcases tr with ⟨dr1, accs1⟩
        dsimp only at hok
        obtain ⟨hinv1, hwf1, hframe1⟩ := disconnectInputs_inv base tx.unsetBlock _
          dr [] dr1 accs1 hin
          (by
            rw [List.map_map,
              show ((fun e : (Nat × Input) × Option Credit => prevoutKey e.1.2) ∘
                (fun pr => (pr, spentCreditOf base tx.unsetBlock pr)))
                = fun pr : Nat × Input => prevoutKey pr.2 from rfl,
              enum_map_snd_comp tx.unsetBlock.inputs prevoutKey]
            exact hnodup)
          (by
            intro e he
            rw [hc0])
          (by
            intro e he credit hce
            obtain ⟨pr, hpr, hpre⟩ := List.mem_map.mp he
            have hic := hinfacts pr hpr
            rw [← hpre] at hce ⊢
            dsimp only at hce ⊢
            unfold spentCreditOf at hce
            cases hd : findA base.d (tx.unsetBlock.hash, pr.1) with
            | none => rw [hd] at hce; exact absurd hce (by simp)
            | some dcoin =>
              rw [hd] at hce
              simp only [Option.map_some', Option.some.injEq] at hce
              exact ⟨by rw [← hce], by rw [← hce], hic dcoin hd⟩)
          hwfc hinv
        cases hout : disconnectOutputs base tx.unsetBlock tx.unsetBlock.outputs.enum
            dr1 accs1 with
        | error e => rw [hout] at hok; exact absurd hok (by simp)
        | ok tr2 =>
          rw [hout] at hok
          rcases tr2 with ⟨dr2, accs2⟩
          dsimp only at hok
          cases hok
          obtain ⟨hinv2, hwf2⟩ := houtputs dr1 accs1 hinv1 hwf1
            (by
              intro pr _
              rw [hframe1 (tx.unsetBlock.hash, pr.1) ?_, hc0]
              intro qr hqr hc
              obtain ⟨qr0, hqr0, hqre⟩ := List.mem_map.mp hqr
              apply hnoself qr0.2 (mem_snd_of_mem_enum hqr0)
              rw [← hqre] at hc
              exact (congrArg Prod.fst hc).symm)
            dr2 accs' hout
          exact htail dr2 accs' hinv2 hwf2 _ (by rw [removeBlock_db_c])
            (by rw [removeBlock_pending])

/-- Committing a draft whose pending state was serialized installs counters
that satisfy the balance correspondence. -/
theorem commitDraft_inv_true (b : TXDB) (dr : Draft)
    (hflag : dr.committedFlag = true) (hinv : DraftInv dr) :
    BalanceInv (b.commitDraft dr).1 := by
  unfold TXDB.commitDraft
  rw [hflag]
  simp only [if_true]
  unfold BalanceInv
  rw [getWalletBalance_eq_sumA]
  exact ⟨hinv.1, hinv.2⟩

/-- Committing a draft whose pending state was not serialized keeps the old
counters; if the staged credit family is unchanged the correspondence
carries over. -/
theorem commitDraft_inv_false (b : TXDB) (dr : Draft)
    (hflag : dr.committedFlag = false) (hc : dr.db.c = b.db.c)
    (hbal : BalanceInv b) :
    BalanceInv (b.commitDraft dr).1 := by
  unfold TXDB.commitDraft
  rw [hflag]
  simp only [Bool.false_eq_true, if_false]
  unfold BalanceInv at hbal ⊢
  rw [getWalletBalance_eq_sumA] at hbal ⊢
  rw [hc]
  exact ⟨hbal.1, hbal.2⟩

/-- When no input is marked spent by a foreign transaction, the gather phase
of `removeConflicts` collects nothing. -/
theorem gatherSpends_noforeign (base : DB) (txHash : Nat) (conf : Bool) :
    ∀ l : List Input, (∀ input ∈ l, ∀ spent,
        getSpent base input.prevout.hash input.prevout.index = some spent →
        spent.hash = txHash) →
      gatherSpends base txHash conf l = .ok (some []) := by
  intro l
  induction l with
  | nil => intro _; rfl
  | cons input rest ih =>
    intro h
    unfold gatherSpends
    cases hsp : getSpent base input.prevout.hash input.prevout.index with
    | none => exact ih (fun q hq => h q (List.mem_cons_of_mem _ hq))
    | some spent =>
      dsimp only
      rw [if_pos (h input (List.mem_cons_self _ _) spent hsp)]
      exact ih (fun q hq => h q (List.mem_cons_of_mem _ hq))

/-- Without foreign double-spend markers, `removeConflicts` removes nothing:
the committed base and the draft pass through untouched. -/
theorem removeConflicts_noforeign (fuel : Nat) (b : TXDB) (dr : Draft) (tx : TX)
    (conf : Bool) (h : NoForeignSpent b.db tx) :
    removeConflicts fuel b dr tx conf = ((b, []), .ok (dr, true)) := by
  unfold removeConflicts
  cases hcb : tx.coinbase with
  | true => simp only [if_true]
  | false =>
    simp only [Bool.false_eq_true, if_false]
    rw [gatherSpends_noforeign b.db tx.hash conf tx.inputs h]
    rfl

/-- When a transaction has no recorded spenders, the spender recursion of
`removeRecursive` touches nothing. -/
theorem removeSpenders_none (b : TXDB) (tx : TX)
    (hns : ∀ i : Nat, getSpent b.db tx.hash i = none) :
    ∀ (fuel n i : Nat), ∃ res, removeSpenders fuel b tx n i = ((b, []), res) := by
  intro fuel
  induction fuel with
  | zero => intro n i; exact ⟨.error .noFuel, rfl⟩
  | succ fuel ih =>
    intro n i
    unfold removeSpenders
    by_cases hlt : i < n
    · rw [if_pos hlt, hns i]
      exact ih n (i + 1)
    · rw [if_neg hlt]
      exact ⟨.ok (), rfl⟩

/-- A successful `insert` either serialized the pending state (the indexing
tail ran) or handed back the fresh draft over `b`. -/
theorem insert_flag (b : TXDB) (tx : TX) (dr dr' : Draft) (det : Option (List Nat))
    (hok : insert b tx dr = .ok (dr', det)) :
    dr'.committedFlag = true ∨ dr' = Draft.start b := by
  unfold insert at hok
  have hcont : ∀ (dr1 : Draft) (upd1 : Bool) (accs1 : List Nat),
      (match insertOutputs b.db tx tx.outputs.enum dr1 upd1 accs1 with
        | .error e => Except.error e
        | .ok (dr2, updated, accounts) =>
          if updated then Except.ok (indexTX b.db tx accounts dr2, some accounts)
          else Except.ok (Draft.start b, none)) = .ok (dr', det) →
      dr'.committedFlag = true ∨ dr' = Draft.start b := by
    intro dr1 upd1 accs1 hok1
    cases hout : insertOutputs b.db tx tx.outputs.enum dr1 upd1 accs1 with
    | error e => rw [hout] at hok1; exact absurd hok1 (by simp)
    | ok tr =>
      rw [hout] at hok1
      rcases tr with ⟨dr2, upd2, accs2⟩
      cases upd2 with
      | true =>
        simp only [if_true] at hok1
        cases hok1
        exact Or.inl rfl
      | false =>
        simp only [Bool.false_eq_true, if_false] at hok1
        cases hok1
        exact Or.inr rfl
  cases hcb : tx.coinbase with
  | true =>
    rw [hcb] at hok
    simp only [if_true] at hok
    exact hcont dr false [] hok
  | false =>
    rw [hcb] at hok
    simp only [Bool.false_eq_true, if_false] at hok
    cases hin : insertInputs b.db tx tx.inputs.enum dr false [] with
    | error e => rw [hin] at hok; exact absurd hok (by simp)
    | ok tr =>
      rw [hin] at hok
      rcases tr with ⟨dr1, upd1, accs1⟩
      exact hcont dr1 upd1 accs1 hok

/-- A successful `_confirm` always serializes the pending state. -/
theorem confirmTX_flag (base : DB) (tx : TX) (dr dr' : Draft) (accs' : List Nat)
    (hok : confirmTX base tx dr = .ok (dr', accs')) :
    dr'.committedFlag = true := by
  unfold confirmTX at hok
  have hcont : ∀ (dr1 : Draft) (accs1 : List Nat),
      (match confirmOutputs base tx tx.outputs.enum dr1 accs1 with
        | .error e => Except.error e
        | .ok (dr2, accounts) =>
          Except.ok (confirmIndex base tx accounts dr2, accounts)) = .ok (dr', accs') →
      dr'.committedFlag = true := by
    intro dr1 accs1 hok1
    cases hout : confirmOutputs base tx tx.outputs.enum dr1 accs1 with
    | error e => rw [hout] at hok1; exact absurd hok1 (by simp)
    | ok tr =>
      rw [hout] at hok1
      rcases tr with ⟨dr2, accs2⟩
      dsimp only at hok1
      cases hok1
      rfl
  cases hcb : tx.coinbase with
  | true =>
    rw [hcb] at hok
    simp only [if_true] at hok
    exact hcont dr [] hok
  | false =>
    rw [hcb] at hok
    simp only [Bool.false_eq_true, if_false] at hok
    cases hin : confirmInputs base tx
        (tx.inputs.enum.zip (getSpentCredits base tx)) dr [] with
    | error e => rw [hin] at hok; exact absurd hok (by simp)
    | ok tr =>
      rw [hin] at hok
      rcases tr with ⟨dr1, accs1⟩
      exact hcont dr1 accs1 hok

/-- A successful `erase` always serializes the pending state. -/
theorem eraseTX_flag (base : DB) (tx : TX) (dr dr' : Draft) (accs' : List Nat)
    (hok : eraseTX base tx dr = .ok (dr', accs')) :
    dr'.committedFlag = true := by
  unfold eraseTX at hok
  have hcont : ∀ (dr1 : Draft) (accs1 : List Nat),
      (match eraseOutputs base tx tx.outputs.enum dr1 accs1 with
        | .error e => Except.error e
        | .ok (dr2, accounts) =>
          Except.ok (eraseIndex base tx accounts dr2, accounts)) = .ok (dr', accs') →
      dr'.committedFlag = true := by
    intro dr1 accs1 hok1
    cases hout : eraseOutputs base tx tx.outputs.enum dr1 accs1 with
    | error e => rw [hout] at hok1; exact absurd hok1 (by simp)
    | ok tr =>
      rw [hout] at hok1
      rcases tr with ⟨dr2, accs2⟩
      dsimp only at hok1
      cases hok1
      rfl
  cases hcb : tx.coinbase with
  | true =>
    rw [hcb] at hok
    simp only [if_true] at hok
    exact hcont dr [] hok
  | false =>
    rw [hcb] at hok
    simp only [Bool.false_eq_true, if_false] at hok
    cases hin : eraseInputs base tx
        (tx.inputs.enum.zip (getSpentCredits base tx)) dr [] with
    | error e => rw [hin] at hok; exact absurd hok (by simp)
    | ok tr =>
      rw [hin] at hok
      rcases tr with ⟨dr1, accs1⟩
      exact hcont dr1 accs1 hok

/-- A successful `disconnect` always serializes the pending state. -/
theorem disconnectTX_flag (base : DB) (tx : TX) (dr dr' : Draft) (accs' : List Nat)
    (hok : disconnectTX base tx dr = .ok (dr', accs')) :
    dr'.committedFlag = true := by
  unfold disconnectTX at hok
  by_cases hh : tx.height = -1
  · rw [if_pos hh] at hok
    exact absurd hok (by simp)
  · rw [if_neg hh] at hok
    dsimp only at hok
    have hcont : ∀ (dr1 : Draft) (accs1 : List Nat),
        ∀ (dr2 : Draft) (accs2 : List Nat),
        disconnectOutputs base tx.unsetBlock tx.unsetBlock.outputs.enum dr1 accs1
          = .ok (dr2, accs2) → True := fun _ _ _ _ _ => trivial
    clear hcont
    cases hucb : tx.unsetBlock.coinbase with
    | true =>
      rw [hucb] at hok
      simp only [if_true] at hok
      cases hout : disconnectOutputs base tx.unsetBlock tx.unsetBlock.outputs.enum
          dr [] with
      | error e => rw [hout] at hok; exact absurd hok (by simp)
      | ok tr =>
        rw [hout] at hok
        rcases tr with ⟨dr2, accs2⟩
        dsimp only at hok
        cases hok
        rfl
    | false =>
      rw [hucb] at hok
      simp only [Bool.false_eq_true, if_false] at hok
      cases hin : disconnectInputs base tx.unsetBlock
          (tx.unsetBlock.inputs.enum.zip (getSpentCredits base tx.unsetBlock))
          dr [] with
      | error e => rw [hin] at hok; exact absurd hok (by simp)
      | ok tr =>
        rw [hin] at hok
        rcases tr with ⟨dr1, accs1⟩
        dsimp only at hok
        cases hout : disconnectOutputs base tx.unsetBlock tx.unsetBlock.outputs.enum
            dr1 accs1 with
        | error e => rw [hout] at hok; exact absurd hok (by simp)
        | ok tr2 =>
          rw [hout] at hok
          rcases tr2 with ⟨dr2, accs2⟩
          dsimp only at hok
          cases hok
          rfl

/-- `removeRecursive` and its spender loop preserve both the balance
correspondence and the key discipline of the credit family, on success and
on every error path, under the fuel-indexed removal well-formedness.  The
two components are proved together by induction on the fuel, mirroring the
mutual recursion. -/
theorem removal_preserves (fuel : Nat) :
    (∀ (b : TXDB) (tx : TX), RemovalWf fuel b tx → WfA b.db.c → BalanceInv b →
      BalanceInv (removeRecursive fuel b tx).1.1 ∧
        WfA (removeRecursive fuel b tx).1.1.db.c) ∧
    (∀ (b : TXDB) (tx : TX) (n i : Nat), SpendersWf fuel b tx n i →
      WfA b.db.c → BalanceInv b →
      BalanceInv (removeSpenders fuel b tx n i).1.1 ∧
        WfA (removeSpenders fuel b tx n i).1.1.db.c) := by
  induction fuel with
  | zero =>
    exact ⟨fun b tx _ hwfa hbal => ⟨hbal, hwfa⟩,
      fun b tx n i _ hwfa hbal => ⟨hbal, hwfa⟩⟩
  | succ fuel' ih =>
    obtain ⟨ihR, ihS⟩ := ih
    constructor
    · intro b tx hwf hwfa hbal
      rw [removalWf_succ] at hwf
      obtain ⟨hswf, herasewf⟩ := hwf
      unfold removeRecursive
      rcases hrs : removeSpenders fuel' b tx tx.outputs.length 0
        with ⟨⟨b1, evs1⟩, res1⟩
      have h1 : BalanceInv b1 ∧ WfA b1.db.c := by
        have h := ihS b tx tx.outputs.length 0 hswf hwfa hbal
        rw [hrs] at h
        exact h
      cases res1 with
      | error e => exact h1
      | ok u =>
        cases u
        dsimp only
        cases hetx : eraseTX b1.db tx (Draft.start b1) with
        | error e => exact h1
        | ok pr =>
          rcases pr with ⟨dr2, accounts⟩
          dsimp only
          have hwfe : WfErase b1.db tx := herasewf b1 evs1 hrs
          have hdi := eraseTX_inv b1.db tx (Draft.start b1) dr2 accounts hetx hwfe
            rfl h1.2 ((balanceInv_iff_start b1).mp h1.1)
          refine ⟨commitDraft_inv_true b1 dr2 (eraseTX_flag _ _ _ _ _ hetx) hdi.1, ?_⟩
          rw [commitDraft_db]
          exact hdi.2
    · intro b tx n i hwf hwfa hbal
      rw [spendersWf_succ] at hwf
      unfold removeSpenders
      by_cases hlt : i < n
      · rw [if_pos hlt]
        obtain ⟨hsome, hnone⟩ := hwf hlt
        cases hsp : getSpent b.db tx.hash i with
        | none => exact ihS b tx n (i + 1) (hnone hsp) hwfa hbal
        | some spent =>
          dsimp only
          cases hgt : getTX b.db spent.hash with
          | none => exact ⟨hbal, hwfa⟩
          | some stx =>
            dsimp only
            obtain ⟨hrwf, hnext⟩ := hsome spent hsp stx hgt
            rcases hrr : removeRecursive fuel' b stx with ⟨⟨b1, evs1⟩, res1⟩
            have h1 : BalanceInv b1 ∧ WfA b1.db.c := by
              have h := ihR b stx hrwf hwfa hbal
              rw [hrr] at h
              exact h
            cases res1 with
            | error e => exact h1
            | ok accs =>
              dsimp only
              have h2 := ihS b1 tx n (i + 1) (hnext b1 evs1 accs hrr) h1.2 h1.1
              rcases hrs2 : removeSpenders fuel' b1 tx n (i + 1)
                with ⟨⟨b2, evs2⟩, res2⟩
              rw [hrs2] at h2
              exact h2
      · rw [if_neg hlt]
        exact ⟨hbal, hwfa⟩

/-- `removeConflict` preserves the balance correspondence and, on success,
hands back a fresh draft opened over the state it committed. -/
theorem removeConflict_preserves (fuel : Nat) (b : TXDB) (spender : TX)
    (hwf : RemovalWf fuel b spender) (hwfa : WfA b.db.c) (hbal : BalanceInv b) :
    (BalanceInv (removeConflict fuel b spender).1.1 ∧
      WfA (removeConflict fuel b spender).1.1.db.c) ∧
    ∀ b1 evs dr1, removeConflict fuel b spender = ((b1, evs), .ok dr1) →
      dr1.db = b1.db ∧ dr1.pending = b1.state.clone ∧
        dr1.committedFlag = false := by
  have hR := (removal_preserves fuel).1 b spender hwf hwfa hbal
  unfold removeConflict
  rcases hrr : removeRecursive fuel b spender with ⟨⟨b1, evs1⟩, res1⟩
  rw [hrr] at hR
  cases res1 with
  | error e =>
    refine ⟨hR, ?_⟩
    intro b2 evs dr1 h
    injection h with h1 h2
    exact Except.noConfusion h2
  | ok accs =>
    dsimp only
    refine ⟨hR, ?_⟩
    intro b2 evs dr1 h
    injection h with h1 h2
    injection h1 with hb hev
    injection h2 with hdr
    subst hb
    subst hdr
    exact ⟨rfl, rfl, rfl⟩

/-- The conflict-removal loop preserves the balance correspondence; a
successful pass hands back either the untouched incoming draft over the
untouched base or a fresh draft opened over the final committed state. -/
theorem removeConflictList_preserves (fuel : Nat) (spends : List TX) :
    ∀ (b : TXDB) (dr : Draft), ConflictListWf fuel b spends →
      WfA b.db.c → BalanceInv b →
      (BalanceInv (removeConflictList fuel b dr spends).1.1 ∧
        WfA (removeConflictList fuel b dr spends).1.1.db.c) ∧
      ∀ b1 evs dr1,
        removeConflictList fuel b dr spends = ((b1, evs), .ok dr1) →
        (dr1 = dr ∧ b1 = b) ∨
        (dr1.db = b1.db ∧ dr1.pending = b1.state.clone ∧
          dr1.committedFlag = false) := by
  induction spends with
  | nil =>
    intro b dr _ hwfa hbal
    refine ⟨⟨hbal, hwfa⟩, ?_⟩
    intro b1 evs dr1 h
    injection h with h1 h2
    injection h1 with hb hev
    injection h2 with hdr
    exact Or.inl ⟨hdr.symm, hb.symm⟩
  | cons spender rest ih =>
    intro b dr hwf hwfa hbal
    rw [conflictListWf_cons] at hwf
    obtain ⟨hrwf, hrest⟩ := hwf
    have hC := removeConflict_preserves fuel b spender hrwf hwfa hbal
    unfold removeConflictList
    rcases hrc : removeConflict fuel b spender with ⟨⟨b1, evs1⟩, res1⟩
    rw [hrc] at hC
    cases res1 with
    | error e =>
      refine ⟨hC.1, ?_⟩
      intro b2 evs dr2 h
      injection h with h1 h2
      exact Except.noConfusion h2
    | ok dr1 =>
      dsimp only
      obtain ⟨hdb, hpend, hflag⟩ := hC.2 b1 evs1 dr1 rfl
      have hih := ih b1 dr1 (hrest b1 evs1 dr1 hrc) hC.1.2 hC.1.1
      rcases hrl : removeConflictList fuel b1 dr1 rest with ⟨⟨b2, evs2⟩, res2⟩
      rw [hrl] at hih
      cases res2 with
      | error e =>
        refine ⟨hih.1, ?_⟩
        intro b3 evs3 dr3 h
        injection h with h1 h2
        exact Except.noConfusion h2
      | ok dr2 =>
        refine ⟨hih.1, ?_⟩
        intro b3 evs3 dr3 h
        injection h with h1 h2
        injection h1 with hb hev
        injection h2 with hdr
        subst hb
        subst hdr
        rcases hih.2 b2 evs2 dr2 rfl with ⟨rfl, rfl⟩ | hcase
        · exact Or.inr ⟨hdb, hpend, hflag⟩
        · exact Or.inr hcase

/-- With `conf = false` the gather phase never signals an abort: the
`ok none` result only arises from a confirmed foreign spender under
`conf`. -/
theorem gatherSpends_conf_false (base : DB) (txHash : Nat) :
    ∀ l : List Input, gatherSpends base txHash false l ≠ .ok none := by
  intro l
  induction l with
  | nil => intro h; exact Option.noConfusion (Except.ok.inj h)
  | cons input rest ih =>
    intro h
    unfold gatherSpends at h
    cases hsp : getSpent base input.prevout.hash input.prevout.index with
    | none => rw [hsp] at h; exact ih h
    | some spent =>
      rw [hsp] at h
      dsimp only at h
      by_cases heq : spent.hash = txHash
      · rw [if_pos heq] at h
        exact ih h
      · rw [if_neg heq] at h
        cases hgt : getTX base spent.hash with
        | none => rw [hgt] at h; exact Except.noConfusion h
        | some spender =>
          rw [hgt] at h
          dsimp only at h
          rw [if_neg (fun hc => Bool.noConfusion hc.1)] at h
          cases hrec : gatherSpends base txHash false rest with
          | error e => rw [hrec] at h; exact Except.noConfusion h
          | ok o =>
            rw [hrec] at h
            cases o with
            | none => exact ih hrec
            | some spends =>
              dsimp only at h
              exact Option.noConfusion (Except.ok.inj h)

/-- `removeConflicts` preserves the balance correspondence; a successful
pass additionally reports how the draft it hands back relates to the
committed base the subsequent `insert` will run over, and where that base
came from. -/
theorem removeConflicts_preserves (fuel : Nat) (b : TXDB) (dr : Draft) (tx : TX)
    (conf : Bool)
    (hclwf : ∀ spends, gatherSpends b.db tx.hash conf tx.inputs = .ok (some spends) →
      ConflictListWf fuel b spends)
    (hwfa : WfA b.db.c) (hbal : BalanceInv b) :
    (BalanceInv (removeConflicts fuel b dr tx conf).1.1 ∧
      WfA (removeConflicts fuel b dr tx conf).1.1.db.c) ∧
    ∀ b1 evs dr1 ok1,
      removeConflicts fuel b dr tx conf = ((b1, evs), .ok (dr1, ok1)) →
      ((dr1 = dr ∧ b1 = b) ∨
        (dr1.db = b1.db ∧ dr1.pending = b1.state.clone ∧
          dr1.committedFlag = false)) ∧
      (ok1 = false → b1 = b ∧ dr1 = dr ∧
        gatherSpends b.db tx.hash conf tx.inputs = .ok none ∧
        tx.coinbase = false) ∧
      (ok1 = true →
        (tx.coinbase = true ∧ b1 = b ∧ dr1 = dr) ∨
        ∃ spends, gatherSpends b.db tx.hash conf tx.inputs = .ok (some spends) ∧
          ∃ evs0, removeConflictList fuel b dr spends = ((b1, evs0), .ok dr1)) := by
  unfold removeConflicts
  by_cases hcb : tx.coinbase = true
  · rw [if_pos hcb]
    refine ⟨⟨hbal, hwfa⟩, ?_⟩
    intro b1 evs dr1 ok1 h
    injection h with h1 h2
    injection h1 with hb hev
    injection h2 with hdo
    injection hdo with hdr hok
    refine ⟨Or.inl ⟨hdr.symm, hb.symm⟩, fun hf => ?_,
      fun _ => Or.inl ⟨hcb, hb.symm, hdr.symm⟩⟩
    rw [← hok] at hf
    exact Bool.noConfusion hf
  · rw [if_neg hcb]
    have hcbf : tx.coinbase = false := by
      cases hcbv : tx.coinbase with
      | false => rfl
      | true => exact absurd hcbv hcb
    cases hg : gatherSpends b.db tx.hash conf tx.inputs with
    | error e =>
      refine ⟨⟨hbal, hwfa⟩, ?_⟩
      intro b1 evs dr1 ok1 h
      injection h with h1 h2
      exact Except.noConfusion h2
    | ok o =>
      cases o with
      | none =>
        dsimp only
        refine ⟨⟨hbal, hwfa⟩, ?_⟩
        intro b1 evs dr1 ok1 h
        injection h with h1 h2
        injection h1 with hb hev
        injection h2 with hdo
        injection hdo with hdr hok
        refine ⟨Or.inl ⟨hdr.symm, hb.symm⟩,
          fun _ => ⟨hb.symm, hdr.symm, rfl, hcbf⟩, fun ht => ?_⟩
        rw [← hok] at ht
        exact Bool.noConfusion ht
      | some spends =>
        dsimp only
        have hL := removeConflictList_preserves fuel spends b dr
          (hclwf spends hg) hwfa hbal
        rcases hrl : removeConflictList fuel b dr spends with ⟨⟨b1, evs1⟩, res1⟩
        rw [hrl] at hL
        cases res1 with
        | error e =>
          refine ⟨hL.1, ?_⟩
          intro b2 evs dr2 ok1 h
          injection h with h1 h2
          exact Except.noConfusion h2
        | ok dr1 =>
          dsimp only
          refine ⟨hL.1, ?_⟩
          intro b2 evs dr2 ok1 h
          injection h with h1 h2
          injection h1 with hb hev
          injection h2 with hdo
          injection hdo with hdr hok
          subst hb
          subst hdr
          refine ⟨hL.2 b1 evs1 dr1 rfl, fun hf => ?_,
            fun _ => Or.inr ⟨spends, rfl, evs1, hrl⟩⟩
          rw [← hok] at hf
          exact Bool.noConfusion hf

/-- `add` preserves the balance correspondence on every dispatch path. -/
theorem add_preserves (fuel : Nat) (b : TXDB) (tx : TX)
    (hwf : WfOp fuel b (.addW tx)) (hwfa : WfA b.db.c) (hbal : BalanceInv b) :
    BalanceInv (add fuel b tx).1 := by
  obtain ⟨hpromote, hfresh⟩ := hwf
  unfold add addBody
  by_cases hmut : tx.mutableFlag = true
  · rw [if_pos hmut]
    exact hbal
  · rw [if_neg hmut]
    cases hex : getTX b.db tx.hash with
    | some existing =>
      dsimp only
      by_cases h1 : existing.height ≠ -1
      · rw [if_pos h1]
        exact commitDraft_inv_false b (Draft.start b) rfl rfl hbal
      · rw [if_neg h1]
        by_cases h2 : tx.height = -1
        · rw [if_pos h2]
          exact commitDraft_inv_false b (Draft.start b) rfl rfl hbal
        · rw [if_neg h2]
          cases hctx : confirmTX b.db (copyBlockFields existing tx) (Draft.start b) with
          | error e => exact hbal
          | ok pr =>
            rcases pr with ⟨dr, accounts⟩
            dsimp only
            have hconf := hpromote existing hex (not_not.mp h1) h2
            have hdi := confirmTX_inv b.db (copyBlockFields existing tx)
              (Draft.start b) dr accounts hctx hconf rfl hwfa
              ((balanceInv_iff_start b).mp hbal)
            exact commitDraft_inv_true b dr
              (confirmTX_flag _ _ _ _ _ hctx) hdi.1
    | none =>
      dsimp only
      obtain ⟨hcbins, hconflict⟩ := hfresh hex
      by_cases h2 : tx.height = -1
      · rw [if_pos h2]
        by_cases hrbf : isRBF b.db tx = true
        · rw [if_pos hrbf]
          dsimp only
          exact commitDraft_inv_false b _ rfl rfl hbal
        · rw [if_neg hrbf]
          have hRC := removeConflicts_preserves fuel b (Draft.start b) tx true
            (fun spends hg => (hconflict true spends hg).1) hwfa hbal
          rcases hrc : removeConflicts fuel b (Draft.start b) tx true
            with ⟨⟨b1, evs1⟩, res1⟩
          rw [hrc] at hRC
          cases res1 with
          | error e => exact hRC.1.1
          | ok pr =>
            rcases pr with ⟨dr1, ok1⟩
            obtain ⟨hdrrel, hfalse, htrue⟩ := hRC.2 b1 evs1 dr1 ok1 rfl
            cases ok1 with
            | false =>
              dsimp only
              obtain ⟨hb1, hdr1, hgnone, hcbf⟩ := hfalse rfl
              rw [hb1, hdr1]
              exact commitDraft_inv_false b (Draft.start b) rfl rfl hbal
            | true =>
              dsimp only
              have hWfIns : WfInsert b1.db tx := by
                cases htrue rfl with
                | inl hc =>
                  rw [hc.2.1]
                  exact hcbins hc.1
                | inr hc =>
                  obtain ⟨spends, hg, evs0, hlist⟩ := hc
                  exact (hconflict true spends hg).2 (Draft.start b) b1 evs0 dr1 hlist
              have hbal1 : BalanceInv b1 := hRC.1.1
              have hwfa1 : WfA b1.db.c := hRC.1.2
              have hc0 : dr1.db.c = b1.db.c := by
                cases hdrrel with
                | inl hc => rw [hc.1, hc.2]; rfl
                | inr hc => rw [hc.1]
              have hinv1 : DraftInv dr1 := by
                cases hdrrel with
                | inl hc =>
                  rw [hc.1]
                  exact (balanceInv_iff_start b).mp hbal
                | inr hc =>
                  exact draftInv_of_parts b1 dr1 (by rw [hc.1])
                    (by rw [hc.2.1]; rfl) (by rw [hc.2.1]; rfl) hbal1
              cases hins : insert b1 tx dr1 with
              | error e => exact hbal1
              | ok pr2 =>
                rcases pr2 with ⟨dr2, det⟩
                dsimp only
                have hdi := insert_inv b1 tx dr1 dr2 det hins hWfIns hc0 hinv1
                  hwfa1 hbal1
                cases insert_flag b1 tx dr1 dr2 det hins with
                | inl hflag => exact commitDraft_inv_true b1 dr2 hflag hdi.1
                | inr hstart =>
                  rw [hstart]
                  exact commitDraft_inv_false b1 (Draft.start b1) rfl rfl hbal1
      · rw [if_neg h2]
        have hRC := removeConflicts_preserves fuel b (Draft.start b) tx false
          (fun spends hg => (hconflict false spends hg).1) hwfa hbal
        rcases hrc : removeConflicts fuel b (Draft.start b) tx false
          with ⟨⟨b1, evs1⟩, res1⟩
        rw [hrc] at hRC
        cases res1 with
        | error e => exact hRC.1.1
        | ok pr =>
          rcases pr with ⟨dr1, ok1⟩
          dsimp only
          obtain ⟨hdrrel, hfalse, htrue⟩ := hRC.2 b1 evs1 dr1 ok1 rfl
          have hok1 : ok1 = true := by
            cases ok1 with
            | true => rfl
            | false =>
              obtain ⟨_, _, hgnone, _⟩ := hfalse rfl
              exact absurd hgnone (gatherSpends_conf_false b.db tx.hash tx.inputs)
          have hWfIns : WfInsert b1.db tx := by
            cases htrue hok1 with
            | inl hc =>
              rw [hc.2.1]
              exact hcbins hc.1
            | inr hc =>
              obtain ⟨spends, hg, evs0, hlist⟩ := hc
              exact (hconflict false spends hg).2 (Draft.start b) b1 evs0 dr1 hlist
          have hbal1 : BalanceInv b1 := hRC.1.1
          have hwfa1 : WfA b1.db.c := hRC.1.2
          have hc0 : dr1.db.c = b1.db.c := by
            cases hdrrel with
            | inl hc => rw [hc.1, hc.2]; rfl
            | inr hc => rw [hc.1]
          have hinv1 : DraftInv dr1 := by
            cases hdrrel with
            | inl hc =>
              rw [hc.1]
              exact (balanceInv_iff_start b).mp hbal
            | inr hc =>
              exact draftInv_of_parts b1 dr1 (by rw [hc.1])
                (by rw [hc.2.1]; rfl) (by rw [hc.2.1]; rfl) hbal1
          cases hins : insert b1 tx { dr1 with
              db := { dr1.db with r := eraseA dr1.db.r tx.hash } } with
          | error e => exact hbal1
          | ok pr2 =>
            rcases pr2 with ⟨dr2, det⟩
            dsimp only
            have hdi := insert_inv b1 tx _ dr2 det hins hWfIns hc0 hinv1
              hwfa1 hbal1
            cases insert_flag b1 tx _ dr2 det hins with
            | inl hflag => exact commitDraft_inv_true b1 dr2 hflag hdi.1
            | inr hstart =>
              rw [hstart]
              exact commitDraft_inv_false b1 (Draft.start b1) rfl rfl hbal1

/-- `confirm` preserves the balance correspondence on every dispatch path. -/
theorem confirm_preserves (fuel : Nat) (b : TXDB) (hash : Nat) (block : BlockMeta)
    (hwf : WfOp fuel b (.confirmW hash block)) (hwfa : WfA b.db.c)
    (hbal : BalanceInv b) :
    BalanceInv (confirm b hash block).1 := by
  unfold confirm
  cases hex : getTX b.db hash with
  | none => exact hbal
  | some tx =>
    dsimp only
    by_cases h1 : tx.height ≠ -1
    · rw [if_pos h1]
      exact hbal
    · rw [if_neg h1]
      cases hctx : confirmTX b.db (setBlockFields tx block) (Draft.start b) with
      | error e => exact hbal
      | ok pr =>
        rcases pr with ⟨dr, accounts⟩
        dsimp only
        have hconf := hwf tx hex (not_not.mp h1)
        have hdi := confirmTX_inv b.db (setBlockFields tx block) (Draft.start b)
          dr accounts hctx hconf rfl hwfa ((balanceInv_iff_start b).mp hbal)
        exact commitDraft_inv_true b dr (confirmTX_flag _ _ _ _ _ hctx) hdi.1

/-- `unconfirm` preserves the balance correspondence on every dispatch path. -/
theorem unconfirm_preserves (fuel : Nat) (b : TXDB) (hash : Nat)
    (hwf : WfOp fuel b (.unconfirmW hash)) (hwfa : WfA b.db.c)
    (hbal : BalanceInv b) :
    BalanceInv (unconfirm b hash).1 := by
  unfold unconfirm
  cases hex : getTX b.db hash with
  | none =>
    dsimp only
    exact commitDraft_inv_false b (Draft.start b) rfl rfl hbal
  | some tx =>
    dsimp only
    cases hdtx : disconnectTX b.db tx (Draft.start b) with
    | error e => exact hbal
    | ok pr =>
      rcases pr with ⟨dr, accounts⟩
      dsimp only
      have hdi := disconnectTX_inv b.db tx (Draft.start b) dr accounts hdtx
        (hwf tx hex) rfl hwfa ((balanceInv_iff_start b).mp hbal)
      exact commitDraft_inv_true b dr (disconnectTX_flag _ _ _ _ _ hdtx) hdi.1

/-- `remove` preserves the balance correspondence on every dispatch path:
the recursive spender removal and the final `erase` commit are covered by
`removal_preserves`. -/
theorem removeTX_preserves (fuel : Nat) (b : TXDB) (hash : Nat)
    (hwf : WfOp fuel b (.removeW hash)) (hwfa : WfA b.db.c) (hbal : BalanceInv b) :
    BalanceInv (removeTX fuel b hash).1.1 := by
  unfold removeTX
  cases hex : getTX b.db hash with
  | none => exact hbal
  | some tx =>
    dsimp only
    have hR := (removal_preserves fuel).1 b tx (hwf tx hex) hwfa hbal
    rcases hrr : removeRecursive fuel b tx with ⟨⟨b1, evs1⟩, res1⟩
    rw [hrr] at hR
    cases res1 with
    | error e => exact hR.1
    | ok accs => exact hR.1

/-- **C1.**  Every committed write of the TXDB preserves the balance
invariant: after any of the four write entry points (`add`, `confirm`,
`unconfirm`, `remove`) runs on a well-formed observable state whose
committed `confirmed`/`unconfirmed` counters equal the balance recomputed
from the stored credits (`getWalletBalance`), the resulting committed state
satisfies the same correspondence — whether the call succeeded, was a
no-op, or threw after dropping its batch. -/
theorem exec_preserves_balance (fuel : Nat) (b : TXDB) (op : WOp)
    (b1 : TXDB) (evs : List Event) (res : Except Err (Option (List Nat)))
    (hrun : exec fuel b op = (b1, evs, res))
    (hwf : WfOp fuel b op)
    (hwfa : WfA b.db.c)
    (hbal : BalanceInv b) :
    BalanceInv b1 := by
  cases op with
  | addW tx =>
    have h := add_preserves fuel b tx hwf hwfa hbal
    have hfst : (add fuel b tx).1 = b1 := by
      rw [show exec fuel b (.addW tx) = add fuel b tx from rfl] at hrun
      rw [hrun]
    exact hfst ▸ h
  | confirmW hash block =>
    have h := confirm_preserves fuel b hash block hwf hwfa hbal
    have hfst : (confirm b hash block).1 = b1 := by
      rw [show exec fuel b (.confirmW hash block) = confirm b hash block
        from rfl] at hrun
      rw [hrun]
    exact hfst ▸ h
  | unconfirmW hash =>
    have h := unconfirm_preserves fuel b hash hwf hwfa hbal
    have hfst : (unconfirm b hash).1 = b1 := by
      rw [show exec fuel b (.unconfirmW hash) = unconfirm b hash from rfl] at hrun
      rw [hrun]
    exact hfst ▸ h
  | removeW hash =>
    have h := removeTX_preserves fuel b hash hwf hwfa hbal
    simp only [exec] at hrun
    rcases hrm : removeTX fuel b hash with ⟨⟨bT, evsT⟩, resT⟩
    rw [hrm] at hrun h
    cases resT with
    | error e =>
      dsimp only at hrun
      cases hrun
      exact h
    | ok det =>
      dsimp only at hrun
      cases hrun
      exact h

/-- Witness fixture: an empty wallet. -/
def bC1 : TXDB := ⟨{}, {}, []⟩

/-- Witness fixture: a mempool transaction with no inputs and one owned
output paying 7 to account 2. -/
def txC1 : TX :=
  { hash := 40, inputs := [], outputs := [{ value := 7, account := some 2 }] }

theorem exec_preserves_balance_witness :
    BalanceInv (exec 2 bC1 (.addW txC1)).1 ∧
    (exec 2 bC1 (.addW txC1)).1.state.unconfirmed = 7 ∧
    findA (exec 2 bC1 (.addW txC1)).1.db.c (40, 0) =
      some ⟨⟨40, 0, 7, -1, some 2⟩, false⟩ := by
  refine ⟨exec_preserves_balance 2 bC1 (.addW txC1) _ _ _ rfl ?_ (by decide)
    ⟨rfl, rfl⟩, by decide, by decide⟩
  constructor
  · intro ex hex
    have hn : getTX bC1.db txC1.hash = none := rfl
    rw [hn] at hex
    exact Option.noConfusion hex
  · intro _
    constructor
    · intro hcb
      exact absurd hcb (by decide)
    · intro conf spends hg
      have h0 : gatherSpends bC1.db txC1.hash conf txC1.inputs =
          Except.ok (some ([] : List TX)) := rfl
      rw [h0] at hg
      injection hg with h1
      injection h1 with h2
      subst h2
      refine ⟨conflictListWf_nil 2 bC1, ?_⟩
      intro dr b1 evs dr1 hrc
      rw [show removeConflictList 2 bC1 dr [] = ((bC1, []), Except.ok dr)
        from rfl] at hrc
      injection hrc with hp1 hp2
      injection hp1 with hb hev
      subst hb
      exact ⟨List.nodup_nil, fun input hin => absurd hin (List.not_mem_nil _),
        fun input hin => absurd hin (List.not_mem_nil _), fun i => rfl⟩

/-! ## C2: the add/erase round trip.

The characterization lemmas below compute, key by key, the database staged
by `insert` and by the matching `erase`, at either height.  `zs` pairs each
enumerated input with the credit stored under its prevout (`none` when the
input is not recognized). -/

/-- Accumulate a list of touched accounts with `utils.binaryInsert`. -/
def pushList (as : List Nat) (accs : List Nat) : List Nat :=
  as.foldl (fun acc a => pushAccount a acc) accs

/-- The account stream of the output loops: the accounts of the owned
outputs, in order. -/
def outAccounts (l : List (Nat × Output)) : List Nat :=
  l.filterMap (fun pr => pr.2.account)

/-- The value stream of the owned outputs, in order. -/
def outVals (l : List (Nat × Output)) : List Int :=
  l.filterMap (fun pr => pr.2.account.map (fun _ => pr.2.value))

/-- The account stream of the input loops: the accounts of the recognized
(credit-bearing) inputs, in order. -/
def credAccounts (zs : List ((Nat × Input) × Option Credit)) : List Nat :=
  zs.filterMap (fun e => e.2.map (fun cr => cr.coin.account.getD 0))

/-- The value stream of the recognized inputs, in order. -/
def credVals (zs : List ((Nat × Input) × Option Credit)) : List Int :=
  zs.filterMap (fun e => e.2.map (fun cr => cr.coin.value))

/-- The input loop of `insert`, computed key by key, at either height: every
recognized spent credit is re-saved mempool-spent (or removed outright when
the spender is mined), every input gets its spent marker (recognized ones
also an undo coin), the `coin` counter drops by the number of recognized
inputs and `unconfirmed` by their total value (`confirmed` too when mined);
nothing else moves. -/
theorem insertInputs_chars (base : DB) (tx : TX) :
    ∀ (zs : List ((Nat × Input) × Option Credit)) (dr : Draft) (upd : Bool)
        (accs : List Nat),
      (∀ e ∈ zs, ∀ cr, e.2 = some cr →
        findA base.c (prevoutKey e.1.2) = some cr ∧
        cr.coin.hash = e.1.2.prevout.hash ∧
        cr.coin.index = e.1.2.prevout.index ∧
        cr.coin.account.isSome) →
      (∀ e ∈ zs, e.2 = none → findA base.c (prevoutKey e.1.2) = none) →
      (zs.map (fun e => prevoutKey e.1.2)).Nodup →
      (zs.map (fun e => e.1.1)).Nodup →
      ∃ dr' upd',
        insertInputs base tx (zs.map Prod.fst) dr upd accs
          = .ok (dr', upd', pushList (credAccounts zs) accs) ∧
        upd' = (upd || zs.any (fun e => e.2.isSome)) ∧
        (∀ e ∈ zs, ∀ cr, e.2 = some cr →
          findA dr'.db.c (prevoutKey e.1.2)
            = if tx.height = -1 then some { cr with spent := true } else none) ∧
        (∀ k, (∀ e ∈ zs, ∀ cr, e.2 = some cr → k ≠ prevoutKey e.1.2) →
          findA dr'.db.c k = findA dr.db.c k) ∧
        (∀ e ∈ zs, ∀ cr, e.2 = some cr →
          findA dr'.db.C
            (cr.coin.account.getD 0, e.1.2.prevout.hash, e.1.2.prevout.index)
            = if tx.height = -1 then some () else none) ∧
        (∀ k, (∀ e ∈ zs, ∀ cr, e.2 = some cr → k ≠ ((cr.coin.account.getD 0,
            e.1.2.prevout.hash, e.1.2.prevout.index) : Nat × Nat × Nat)) →
          findA dr'.db.C k = findA dr.db.C k) ∧
        (∀ e ∈ zs, findA dr'.db.s (prevoutKey e.1.2)
            = some (Outpoint.mk tx.hash e.1.1)) ∧
        (∀ k, (∀ e ∈ zs, k ≠ prevoutKey e.1.2) →
          findA dr'.db.s k = findA dr.db.s k) ∧
        (∀ e ∈ zs, ∀ cr, e.2 = some cr →
          findA dr'.db.d (tx.hash, e.1.1) = some cr.coin) ∧
        (∀ k, (∀ e ∈ zs, ∀ cr, e.2 = some cr → k ≠ ((tx.hash, e.1.1) : Nat × Nat)) →
          findA dr'.db.d k = findA dr.db.d k) ∧
        dr'.pending.coin = dr.pending.coin - (credVals zs).length ∧
        dr'.pending.unconfirmed = dr.pending.unconfirmed - (credVals zs).sum ∧
        dr'.pending.confirmed = dr.pending.confirmed
          - (if tx.height = -1 then 0 else (credVals zs).sum) ∧
        dr'.pending.tx = dr.pending.tx ∧
        dr'.pending.committed = dr.pending.committed ∧
        dr'.db.t = dr.db.t ∧ dr'.db.m = dr.db.m ∧ dr'.db.p = dr.db.p ∧
        dr'.db.h = dr.db.h ∧ dr'.db.T = dr.db.T ∧ dr'.db.M = dr.db.M ∧
        dr'.db.P = dr.db.P ∧ dr'.db.H = dr.db.H ∧ dr'.db.b = dr.db.b ∧
        dr'.db.r = dr.db.r ∧ dr'.db.R = dr.db.R ∧
        dr'.committedFlag = dr.committedFlag := by
  intro zs
  induction zs with
  | nil =>
    intro dr upd accs _ _ _ _
    exact ⟨dr, upd, rfl, by simp,
      fun e he => absurd he (by simp), fun k _ => rfl,
      fun e he => absurd he (by simp), fun k _ => rfl,
      fun e he => absurd he (by simp), fun k _ => rfl,
      fun e he => absurd he (by simp), fun k _ => rfl,
      by simp [credVals], by simp [credVals],
      by simp [credVals], rfl, rfl,
      rfl, rfl, rfl, rfl, rfl, rfl, rfl, rfl, rfl, rfl, rfl, rfl⟩
  | cons e zs ih =>
    intro dr upd accs hfacts hnone hnodupK hnodupI
    rcases e with ⟨⟨i, input⟩, co⟩
    rw [List.map_cons] at hnodupK hnodupI
    obtain ⟨hknotin, hnodupK'⟩ := List.nodup_cons.mp hnodupK
    obtain ⟨hinotin, hnodupI'⟩ := List.nodup_cons.mp hnodupI
    dsimp only at hknotin hinotin
    cases co with
    | none =>
      have hgn : getCredit base input.prevout.hash input.prevout.index
          = none := by
        rw [getCredit_eq,
          show ((input.prevout.hash, input.prevout.index) : Nat × Nat)
            = prevoutKey input from rfl,
          hnone ((i, input), none) (List.mem_cons_self _ _) rfl]
        rfl
      rw [List.map_cons]
      unfold insertInputs
      rw [hgn]
      dsimp only
      obtain ⟨dr', upd', hrec, hupd, hc1, hc2, hC1, hC2, hs1, hs2, hd1, hd2,
          hpc, hpu, hpcf, hpt, hpcm, hft, hfm, hfp, hfh, hfT, hfM, hfP, hfH,
          hfb, hfr, hfR, hfl⟩ :=
        ih (writeInput tx.hash i input.prevout dr) upd accs
          (fun q hq => hfacts q (List.mem_cons_of_mem _ hq))
          (fun q hq => hnone q (List.mem_cons_of_mem _ hq)) hnodupK' hnodupI'
      have hcA : credAccounts (((i, input), (none : Option Credit)) :: zs)
          = credAccounts zs := by
        simp [credAccounts, List.filterMap_cons]
      have hcV : credVals (((i, input), (none : Option Credit)) :: zs)
          = credVals zs := by
        simp [credVals, List.filterMap_cons]
      have hany : ((((i, input), (none : Option Credit)) :: zs).any
          (fun e => e.2.isSome)) = zs.any (fun e => e.2.isSome) := by
        simp
      refine ⟨dr', upd', by rw [hrec, hcA], by rw [hupd, hany],
        ?_, ?_, ?_, ?_, ?_, ?_, ?_, ?_,
        by rw [hpc, hcV]; rfl, by rw [hpu, hcV]; rfl, by rw [hpcf, hcV]; rfl,
        hpt.trans rfl, hpcm.trans rfl, hft.trans rfl, hfm.trans rfl,
        hfp.trans rfl, hfh.trans rfl, hfT.trans rfl, hfM.trans rfl,
        hfP.trans rfl, hfH.trans rfl, hfb.trans rfl, hfr.trans rfl,
        hfR.trans rfl, hfl.trans rfl⟩
      · intro q hq cr' hq2
        rcases List.mem_cons.mp hq with hq | hq
        · subst hq
          exact absurd hq2 (by simp)
        · exact hc1 q hq cr' hq2
      · intro k hk
        exact (hc2 k (fun q hq => hk q (List.mem_cons_of_mem _ hq))).trans rfl
      · intro q hq cr' hq2
        rcases List.mem_cons.mp hq with hq | hq
        · subst hq
          exact absurd hq2 (by simp)
        · exact hC1 q hq cr' hq2
      · intro k hk
        exact (hC2 k (fun q hq => hk q (List.mem_cons_of_mem _ hq))).trans rfl
      · intro q hq
        rcases List.mem_cons.mp hq with hq | hq
        · subst hq
          dsimp only
          refine (hs2 (prevoutKey input) ?_).trans ?_
          · intro q' hq' hc
            exact hknotin (hc ▸ List.mem_map_of_mem
              (fun e => prevoutKey e.1.2) hq')
          · show findA (insertA _ ((input.prevout.hash, input.prevout.index)
                : Nat × Nat) (Outpoint.mk tx.hash i)) _ = _
            exact findA_insertA_self _ _ _
        · exact hs1 q hq
      · intro k hk
        refine (hs2 k (fun q hq => hk q (List.mem_cons_of_mem _ hq))).trans ?_
        show findA (insertA _ ((input.prevout.hash, input.prevout.index)
          : Nat × Nat) (Outpoint.mk tx.hash i)) _ = _
        exact findA_insertA_ne _ _ _ _ (hk _ (List.mem_cons_self _ _))
      · intro q hq cr' hq2
        rcases List.mem_cons.mp hq with hq | hq
        · subst hq
          exact absurd hq2 (by simp)
        · exact hd1 q hq cr' hq2
      · intro k hk
        exact (hd2 k (fun q hq => hk q (List.mem_cons_of_mem _ hq))).trans rfl
    | some cr =>
      obtain ⟨hfind, hh1, hh2, hacct⟩ :=
        hfacts ((i, input), some cr) (List.mem_cons_self _ _) cr rfl
      obtain ⟨a, ha⟩ := Option.isSome_iff_exists.mp hacct
      have hget : getCredit base input.prevout.hash input.prevout.index
          = some cr := by
        rw [getCredit_eq,
          show ((input.prevout.hash, input.prevout.index) : Nat × Nat)
            = prevoutKey input from rfl, hfind]
        simp only [Option.map_some']
        rw [show ({ cr with coin := { cr.coin with
          hash := input.prevout.hash, index := input.prevout.index } } : Credit)
            = cr from by rw [← hh1, ← hh2]]
      have hcA : credAccounts (((i, input), some cr) :: zs)
          = cr.coin.account.getD 0 :: credAccounts zs := by
        simp [credAccounts, List.filterMap_cons]
      have hcV : credVals (((i, input), some cr) :: zs)
          = cr.coin.value :: credVals zs := by
        simp [credVals, List.filterMap_cons]
      have hkey : (({ cr with spent := true } : Credit).coin.hash,
          ({ cr with spent := true } : Credit).coin.index)
            = prevoutKey input := by
        dsimp only
        rw [hh1, hh2]
        rfl
      rw [List.map_cons]
      unfold insertInputs
      rw [hget]
      dsimp only
      rw [ha]
      dsimp only
      by_cases hh : tx.height = -1
      · rw [if_pos hh]
        obtain ⟨dr', upd', hrec, hupd, hc1, hc2, hC1, hC2, hs1, hs2, hd1, hd2,
            hpc, hpu, hpcf, hpt, hpcm, hft, hfm, hfp, hfh, hfT, hfM, hfP, hfH,
            hfb, hfr, hfR, hfl⟩ :=
          ih (saveCredit { cr with spent := true } a
              { spendCredit cr tx.hash i input.prevout dr with
                pending := { (spendCredit cr tx.hash i input.prevout dr).pending with
                  coin := (spendCredit cr tx.hash i input.prevout dr).pending.coin - 1,
                  unconfirmed := (spendCredit cr tx.hash i
                    input.prevout dr).pending.unconfirmed - cr.coin.value } })
            true (pushAccount a accs)
            (fun q hq => hfacts q (List.mem_cons_of_mem _ hq))
            (fun q hq => hnone q (List.mem_cons_of_mem _ hq)) hnodupK' hnodupI'
        refine ⟨dr', upd', ?_, by rw [hupd]; simp,
          ?_, ?_, ?_, ?_, ?_, ?_, ?_, ?_, ?_, ?_, ?_,
          hpt.trans rfl, hpcm.trans rfl,
          hft.trans rfl, hfm.trans rfl, hfp.trans rfl, hfh.trans rfl,
          hfT.trans rfl, hfM.trans rfl, hfP.trans rfl, hfH.trans rfl,
          hfb.trans rfl, hfr.trans rfl, hfR.trans rfl, hfl.trans rfl⟩
        · rw [hrec, hcA, ha]
          rfl
        · intro q hq cr' hq2
          rcases List.mem_cons.mp hq with hq | hq
          · subst hq
            have hcr' : cr = cr' := by
              have := hq2
              simpa using this
            subst hcr'
            dsimp only
            rw [if_pos hh]
            refine (hc2 (prevoutKey input) ?_).trans ?_
            · intro q' hq' cr2 _ hc
              exact hknotin (hc ▸ List.mem_map_of_mem
                (fun e => prevoutKey e.1.2) hq')
            · simp only [saveCredit_db_c, spendCredit_db_c]
              rw [hkey]
              exact findA_insertA_self _ _ _
          · exact hc1 q hq cr' hq2
        · intro k hk
          refine (hc2 k (fun q hq cr2 hq2 =>
            hk q (List.mem_cons_of_mem _ hq) cr2 hq2)).trans ?_
          simp only [saveCredit_db_c, spendCredit_db_c]
          rw [hkey]
          exact findA_insertA_ne _ _ _ _ (hk _ (List.mem_cons_self _ _) cr rfl)
        · intro q hq cr' hq2
          rcases List.mem_cons.mp hq with hq | hq
          · subst hq
            have hcr' : cr = cr' := by
              have := hq2
              simpa using this
            subst hcr'
            dsimp only
            rw [if_pos hh]
            refine (hC2 (cr.coin.account.getD 0,
                input.prevout.hash, input.prevout.index) ?_).trans ?_
            · intro q' hq' cr2 _ hc
              apply hknotin
              have hpk : prevoutKey input = prevoutKey q'.1.2 := by
                have := congrArg (fun t : Nat × Nat × Nat => ((t.2.1, t.2.2) : Nat × Nat)) hc
                exact this
              exact hpk ▸ List.mem_map_of_mem (fun e => prevoutKey e.1.2) hq'
            · rw [ha]
              show findA (insertA _ (a, cr.coin.hash, cr.coin.index) ()) _ = some ()
              rw [hh1, hh2]
              exact findA_insertA_self _ _ _
          · exact hC1 q hq cr' hq2
        · intro k hk
          refine (hC2 k (fun q hq cr2 hq2 =>
            hk q (List.mem_cons_of_mem _ hq) cr2 hq2)).trans ?_
          show findA (insertA _ (a, cr.coin.hash, cr.coin.index) ()) _ = _
          rw [hh1, hh2]
          refine findA_insertA_ne _ _ _ _ ?_
          have := hk _ (List.mem_cons_self _ _) cr rfl
          dsimp only at this
          rw [ha] at this
          exact this
        · intro q hq
          rcases List.mem_cons.mp hq with hq | hq
          · subst hq
            dsimp only
            refine (hs2 (prevoutKey input) ?_).trans ?_
            · intro q' hq' hc
              exact hknotin (hc ▸ List.mem_map_of_mem
                (fun e => prevoutKey e.1.2) hq')
            · show findA (insertA _ (input.prevout.hash, input.prevout.index)
                  (Outpoint.mk tx.hash i)) _ = _
              exact findA_insertA_self _ _ _
          · exact hs1 q hq
        · intro k hk
          refine (hs2 k (fun q hq => hk q (List.mem_cons_of_mem _ hq))).trans ?_
          show findA (insertA _ (input.prevout.hash, input.prevout.index)
            (Outpoint.mk tx.hash i)) _ = _
          exact findA_insertA_ne _ _ _ _ (hk _ (List.mem_cons_self _ _))
        · intro q hq cr' hq2
          rcases List.mem_cons.mp hq with hq | hq
          · subst hq
            have hcr' : cr = cr' := by
              have := hq2
              simpa using this
            subst hcr'
            dsimp only
            refine (hd2 ((tx.hash, i) : Nat × Nat) ?_).trans ?_
            · intro q' hq' cr2 _ hc
              apply hinotin
              have : i = q'.1.1 := by
                have := congrArg Prod.snd hc
                simpa using this
              exact this ▸ List.mem_map_of_mem (fun e => e.1.1) hq'
            · show findA (insertA _ ((tx.hash, i) : Nat × Nat) cr.coin) _ = _
              exact findA_insertA_self _ _ _
          · exact hd1 q hq cr' hq2
        · intro k hk
          refine (hd2 k (fun q hq cr2 hq2 =>
            hk q (List.mem_cons_of_mem _ hq) cr2 hq2)).trans ?_
          show findA (insertA _ ((tx.hash, i) : Nat × Nat) cr.coin) _ = _
          exact findA_insertA_ne _ _ _ _ (hk _ (List.mem_cons_self _ _) cr rfl)
        · rw [hpc, hcV]
          show dr.pending.coin - 1 - ((credVals zs).length : Int) = _
          rw [List.length_cons]
          push_cast
          ring
        · rw [hpu, hcV]
          show dr.pending.unconfirmed - cr.coin.value - _ = _
          rw [List.sum_cons]
          ring
        · rw [if_pos hh] at hpcf ⊢
          exact hpcf.trans rfl
      · rw [if_neg hh]
        obtain ⟨dr', upd', hrec, hupd, hc1, hc2, hC1, hC2, hs1, hs2, hd1, hd2,
            hpc, hpu, hpcf, hpt, hpcm, hft, hfm, hfp, hfh, hfT, hfM, hfP, hfH,
            hfb, hfr, hfR, hfl⟩ :=
          ih (removeCredit cr a
              { { spendCredit cr tx.hash i input.prevout dr with
                  pending := { (spendCredit cr tx.hash i input.prevout dr).pending with
                    coin := (spendCredit cr tx.hash i input.prevout dr).pending.coin - 1,
                    unconfirmed := (spendCredit cr tx.hash i
                      input.prevout dr).pending.unconfirmed - cr.coin.value } } with
                pending := { { spendCredit cr tx.hash i input.prevout dr with
                  pending := { (spendCredit cr tx.hash i input.prevout dr).pending with
                    coin := (spendCredit cr tx.hash i input.prevout dr).pending.coin - 1,
                    unconfirmed := (spendCredit cr tx.hash i
                      input.prevout dr).pending.unconfirmed - cr.coin.value } }.pending with
                  confirmed := { spendCredit cr tx.hash i input.prevout dr with
                    pending := { (spendCredit cr tx.hash i input.prevout dr).pending with
                      coin := (spendCredit cr tx.hash i input.prevout dr).pending.coin - 1,
                      unconfirmed := (spendCredit cr tx.hash i
                        input.prevout dr).pending.unconfirmed - cr.coin.value } }.pending.confirmed
                    - cr.coin.value } })
            true (pushAccount a accs)
            (fun q hq => hfacts q (List.mem_cons_of_mem _ hq))
            (fun q hq => hnone q (List.mem_cons_of_mem _ hq)) hnodupK' hnodupI'
        have hekey : ((cr.coin.hash, cr.coin.index) : Nat × Nat)
            = prevoutKey input := by
          rw [hh1, hh2]
          rfl
        refine ⟨dr', upd', ?_, by rw [hupd]; simp,
          ?_, ?_, ?_, ?_, ?_, ?_, ?_, ?_, ?_, ?_, ?_,
          hpt.trans rfl, hpcm.trans rfl,
          hft.trans rfl, hfm.trans rfl, hfp.trans rfl, hfh.trans rfl,
          hfT.trans rfl, hfM.trans rfl, hfP.trans rfl, hfH.trans rfl,
          hfb.trans rfl, hfr.trans rfl, hfR.trans rfl, hfl.trans rfl⟩
        · rw [hrec, hcA, ha]
          rfl
        · intro q hq cr' hq2
          rcases List.mem_cons.mp hq with hq | hq
          · subst hq
            have hcr' : cr = cr' := by
              have := hq2
              simpa using this
            subst hcr'
            dsimp only
            rw [if_neg hh]
            refine (hc2 (prevoutKey input) ?_).trans ?_
            · intro q' hq' cr2 _ hc
              exact hknotin (hc ▸ List.mem_map_of_mem
                (fun e => prevoutKey e.1.2) hq')
            · show findA (eraseA _ ((cr.coin.hash, cr.coin.index) : Nat × Nat)) _ = _
              rw [hekey]
              exact findA_eraseA_self _ _
          · exact hc1 q hq cr' hq2
        · intro k hk
          refine (hc2 k (fun q hq cr2 hq2 =>
            hk q (List.mem_cons_of_mem _ hq) cr2 hq2)).trans ?_
          show findA (eraseA _ ((cr.coin.hash, cr.coin.index) : Nat × Nat)) _ = _
          rw [hekey]
          exact findA_eraseA_ne _ _ _ (hk _ (List.mem_cons_self _ _) cr rfl)
        · intro q hq cr' hq2
          rcases List.mem_cons.mp hq with hq | hq
          · subst hq
            have hcr' : cr = cr' := by
              have := hq2
              simpa using this
            subst hcr'
            dsimp only
            rw [if_neg hh]
            refine (hC2 (cr.coin.account.getD 0,
                input.prevout.hash, input.prevout.index) ?_).trans ?_
            · intro q' hq' cr2 _ hc
              apply hknotin
              have hpk : prevoutKey input = prevoutKey q'.1.2 := by
                have := congrArg (fun t : Nat × Nat × Nat => ((t.2.1, t.2.2) : Nat × Nat)) hc
                exact this
              exact hpk ▸ List.mem_map_of_mem (fun e => prevoutKey e.1.2) hq'
            · rw [ha]
              show findA (eraseA _ ((a, cr.coin.hash, cr.coin.index)
                : Nat × Nat × Nat)) _ = none
              rw [hh1, hh2]
              exact findA_eraseA_self _ _
          · exact hC1 q hq cr' hq2
        · intro k hk
          refine (hC2 k (fun q hq cr2 hq2 =>
            hk q (List.mem_cons_of_mem _ hq) cr2 hq2)).trans ?_
          show findA (eraseA _ ((a, cr.coin.hash, cr.coin.index)
            : Nat × Nat × Nat)) _ = _
          rw [hh1, hh2]
          refine findA_eraseA_ne _ _ _ ?_
          have := hk _ (List.mem_cons_self _ _) cr rfl
          dsimp only at this
          rw [ha] at this
          exact this
        · intro q hq
          rcases List.mem_cons.mp hq with hq | hq
          · subst hq
            dsimp only
            refine (hs2 (prevoutKey input) ?_).trans ?_
            · intro q' hq' hc
              exact hknotin (hc ▸ List.mem_map_of_mem
                (fun e => prevoutKey e.1.2) hq')
            · show findA (insertA _ (input.prevout.hash, input.prevout.index)
                  (Outpoint.mk tx.hash i)) _ = _
              exact findA_insertA_self _ _ _
          · exact hs1 q hq
        · intro k hk
          refine (hs2 k (fun q hq => hk q (List.mem_cons_of_mem _ hq))).trans ?_
          show findA (insertA _ (input.prevout.hash, input.prevout.index)
            (Outpoint.mk tx.hash i)) _ = _
          exact findA_insertA_ne _ _ _ _ (hk _ (List.mem_cons_self _ _))
        · intro q hq cr' hq2
          rcases List.mem_cons.mp hq with hq | hq
          · subst hq
            have hcr' : cr = cr' := by
              have := hq2
              simpa using this
            subst hcr'
            dsimp only
            refine (hd2 ((tx.hash, i) : Nat × Nat) ?_).trans ?_
            · intro q' hq' cr2 _ hc
              apply hinotin
              have : i = q'.1.1 := by
                have := congrArg Prod.snd hc
                simpa using this
              exact this ▸ List.mem_map_of_mem (fun e => e.1.1) hq'
            · show findA (insertA _ ((tx.hash, i) : Nat × Nat) cr.coin) _ = _
              exact findA_insertA_self _ _ _
          · exact hd1 q hq cr' hq2
        · intro k hk
          refine (hd2 k (fun q hq cr2 hq2 =>
            hk q (List.mem_cons_of_mem _ hq) cr2 hq2)).trans ?_
          show findA (insertA _ ((tx.hash, i) : Nat × Nat) cr.coin) _ = _
          exact findA_insertA_ne _ _ _ _ (hk _ (List.mem_cons_self _ _) cr rfl)
        · rw [hpc, hcV]
          show dr.pending.coin - 1 - ((credVals zs).length : Int) = _
          rw [List.length_cons]
          push_cast
          ring
        · rw [hpu, hcV]
          show dr.pending.unconfirmed - cr.coin.value - _ = _
          rw [List.sum_cons]
          ring
        · rw [if_neg hh] at hpcf ⊢
          rw [hpcf, hcV, List.sum_cons]
          show dr.pending.confirmed - cr.coin.value - _ = _
          ring

/-- The output loop of `insert` with no spent markers on the transaction's
outputs, computed key by key, at either height: every owned output gets a
fresh credit and a `C` entry, `coin` rises by the number of owned outputs
and `unconfirmed` by their total value (`confirmed` too when mined);
nothing else moves. -/
theorem insertOutputs_chars (base : DB) (tx : TX) :
    ∀ (l : List (Nat × Output)) (dr : Draft) (upd : Bool) (accs : List Nat),
      (∀ pr ∈ l, getSpent base tx.hash pr.1 = none) →
      (l.map Prod.fst).Nodup →
      ∃ dr' upd',
        insertOutputs base tx l dr upd accs
          = .ok (dr', upd', pushList (outAccounts l) accs) ∧
        upd' = (upd || l.any (fun pr => pr.2.account.isSome)) ∧
        (∀ pr ∈ l, pr.2.account.isSome →
          findA dr'.db.c (tx.hash, pr.1) = some (Credit.fromTX tx pr.1 pr.2)) ∧
        (∀ k, (∀ pr ∈ l, pr.2.account.isSome → k ≠ ((tx.hash, pr.1) : Nat × Nat)) →
          findA dr'.db.c k = findA dr.db.c k) ∧
        (∀ pr ∈ l, pr.2.account.isSome →
          findA dr'.db.C (pr.2.account.getD 0, tx.hash, pr.1) = some ()) ∧
        (∀ k, (∀ pr ∈ l, pr.2.account.isSome →
            k ≠ (pr.2.account.getD 0, tx.hash, pr.1)) →
          findA dr'.db.C k = findA dr.db.C k) ∧
        dr'.pending.coin = dr.pending.coin + (outAccounts l).length ∧
        dr'.pending.unconfirmed = dr.pending.unconfirmed + (outVals l).sum ∧
        dr'.pending.confirmed = dr.pending.confirmed
          + (if tx.height = -1 then 0 else (outVals l).sum) ∧
        dr'.pending.tx = dr.pending.tx ∧
        dr'.pending.committed = dr.pending.committed ∧
        dr'.db.t = dr.db.t ∧ dr'.db.m = dr.db.m ∧ dr'.db.p = dr.db.p ∧
        dr'.db.h = dr.db.h ∧ dr'.db.s = dr.db.s ∧ dr'.db.d = dr.db.d ∧
        dr'.db.T = dr.db.T ∧ dr'.db.M = dr.db.M ∧ dr'.db.P = dr.db.P ∧
        dr'.db.H = dr.db.H ∧ dr'.db.b = dr.db.b ∧ dr'.db.r = dr.db.r ∧
        dr'.db.R = dr.db.R ∧ dr'.committedFlag = dr.committedFlag := by
  intro l
  induction l with
  | nil =>
    intro dr upd accs _ _
    exact ⟨dr, upd, rfl, by simp,
      fun pr hpr => absurd hpr (by simp), fun k _ => rfl,
      fun pr hpr => absurd hpr (by simp), fun k _ => rfl,
      by simp [outAccounts], by simp [outVals], by simp [outVals],
      rfl, rfl,
      rfl, rfl, rfl, rfl, rfl, rfl, rfl, rfl, rfl, rfl, rfl, rfl, rfl, rfl⟩
  | cons pr l ih =>
    intro dr upd accs hfresh hnodup
    rcases pr with ⟨i, output⟩
    rw [List.map_cons] at hnodup
    obtain ⟨hinotin, hnodup'⟩ := List.nodup_cons.mp hnodup
    dsimp only at hinotin
    unfold insertOutputs
    cases hacct : output.account with
    | none =>
      obtain ⟨dr', upd', hrec, hupd, hc1, hc2, hC1, hC2, hpc, hpu, hpcf, hpt,
          hrest⟩ :=
        ih dr upd accs (fun q hq => hfresh q (List.mem_cons_of_mem _ hq)) hnodup'
      have hstream : outAccounts ((i, output) :: l) = outAccounts l := by
        simp [outAccounts, List.filterMap_cons, hacct]
      have hvals : outVals ((i, output) :: l) = outVals l := by
        simp [outVals, List.filterMap_cons, hacct]
      have hany : (((i, output) :: l).any (fun pr => pr.2.account.isSome))
          = l.any (fun pr => pr.2.account.isSome) := by
        simp [hacct]
      refine ⟨dr', upd', by rw [hrec, hstream], by rw [hupd, hany], ?_, ?_, ?_, ?_,
        by rw [hpc, hstream], by rw [hpu, hvals], by rw [hpcf, hvals],
        hpt, hrest⟩
      · intro q hq hqs
        rcases List.mem_cons.mp hq with hq | hq
        · exact absurd hqs (by subst hq; simp [hacct])
        · exact hc1 q hq hqs
      · intro k hk
        exact hc2 k (fun q hq => hk q (List.mem_cons_of_mem _ hq))
      · intro q hq hqs
        rcases List.mem_cons.mp hq with hq | hq
        · exact absurd hqs (by subst hq; simp [hacct])
        · exact hC1 q hq hqs
      · intro k hk
        exact hC2 k (fun q hq => hk q (List.mem_cons_of_mem _ hq))
    | some a =>
      have hres : resolveInput base tx i a output dr = .ok (dr, false) := by
        unfold resolveInput
        rw [hfresh (i, output) (List.mem_cons_self _ _)]
      dsimp only
      rw [hres]
      dsimp only
      have hany : (((i, output) :: l).any (fun pr => pr.2.account.isSome))
          = true := by
        simp [hacct]
      by_cases hh : tx.height = -1
      · rw [if_neg (fun hc => hc hh)]
        obtain ⟨dr', upd', hrec, hupd, hc1, hc2, hC1, hC2, hpc, hpu, hpcf, hpt,
            hpcm, hft, hfm, hfp, hfh, hfs, hfd, hfT, hfM, hfP, hfH, hfb, hfr, hfR,
            hfl⟩ :=
          ih (saveCredit (Credit.fromTX tx i output) a
              { dr with pending := { dr.pending with
                coin := dr.pending.coin + 1,
                unconfirmed := dr.pending.unconfirmed + output.value } })
            true (pushAccount a accs)
            (fun q hq => hfresh q (List.mem_cons_of_mem _ hq)) hnodup'
        have hstream : outAccounts ((i, output) :: l) = a :: outAccounts l := by
          simp [outAccounts, List.filterMap_cons, hacct]
        have hvals : outVals ((i, output) :: l) = output.value :: outVals l := by
          simp [outVals, List.filterMap_cons, hacct]
        refine ⟨dr', upd', by rw [hrec, hstream]; rfl, by rw [hupd, hany]; simp,
          ?_, ?_, ?_, ?_, ?_, ?_, by rw [if_pos hh] at hpcf ⊢; exact hpcf.trans rfl,
          hpt.trans rfl, hpcm.trans rfl,
          hft.trans rfl, hfm.trans rfl, hfp.trans rfl, hfh.trans rfl,
          hfs.trans rfl, hfd.trans rfl, hfT.trans rfl, hfM.trans rfl,
          hfP.trans rfl, hfH.trans rfl, hfb.trans rfl, hfr.trans rfl,
          hfR.trans rfl, hfl.trans rfl⟩
        · intro q hq hqs
          rcases List.mem_cons.mp hq with hq | hq
          · subst hq
            dsimp only
            refine (hc2 ((tx.hash, i) : Nat × Nat) ?_).trans ?_
            · intro q' hq' _ hc
              apply hinotin
              have hq1 : i = q'.1 := by
                have := congrArg Prod.snd hc
                simpa using this
              exact hq1 ▸ List.mem_map_of_mem Prod.fst hq'
            · show findA (insertA _ ((tx.hash, i) : Nat × Nat)
                (Credit.fromTX tx i output)) _ = _
              exact findA_insertA_self _ _ _
          · exact hc1 q hq hqs
        · intro k hk
          refine (hc2 k (fun q hq hqs => hk q (List.mem_cons_of_mem _ hq) hqs)).trans ?_
          show findA (insertA _ ((tx.hash, i) : Nat × Nat)
            (Credit.fromTX tx i output)) _ = _
          exact findA_insertA_ne _ _ _ _
            (hk _ (List.mem_cons_self _ _) (by rw [hacct]; rfl))
        · intro q hq hqs
          rcases List.mem_cons.mp hq with hq | hq
          · subst hq
            dsimp only
            rw [hacct]
            refine (hC2 ((a, tx.hash, i) : Nat × Nat × Nat) ?_).trans ?_
            · intro q' hq' _ hc
              apply hinotin
              have hq1 : i = q'.1 := by
                have := congrArg (fun t : Nat × Nat × Nat => t.2.2) hc
                simpa using this
              exact hq1 ▸ List.mem_map_of_mem Prod.fst hq'
            · show findA (insertA _ ((a, tx.hash, i) : Nat × Nat × Nat) ()) _ = _
              exact findA_insertA_self _ _ _
          · exact hC1 q hq hqs
        · intro k hk
          refine (hC2 k (fun q hq hqs => hk q (List.mem_cons_of_mem _ hq) hqs)).trans ?_
          show findA (insertA _ ((a, tx.hash, i) : Nat × Nat × Nat) ()) _ = _
          refine findA_insertA_ne _ _ _ _ ?_
          have := hk _ (List.mem_cons_self _ _) (by rw [hacct]; rfl)
          dsimp only at this
          rw [hacct] at this
          exact this
        · rw [hpc, hstream]
          show dr.pending.coin + 1 + _ = _
          rw [List.length_cons]
          push_cast
          ring
        · rw [hpu, hvals]
          show dr.pending.unconfirmed + output.value + _ = _
          rw [List.sum_cons]
          ring
      · rw [if_pos hh]
        obtain ⟨dr', upd', hrec, hupd, hc1, hc2, hC1, hC2, hpc, hpu, hpcf, hpt,
            hpcm, hft, hfm, hfp, hfh, hfs, hfd, hfT, hfM, hfP, hfH, hfb, hfr, hfR,
            hfl⟩ :=
          ih (saveCredit (Credit.fromTX tx i output) a
              { { dr with pending := { dr.pending with
                    coin := dr.pending.coin + 1,
                    unconfirmed := dr.pending.unconfirmed + output.value } } with
                pending := { { dr with pending := { dr.pending with
                    coin := dr.pending.coin + 1,
                    unconfirmed := dr.pending.unconfirmed + output.value } }.pending with
                  confirmed := { dr with pending := { dr.pending with
                    coin := dr.pending.coin + 1,
                    unconfirmed := dr.pending.unconfirmed + output.value } }.pending.confirmed
                    + output.value } })
            true (pushAccount a accs)
            (fun q hq => hfresh q (List.mem_cons_of_mem _ hq)) hnodup'
        have hstream : outAccounts ((i, output) :: l) = a :: outAccounts l := by
          simp [outAccounts, List.filterMap_cons, hacct]
        have hvals : outVals ((i, output) :: l) = output.value :: outVals l := by
          simp [outVals, List.filterMap_cons, hacct]
        refine ⟨dr', upd', by rw [hrec, hstream]; rfl, by rw [hupd, hany]; simp,
          ?_, ?_, ?_, ?_, ?_, ?_, ?_,
          hpt.trans rfl, hpcm.trans rfl,
          hft.trans rfl, hfm.trans rfl, hfp.trans rfl, hfh.trans rfl,
          hfs.trans rfl, hfd.trans rfl, hfT.trans rfl, hfM.trans rfl,
          hfP.trans rfl, hfH.trans rfl, hfb.trans rfl, hfr.trans rfl,
          hfR.trans rfl, hfl.trans rfl⟩
        · intro q hq hqs
          rcases List.mem_cons.mp hq with hq | hq
          · subst hq
            dsimp only
            refine (hc2 ((tx.hash, i) : Nat × Nat) ?_).trans ?_
            · intro q' hq' _ hc
              apply hinotin
              have hq1 : i = q'.1 := by
                have := congrArg Prod.snd hc
                simpa using this
              exact hq1 ▸ List.mem_map_of_mem Prod.fst hq'
            · show findA (insertA _ ((tx.hash, i) : Nat × Nat)
                (Credit.fromTX tx i output)) _ = _
              exact findA_insertA_self _ _ _
          · exact hc1 q hq hqs
        · intro k hk
          refine (hc2 k (fun q hq hqs => hk q (List.mem_cons_of_mem _ hq) hqs)).trans ?_
          show findA (insertA _ ((tx.hash, i) : Nat × Nat)
            (Credit.fromTX tx i output)) _ = _
          exact findA_insertA_ne _ _ _ _
            (hk _ (List.mem_cons_self _ _) (by rw [hacct]; rfl))
        · intro q hq hqs
          rcases List.mem_cons.mp hq with hq | hq
          · subst hq
            dsimp only
            rw [hacct]
            refine (hC2 ((a, tx.hash, i) : Nat × Nat × Nat) ?_).trans ?_
            · intro q' hq' _ hc
              apply hinotin
              have hq1 : i = q'.1 := by
                have := congrArg (fun t : Nat × Nat × Nat => t.2.2) hc
                simpa using this
              exact hq1 ▸ List.mem_map_of_mem Prod.fst hq'
            · show findA (insertA _ ((a, tx.hash, i) : Nat × Nat × Nat) ()) _ = _
              exact findA_insertA_self _ _ _
          · exact hC1 q hq hqs
        · intro k hk
          refine (hC2 k (fun q hq hqs => hk q (List.mem_cons_of_mem _ hq) hqs)).trans ?_
          show findA (insertA _ ((a, tx.hash, i) : Nat × Nat × Nat) ()) _ = _
          refine findA_insertA_ne _ _ _ _ ?_
          have := hk _ (List.mem_cons_self _ _) (by rw [hacct]; rfl)
          dsimp only at this
          rw [hacct] at this
          exact this
        · rw [hpc, hstream]
          show dr.pending.coin + 1 + _ = _
          rw [List.length_cons]
          push_cast
          ring
        · rw [hpu, hvals]
          show dr.pending.unconfirmed + output.value + _ = _
          rw [List.sum_cons]
          ring
        · rw [if_neg hh] at hpcf ⊢
          rw [hpcf, hvals, List.sum_cons]
          show dr.pending.confirmed + output.value + _ = _
          ring

theorem addBlock_db_t (base : DB) (tx : TX) (dr : Draft) :
    (addBlock base tx dr).db.t = dr.db.t := by
  unfold addBlock
  cases getBlock base tx.height with
  | none => dsimp only; split <;> rfl
  | some blk => dsimp only; split <;> rfl

theorem addBlock_db_m (base : DB) (tx : TX) (dr : Draft) :
    (addBlock base tx dr).db.m = dr.db.m := by
  unfold addBlock
  cases getBlock base tx.height with
  | none => dsimp only; split <;> rfl
  | some blk => dsimp only; split <;> rfl

theorem addBlock_db_p (base : DB) (tx : TX) (dr : Draft) :
    (addBlock base tx dr).db.p = dr.db.p := by
  unfold addBlock
  cases getBlock base tx.height with
  | none => dsimp only; split <;> rfl
  | some blk => dsimp only; split <;> rfl

theorem addBlock_db_h (base : DB) (tx : TX) (dr : Draft) :
    (addBlock base tx dr).db.h = dr.db.h := by
  unfold addBlock
  cases getBlock base tx.height with
  | none => dsimp only; split <;> rfl
  | some blk => dsimp only; split <;> rfl

theorem addBlock_db_s (base : DB) (tx : TX) (dr : Draft) :
    (addBlock base tx dr).db.s = dr.db.s := by
  unfold addBlock
  cases getBlock base tx.height with
  | none => dsimp only; split <;> rfl
  | some blk => dsimp only; split <;> rfl

theorem addBlock_db_d (base : DB) (tx : TX) (dr : Draft) :
    (addBlock base tx dr).db.d = dr.db.d := by
  unfold addBlock
  cases getBlock base tx.height with
  | none => dsimp only; split <;> rfl
  | some blk => dsimp only; split <;> rfl

theorem addBlock_db_T (base : DB) (tx : TX) (dr : Draft) :
    (addBlock base tx dr).db.T = dr.db.T := by
  unfold addBlock
  cases getBlock base tx.height with
  | none => dsimp only; split <;> rfl
  | some blk => dsimp only; split <;> rfl

theorem addBlock_db_M (base : DB) (tx : TX) (dr : Draft) :
    (addBlock base tx dr).db.M = dr.db.M := by
  unfold addBlock
  cases getBlock base tx.height with
  | none => dsimp only; split <;> rfl
  | some blk => dsimp only; split <;> rfl

theorem addBlock_db_P (base : DB) (tx : TX) (dr : Draft) :
    (addBlock base tx dr).db.P = dr.db.P := by
  unfold addBlock
  cases getBlock base tx.height with
  | none => dsimp only; split <;> rfl
  | some blk => dsimp only; split <;> rfl

theorem addBlock_db_H (base : DB) (tx : TX) (dr : Draft) :
    (addBlock base tx dr).db.H = dr.db.H := by
  unfold addBlock
  cases getBlock base tx.height with
  | none => dsimp only; split <;> rfl
  | some blk => dsimp only; split <;> rfl

theorem addBlock_db_r (base : DB) (tx : TX) (dr : Draft) :
    (addBlock base tx dr).db.r = dr.db.r := by
  unfold addBlock
  cases getBlock base tx.height with
  | none => dsimp only; split <;> rfl
  | some blk => dsimp only; split <;> rfl

theorem addBlock_db_C (base : DB) (tx : TX) (dr : Draft) :
    (addBlock base tx dr).db.C = dr.db.C := by
  unfold addBlock
  cases getBlock base tx.height with
  | none => dsimp only; split <;> rfl
  | some blk => dsimp only; split <;> rfl

theorem addBlock_db_R (base : DB) (tx : TX) (dr : Draft) :
    (addBlock base tx dr).db.R = dr.db.R := by
  unfold addBlock
  cases getBlock base tx.height with
  | none => dsimp only; split <;> rfl
  | some blk => dsimp only; split <;> rfl

theorem addBlock_flag (base : DB) (tx : TX) (dr : Draft) :
    (addBlock base tx dr).committedFlag = dr.committedFlag := by
  unfold addBlock
  cases getBlock base tx.height with
  | none => dsimp only; split <;> rfl
  | some blk => dsimp only; split <;> rfl

/-- The per-account secondary-index fold of `insert`, computed key by key,
at either height. -/
theorem foldl_indexAccount_chars (tx : TX) :
    ∀ (accs : List Nat) (dr : Draft),
      (∀ a ∈ accs, findA (accs.foldl (indexAccount tx) dr).db.T
        ((a, tx.hash) : Nat × Nat) = some ()) ∧
      (∀ k, (∀ a ∈ accs, k ≠ ((a, tx.hash) : Nat × Nat)) →
        findA (accs.foldl (indexAccount tx) dr).db.T k = findA dr.db.T k) ∧
      (∀ a ∈ accs, findA (accs.foldl (indexAccount tx) dr).db.M
        ((a, tx.ps, tx.hash) : Nat × Nat × Nat) = some ()) ∧
      (∀ k, (∀ a ∈ accs, k ≠ ((a, tx.ps, tx.hash) : Nat × Nat × Nat)) →
        findA (accs.foldl (indexAccount tx) dr).db.M k = findA dr.db.M k) ∧
      (tx.height = -1 → ∀ a ∈ accs, findA (accs.foldl (indexAccount tx) dr).db.P
        ((a, tx.hash) : Nat × Nat) = some ()) ∧
      (∀ k, (∀ a ∈ accs, k ≠ ((a, tx.hash) : Nat × Nat)) →
        findA (accs.foldl (indexAccount tx) dr).db.P k = findA dr.db.P k) ∧
      (tx.height ≠ -1 → (accs.foldl (indexAccount tx) dr).db.P = dr.db.P) ∧
      (tx.height ≠ -1 → ∀ a ∈ accs, findA (accs.foldl (indexAccount tx) dr).db.H
        ((a, tx.height, tx.hash) : Nat × Int × Nat) = some ()) ∧
      (∀ k, (∀ a ∈ accs, k ≠ ((a, tx.height, tx.hash) : Nat × Int × Nat)) →
        findA (accs.foldl (indexAccount tx) dr).db.H k = findA dr.db.H k) ∧
      (tx.height = -1 → (accs.foldl (indexAccount tx) dr).db.H = dr.db.H) ∧
      (accs.foldl (indexAccount tx) dr).db.t = dr.db.t ∧
      (accs.foldl (indexAccount tx) dr).db.c = dr.db.c ∧
      (accs.foldl (indexAccount tx) dr).db.d = dr.db.d ∧
      (accs.foldl (indexAccount tx) dr).db.s = dr.db.s ∧
      (accs.foldl (indexAccount tx) dr).db.p = dr.db.p ∧
      (accs.foldl (indexAccount tx) dr).db.m = dr.db.m ∧
      (accs.foldl (indexAccount tx) dr).db.h = dr.db.h ∧
      (accs.foldl (indexAccount tx) dr).db.b = dr.db.b ∧
      (accs.foldl (indexAccount tx) dr).db.r = dr.db.r ∧
      (accs.foldl (indexAccount tx) dr).db.C = dr.db.C ∧
      (accs.foldl (indexAccount tx) dr).db.R = dr.db.R ∧
      (accs.foldl (indexAccount tx) dr).pending = dr.pending ∧
      (accs.foldl (indexAccount tx) dr).committedFlag = dr.committedFlag := by
  intro accs
  induction accs with
  | nil =>
    intro dr
    exact ⟨fun a ha => absurd ha (by simp), fun k _ => rfl,
      fun a ha => absurd ha (by simp), fun k _ => rfl,
      fun _ a ha => absurd ha (by simp), fun k _ => rfl, fun _ => rfl,
      fun _ a ha => absurd ha (by simp), fun k _ => rfl, fun _ => rfl,
      rfl, rfl, rfl, rfl, rfl, rfl, rfl, rfl, rfl, rfl, rfl, rfl, rfl⟩
  | cons a accs ih =>
    intro dr
    rw [List.foldl_cons]
    by_cases hh : tx.height = -1
    · have hstep : indexAccount tx dr a
          = { dr with db := { dr.db with
              T := insertA dr.db.T (a, tx.hash) (),
              M := insertA dr.db.M (a, tx.ps, tx.hash) (),
              P := insertA dr.db.P (a, tx.hash) () } } := by
        unfold indexAccount
        rw [if_pos hh]
      rw [hstep]
      obtain ⟨hT1, hT2, hM1, hM2, hP1, hP2, hP3, hH1, hH2, hH3, hft, hfc, hfd,
          hfs, hfp, hfm, hfh, hfb, hfr, hfC, hfR, hpend, hflag⟩ := ih
        { dr with db := { dr.db with
            T := insertA dr.db.T (a, tx.hash) (),
            M := insertA dr.db.M (a, tx.ps, tx.hash) (),
            P := insertA dr.db.P (a, tx.hash) () } }
      refine ⟨?_, ?_, ?_, ?_, ?_, ?_, fun hcon => absurd hh hcon,
        fun hcon => absurd hh hcon, ?_, fun _ => (hH3 hh).trans rfl,
        hft.trans rfl, hfc.trans rfl, hfd.trans rfl, hfs.trans rfl,
        hfp.trans rfl, hfm.trans rfl, hfh.trans rfl, hfb.trans rfl,
        hfr.trans rfl, hfC.trans rfl, hfR.trans rfl,
        hpend.trans rfl, hflag.trans rfl⟩
      · intro a' ha'
        rcases List.mem_cons.mp ha' with ha' | ha'
        · subst ha'
          by_cases hmem : a' ∈ accs
          · exact hT1 a' hmem
          · refine (hT2 ((a', tx.hash) : Nat × Nat) ?_).trans ?_
            · intro q hq hc
              have h : a' = q := congrArg Prod.fst hc
              exact hmem (by rw [h]; exact hq)
            · exact findA_insertA_self _ _ _
        · exact hT1 a' ha'
      · intro k hk
        refine (hT2 k (fun q hq => hk q (List.mem_cons_of_mem _ hq))).trans ?_
        exact findA_insertA_ne _ _ _ _ (hk a (List.mem_cons_self _ _))
      · intro a' ha'
        rcases List.mem_cons.mp ha' with ha' | ha'
        · subst ha'
          by_cases hmem : a' ∈ accs
          · exact hM1 a' hmem
          · refine (hM2 ((a', tx.ps, tx.hash) : Nat × Nat × Nat) ?_).trans ?_
            · intro q hq hc
              have h : a' = q := congrArg Prod.fst hc
              exact hmem (by rw [h]; exact hq)
            · exact findA_insertA_self _ _ _
        · exact hM1 a' ha'
      · intro k hk
        refine (hM2 k (fun q hq => hk q (List.mem_cons_of_mem _ hq))).trans ?_
        exact findA_insertA_ne _ _ _ _ (hk a (List.mem_cons_self _ _))
      · intro _ a' ha'
        rcases List.mem_cons.mp ha' with ha' | ha'
        · subst ha'
          by_cases hmem : a' ∈ accs
          · exact hP1 hh a' hmem
          · refine (hP2 ((a', tx.hash) : Nat × Nat) ?_).trans ?_
            · intro q hq hc
              have h : a' = q := congrArg Prod.fst hc
              exact hmem (by rw [h]; exact hq)
            · exact findA_insertA_self _ _ _
        · exact hP1 hh a' ha'
      · intro k hk
        refine (hP2 k (fun q hq => hk q (List.mem_cons_of_mem _ hq))).trans ?_
        exact findA_insertA_ne _ _ _ _ (hk a (List.mem_cons_self _ _))
      · intro k hk
        exact (hH2 k (fun q hq => hk q (List.mem_cons_of_mem _ hq))).trans rfl
    · have hstep : indexAccount tx dr a
          = { dr with db := { dr.db with
              T := insertA dr.db.T (a, tx.hash) (),
              M := insertA dr.db.M (a, tx.ps, tx.hash) (),
              H := insertA dr.db.H (a, tx.height, tx.hash) () } } := by
        unfold indexAccount
        rw [if_neg hh]
      rw [hstep]
      obtain ⟨hT1, hT2, hM1, hM2, hP1, hP2, hP3, hH1, hH2, hH3, hft, hfc, hfd,
          hfs, hfp, hfm, hfh, hfb, hfr, hfC, hfR, hpend, hflag⟩ := ih
        { dr with db := { dr.db with
            T := insertA dr.db.T (a, tx.hash) (),
            M := insertA dr.db.M (a, tx.ps, tx.hash) (),
            H := insertA dr.db.H (a, tx.height, tx.hash) () } }
      refine ⟨?_, ?_, ?_, ?_, fun hcon => absurd hcon hh, ?_,
        fun _ => (hP3 hh).trans rfl, ?_, ?_, fun hcon => absurd hcon hh,
        hft.trans rfl, hfc.trans rfl, hfd.trans rfl, hfs.trans rfl,
        hfp.trans rfl, hfm.trans rfl, hfh.trans rfl, hfb.trans rfl,
        hfr.trans rfl, hfC.trans rfl, hfR.trans rfl,
        hpend.trans rfl, hflag.trans rfl⟩
      · intro a' ha'
        rcases List.mem_cons.mp ha' with ha' | ha'
        · subst ha'
          by_cases hmem : a' ∈ accs
          · exact hT1 a' hmem
          · refine (hT2 ((a', tx.hash) : Nat × Nat) ?_).trans ?_
            · intro q hq hc
              have h : a' = q := congrArg Prod.fst hc
              exact hmem (by rw [h]; exact hq)
            · exact findA_insertA_self _ _ _
        · exact hT1 a' ha'
      · intro k hk
        refine (hT2 k (fun q hq => hk q (List.mem_cons_of_mem _ hq))).trans ?_
        exact findA_insertA_ne _ _ _ _ (hk a (List.mem_cons_self _ _))
      · intro a' ha'
        rcases List.mem_cons.mp ha' with ha' | ha'
        · subst ha'
          by_cases hmem : a' ∈ accs
          · exact hM1 a' hmem
          · refine (hM2 ((a', tx.ps, tx.hash) : Nat × Nat × Nat) ?_).trans ?_
            · intro q hq hc
              have h : a' = q := congrArg Prod.fst hc
              exact hmem (by rw [h]; exact hq)
            · exact findA_insertA_self _ _ _
        · exact hM1 a' ha'
      · intro k hk
        refine (hM2 k (fun q hq => hk q (List.mem_cons_of_mem _ hq))).trans ?_
        exact findA_insertA_ne _ _ _ _ (hk a (List.mem_cons_self _ _))
      · intro k hk
        exact (hP2 k (fun q hq => hk q (List.mem_cons_of_mem _ hq))).trans rfl
      · intro _ a' ha'
        rcases List.mem_cons.mp ha' with ha' | ha'
        · subst ha'
          by_cases hmem : a' ∈ accs
          · exact hH1 hh a' hmem
          · refine (hH2 ((a', tx.height, tx.hash) : Nat × Int × Nat) ?_).trans ?_
            · intro q hq hc
              have h : a' = q := congrArg Prod.fst hc
              exact hmem (by rw [h]; exact hq)
            · exact findA_insertA_self _ _ _
        · exact hH1 hh a' ha'
      · intro k hk
        refine (hH2 k (fun q hq => hk q (List.mem_cons_of_mem _ hq))).trans ?_
        exact findA_insertA_ne _ _ _ _ (hk a (List.mem_cons_self _ _))

set_option maxHeartbeats 1600000 in
/-- The indexing tail of `insert`, computed key by key, at either height. -/
theorem indexTX_chars (base : DB) (tx : TX) (accs : List Nat) (dr : Draft) :
    findA (indexTX base tx accs dr).db.t tx.hash = some tx ∧
    (∀ k, k ≠ tx.hash → findA (indexTX base tx accs dr).db.t k = findA dr.db.t k) ∧
    findA (indexTX base tx accs dr).db.m ((tx.ps, tx.hash) : Nat × Nat) = some () ∧
    (∀ k, k ≠ ((tx.ps, tx.hash) : Nat × Nat) →
      findA (indexTX base tx accs dr).db.m k = findA dr.db.m k) ∧
    (tx.height = -1 → findA (indexTX base tx accs dr).db.p tx.hash = some ()) ∧
    (∀ k, k ≠ tx.hash → findA (indexTX base tx accs dr).db.p k = findA dr.db.p k) ∧
    (tx.height ≠ -1 → (indexTX base tx accs dr).db.p = dr.db.p) ∧
    (tx.height ≠ -1 → findA (indexTX base tx accs dr).db.h
      ((tx.height, tx.hash) : Int × Nat) = some ()) ∧
    (∀ k, k ≠ ((tx.height, tx.hash) : Int × Nat) →
      findA (indexTX base tx accs dr).db.h k = findA dr.db.h k) ∧
    (tx.height = -1 → (indexTX base tx accs dr).db.h = dr.db.h) ∧
    (∀ a ∈ accs, findA (indexTX base tx accs dr).db.T
      ((a, tx.hash) : Nat × Nat) = some ()) ∧
    (∀ k, (∀ a ∈ accs, k ≠ ((a, tx.hash) : Nat × Nat)) →
      findA (indexTX base tx accs dr).db.T k = findA dr.db.T k) ∧
    (∀ a ∈ accs, findA (indexTX base tx accs dr).db.M
      ((a, tx.ps, tx.hash) : Nat × Nat × Nat) = some ()) ∧
    (∀ k, (∀ a ∈ accs, k ≠ ((a, tx.ps, tx.hash) : Nat × Nat × Nat)) →
      findA (indexTX base tx accs dr).db.M k = findA dr.db.M k) ∧
    (tx.height = -1 → ∀ a ∈ accs, findA (indexTX base tx accs dr).db.P
      ((a, tx.hash) : Nat × Nat) = some ()) ∧
    (∀ k, (∀ a ∈ accs, k ≠ ((a, tx.hash) : Nat × Nat)) →
      findA (indexTX base tx accs dr).db.P k = findA dr.db.P k) ∧
    (tx.height ≠ -1 → (indexTX base tx accs dr).db.P = dr.db.P) ∧
    (tx.height ≠ -1 → ∀ a ∈ accs, findA (indexTX base tx accs dr).db.H
      ((a, tx.height, tx.hash) : Nat × Int × Nat) = some ()) ∧
    (∀ k, (∀ a ∈ accs, k ≠ ((a, tx.height, tx.hash) : Nat × Int × Nat)) →
      findA (indexTX base tx accs dr).db.H k = findA dr.db.H k) ∧
    (tx.height = -1 → (indexTX base tx accs dr).db.H = dr.db.H) ∧
    (indexTX base tx accs dr).db.c = dr.db.c ∧
    (indexTX base tx accs dr).db.d = dr.db.d ∧
    (indexTX base tx accs dr).db.s = dr.db.s ∧
    (indexTX base tx accs dr).db.r = dr.db.r ∧
    (indexTX base tx accs dr).db.C = dr.db.C ∧
    (tx.height = -1 → (indexTX base tx accs dr).db.b = dr.db.b) ∧
    (tx.height ≠ -1 → getBlock base tx.height = none →
      (indexTX base tx accs dr).db.b = insertA dr.db.b tx.height
        { bhash := tx.block.getD 0, height := tx.height, ts := tx.ts,
          hashes := [tx.hash] }) ∧
    (tx.height ≠ -1 → ∀ blk, getBlock base tx.height = some blk →
      tx.hash ∉ blk.hashes →
      (indexTX base tx accs dr).db.b = insertA dr.db.b tx.height
        { blk with hashes := blk.hashes ++ [tx.hash] }) ∧
    (indexTX base tx accs dr).db.R
      = some { dr.pending with tx := dr.pending.tx + 1 } ∧
    (indexTX base tx accs dr).pending
      = { dr.pending with tx := dr.pending.tx + 1 } ∧
    (indexTX base tx accs dr).committedFlag = true := by
  by_cases hht : tx.height = -1
  · have hidx : indexTX base tx accs dr
        = emitEv .balanceEv (emitEv (.txEv tx.hash) (putState
            { accs.foldl (indexAccount tx)
                { dr with db := { dr.db with
                  t := insertA dr.db.t tx.hash tx,
                  m := insertA dr.db.m (tx.ps, tx.hash) (),
                  p := insertA dr.db.p tx.hash () } } with
              pending := { (accs.foldl (indexAccount tx)
                { dr with db := { dr.db with
                  t := insertA dr.db.t tx.hash tx,
                  m := insertA dr.db.m (tx.ps, tx.hash) (),
                  p := insertA dr.db.p tx.hash () } }).pending with
                tx := (accs.foldl (indexAccount tx)
                  { dr with db := { dr.db with
                    t := insertA dr.db.t tx.hash tx,
                    m := insertA dr.db.m (tx.ps, tx.hash) (),
                    p := insertA dr.db.p tx.hash () } }).pending.tx + 1 } })) := by
      unfold indexTX
      dsimp only
      rw [if_pos hht, if_neg (fun hc => hc hht)]
    rw [hidx]
    obtain ⟨hT1, hT2, hM1, hM2, hP1, hP2, hP3, hH1, hH2, hH3, hft, hfc, hfd,
        hfs, hfp, hfm, hfh, hfb, hfr, hfC, hfR, hpend, hflag⟩ :=
      foldl_indexAccount_chars tx accs
        { dr with db := { dr.db with
          t := insertA dr.db.t tx.hash tx,
          m := insertA dr.db.m (tx.ps, tx.hash) (),
          p := insertA dr.db.p tx.hash () } }
    refine ⟨?_, ?_, ?_, ?_, ?_, ?_, fun hcon => absurd hht hcon,
      fun hcon => absurd hht hcon, ?_, ?_,
      hT1, ?_, hM1, ?_, fun _ => hP1 hht, ?_, fun hcon => absurd hht hcon,
      fun hcon => absurd hht hcon, ?_, fun _ => (hH3 hht).trans rfl,
      hfc.trans rfl, hfd.trans rfl, hfs.trans rfl, hfr.trans rfl,
      hfC.trans rfl, fun _ => hfb.trans rfl,
      fun hcon => absurd hht hcon, fun hcon => absurd hht hcon,
      ?_, ?_, rfl⟩
    · show findA (accs.foldl (indexAccount tx) _).db.t tx.hash = some tx
      rw [hft]
      exact findA_insertA_self _ _ _
    · intro k hk
      show findA (accs.foldl (indexAccount tx) _).db.t k = findA dr.db.t k
      rw [hft]
      exact findA_insertA_ne _ _ _ _ hk
    · show findA (accs.foldl (indexAccount tx) _).db.m _ = some ()
      rw [hfm]
      exact findA_insertA_self _ _ _
    · intro k hk
      show findA (accs.foldl (indexAccount tx) _).db.m k = findA dr.db.m k
      rw [hfm]
      exact findA_insertA_ne _ _ _ _ hk
    · intro _
      show findA (accs.foldl (indexAccount tx) _).db.p tx.hash = some ()
      rw [hfp]
      exact findA_insertA_self _ _ _
    · intro k hk
      show findA (accs.foldl (indexAccount tx) _).db.p k = findA dr.db.p k
      rw [hfp]
      exact findA_insertA_ne _ _ _ _ hk
    · intro k _
      show findA (accs.foldl (indexAccount tx) _).db.h k = findA dr.db.h k
      rw [hfh]
    · intro _
      show (accs.foldl (indexAccount tx) _).db.h = dr.db.h
      rw [hfh]
    · intro k hk
      exact (hT2 k hk).trans rfl
    · intro k hk
      exact (hM2 k hk).trans rfl
    · intro k hk
      exact (hP2 k hk).trans rfl
    · intro k hk
      exact (hH2 k hk).trans rfl
    · rw [hpend]
      rfl
    · rw [hpend]
      rfl
  · have hidx : indexTX base tx accs dr
        = emitEv .balanceEv (emitEv (.txEv tx.hash) (putState
            { addBlock base tx (accs.foldl (indexAccount tx)
                { dr with db := { dr.db with
                  t := insertA dr.db.t tx.hash tx,
                  m := insertA dr.db.m (tx.ps, tx.hash) (),
                  h := insertA dr.db.h (tx.height, tx.hash) () } }) with
              pending := { (addBlock base tx (accs.foldl (indexAccount tx)
                { dr with db := { dr.db with
                  t := insertA dr.db.t tx.hash tx,
                  m := insertA dr.db.m (tx.ps, tx.hash) (),
                  h := insertA dr.db.h (tx.height, tx.hash) () } })).pending with
                tx := (addBlock base tx (accs.foldl (indexAccount tx)
                  { dr with db := { dr.db with
                    t := insertA dr.db.t tx.hash tx,
                    m := insertA dr.db.m (tx.ps, tx.hash) (),
                    h := insertA dr.db.h (tx.height, tx.hash) () } })).pending.tx + 1 } })) := by
      unfold indexTX
      dsimp only
      rw [if_neg hht, if_pos hht]
    rw [hidx]
    obtain ⟨hT1, hT2, hM1, hM2, hP1, hP2, hP3, hH1, hH2, hH3, hft, hfc, hfd,
        hfs, hfp, hfm, hfh, hfb, hfr, hfC, hfR, hpend, hflag⟩ :=
      foldl_indexAccount_chars tx accs
        { dr with db := { dr.db with
          t := insertA dr.db.t tx.hash tx,
          m := insertA dr.db.m (tx.ps, tx.hash) (),
          h := insertA dr.db.h (tx.height, tx.hash) () } }
    refine ⟨?_, ?_, ?_, ?_, fun hcon => absurd hcon hht, ?_, ?_,
      ?_, ?_, fun hcon => absurd hcon hht,
      ?_, ?_, ?_, ?_, fun hcon _ _ => absurd hcon hht, ?_, ?_,
      ?_, ?_, fun hcon => absurd hcon hht,
      ?_, ?_, ?_, ?_, ?_, fun hcon => absurd hcon hht, ?_, ?_,
      ?_, ?_, ?_⟩
    · show findA (addBlock base tx (accs.foldl (indexAccount tx) _)).db.t
        tx.hash = some tx
      rw [addBlock_db_t, hft]
      exact findA_insertA_self _ _ _
    · intro k hk
      show findA (addBlock base tx (accs.foldl (indexAccount tx) _)).db.t k
        = findA dr.db.t k
      rw [addBlock_db_t, hft]
      exact findA_insertA_ne _ _ _ _ hk
    · show findA (addBlock base tx (accs.foldl (indexAccount tx) _)).db.m _
        = some ()
      rw [addBlock_db_m, hfm]
      exact findA_insertA_self _ _ _
    · intro k hk
      show findA (addBlock base tx (accs.foldl (indexAccount tx) _)).db.m k
        = findA dr.db.m k
      rw [addBlock_db_m, hfm]
      exact findA_insertA_ne _ _ _ _ hk
    · intro k _
      show findA (addBlock base tx (accs.foldl (indexAccount tx) _)).db.p k
        = findA dr.db.p k
      rw [addBlock_db_p, hfp]
    · intro _
      show (addBlock base tx (accs.foldl (indexAccount tx) _)).db.p = dr.db.p
      rw [addBlock_db_p, hfp]
    · intro _
      show findA (addBlock base tx (accs.foldl (indexAccount tx) _)).db.h _
        = some ()
      rw [addBlock_db_h, hfh]
      exact findA_insertA_self _ _ _
    · intro k hk
      show findA (addBlock base tx (accs.foldl (indexAccount tx) _)).db.h k
        = findA dr.db.h k
      rw [addBlock_db_h, hfh]
      exact findA_insertA_ne _ _ _ _ hk
    · intro a ha
      show findA (addBlock base tx (accs.foldl (indexAccount tx) _)).db.T _
        = some ()
      rw [addBlock_db_T]
      exact hT1 a ha
    · intro k hk
      show findA (addBlock base tx (accs.foldl (indexAccount tx) _)).db.T k
        = findA dr.db.T k
      rw [addBlock_db_T]
      exact (hT2 k hk).trans rfl
    · intro a ha
      show findA (addBlock base tx (accs.foldl (indexAccount tx) _)).db.M _
        = some ()
      rw [addBlock_db_M]
      exact hM1 a ha
    · intro k hk
      show findA (addBlock base tx (accs.foldl (indexAccount tx) _)).db.M k
        = findA dr.db.M k
      rw [addBlock_db_M]
      exact (hM2 k hk).trans rfl
    · intro k hk
      show findA (addBlock base tx (accs.foldl (indexAccount tx) _)).db.P k
        = findA dr.db.P k
      rw [addBlock_db_P]
      exact (hP2 k hk).trans rfl
    · intro _
      show (addBlock base tx (accs.foldl (indexAccount tx) _)).db.P = dr.db.P
      rw [addBlock_db_P]
      exact (hP3 hht).trans rfl
    · intro _ a ha
      show findA (addBlock base tx (accs.foldl (indexAccount tx) _)).db.H _
        = some ()
      rw [addBlock_db_H]
      exact hH1 hht a ha
    · intro k hk
      show findA (addBlock base tx (accs.foldl (indexAccount tx) _)).db.H k
        = findA dr.db.H k
      rw [addBlock_db_H]
      exact (hH2 k hk).trans rfl
    · show (addBlock base tx (accs.foldl (indexAccount tx) _)).db.c = dr.db.c
      rw [addBlock_db_c, hfc]
    · show (addBlock base tx (accs.foldl (indexAccount tx) _)).db.d = dr.db.d
      rw [addBlock_db_d, hfd]
    · show (addBlock base tx (accs.foldl (indexAccount tx) _)).db.s = dr.db.s
      rw [addBlock_db_s, hfs]
    · show (addBlock base tx (accs.foldl (indexAccount tx) _)).db.r = dr.db.r
      rw [addBlock_db_r, hfr]
    · show (addBlock base tx (accs.foldl (indexAccount tx) _)).db.C = dr.db.C
      rw [addBlock_db_C, hfC]
    · intro _ hg
      show (addBlock base tx (accs.foldl (indexAccount tx) _)).db.b = _
      unfold addBlock
      rw [hg]
      dsimp only
      rw [if_neg (List.not_mem_nil _)]
      show insertA (accs.foldl (indexAccount tx) _).db.b tx.height _ = _
      rw [hfb]
      rfl
    · intro _ blk hg hmem
      show (addBlock base tx (accs.foldl (indexAccount tx) _)).db.b = _
      unfold addBlock
      rw [hg]
      dsimp only
      rw [if_neg hmem]
      show insertA (accs.foldl (indexAccount tx) _).db.b tx.height _ = _
      rw [hfb]
    · show some _ = some ({ dr.pending with tx := dr.pending.tx + 1 } : TXDBState)
      rw [addBlock_pending, hpend]
    · show ({ (addBlock base tx (accs.foldl (indexAccount tx) _)).pending with
        tx := (addBlock base tx (accs.foldl (indexAccount tx) _)).pending.tx + 1 }
          : TXDBState) = _
      rw [addBlock_pending, hpend]
    · rfl

/-- The input loop of `erase`, computed key by key, at either height: every
recognized input's original credit is restored, every input's spent marker
(and, when recognized, its undo coin) is deleted, `coin` rises by the number
of recognized inputs and `unconfirmed` by their total restored value
(`confirmed` too when mined); nothing else moves. -/
theorem eraseInputs_chars (base : DB) (tx : TX) :
    ∀ (zs : List ((Nat × Input) × Option Credit)) (dr : Draft) (accs : List Nat),
      (∀ e ∈ zs, ∀ cr, e.2 = some cr →
        cr.coin.hash = e.1.2.prevout.hash ∧
        cr.coin.index = e.1.2.prevout.index ∧
        cr.coin.account.isSome) →
      (zs.map (fun e => prevoutKey e.1.2)).Nodup →
      (zs.map (fun e => e.1.1)).Nodup →
      ∃ dr',
        eraseInputs base tx zs dr accs
          = .ok (dr', pushList (credAccounts zs) accs) ∧
        (∀ e ∈ zs, ∀ cr, e.2 = some cr →
          findA dr'.db.c (prevoutKey e.1.2) = some cr) ∧
        (∀ k, (∀ e ∈ zs, ∀ cr, e.2 = some cr → k ≠ prevoutKey e.1.2) →
          findA dr'.db.c k = findA dr.db.c k) ∧
        (∀ e ∈ zs, ∀ cr, e.2 = some cr →
          findA dr'.db.C
            (cr.coin.account.getD 0, e.1.2.prevout.hash, e.1.2.prevout.index)
            = some ()) ∧
        (∀ k, (∀ e ∈ zs, ∀ cr, e.2 = some cr → k ≠ ((cr.coin.account.getD 0,
            e.1.2.prevout.hash, e.1.2.prevout.index) : Nat × Nat × Nat)) →
          findA dr'.db.C k = findA dr.db.C k) ∧
        (∀ e ∈ zs, findA dr'.db.s (prevoutKey e.1.2) = none) ∧
        (∀ k, (∀ e ∈ zs, k ≠ prevoutKey e.1.2) →
          findA dr'.db.s k = findA dr.db.s k) ∧
        (∀ e ∈ zs, ∀ cr, e.2 = some cr →
          findA dr'.db.d ((tx.hash, e.1.1) : Nat × Nat) = none) ∧
        (∀ k, (∀ e ∈ zs, ∀ cr, e.2 = some cr → k ≠ ((tx.hash, e.1.1) : Nat × Nat)) →
          findA dr'.db.d k = findA dr.db.d k) ∧
        dr'.pending.coin = dr.pending.coin + (credVals zs).length ∧
        dr'.pending.unconfirmed = dr.pending.unconfirmed + (credVals zs).sum ∧
        dr'.pending.confirmed = dr.pending.confirmed
          + (if tx.height = -1 then 0 else (credVals zs).sum) ∧
        dr'.pending.tx = dr.pending.tx ∧
        dr'.pending.committed = dr.pending.committed ∧
        dr'.db.t = dr.db.t ∧ dr'.db.m = dr.db.m ∧ dr'.db.p = dr.db.p ∧
        dr'.db.h = dr.db.h ∧ dr'.db.T = dr.db.T ∧ dr'.db.M = dr.db.M ∧
        dr'.db.P = dr.db.P ∧ dr'.db.H = dr.db.H ∧ dr'.db.b = dr.db.b ∧
        dr'.db.r = dr.db.r ∧ dr'.db.R = dr.db.R ∧
        dr'.committedFlag = dr.committedFlag := by
  intro zs
  induction zs with
  | nil =>
    intro dr accs _ _ _
    exact ⟨dr, rfl,
      fun e he => absurd he (by simp), fun k _ => rfl,
      fun e he => absurd he (by simp), fun k _ => rfl,
      fun e he => absurd he (by simp), fun k _ => rfl,
      fun e he => absurd he (by simp), fun k _ => rfl,
      by simp [credVals], by simp [credVals], by simp [credVals],
      rfl, rfl,
      rfl, rfl, rfl, rfl, rfl, rfl, rfl, rfl, rfl, rfl, rfl, rfl⟩
  | cons e zs ih =>
    intro dr accs hfacts hnodupK hnodupI
    rcases e with ⟨⟨i, input⟩, co⟩
    rw [List.map_cons] at hnodupK hnodupI
    obtain ⟨hknotin, hnodupK'⟩ := List.nodup_cons.mp hnodupK
    obtain ⟨hinotin, hnodupI'⟩ := List.nodup_cons.mp hnodupI
    dsimp only at hknotin hinotin
    cases co with
    | none =>
      unfold eraseInputs
      obtain ⟨dr', hrec, hc1, hc2, hC1, hC2, hs1, hs2, hd1, hd2,
          hpc, hpu, hpcf, hpt, hpcm, hft, hfm, hfp, hfh, hfT, hfM, hfP, hfH,
          hfb, hfr, hfR, hfl⟩ :=
        ih (removeInput input.prevout dr) accs
          (fun q hq => hfacts q (List.mem_cons_of_mem _ hq)) hnodupK' hnodupI'
      have hcA : credAccounts (((i, input), (none : Option Credit)) :: zs)
          = credAccounts zs := by
        simp [credAccounts, List.filterMap_cons]
      have hcV : credVals (((i, input), (none : Option Credit)) :: zs)
          = credVals zs := by
        simp [credVals, List.filterMap_cons]
      refine ⟨dr', by rw [hrec, hcA],
        ?_, ?_, ?_, ?_, ?_, ?_, ?_, ?_,
        by rw [hpc, hcV]; rfl, by rw [hpu, hcV]; rfl, by rw [hpcf, hcV]; rfl,
        hpt.trans rfl, hpcm.trans rfl, hft.trans rfl, hfm.trans rfl,
        hfp.trans rfl, hfh.trans rfl, hfT.trans rfl, hfM.trans rfl,
        hfP.trans rfl, hfH.trans rfl, hfb.trans rfl, hfr.trans rfl,
        hfR.trans rfl, hfl.trans rfl⟩
      · intro q hq cr' hq2
        rcases List.mem_cons.mp hq with hq | hq
        · subst hq
          exact absurd hq2 (by simp)
        · exact hc1 q hq cr' hq2
      · intro k hk
        exact (hc2 k (fun q hq => hk q (List.mem_cons_of_mem _ hq))).trans rfl
      · intro q hq cr' hq2
        rcases List.mem_cons.mp hq with hq | hq
        · subst hq
          exact absurd hq2 (by simp)
        · exact hC1 q hq cr' hq2
      · intro k hk
        exact (hC2 k (fun q hq => hk q (List.mem_cons_of_mem _ hq))).trans rfl
      · intro q hq
        rcases List.mem_cons.mp hq with hq | hq
        · subst hq
          dsimp only
          refine (hs2 (prevoutKey input) ?_).trans ?_
          · intro q' hq' hc
            exact hknotin (hc ▸ List.mem_map_of_mem
              (fun e => prevoutKey e.1.2) hq')
          · show findA (eraseA _ ((input.prevout.hash, input.prevout.index)
              : Nat × Nat)) _ = _
            exact findA_eraseA_self _ _
        · exact hs1 q hq
      · intro k hk
        refine (hs2 k (fun q hq => hk q (List.mem_cons_of_mem _ hq))).trans ?_
        show findA (eraseA _ ((input.prevout.hash, input.prevout.index)
          : Nat × Nat)) _ = _
        exact findA_eraseA_ne _ _ _ (hk _ (List.mem_cons_self _ _))
      · intro q hq cr' hq2
        rcases List.mem_cons.mp hq with hq | hq
        · subst hq
          exact absurd hq2 (by simp)
        · exact hd1 q hq cr' hq2
      · intro k hk
        exact (hd2 k (fun q hq cr2 hq2 =>
          hk q (List.mem_cons_of_mem _ hq) cr2 hq2)).trans rfl
    | some cr =>
      obtain ⟨hh1, hh2, hacct⟩ :=
        hfacts ((i, input), some cr) (List.mem_cons_self _ _) cr rfl
      obtain ⟨a, ha⟩ := Option.isSome_iff_exists.mp hacct
      have hcA : credAccounts (((i, input), some cr) :: zs)
          = cr.coin.account.getD 0 :: credAccounts zs := by
        simp [credAccounts, List.filterMap_cons]
      have hcV : credVals (((i, input), some cr) :: zs)
          = cr.coin.value :: credVals zs := by
        simp [credVals, List.filterMap_cons]
      have hkey : ((cr.coin.hash, cr.coin.index) : Nat × Nat)
          = prevoutKey input := by
        rw [hh1, hh2]
        rfl
      unfold eraseInputs
      dsimp only
      rw [ha]
      dsimp only
      by_cases hh : tx.height = -1
      · rw [if_neg (fun hc => hc hh)]
        obtain ⟨dr', hrec, hc1, hc2, hC1, hC2, hs1, hs2, hd1, hd2,
            hpc, hpu, hpcf, hpt, hpcm, hft, hfm, hfp, hfh, hfT, hfM, hfP, hfH,
            hfb, hfr, hfR, hfl⟩ :=
          ih (saveCredit cr a
              (unspendCredit tx.hash i input.prevout
                { dr with pending := { dr.pending with
                  coin := dr.pending.coin + 1,
                  unconfirmed := dr.pending.unconfirmed + cr.coin.value } }))
            (pushAccount a accs)
            (fun q hq => hfacts q (List.mem_cons_of_mem _ hq)) hnodupK' hnodupI'
        refine ⟨dr', ?_, ?_, ?_, ?_, ?_, ?_, ?_, ?_, ?_, ?_, ?_, ?_,
          hpt.trans rfl, hpcm.trans rfl,
          hft.trans rfl, hfm.trans rfl, hfp.trans rfl, hfh.trans rfl,
          hfT.trans rfl, hfM.trans rfl, hfP.trans rfl, hfH.trans rfl,
          hfb.trans rfl, hfr.trans rfl, hfR.trans rfl, hfl.trans rfl⟩
        · rw [hrec, hcA, ha]
          rfl
        · intro q hq cr' hq2
          rcases List.mem_cons.mp hq with hq | hq
          · subst hq
            have hcr' : cr = cr' := by
              have := hq2
              simpa using this
            subst hcr'
            dsimp only
            refine (hc2 (prevoutKey input) ?_).trans ?_
            · intro q' hq' cr2 _ hc
              exact hknotin (hc ▸ List.mem_map_of_mem
                (fun e => prevoutKey e.1.2) hq')
            · simp only [saveCredit_db_c, unspendCredit_db_c]
              rw [hkey]
              exact findA_insertA_self _ _ _
          · exact hc1 q hq cr' hq2
        · intro k hk
          refine (hc2 k (fun q hq cr2 hq2 =>
            hk q (List.mem_cons_of_mem _ hq) cr2 hq2)).trans ?_
          simp only [saveCredit_db_c, unspendCredit_db_c]
          rw [hkey]
          exact findA_insertA_ne _ _ _ _ (hk _ (List.mem_cons_self _ _) cr rfl)
        · intro q hq cr' hq2
          rcases List.mem_cons.mp hq with hq | hq
          · subst hq
            have hcr' : cr = cr' := by
              have := hq2
              simpa using this
            subst hcr'
            dsimp only
            refine (hC2 (cr.coin.account.getD 0,
                input.prevout.hash, input.prevout.index) ?_).trans ?_
            · intro q' hq' cr2 _ hc
              apply hknotin
              have hpk : prevoutKey input = prevoutKey q'.1.2 := by
                have := congrArg (fun t : Nat × Nat × Nat => ((t.2.1, t.2.2) : Nat × Nat)) hc
                exact this
              exact hpk ▸ List.mem_map_of_mem (fun e => prevoutKey e.1.2) hq'
            · rw [ha]
              show findA (insertA _ (a, cr.coin.hash, cr.coin.index) ()) _ = some ()
              rw [hh1, hh2]
              exact findA_insertA_self _ _ _
          · exact hC1 q hq cr' hq2
        · intro k hk
          refine (hC2 k (fun q hq cr2 hq2 =>
            hk q (List.mem_cons_of_mem _ hq) cr2 hq2)).trans ?_
          show findA (insertA _ (a, cr.coin.hash, cr.coin.index) ()) _ = _
          rw [hh1, hh2]
          refine findA_insertA_ne _ _ _ _ ?_
          have := hk _ (List.mem_cons_self _ _) cr rfl
          dsimp only at this
          rw [ha] at this
          exact this
        · intro q hq
          rcases List.mem_cons.mp hq with hq | hq
          · subst hq
            dsimp only
            refine (hs2 (prevoutKey input) ?_).trans ?_
            · intro q' hq' hc
              exact hknotin (hc ▸ List.mem_map_of_mem
                (fun e => prevoutKey e.1.2) hq')
            · show findA (eraseA _ ((input.prevout.hash, input.prevout.index)
                : Nat × Nat)) _ = _
              exact findA_eraseA_self _ _
          · exact hs1 q hq
        · intro k hk
          refine (hs2 k (fun q hq => hk q (List.mem_cons_of_mem _ hq))).trans ?_
          show findA (eraseA _ ((input.prevout.hash, input.prevout.index)
            : Nat × Nat)) _ = _
          exact findA_eraseA_ne _ _ _ (hk _ (List.mem_cons_self _ _))
        · intro q hq cr' hq2
          rcases List.mem_cons.mp hq with hq | hq
          · subst hq
            dsimp only
            refine (hd2 ((tx.hash, i) : Nat × Nat) ?_).trans ?_
            · intro q' hq' cr2 _ hc
              apply hinotin
              have : i = q'.1.1 := by
                have := congrArg Prod.snd hc
                simpa using this
              exact this ▸ List.mem_map_of_mem (fun e => e.1.1) hq'
            · show findA (eraseA _ ((tx.hash, i) : Nat × Nat)) _ = _
              exact findA_eraseA_self _ _
          · exact hd1 q hq cr' hq2
        · intro k hk
          refine (hd2 k (fun q hq cr2 hq2 =>
            hk q (List.mem_cons_of_mem _ hq) cr2 hq2)).trans ?_
          show findA (eraseA _ ((tx.hash, i) : Nat × Nat)) _ = _
          exact findA_eraseA_ne _ _ _ (hk _ (List.mem_cons_self _ _) cr rfl)
        · rw [hpc, hcV]
          show dr.pending.coin + 1 + ((credVals zs).length : Int) = _
          rw [List.length_cons]
          push_cast
          ring
        · rw [hpu, hcV]
          show dr.pending.unconfirmed + cr.coin.value + _ = _
          rw [List.sum_cons]
          ring
        · rw [if_pos hh] at hpcf ⊢
          exact hpcf.trans rfl
      · rw [if_pos hh]
        obtain ⟨dr', hrec, hc1, hc2, hC1, hC2, hs1, hs2, hd1, hd2,
            hpc, hpu, hpcf, hpt, hpcm, hft, hfm, hfp, hfh, hfT, hfM, hfP, hfH,
            hfb, hfr, hfR, hfl⟩ :=
          ih (saveCredit cr a
              (unspendCredit tx.hash i input.prevout
                { { dr with pending := { dr.pending with
                      coin := dr.pending.coin + 1,
                      unconfirmed := dr.pending.unconfirmed + cr.coin.value } } with
                  pending := { { dr with pending := { dr.pending with
                      coin := dr.pending.coin + 1,
                      unconfirmed := dr.pending.unconfirmed + cr.coin.value } }.pending with
                    confirmed := { dr with pending := { dr.pending with
                      coin := dr.pending.coin + 1,
                      unconfirmed := dr.pending.unconfirmed + cr.coin.value } }.pending.confirmed
                      + cr.coin.value } }))
            (pushAccount a accs)
            (fun q hq => hfacts q (List.mem_cons_of_mem _ hq)) hnodupK' hnodupI'
        refine ⟨dr', ?_, ?_, ?_, ?_, ?_, ?_, ?_, ?_, ?_, ?_, ?_, ?_,
          hpt.trans rfl, hpcm.trans rfl,
          hft.trans rfl, hfm.trans rfl, hfp.trans rfl, hfh.trans rfl,
          hfT.trans rfl, hfM.trans rfl, hfP.trans rfl, hfH.trans rfl,
          hfb.trans rfl, hfr.trans rfl, hfR.trans rfl, hfl.trans rfl⟩
        · rw [hrec, hcA, ha]
          rfl
        · intro q hq cr' hq2
          rcases List.mem_cons.mp hq with hq | hq
          · subst hq
            have hcr' : cr = cr' := by
              have := hq2
              simpa using this
            subst hcr'
            dsimp only
            refine (hc2 (prevoutKey input) ?_).trans ?_
            · intro q' hq' cr2 _ hc
              exact hknotin (hc ▸ List.mem_map_of_mem
                (fun e => prevoutKey e.1.2) hq')
            · simp only [saveCredit_db_c, unspendCredit_db_c]
              rw [hkey]
              exact findA_insertA_self _ _ _
          · exact hc1 q hq cr' hq2
        · intro k hk
          refine (hc2 k (fun q hq cr2 hq2 =>
            hk q (List.mem_cons_of_mem _ hq) cr2 hq2)).trans ?_
          simp only [saveCredit_db_c, unspendCredit_db_c]
          rw [hkey]
          exact findA_insertA_ne _ _ _ _ (hk _ (List.mem_cons_self _ _) cr rfl)
        · intro q hq cr' hq2
          rcases List.mem_cons.mp hq with hq | hq
          · subst hq
            have hcr' : cr = cr' := by
              have := hq2
              simpa using this
            subst hcr'
            dsimp only
            refine (hC2 (cr.coin.account.getD 0,
                input.prevout.hash, input.prevout.index) ?_).trans ?_
            · intro q' hq' cr2 _ hc
              apply hknotin
              have hpk : prevoutKey input = prevoutKey q'.1.2 := by
                have := congrArg (fun t : Nat × Nat × Nat => ((t.2.1, t.2.2) : Nat × Nat)) hc
                exact this
              exact hpk ▸ List.mem_map_of_mem (fun e => prevoutKey e.1.2) hq'
            · rw [ha]
              show findA (insertA _ (a, cr.coin.hash, cr.coin.index) ()) _ = some ()
              rw [hh1, hh2]
              exact findA_insertA_self _ _ _
          · exact hC1 q hq cr' hq2
        · intro k hk
          refine (hC2 k (fun q hq cr2 hq2 =>
            hk q (List.mem_cons_of_mem _ hq) cr2 hq2)).trans ?_
          show findA (insertA _ (a, cr.coin.hash, cr.coin.index) ()) _ = _
          rw [hh1, hh2]
          refine findA_insertA_ne _ _ _ _ ?_
          have := hk _ (List.mem_cons_self _ _) cr rfl
          dsimp only at this
          rw [ha] at this
          exact this
        · intro q hq
          rcases List.mem_cons.mp hq with hq | hq
          · subst hq
            dsimp only
            refine (hs2 (prevoutKey input) ?_).trans ?_
            · intro q' hq' hc
              exact hknotin (hc ▸ List.mem_map_of_mem
                (fun e => prevoutKey e.1.2) hq')
            · show findA (eraseA _ ((input.prevout.hash, input.prevout.index)
                : Nat × Nat)) _ = _
              exact findA_eraseA_self _ _
          · exact hs1 q hq
        · intro k hk
          refine (hs2 k (fun q hq => hk q (List.mem_cons_of_mem _ hq))).trans ?_
          show findA (eraseA _ ((input.prevout.hash, input.prevout.index)
            : Nat × Nat)) _ = _
          exact findA_eraseA_ne _ _ _ (hk _ (List.mem_cons_self _ _))
        · intro q hq cr' hq2
          rcases List.mem_cons.mp hq with hq | hq
          · subst hq
            dsimp only
            refine (hd2 ((tx.hash, i) : Nat × Nat) ?_).trans ?_
            · intro q' hq' cr2 _ hc
              apply hinotin
              have : i = q'.1.1 := by
                have := congrArg Prod.snd hc
                simpa using this
              exact this ▸ List.mem_map_of_mem (fun e => e.1.1) hq'
            · show findA (eraseA _ ((tx.hash, i) : Nat × Nat)) _ = _
              exact findA_eraseA_self _ _
          · exact hd1 q hq cr' hq2
        · intro k hk
          refine (hd2 k (fun q hq cr2 hq2 =>
            hk q (List.mem_cons_of_mem _ hq) cr2 hq2)).trans ?_
          show findA (eraseA _ ((tx.hash, i) : Nat × Nat)) _ = _
          exact findA_eraseA_ne _ _ _ (hk _ (List.mem_cons_self _ _) cr rfl)
        · rw [hpc, hcV]
          show dr.pending.coin + 1 + ((credVals zs).length : Int) = _
          rw [List.length_cons]
          push_cast
          ring
        · rw [hpu, hcV]
          show dr.pending.unconfirmed + cr.coin.value + _ = _
          rw [List.sum_cons]
          ring
        · rw [if_neg hh] at hpcf ⊢
          rw [hpcf, hcV, List.sum_cons]
          show dr.pending.confirmed + cr.coin.value + _ = _
          ring

/-- The output loop of `erase`, computed key by key, at either height:
every owned output credit and its `C` entry are deleted, `coin` drops by
the number of owned outputs and `unconfirmed` by their total value
(`confirmed` too when mined); nothing else moves. -/
theorem eraseOutputs_chars (base : DB) (tx : TX) :
    ∀ (l : List (Nat × Output)) (dr : Draft) (accs : List Nat),
      (l.map Prod.fst).Nodup →
      ∃ dr',
        eraseOutputs base tx l dr accs
          = .ok (dr', pushList (outAccounts l) accs) ∧
        (∀ pr ∈ l, pr.2.account.isSome →
          findA dr'.db.c (tx.hash, pr.1) = none) ∧
        (∀ k, (∀ pr ∈ l, pr.2.account.isSome → k ≠ ((tx.hash, pr.1) : Nat × Nat)) →
          findA dr'.db.c k = findA dr.db.c k) ∧
        (∀ pr ∈ l, pr.2.account.isSome →
          findA dr'.db.C (pr.2.account.getD 0, tx.hash, pr.1) = none) ∧
        (∀ k, (∀ pr ∈ l, pr.2.account.isSome →
            k ≠ (pr.2.account.getD 0, tx.hash, pr.1)) →
          findA dr'.db.C k = findA dr.db.C k) ∧
        dr'.pending.coin = dr.pending.coin - (outAccounts l).length ∧
        dr'.pending.unconfirmed = dr.pending.unconfirmed - (outVals l).sum ∧
        dr'.pending.confirmed = dr.pending.confirmed
          - (if tx.height = -1 then 0 else (outVals l).sum) ∧
        dr'.pending.tx = dr.pending.tx ∧
        dr'.pending.committed = dr.pending.committed ∧
        dr'.db.t = dr.db.t ∧ dr'.db.m = dr.db.m ∧ dr'.db.p = dr.db.p ∧
        dr'.db.h = dr.db.h ∧ dr'.db.s = dr.db.s ∧ dr'.db.d = dr.db.d ∧
        dr'.db.T = dr.db.T ∧ dr'.db.M = dr.db.M ∧ dr'.db.P = dr.db.P ∧
        dr'.db.H = dr.db.H ∧ dr'.db.b = dr.db.b ∧ dr'.db.r = dr.db.r ∧
        dr'.db.R = dr.db.R ∧ dr'.committedFlag = dr.committedFlag := by
  intro l
  induction l with
  | nil =>
    intro dr accs _
    exact ⟨dr, rfl,
      fun pr hpr => absurd hpr (by simp), fun k _ => rfl,
      fun pr hpr => absurd hpr (by simp), fun k _ => rfl,
      by simp [outAccounts], by simp [outVals], by simp [outVals],
      rfl, rfl,
      rfl, rfl, rfl, rfl, rfl, rfl, rfl, rfl, rfl, rfl, rfl, rfl, rfl, rfl⟩
  | cons pr l ih =>
    intro dr accs hnodup
    rcases pr with ⟨i, output⟩
    rw [List.map_cons] at hnodup
    obtain ⟨hinotin, hnodup'⟩ := List.nodup_cons.mp hnodup
    dsimp only at hinotin
    unfold eraseOutputs
    cases hacct : output.account with
    | none =>
      obtain ⟨dr', hrec, hc1, hc2, hC1, hC2, hpc, hpu, hpcf, hpt, hrest⟩ :=
        ih dr accs hnodup'
      have hstream : outAccounts ((i, output) :: l) = outAccounts l := by
        simp [outAccounts, List.filterMap_cons, hacct]
      have hvals : outVals ((i, output) :: l) = outVals l := by
        simp [outVals, List.filterMap_cons, hacct]
      refine ⟨dr', by rw [hrec, hstream], ?_, ?_, ?_, ?_,
        by rw [hpc, hstream], by rw [hpu, hvals], by rw [hpcf, hvals],
        hpt, hrest⟩
      · intro q hq hqs
        rcases List.mem_cons.mp hq with hq | hq
        · exact absurd hqs (by subst hq; simp [hacct])
        · exact hc1 q hq hqs
      · intro k hk
        exact hc2 k (fun q hq => hk q (List.mem_cons_of_mem _ hq))
      · intro q hq hqs
        rcases List.mem_cons.mp hq with hq | hq
        · exact absurd hqs (by subst hq; simp [hacct])
        · exact hC1 q hq hqs
      · intro k hk
        exact hC2 k (fun q hq => hk q (List.mem_cons_of_mem _ hq))
    | some a =>
      dsimp only
      by_cases hh : tx.height = -1
      · rw [if_neg (fun hc => hc hh)]
        obtain ⟨dr', hrec, hc1, hc2, hC1, hC2, hpc, hpu, hpcf, hpt,
            hpcm, hft, hfm, hfp, hfh, hfs, hfd, hfT, hfM, hfP, hfH, hfb, hfr, hfR,
            hfl⟩ :=
          ih (removeCredit (Credit.fromTX tx i output) a
              { dr with pending := { dr.pending with
                coin := dr.pending.coin - 1,
                unconfirmed := dr.pending.unconfirmed - output.value } })
            (pushAccount a accs) hnodup'
        have hstream : outAccounts ((i, output) :: l) = a :: outAccounts l := by
          simp [outAccounts, List.filterMap_cons, hacct]
        have hvals : outVals ((i, output) :: l) = output.value :: outVals l := by
          simp [outVals, List.filterMap_cons, hacct]
        refine ⟨dr', by rw [hrec, hstream]; rfl, ?_, ?_, ?_, ?_, ?_, ?_,
          by rw [if_pos hh] at hpcf ⊢; exact hpcf.trans rfl,
          hpt.trans rfl, hpcm.trans rfl,
          hft.trans rfl, hfm.trans rfl, hfp.trans rfl, hfh.trans rfl,
          hfs.trans rfl, hfd.trans rfl, hfT.trans rfl, hfM.trans rfl,
          hfP.trans rfl, hfH.trans rfl, hfb.trans rfl, hfr.trans rfl,
          hfR.trans rfl, hfl.trans rfl⟩
        · intro q hq hqs
          rcases List.mem_cons.mp hq with hq | hq
          · subst hq
            dsimp only
            refine (hc2 ((tx.hash, i) : Nat × Nat) ?_).trans ?_
            · intro q' hq' _ hc
              apply hinotin
              have hq1 : i = q'.1 := by
                have := congrArg Prod.snd hc
                simpa using this
              exact hq1 ▸ List.mem_map_of_mem Prod.fst hq'
            · show findA (eraseA _ ((tx.hash, i) : Nat × Nat)) _ = _
              exact findA_eraseA_self _ _
          · exact hc1 q hq hqs
        · intro k hk
          refine (hc2 k (fun q hq hqs => hk q (List.mem_cons_of_mem _ hq) hqs)).trans ?_
          show findA (eraseA _ ((tx.hash, i) : Nat × Nat)) _ = _
          exact findA_eraseA_ne _ _ _
            (hk _ (List.mem_cons_self _ _) (by rw [hacct]; rfl))
        · intro q hq hqs
          rcases List.mem_cons.mp hq with hq | hq
          · subst hq
            dsimp only
            rw [hacct]
            refine (hC2 ((a, tx.hash, i) : Nat × Nat × Nat) ?_).trans ?_
            · intro q' hq' _ hc
              apply hinotin
              have hq1 : i = q'.1 := by
                have := congrArg (fun t : Nat × Nat × Nat => t.2.2) hc
                simpa using this
              exact hq1 ▸ List.mem_map_of_mem Prod.fst hq'
            · show findA (eraseA _ ((a, tx.hash, i) : Nat × Nat × Nat)) _ = _
              exact findA_eraseA_self _ _
          · exact hC1 q hq hqs
        · intro k hk
          refine (hC2 k (fun q hq hqs => hk q (List.mem_cons_of_mem _ hq) hqs)).trans ?_
          show findA (eraseA _ ((a, tx.hash, i) : Nat × Nat × Nat)) _ = _
          refine findA_eraseA_ne _ _ _ ?_
          have := hk _ (List.mem_cons_self _ _) (by rw [hacct]; rfl)
          dsimp only at this
          rw [hacct] at this
          exact this
        · rw [hpc, hstream]
          show dr.pending.coin - 1 - _ = _
          rw [List.length_cons]
          push_cast
          ring
        · rw [hpu, hvals]
          show dr.pending.unconfirmed - output.value - _ = _
          rw [List.sum_cons]
          ring
      · rw [if_pos hh]
        obtain ⟨dr', hrec, hc1, hc2, hC1, hC2, hpc, hpu, hpcf, hpt,
            hpcm, hft, hfm, hfp, hfh, hfs, hfd, hfT, hfM, hfP, hfH, hfb, hfr, hfR,
            hfl⟩ :=
          ih (removeCredit (Credit.fromTX tx i output) a
              { { dr with pending := { dr.pending with
                    coin := dr.pending.coin - 1,
                    unconfirmed := dr.pending.unconfirmed - output.value } } with
                pending := { { dr with pending := { dr.pending with
                    coin := dr.pending.coin - 1,
                    unconfirmed := dr.pending.unconfirmed - output.value } }.pending with
                  confirmed := { dr with pending := { dr.pending with
                    coin := dr.pending.coin - 1,
                    unconfirmed := dr.pending.unconfirmed - output.value } }.pending.confirmed
                    - output.value } })
            (pushAccount a accs) hnodup'
        have hstream : outAccounts ((i, output) :: l) = a :: outAccounts l := by
          simp [outAccounts, List.filterMap_cons, hacct]
        have hvals : outVals ((i, output) :: l) = output.value :: outVals l := by
          simp [outVals, List.filterMap_cons, hacct]
        refine ⟨dr', by rw [hrec, hstream]; rfl, ?_, ?_, ?_, ?_, ?_, ?_, ?_,
          hpt.trans rfl, hpcm.trans rfl,
          hft.trans rfl, hfm.trans rfl, hfp.trans rfl, hfh.trans rfl,
          hfs.trans rfl, hfd.trans rfl, hfT.trans rfl, hfM.trans rfl,
          hfP.trans rfl, hfH.trans rfl, hfb.trans rfl, hfr.trans rfl,
          hfR.trans rfl, hfl.trans rfl⟩
        · intro q hq hqs
          rcases List.mem_cons.mp hq with hq | hq
          · subst hq
            dsimp only
            refine (hc2 ((tx.hash, i) : Nat × Nat) ?_).trans ?_
            · intro q' hq' _ hc
              apply hinotin
              have hq1 : i = q'.1 := by
                have := congrArg Prod.snd hc
                simpa using this
              exact hq1 ▸ List.mem_map_of_mem Prod.fst hq'
            · show findA (eraseA _ ((tx.hash, i) : Nat × Nat)) _ = _
              exact findA_eraseA_self _ _
          · exact hc1 q hq hqs
        · intro k hk
          refine (hc2 k (fun q hq hqs => hk q (List.mem_cons_of_mem _ hq) hqs)).trans ?_
          show findA (eraseA _ ((tx.hash, i) : Nat × Nat)) _ = _
          exact findA_eraseA_ne _ _ _
            (hk _ (List.mem_cons_self _ _) (by rw [hacct]; rfl))
        · intro q hq hqs
          rcases List.mem_cons.mp hq with hq | hq
          · subst hq
            dsimp only
            rw [hacct]
            refine (hC2 ((a, tx.hash, i) : Nat × Nat × Nat) ?_).trans ?_
            · intro q' hq' _ hc
              apply hinotin
              have hq1 : i = q'.1 := by
                have := congrArg (fun t : Nat × Nat × Nat => t.2.2) hc
                simpa using this
              exact hq1 ▸ List.mem_map_of_mem Prod.fst hq'
            · show findA (eraseA _ ((a, tx.hash, i) : Nat × Nat × Nat)) _ = _
              exact findA_eraseA_self _ _
          · exact hC1 q hq hqs
        · intro k hk
          refine (hC2 k (fun q hq hqs => hk q (List.mem_cons_of_mem _ hq) hqs)).trans ?_
          show findA (eraseA _ ((a, tx.hash, i) : Nat × Nat × Nat)) _ = _
          refine findA_eraseA_ne _ _ _ ?_
          have := hk _ (List.mem_cons_self _ _) (by rw [hacct]; rfl)
          dsimp only at this
          rw [hacct] at this
          exact this
        · rw [hpc, hstream]
          show dr.pending.coin - 1 - _ = _
          rw [List.length_cons]
          push_cast
          ring
        · rw [hpu, hvals]
          show dr.pending.unconfirmed - output.value - _ = _
          rw [List.sum_cons]
          ring
        · rw [if_neg hh] at hpcf ⊢
          rw [hpcf, hvals, List.sum_cons]
          show dr.pending.confirmed - output.value - _ = _
          ring
/-- The per-account unindexing fold of `erase`, computed key by key, at
either height. -/
theorem foldl_eraseAccountIndex_chars (tx : TX) :
    ∀ (accs : List Nat) (dr : Draft),
      (∀ a ∈ accs, findA (accs.foldl (eraseAccountIndex tx) dr).db.T
        ((a, tx.hash) : Nat × Nat) = none) ∧
      (∀ k, (∀ a ∈ accs, k ≠ ((a, tx.hash) : Nat × Nat)) →
        findA (accs.foldl (eraseAccountIndex tx) dr).db.T k = findA dr.db.T k) ∧
      (∀ a ∈ accs, findA (accs.foldl (eraseAccountIndex tx) dr).db.M
        ((a, tx.ps, tx.hash) : Nat × Nat × Nat) = none) ∧
      (∀ k, (∀ a ∈ accs, k ≠ ((a, tx.ps, tx.hash) : Nat × Nat × Nat)) →
        findA (accs.foldl (eraseAccountIndex tx) dr).db.M k = findA dr.db.M k) ∧
      (tx.height = -1 → ∀ a ∈ accs,
        findA (accs.foldl (eraseAccountIndex tx) dr).db.P
          ((a, tx.hash) : Nat × Nat) = none) ∧
      (∀ k, (∀ a ∈ accs, k ≠ ((a, tx.hash) : Nat × Nat)) →
        findA (accs.foldl (eraseAccountIndex tx) dr).db.P k = findA dr.db.P k) ∧
      (tx.height ≠ -1 → (accs.foldl (eraseAccountIndex tx) dr).db.P = dr.db.P) ∧
      (tx.height ≠ -1 → ∀ a ∈ accs,
        findA (accs.foldl (eraseAccountIndex tx) dr).db.H
          ((a, tx.height, tx.hash) : Nat × Int × Nat) = none) ∧
      (∀ k, (∀ a ∈ accs, k ≠ ((a, tx.height, tx.hash) : Nat × Int × Nat)) →
        findA (accs.foldl (eraseAccountIndex tx) dr).db.H k = findA dr.db.H k) ∧
      (tx.height = -1 → (accs.foldl (eraseAccountIndex tx) dr).db.H = dr.db.H) ∧
      (accs.foldl (eraseAccountIndex tx) dr).db.t = dr.db.t ∧
      (accs.foldl (eraseAccountIndex tx) dr).db.c = dr.db.c ∧
      (accs.foldl (eraseAccountIndex tx) dr).db.d = dr.db.d ∧
      (accs.foldl (eraseAccountIndex tx) dr).db.s = dr.db.s ∧
      (accs.foldl (eraseAccountIndex tx) dr).db.p = dr.db.p ∧
      (accs.foldl (eraseAccountIndex tx) dr).db.m = dr.db.m ∧
      (accs.foldl (eraseAccountIndex tx) dr).db.h = dr.db.h ∧
      (accs.foldl (eraseAccountIndex tx) dr).db.b = dr.db.b ∧
      (accs.foldl (eraseAccountIndex tx) dr).db.r = dr.db.r ∧
      (accs.foldl (eraseAccountIndex tx) dr).db.C = dr.db.C ∧
      (accs.foldl (eraseAccountIndex tx) dr).db.R = dr.db.R ∧
      (accs.foldl (eraseAccountIndex tx) dr).pending = dr.pending ∧
      (accs.foldl (eraseAccountIndex tx) dr).committedFlag = dr.committedFlag := by
  intro accs
  induction accs with
  | nil =>
    intro dr
    exact ⟨fun a ha => absurd ha (by simp), fun k _ => rfl,
      fun a ha => absurd ha (by simp), fun k _ => rfl,
      fun _ a ha => absurd ha (by simp), fun k _ => rfl, fun _ => rfl,
      fun _ a ha => absurd ha (by simp), fun k _ => rfl, fun _ => rfl,
      rfl, rfl, rfl, rfl, rfl, rfl, rfl, rfl, rfl, rfl, rfl, rfl, rfl⟩
  | cons a accs ih =>
    intro dr
    rw [List.foldl_cons]
    by_cases hh : tx.height = -1
    · have hstep : eraseAccountIndex tx dr a
          = { dr with db := { dr.db with
              T := eraseA dr.db.T (a, tx.hash),
              M := eraseA dr.db.M (a, tx.ps, tx.hash),
              P := eraseA dr.db.P (a, tx.hash) } } := by
        unfold eraseAccountIndex
        rw [if_pos hh]
      rw [hstep]
      obtain ⟨hT1, hT2, hM1, hM2, hP1, hP2, hP3, hH1, hH2, hH3, hft, hfc, hfd,
          hfs, hfp, hfm, hfh, hfb, hfr, hfC, hfR, hpend, hflag⟩ := ih
        { dr with db := { dr.db with
            T := eraseA dr.db.T (a, tx.hash),
            M := eraseA dr.db.M (a, tx.ps, tx.hash),
            P := eraseA dr.db.P (a, tx.hash) } }
      refine ⟨?_, ?_, ?_, ?_, ?_, ?_, fun hcon => absurd hh hcon,
        fun hcon => absurd hh hcon, ?_, fun _ => (hH3 hh).trans rfl,
        hft.trans rfl, hfc.trans rfl, hfd.trans rfl, hfs.trans rfl,
        hfp.trans rfl, hfm.trans rfl, hfh.trans rfl, hfb.trans rfl,
        hfr.trans rfl, hfC.trans rfl, hfR.trans rfl,
        hpend.trans rfl, hflag.trans rfl⟩
      · intro a' ha'
        rcases List.mem_cons.mp ha' with ha' | ha'
        · subst ha'
          by_cases hmem : a' ∈ accs
          · exact hT1 a' hmem
          · refine (hT2 ((a', tx.hash) : Nat × Nat) ?_).trans ?_
            · intro q hq hc
              have h : a' = q := congrArg Prod.fst hc
              exact hmem (by rw [h]; exact hq)
            · exact findA_eraseA_self _ _
        · exact hT1 a' ha'
      · intro k hk
        refine (hT2 k (fun q hq => hk q (List.mem_cons_of_mem _ hq))).trans ?_
        exact findA_eraseA_ne _ _ _ (hk a (List.mem_cons_self _ _))
      · intro a' ha'
        rcases List.mem_cons.mp ha' with ha' | ha'
        · subst ha'
          by_cases hmem : a' ∈ accs
          · exact hM1 a' hmem
          · refine (hM2 ((a', tx.ps, tx.hash) : Nat × Nat × Nat) ?_).trans ?_
            · intro q hq hc
              have h : a' = q := congrArg Prod.fst hc
              exact hmem (by rw [h]; exact hq)
            · exact findA_eraseA_self _ _
        · exact hM1 a' ha'
      · intro k hk
        refine (hM2 k (fun q hq => hk q (List.mem_cons_of_mem _ hq))).trans ?_
        exact findA_eraseA_ne _ _ _ (hk a (List.mem_cons_self _ _))
      · intro _ a' ha'
        rcases List.mem_cons.mp ha' with ha' | ha'
        · subst ha'
          by_cases hmem : a' ∈ accs
          · exact hP1 hh a' hmem
          · refine (hP2 ((a', tx.hash) : Nat × Nat) ?_).trans ?_
            · intro q hq hc
              have h : a' = q := congrArg Prod.fst hc
              exact hmem (by rw [h]; exact hq)
            · exact findA_eraseA_self _ _
        · exact hP1 hh a' ha'
      · intro k hk
        refine (hP2 k (fun q hq => hk q (List.mem_cons_of_mem _ hq))).trans ?_
        exact findA_eraseA_ne _ _ _ (hk a (List.mem_cons_self _ _))
      · intro k hk
        exact (hH2 k (fun q hq => hk q (List.mem_cons_of_mem _ hq))).trans rfl
    · have hstep : eraseAccountIndex tx dr a
          = { dr with db := { dr.db with
              T := eraseA dr.db.T (a, tx.hash),
              M := eraseA dr.db.M (a, tx.ps, tx.hash),
              H := eraseA dr.db.H (a, tx.height, tx.hash) } } := by
        unfold eraseAccountIndex
        rw [if_neg hh]
      rw [hstep]
      obtain ⟨hT1, hT2, hM1, hM2, hP1, hP2, hP3, hH1, hH2, hH3, hft, hfc, hfd,
          hfs, hfp, hfm, hfh, hfb, hfr, hfC, hfR, hpend, hflag⟩ := ih
        { dr with db := { dr.db with
            T := eraseA dr.db.T (a, tx.hash),
            M := eraseA dr.db.M (a, tx.ps, tx.hash),
            H := eraseA dr.db.H (a, tx.height, tx.hash) } }
      refine ⟨?_, ?_, ?_, ?_, fun hcon => absurd hcon hh, ?_,
        fun _ => (hP3 hh).trans rfl, ?_, ?_, fun hcon => absurd hcon hh,
        hft.trans rfl, hfc.trans rfl, hfd.trans rfl, hfs.trans rfl,
        hfp.trans rfl, hfm.trans rfl, hfh.trans rfl, hfb.trans rfl,
        hfr.trans rfl, hfC.trans rfl, hfR.trans rfl,
        hpend.trans rfl, hflag.trans rfl⟩
      · intro a' ha'
        rcases List.mem_cons.mp ha' with ha' | ha'
        · subst ha'
          by_cases hmem : a' ∈ accs
          · exact hT1 a' hmem
          · refine (hT2 ((a', tx.hash) : Nat × Nat) ?_).trans ?_
            · intro q hq hc
              have h : a' = q := congrArg Prod.fst hc
              exact hmem (by rw [h]; exact hq)
            · exact findA_eraseA_self _ _
        · exact hT1 a' ha'
      · intro k hk
        refine (hT2 k (fun q hq => hk q (List.mem_cons_of_mem _ hq))).trans ?_
        exact findA_eraseA_ne _ _ _ (hk a (List.mem_cons_self _ _))
      · intro a' ha'
        rcases List.mem_cons.mp ha' with ha' | ha'
        · subst ha'
          by_cases hmem : a' ∈ accs
          · exact hM1 a' hmem
          · refine (hM2 ((a', tx.ps, tx.hash) : Nat × Nat × Nat) ?_).trans ?_
            · intro q hq hc
              have h : a' = q := congrArg Prod.fst hc
              exact hmem (by rw [h]; exact hq)
            · exact findA_eraseA_self _ _
        · exact hM1 a' ha'
      · intro k hk
        refine (hM2 k (fun q hq => hk q (List.mem_cons_of_mem _ hq))).trans ?_
        exact findA_eraseA_ne _ _ _ (hk a (List.mem_cons_self _ _))
      · intro k hk
        exact (hP2 k (fun q hq => hk q (List.mem_cons_of_mem _ hq))).trans rfl
      · intro _ a' ha'
        rcases List.mem_cons.mp ha' with ha' | ha'
        · subst ha'
          by_cases hmem : a' ∈ accs
          · exact hH1 hh a' hmem
          · refine (hH2 ((a', tx.height, tx.hash) : Nat × Int × Nat) ?_).trans ?_
            · intro q hq hc
              have h : a' = q := congrArg Prod.fst hc
              exact hmem (by rw [h]; exact hq)
            · exact findA_eraseA_self _ _
        · exact hH1 hh a' ha'
      · intro k hk
        refine (hH2 k (fun q hq => hk q (List.mem_cons_of_mem _ hq))).trans ?_
        exact findA_eraseA_ne _ _ _ (hk a (List.mem_cons_self _ _))

theorem removeBlock_db_m (base : DB) (txHash : Nat) (height : Int) (dr : Draft) :
    (removeBlock base txHash height dr).db.m = dr.db.m := by
  unfold removeBlock
  cases getBlock base height with
  | none => rfl
  | some blk =>
    dsimp only
    by_cases hmem : txHash ∈ blk.hashes
    · rw [if_pos hmem]
      unfold blockRemoveStep
      split <;> rfl
    · rw [if_neg hmem]

theorem removeBlock_db_p (base : DB) (txHash : Nat) (height : Int) (dr : Draft) :
    (removeBlock base txHash height dr).db.p = dr.db.p := by
  unfold removeBlock
  cases getBlock base height with
  | none => rfl
  | some blk =>
    dsimp only
    by_cases hmem : txHash ∈ blk.hashes
    · rw [if_pos hmem]
      unfold blockRemoveStep
      split <;> rfl
    · rw [if_neg hmem]

theorem removeBlock_db_h (base : DB) (txHash : Nat) (height : Int) (dr : Draft) :
    (removeBlock base txHash height dr).db.h = dr.db.h := by
  unfold removeBlock
  cases getBlock base height with
  | none => rfl
  | some blk =>
    dsimp only
    by_cases hmem : txHash ∈ blk.hashes
    · rw [if_pos hmem]
      unfold blockRemoveStep
      split <;> rfl
    · rw [if_neg hmem]

theorem removeBlock_db_s (base : DB) (txHash : Nat) (height : Int) (dr : Draft) :
    (removeBlock base txHash height dr).db.s = dr.db.s := by
  unfold removeBlock
  cases getBlock base height with
  | none => rfl
  | some blk =>
    dsimp only
    by_cases hmem : txHash ∈ blk.hashes
    · rw [if_pos hmem]
      unfold blockRemoveStep
      split <;> rfl
    · rw [if_neg hmem]

theorem removeBlock_db_d (base : DB) (txHash : Nat) (height : Int) (dr : Draft) :
    (removeBlock base txHash height dr).db.d = dr.db.d := by
  unfold removeBlock
  cases getBlock base height with
  | none => rfl
  | some blk =>
    dsimp only
    by_cases hmem : txHash ∈ blk.hashes
    · rw [if_pos hmem]
      unfold blockRemoveStep
      split <;> rfl
    · rw [if_neg hmem]

theorem removeBlock_db_T (base : DB) (txHash : Nat) (height : Int) (dr : Draft) :
    (removeBlock base txHash height dr).db.T = dr.db.T := by
  unfold removeBlock
  cases getBlock base height with
  | none => rfl
  | some blk =>
    dsimp only
    by_cases hmem : txHash ∈ blk.hashes
    · rw [if_pos hmem]
      unfold blockRemoveStep
      split <;> rfl
    · rw [if_neg hmem]

theorem removeBlock_db_M (base : DB) (txHash : Nat) (height : Int) (dr : Draft) :
    (removeBlock base txHash height dr).db.M = dr.db.M := by
  unfold removeBlock
  cases getBlock base height with
  | none => rfl
  | some blk =>
    dsimp only
    by_cases hmem : txHash ∈ blk.hashes
    · rw [if_pos hmem]
      unfold blockRemoveStep
      split <;> rfl
    · rw [if_neg hmem]

theorem removeBlock_db_P (base : DB) (txHash : Nat) (height : Int) (dr : Draft) :
    (removeBlock base txHash height dr).db.P = dr.db.P := by
  unfold removeBlock
  cases getBlock base height with
  | none => rfl
  | some blk =>
    dsimp only
    by_cases hmem : txHash ∈ blk.hashes
    · rw [if_pos hmem]
      unfold blockRemoveStep
      split <;> rfl
    · rw [if_neg hmem]

theorem removeBlock_db_H (base : DB) (txHash : Nat) (height : Int) (dr : Draft) :
    (removeBlock base txHash height dr).db.H = dr.db.H := by
  unfold removeBlock
  cases getBlock base height with
  | none => rfl
  | some blk =>
    dsimp only
    by_cases hmem : txHash ∈ blk.hashes
    · rw [if_pos hmem]
      unfold blockRemoveStep
      split <;> rfl
    · rw [if_neg hmem]

theorem removeBlock_db_r (base : DB) (txHash : Nat) (height : Int) (dr : Draft) :
    (removeBlock base txHash height dr).db.r = dr.db.r := by
  unfold removeBlock
  cases getBlock base height with
  | none => rfl
  | some blk =>
    dsimp only
    by_cases hmem : txHash ∈ blk.hashes
    · rw [if_pos hmem]
      unfold blockRemoveStep
      split <;> rfl
    · rw [if_neg hmem]

theorem removeBlock_db_C (base : DB) (txHash : Nat) (height : Int) (dr : Draft) :
    (removeBlock base txHash height dr).db.C = dr.db.C := by
  unfold removeBlock
  cases getBlock base height with
  | none => rfl
  | some blk =>
    dsimp only
    by_cases hmem : txHash ∈ blk.hashes
    · rw [if_pos hmem]
      unfold blockRemoveStep
      split <;> rfl
    · rw [if_neg hmem]

set_option maxHeartbeats 1600000 in
/-- The unindexing tail of `erase`, computed key by key, at either height:
`r`, `t`, `m` and the per-height primary and account indexes are deleted,
the block record sheds the hash when mined, `tx` drops by one, and the
state is committed. -/
theorem eraseIndex_chars (base : DB) (tx : TX)
    (accs : List Nat) (dr : Draft) :
    findA (eraseIndex base tx accs dr).db.t tx.hash = none ∧
    (∀ k, k ≠ tx.hash → findA (eraseIndex base tx accs dr).db.t k = findA dr.db.t k) ∧
    findA (eraseIndex base tx accs dr).db.m ((tx.ps, tx.hash) : Nat × Nat) = none ∧
    (∀ k, k ≠ ((tx.ps, tx.hash) : Nat × Nat) →
      findA (eraseIndex base tx accs dr).db.m k = findA dr.db.m k) ∧
    (tx.height = -1 → findA (eraseIndex base tx accs dr).db.p tx.hash = none) ∧
    (∀ k, k ≠ tx.hash → findA (eraseIndex base tx accs dr).db.p k = findA dr.db.p k) ∧
    (tx.height ≠ -1 → (eraseIndex base tx accs dr).db.p = dr.db.p) ∧
    (tx.height ≠ -1 →
      findA (eraseIndex base tx accs dr).db.h ((tx.height, tx.hash) : Int × Nat) = none) ∧
    (∀ k, k ≠ ((tx.height, tx.hash) : Int × Nat) →
      findA (eraseIndex base tx accs dr).db.h k = findA dr.db.h k) ∧
    (tx.height = -1 → (eraseIndex base tx accs dr).db.h = dr.db.h) ∧
    findA (eraseIndex base tx accs dr).db.r tx.hash = none ∧
    (∀ k, k ≠ tx.hash → findA (eraseIndex base tx accs dr).db.r k = findA dr.db.r k) ∧
    (∀ a ∈ accs, findA (eraseIndex base tx accs dr).db.T
      ((a, tx.hash) : Nat × Nat) = none) ∧
    (∀ k, (∀ a ∈ accs, k ≠ ((a, tx.hash) : Nat × Nat)) →
      findA (eraseIndex base tx accs dr).db.T k = findA dr.db.T k) ∧
    (∀ a ∈ accs, findA (eraseIndex base tx accs dr).db.M
      ((a, tx.ps, tx.hash) : Nat × Nat × Nat) = none) ∧
    (∀ k, (∀ a ∈ accs, k ≠ ((a, tx.ps, tx.hash) : Nat × Nat × Nat)) →
      findA (eraseIndex base tx accs dr).db.M k = findA dr.db.M k) ∧
    (tx.height = -1 → ∀ a ∈ accs, findA (eraseIndex base tx accs dr).db.P
      ((a, tx.hash) : Nat × Nat) = none) ∧
    (∀ k, (∀ a ∈ accs, k ≠ ((a, tx.hash) : Nat × Nat)) →
      findA (eraseIndex base tx accs dr).db.P k = findA dr.db.P k) ∧
    (tx.height ≠ -1 → (eraseIndex base tx accs dr).db.P = dr.db.P) ∧
    (tx.height ≠ -1 → ∀ a ∈ accs, findA (eraseIndex base tx accs dr).db.H
      ((a, tx.height, tx.hash) : Nat × Int × Nat) = none) ∧
    (∀ k, (∀ a ∈ accs, k ≠ ((a, tx.height, tx.hash) : Nat × Int × Nat)) →
      findA (eraseIndex base tx accs dr).db.H k = findA dr.db.H k) ∧
    (tx.height = -1 → (eraseIndex base tx accs dr).db.H = dr.db.H) ∧
    (eraseIndex base tx accs dr).db.c = dr.db.c ∧
    (eraseIndex base tx accs dr).db.d = dr.db.d ∧
    (eraseIndex base tx accs dr).db.s = dr.db.s ∧
    (tx.height = -1 → (eraseIndex base tx accs dr).db.b = dr.db.b) ∧
    (tx.height ≠ -1 → getBlock base tx.height = none →
      (eraseIndex base tx accs dr).db.b = dr.db.b) ∧
    (tx.height ≠ -1 → ∀ blk, getBlock base tx.height = some blk →
      tx.hash ∈ blk.hashes →
      (blk.hashes.filter (fun x => decide (x ≠ tx.hash)) = [] →
        (eraseIndex base tx accs dr).db.b = eraseA dr.db.b tx.height) ∧
      (blk.hashes.filter (fun x => decide (x ≠ tx.hash)) ≠ [] →
        (eraseIndex base tx accs dr).db.b
          = insertA dr.db.b tx.height
              { blk with hashes := blk.hashes.filter (fun x => decide (x ≠ tx.hash)) })) ∧
    (eraseIndex base tx accs dr).db.C = dr.db.C ∧
    (eraseIndex base tx accs dr).db.R
      = some { dr.pending with tx := dr.pending.tx - 1 } ∧
    (eraseIndex base tx accs dr).pending
      = { dr.pending with tx := dr.pending.tx - 1 } ∧
    (eraseIndex base tx accs dr).committedFlag = true := by
  by_cases htm : tx.height = -1
  · have hidx : eraseIndex base tx accs dr
        = emitEv .balanceEv (emitEv (.removeTxEv tx.hash) (putState
            { accs.foldl (eraseAccountIndex tx)
                { dr with db := { dr.db with
                  r := eraseA dr.db.r tx.hash,
                  t := eraseA dr.db.t tx.hash,
                  m := eraseA dr.db.m (tx.ps, tx.hash),
                  p := eraseA dr.db.p tx.hash } } with
              pending := { (accs.foldl (eraseAccountIndex tx)
                { dr with db := { dr.db with
                  r := eraseA dr.db.r tx.hash,
                  t := eraseA dr.db.t tx.hash,
                  m := eraseA dr.db.m (tx.ps, tx.hash),
                  p := eraseA dr.db.p tx.hash } }).pending with
                tx := (accs.foldl (eraseAccountIndex tx)
                  { dr with db := { dr.db with
                    r := eraseA dr.db.r tx.hash,
                    t := eraseA dr.db.t tx.hash,
                    m := eraseA dr.db.m (tx.ps, tx.hash),
                    p := eraseA dr.db.p tx.hash } }).pending.tx - 1 } })) := by
      unfold eraseIndex
      dsimp only
      rw [if_pos htm, if_neg (fun hc => hc htm)]
    rw [hidx]
    obtain ⟨hT1, hT2, hM1, hM2, hP1, hP2, hP3, hH1, hH2, hH3, hft, hfc, hfd,
        hfs, hfp, hfm, hfh, hfb, hfr, hfC, hfR, hpend, hflag⟩ :=
      foldl_eraseAccountIndex_chars tx accs
        { dr with db := { dr.db with
          r := eraseA dr.db.r tx.hash,
          t := eraseA dr.db.t tx.hash,
          m := eraseA dr.db.m (tx.ps, tx.hash),
          p := eraseA dr.db.p tx.hash } }
    refine ⟨?_, ?_, ?_, ?_, ?_, ?_, fun hcon => absurd htm hcon,
      fun hcon => absurd htm hcon, ?_, ?_, ?_, ?_, hT1, ?_, hM1, ?_,
      fun _ => hP1 htm, ?_, fun hcon => absurd htm hcon,
      fun hcon => absurd htm hcon, ?_, fun _ => (hH3 htm).trans rfl,
      hfc.trans rfl, hfd.trans rfl, hfs.trans rfl,
      fun _ => hfb.trans rfl, fun hcon _ => absurd htm hcon,
      fun hcon _ _ _ => absurd htm hcon,
      hfC.trans rfl, ?_, ?_, rfl⟩
    · show findA (accs.foldl (eraseAccountIndex tx) _).db.t tx.hash = none
      rw [hft]
      exact findA_eraseA_self _ _
    · intro k hk
      show findA (accs.foldl (eraseAccountIndex tx) _).db.t k = findA dr.db.t k
      rw [hft]
      exact findA_eraseA_ne _ _ _ hk
    · show findA (accs.foldl (eraseAccountIndex tx) _).db.m _ = none
      rw [hfm]
      exact findA_eraseA_self _ _
    · intro k hk
      show findA (accs.foldl (eraseAccountIndex tx) _).db.m k = findA dr.db.m k
      rw [hfm]
      exact findA_eraseA_ne _ _ _ hk
    · intro _
      show findA (accs.foldl (eraseAccountIndex tx) _).db.p tx.hash = none
      rw [hfp]
      exact findA_eraseA_self _ _
    · intro k hk
      show findA (accs.foldl (eraseAccountIndex tx) _).db.p k = findA dr.db.p k
      rw [hfp]
      exact findA_eraseA_ne _ _ _ hk
    · intro k _
      show findA (accs.foldl (eraseAccountIndex tx) _).db.h k = findA dr.db.h k
      rw [hfh]
    · intro _
      show (accs.foldl (eraseAccountIndex tx) _).db.h = dr.db.h
      rw [hfh]
    · show findA (accs.foldl (eraseAccountIndex tx) _).db.r tx.hash = none
      rw [hfr]
      exact findA_eraseA_self _ _
    · intro k hk
      show findA (accs.foldl (eraseAccountIndex tx) _).db.r k = findA dr.db.r k
      rw [hfr]
      exact findA_eraseA_ne _ _ _ hk
    · intro k hk
      exact (hT2 k hk).trans rfl
    · intro k hk
      exact (hM2 k hk).trans rfl
    · intro k hk
      exact (hP2 k hk).trans rfl
    · intro k hk
      exact (hH2 k hk).trans rfl
    · rw [hpend]
      rfl
    · rw [hpend]
      rfl
  · have hidx : eraseIndex base tx accs dr
        = emitEv .balanceEv (emitEv (.removeTxEv tx.hash) (putState
            { removeBlock base tx.hash tx.height (accs.foldl (eraseAccountIndex tx)
                { dr with db := { dr.db with
                  r := eraseA dr.db.r tx.hash,
                  t := eraseA dr.db.t tx.hash,
                  m := eraseA dr.db.m (tx.ps, tx.hash),
                  h := eraseA dr.db.h (tx.height, tx.hash) } }) with
              pending := { (removeBlock base tx.hash tx.height
                (accs.foldl (eraseAccountIndex tx)
                  { dr with db := { dr.db with
                    r := eraseA dr.db.r tx.hash,
                    t := eraseA dr.db.t tx.hash,
                    m := eraseA dr.db.m (tx.ps, tx.hash),
                    h := eraseA dr.db.h (tx.height, tx.hash) } })).pending with
                tx := (removeBlock base tx.hash tx.height
                  (accs.foldl (eraseAccountIndex tx)
                    { dr with db := { dr.db with
                      r := eraseA dr.db.r tx.hash,
                      t := eraseA dr.db.t tx.hash,
                      m := eraseA dr.db.m (tx.ps, tx.hash),
                      h := eraseA dr.db.h (tx.height, tx.hash) } })).pending.tx - 1 } })) := by
      unfold eraseIndex
      dsimp only
      rw [if_neg htm, if_pos htm]
    rw [hidx]
    obtain ⟨hT1, hT2, hM1, hM2, hP1, hP2, hP3, hH1, hH2, hH3, hft, hfc, hfd,
        hfs, hfp, hfm, hfh, hfb, hfr, hfC, hfR, hpend, hflag⟩ :=
      foldl_eraseAccountIndex_chars tx accs
        { dr with db := { dr.db with
          r := eraseA dr.db.r tx.hash,
          t := eraseA dr.db.t tx.hash,
          m := eraseA dr.db.m (tx.ps, tx.hash),
          h := eraseA dr.db.h (tx.height, tx.hash) } }
    refine ⟨?_, ?_, ?_, ?_, fun hcon => absurd hcon htm, ?_, ?_,
      ?_, ?_, fun hcon => absurd hcon htm, ?_, ?_, ?_, ?_, ?_, ?_,
      fun hcon => absurd hcon htm, ?_, ?_, ?_, ?_,
      fun hcon => absurd hcon htm, ?_, ?_, ?_,
      fun hcon => absurd hcon htm, ?_, ?_, ?_, ?_, ?_, rfl⟩
    · show findA (removeBlock base tx.hash tx.height
        (accs.foldl (eraseAccountIndex tx) _)).db.t tx.hash = none
      rw [removeBlock_db_t, hft]
      exact findA_eraseA_self _ _
    · intro k hk
      show findA (removeBlock base tx.hash tx.height
        (accs.foldl (eraseAccountIndex tx) _)).db.t k = findA dr.db.t k
      rw [removeBlock_db_t, hft]
      exact findA_eraseA_ne _ _ _ hk
    · show findA (removeBlock base tx.hash tx.height
        (accs.foldl (eraseAccountIndex tx) _)).db.m _ = none
      rw [removeBlock_db_m, hfm]
      exact findA_eraseA_self _ _
    · intro k hk
      show findA (removeBlock base tx.hash tx.height
        (accs.foldl (eraseAccountIndex tx) _)).db.m k = findA dr.db.m k
      rw [removeBlock_db_m, hfm]
      exact findA_eraseA_ne _ _ _ hk
    · intro k _
      show findA (removeBlock base tx.hash tx.height
        (accs.foldl (eraseAccountIndex tx) _)).db.p k = findA dr.db.p k
      rw [removeBlock_db_p, hfp]
    · intro _
      show (removeBlock base tx.hash tx.height
        (accs.foldl (eraseAccountIndex tx) _)).db.p = dr.db.p
      rw [removeBlock_db_p, hfp]
    · intro _
      show findA (removeBlock base tx.hash tx.height
        (accs.foldl (eraseAccountIndex tx) _)).db.h _ = none
      rw [removeBlock_db_h, hfh]
      exact findA_eraseA_self _ _
    · intro k hk
      show findA (removeBlock base tx.hash tx.height
        (accs.foldl (eraseAccountIndex tx) _)).db.h k = findA dr.db.h k
      rw [removeBlock_db_h, hfh]
      exact findA_eraseA_ne _ _ _ hk
    · show findA (removeBlock base tx.hash tx.height
        (accs.foldl (eraseAccountIndex tx) _)).db.r tx.hash = none
      rw [removeBlock_db_r, hfr]
      exact findA_eraseA_self _ _
    · intro k hk
      show findA (removeBlock base tx.hash tx.height
        (accs.foldl (eraseAccountIndex tx) _)).db.r k = findA dr.db.r k
      rw [removeBlock_db_r, hfr]
      exact findA_eraseA_ne _ _ _ hk
    · intro a ha
      show findA (removeBlock base tx.hash tx.height
        (accs.foldl (eraseAccountIndex tx) _)).db.T _ = none
      rw [removeBlock_db_T]
      exact hT1 a ha
    · intro k hk
      show findA (removeBlock base tx.hash tx.height
        (accs.foldl (eraseAccountIndex tx) _)).db.T k = findA dr.db.T k
      rw [removeBlock_db_T]
      exact (hT2 k hk).trans rfl
    · intro a ha
      show findA (removeBlock base tx.hash tx.height
        (accs.foldl (eraseAccountIndex tx) _)).db.M _ = none
      rw [removeBlock_db_M]
      exact hM1 a ha
    · intro k hk
      show findA (removeBlock base tx.hash tx.height
        (accs.foldl (eraseAccountIndex tx) _)).db.M k = findA dr.db.M k
      rw [removeBlock_db_M]
      exact (hM2 k hk).trans rfl
    · intro k hk
      show findA (removeBlock base tx.hash tx.height
        (accs.foldl (eraseAccountIndex tx) _)).db.P k = findA dr.db.P k
      rw [removeBlock_db_P]
      exact (hP2 k hk).trans rfl
    · intro _
      show (removeBlock base tx.hash tx.height
        (accs.foldl (eraseAccountIndex tx) _)).db.P = dr.db.P
      rw [removeBlock_db_P]
      exact (hP3 htm).trans rfl
    · intro _ a ha
      show findA (removeBlock base tx.hash tx.height
        (accs.foldl (eraseAccountIndex tx) _)).db.H _ = none
      rw [removeBlock_db_H]
      exact hH1 htm a ha
    · intro k hk
      show findA (removeBlock base tx.hash tx.height
        (accs.foldl (eraseAccountIndex tx) _)).db.H k = findA dr.db.H k
      rw [removeBlock_db_H]
      exact (hH2 k hk).trans rfl
    · show (removeBlock base tx.hash tx.height
        (accs.foldl (eraseAccountIndex tx) _)).db.c = dr.db.c
      rw [removeBlock_db_c]
      exact hfc.trans rfl
    · show (removeBlock base tx.hash tx.height
        (accs.foldl (eraseAccountIndex tx) _)).db.d = dr.db.d
      rw [removeBlock_db_d]
      exact hfd.trans rfl
    · show (removeBlock base tx.hash tx.height
        (accs.foldl (eraseAccountIndex tx) _)).db.s = dr.db.s
      rw [removeBlock_db_s]
      exact hfs.trans rfl
    · intro _ hgb
      show (removeBlock base tx.hash tx.height
        (accs.foldl (eraseAccountIndex tx) _)).db.b = dr.db.b
      unfold removeBlock
      rw [hgb]
      dsimp only
      rw [hfb]
    · intro _ blk hgb hmem
      constructor
      · intro hemp
        show (removeBlock base tx.hash tx.height
          (accs.foldl (eraseAccountIndex tx) _)).db.b = eraseA dr.db.b tx.height
        unfold removeBlock
        rw [hgb]
        dsimp only
        rw [if_pos hmem]
        unfold blockRemoveStep
        rw [if_pos hemp]
        dsimp only
        rw [hfb]
      · intro hemp
        show (removeBlock base tx.hash tx.height
          (accs.foldl (eraseAccountIndex tx) _)).db.b
            = insertA dr.db.b tx.height
                { blk with hashes := blk.hashes.filter (fun x => decide (x ≠ tx.hash)) }
        unfold removeBlock
        rw [hgb]
        dsimp only
        rw [if_pos hmem]
        unfold blockRemoveStep
        rw [if_neg hemp]
        dsimp only
        rw [hfb]
    · show (removeBlock base tx.hash tx.height
        (accs.foldl (eraseAccountIndex tx) _)).db.C = dr.db.C
      rw [removeBlock_db_C]
      exact hfC.trans rfl
    · rw [removeBlock_pending, hpend]
      rfl
    · rw [removeBlock_pending, hpend]
      rfl

/-- With enough fuel and no recorded spenders the spender scan succeeds
without touching anything. -/
theorem removeSpenders_none_ok (b : TXDB) (tx : TX)
    (hns : ∀ i : Nat, getSpent b.db tx.hash i = none) :
    ∀ (fuel n i : Nat), n - i < fuel →
      removeSpenders fuel b tx n i = ((b, []), .ok ()) := by
  intro fuel
  induction fuel with
  | zero => intro n i h; exact absurd h (by omega)
  | succ fuel ih =>
    intro n i h
    unfold removeSpenders
    by_cases hlt : i < n
    · rw [if_pos hlt, hns i]
      exact ih n (i + 1) (by omega)
    · rw [if_neg hlt]

theorem map_congr_zip {α β γ : Type} (f : α → γ) (g : β → γ) :
    ∀ (l : List α) (cs : List β), l.length = cs.length →
      (∀ e ∈ l.zip cs, f e.1 = g e.2) → l.map f = cs.map g := by
  intro l
  induction l with
  | nil =>
    intro cs hlen _
    cases cs with
    | nil => rfl
    | cons c cs => exact absurd hlen (by simp)
  | cons a l ih =>
    intro cs hlen hf
    cases cs with
    | nil => exact absurd hlen (by simp)
    | cons c cs =>
      simp only [List.map_cons]
      rw [hf (a, c) (by rw [List.zip_cons_cons]; exact List.mem_cons_self _ _),
        ih cs (by simpa using hlen)
          (fun e he => hf e (by rw [List.zip_cons_cons]; exact List.mem_cons_of_mem _ he))]

/-- Counterexample fixture: a committed database carrying only the RBF
marker `r[300]` (and a serialized state record). -/
def bR : TXDB :=
  { db := { r := [(300, ())], R := some {} }, state := {}, cache := [] }

/-- Counterexample fixture: a confirmed coinbase transaction with hash 300
and one owned output, recognized as the wallet's own. -/
def cbtx : TX :=
  { hash := 300, inputs := [], outputs := [⟨7, some 0⟩], height := 100,
    block := some 77, ts := 50, index := 0, ps := 30, rbf := false,
    mutableFlag := false, coinbase := true }

/-- **C2, counterexample.**  `add(cbtx)` on `bR` indexes the transaction
(it is recognized as the wallet's own: the result reports the touched
account), and the subsequent removal erases it — yet the final committed
database differs from the original byte-for-byte: the preexisting RBF
marker `r[300]` was deleted by the confirmed-add path and never restored. -/
theorem add_erase_not_byte_restore :
    (add 5 bR cbtx).2.2 = .ok (some [0]) ∧
    (removeTX 5 (add 5 bR cbtx).1 300).2 = .ok (some [0]) ∧
    (removeTX 5 (add 5 bR cbtx).1 300).1.1.db ≠ bR.db ∧
    findA bR.db.r 300 = some () ∧
    findA (removeTX 5 (add 5 bR cbtx).1 300).1.1.db.r 300 = none := by
  decide

theorem any_map_eq {α β : Type} (f : α → β) (p : β → Bool) :
    ∀ (l : List α), (l.map f).any p = l.any (fun a => p (f a)) := by
  intro l
  induction l with
  | nil => rfl
  | cons a t ih => simp only [List.map_cons, List.any_cons, ih]

theorem zip_fst_snd {α β : Type} :
    ∀ (l : List (α × β)), (l.map Prod.fst).zip (l.map Prod.snd) = l := by
  intro l
  induction l with
  | nil => rfl
  | cons e t ih =>
    rcases e with ⟨a, c⟩
    simp only [List.map_cons, List.zip_cons_cons, ih]

theorem map_fst_eq_map_snd {α β γ : Type} (f : α → γ) (g : β → γ) :
    ∀ (l : List (α × β)), (∀ e ∈ l, f e.1 = g e.2) →
      (l.map Prod.fst).map f = (l.map Prod.snd).map g := by
  intro l
  induction l with
  | nil => intro _; rfl
  | cons e t ih =>
    intro h
    simp only [List.map_cons]
    rw [h e (List.mem_cons_self _ _),
      ih (fun x hx => h x (List.mem_cons_of_mem _ hx))]

set_option maxHeartbeats 3200000 in
/-- Core of the add/erase round trip, at either height and with or without
a coinbase skip of the input loop: from a draft `dr0` that differs from a
fresh batch over `b` only by (possibly) lacking an `r[tx.hash]` marker, the
insert pipeline commits and reports the touched accounts, and removing the
transaction afterwards restores every key family pointwise and the
`TXDBState` exactly.  `zs` is the enumerated input list zipped with the
stored credit (or `none`) of each input; it is empty for a coinbase. -/
theorem roundtrip_core (F : Nat) (b : TXDB) (tx : TX)
    (zs : List ((Nat × Input) × Option Credit)) (dr0 : Draft)
    (hzs0 : tx.coinbase = true → zs = [])
    (hzs1 : tx.coinbase = false → zs.map Prod.fst = tx.inputs.enum)
    (hcredZ : ∀ e ∈ zs, ∀ cr, e.2 = some cr →
      findA b.db.c (prevoutKey e.1.2) = some cr ∧
      cr.spent = false ∧
      cr.coin.hash = e.1.2.prevout.hash ∧
      cr.coin.index = e.1.2.prevout.index ∧
      cr.coin.account.isSome ∧
      findA b.db.C (cr.coin.account.getD 0, e.1.2.prevout.hash,
        e.1.2.prevout.index) = some ())
    (hnoneZ : ∀ e ∈ zs, e.2 = none → findA b.db.c (prevoutKey e.1.2) = none)
    (hzsK : (zs.map (fun e => prevoutKey e.1.2)).Nodup)
    (hzsI : (zs.map (fun e => e.1.1)).Nodup)
    (hforeignZ : ∀ e ∈ zs, e.1.2.prevout.hash ≠ tx.hash)
    (hownZ : zs.any (fun e => e.2.isSome) = true
        ∨ tx.outputs.enum.any (fun pr => pr.2.account.isSome) = true)
    (hsfreshZ : ∀ e ∈ zs, findA b.db.s (prevoutKey e.1.2) = none)
    (hsfresh2 : ∀ i : Nat, findA b.db.s (tx.hash, i) = none)
    (hdfresh : ∀ i : Nat, findA b.db.d (tx.hash, i) = none)
    (hcfresh : ∀ i : Nat, findA b.db.c (tx.hash, i) = none)
    (hCfresh : ∀ a i : Nat, findA b.db.C (a, tx.hash, i) = none)
    (htfresh : findA b.db.t tx.hash = none)
    (hmfresh : findA b.db.m ((tx.ps, tx.hash) : Nat × Nat) = none)
    (hpfresh : tx.height = -1 → findA b.db.p tx.hash = none)
    (hrfresh : findA b.db.r tx.hash = none)
    (hhfresh : tx.height ≠ -1 →
      findA b.db.h ((tx.height, tx.hash) : Int × Nat) = none)
    (hTfresh : ∀ a : Nat, findA b.db.T ((a, tx.hash) : Nat × Nat) = none)
    (hMfresh : ∀ a : Nat, findA b.db.M ((a, tx.ps, tx.hash) : Nat × Nat × Nat) = none)
    (hPfresh : tx.height = -1 →
      ∀ a : Nat, findA b.db.P ((a, tx.hash) : Nat × Nat) = none)
    (hHfresh : tx.height ≠ -1 →
      ∀ a : Nat, findA b.db.H ((a, tx.height, tx.hash) : Nat × Int × Nat) = none)
    (hbrec : tx.height ≠ -1 → ∀ blk, getBlock b.db tx.height = some blk →
      tx.hash ∉ blk.hashes ∧ blk.hashes ≠ [])
    (hdr0t : dr0.db.t = b.db.t) (hdr0c : dr0.db.c = b.db.c)
    (hdr0d : dr0.db.d = b.db.d) (hdr0s : dr0.db.s = b.db.s)
    (hdr0p : dr0.db.p = b.db.p) (hdr0m : dr0.db.m = b.db.m)
    (hdr0h : dr0.db.h = b.db.h) (hdr0T : dr0.db.T = b.db.T)
    (hdr0M : dr0.db.M = b.db.M) (hdr0P : dr0.db.P = b.db.P)
    (hdr0H : dr0.db.H = b.db.H) (hdr0b : dr0.db.b = b.db.b)
    (hdr0C : dr0.db.C = b.db.C)
    (hdr0r : ∀ k, k ≠ tx.hash → findA dr0.db.r k = findA b.db.r k)
    (hdr0pend : dr0.pending = b.state.clone)
    (hR : b.db.R = some b.state)
    (hcommitted : b.state.committed = false)
    (hfuelF : tx.outputs.length + 1 ≤ F) :
    ∃ drF accsF,
      insert b tx dr0 = .ok (drF, some accsF) ∧
      drF.committedFlag = true ∧
      ((removeTX (F + 1) (b.commitDraft drF).1 tx.hash).1.1.state = b.state ∧
       (removeTX (F + 1) (b.commitDraft drF).1 tx.hash).1.1.db.R = b.db.R ∧
       (∀ k, findA (removeTX (F + 1) (b.commitDraft drF).1 tx.hash).1.1.db.t k
         = findA b.db.t k) ∧
       (∀ k, findA (removeTX (F + 1) (b.commitDraft drF).1 tx.hash).1.1.db.c k
         = findA b.db.c k) ∧
       (∀ k, findA (removeTX (F + 1) (b.commitDraft drF).1 tx.hash).1.1.db.d k
         = findA b.db.d k) ∧
       (∀ k, findA (removeTX (F + 1) (b.commitDraft drF).1 tx.hash).1.1.db.s k
         = findA b.db.s k) ∧
       (∀ k, findA (removeTX (F + 1) (b.commitDraft drF).1 tx.hash).1.1.db.p k
         = findA b.db.p k) ∧
       (∀ k, findA (removeTX (F + 1) (b.commitDraft drF).1 tx.hash).1.1.db.m k
         = findA b.db.m k) ∧
       (∀ k, findA (removeTX (F + 1) (b.commitDraft drF).1 tx.hash).1.1.db.r k
         = findA b.db.r k) ∧
       (∀ k, findA (removeTX (F + 1) (b.commitDraft drF).1 tx.hash).1.1.db.C k
         = findA b.db.C k) ∧
       (∀ k, findA (removeTX (F + 1) (b.commitDraft drF).1 tx.hash).1.1.db.T k
         = findA b.db.T k) ∧
       (∀ k, findA (removeTX (F + 1) (b.commitDraft drF).1 tx.hash).1.1.db.M k
         = findA b.db.M k) ∧
       (∀ k, findA (removeTX (F + 1) (b.commitDraft drF).1 tx.hash).1.1.db.P k
         = findA b.db.P k) ∧
       (∀ k, findA (removeTX (F + 1) (b.commitDraft drF).1 tx.hash).1.1.db.h k
         = findA b.db.h k) ∧
       (∀ k, findA (removeTX (F + 1) (b.commitDraft drF).1 tx.hash).1.1.db.H k
         = findA b.db.H k) ∧
       (∀ k, findA (removeTX (F + 1) (b.commitDraft drF).1 tx.hash).1.1.db.b k
         = findA b.db.b k)) := by
  have hcbOf : ¬tx.coinbase = true → tx.coinbase = false := by
    intro h
    revert h
    cases tx.coinbase <;> simp
  obtain ⟨dr1, upd1, hrec1, hupd1, hIc1, hIc2, hIC1, hIC2, hIs1, hIs2,
      hId1, hId2, hIpc, hIpu, hIpcf, hIpt, hIpcm, hIft, hIfm, hIfp, hIfh,
      hIfT, hIfM, hIfP, hIfH, hIfb, hIfr, hIfR, hIfl⟩ :=
    insertInputs_chars b.db tx zs dr0 false []
      (fun e he cr hcr => ⟨(hcredZ e he cr hcr).1, (hcredZ e he cr hcr).2.2.1,
        (hcredZ e he cr hcr).2.2.2.1, (hcredZ e he cr hcr).2.2.2.2.1⟩)
      hnoneZ hzsK hzsI
  obtain ⟨dr2, upd2, hrec2, hupd2, hOc1, hOc2, hOC1, hOC2, hOpc, hOpu,
      hOpcf, hOpt, hOpcm, hOft, hOfm, hOfp, hOfh, hOfs, hOfd, hOfT, hOfM,
      hOfP, hOfH, hOfb, hOfr, hOfR, hOfl⟩ :=
    insertOutputs_chars b.db tx tx.outputs.enum dr1 upd1
      (pushList (credAccounts zs) [])
      (fun pr _ => hsfresh2 pr.1) (enum_fst_nodup _)
  have hupdT : upd2 = true := by
    rw [hupd2, hupd1]
    rcases hownZ with h | h
    · rw [h]
      simp
    · rw [h]
      simp
  set accsF : List Nat := pushList (outAccounts tx.outputs.enum)
    (pushList (credAccounts zs) []) with haccsF
  obtain ⟨hXt1, hXt2, hXm1, hXm2, hXp1, hXp2, hXp3, hXh1, hXh2, hXh3,
      hXT1, hXT2, hXM1, hXM2, hXP1, hXP2, hXP3, hXH1, hXH2, hXH3,
      hXc, hXd, hXs, hXr, hXC, hXb1, hXb2, hXb3, hXR, hXpend,
      hXflag⟩ := indexTX_chars b.db tx accsF dr2
  set drF : Draft := indexTX b.db tx accsF dr2 with hdrF
  set B1 : TXDB := ⟨drF.db, drF.pending, drF.cache⟩ with hB1def
  have hstep1all : (if tx.coinbase = true
        then Except.ok (dr0, false, ([] : List Nat))
        else insertInputs b.db tx tx.inputs.enum dr0 false [])
      = .ok (dr1, upd1, pushList (credAccounts zs) []) := by
    by_cases hcb : tx.coinbase = true
    · rw [if_pos hcb, ← hrec1, hzs0 hcb]
      rfl
    · rw [if_neg hcb, ← hzs1 (hcbOf hcb), hrec1]
  have hInsert : insert b tx dr0 = .ok (drF, some accsF) := by
    unfold insert
    dsimp only
    rw [hstep1all]
    dsimp only
    rw [hrec2]
    dsimp only
    rw [hupdT]
    simp only [if_true]
  have hcommit : b.commitDraft drF = (B1, drF.events) := by
    unfold TXDB.commitDraft
    rw [hXflag]
    simp only [if_true]
  have hcd1 : (b.commitDraft drF).1 = B1 := by
    rw [hcommit]
  have hgettx : getTX B1.db tx.hash = some tx := hXt1
  have hns : ∀ i : Nat, getSpent B1.db tx.hash i = none := by
    intro i
    show findA drF.db.s (tx.hash, i) = none
    rw [hXs, hOfs, hIs2 ((tx.hash, i) : Nat × Nat)
      (fun e he hc => hforeignZ e he (congrArg Prod.fst hc).symm), hdr0s]
    exact hsfresh2 i
  have hremS : removeSpenders F B1 tx tx.outputs.length 0 = ((B1, []), .ok ()) :=
    removeSpenders_none_ok B1 tx hns F tx.outputs.length 0 (by omega)
  have hspcZ : tx.coinbase = false →
      getSpentCredits B1.db tx = zs.map Prod.snd := by
    intro hcbf
    rw [getSpentCredits_eq_map _ _ hcbf, ← hzs1 hcbf,
      show zs.map Prod.snd = (zs.map Prod.snd).map id from (List.map_id _).symm]
    refine map_fst_eq_map_snd (spentCreditOf B1.db tx) id zs ?_
    intro e he
    cases he2 : e.2 with
    | some cr =>
      have hd : findA B1.db.d ((tx.hash, e.1.1) : Nat × Nat) = some cr.coin := by
        show findA drF.db.d _ = _
        rw [hXd, hOfd]
        exact hId1 e he cr he2
      unfold spentCreditOf
      rw [hd]
      simp only [Option.map_some', id]
      obtain ⟨_, hsp, hh1, hh2, _, _⟩ := hcredZ e he cr he2
      rw [← hh1, ← hh2, ← hsp]
    | none =>
      have hdn : findA B1.db.d ((tx.hash, e.1.1) : Nat × Nat) = none := by
        show findA drF.db.d _ = _
        rw [hXd, hOfd, hId2 ((tx.hash, e.1.1) : Nat × Nat)
          (fun e' he' cr hcr hc => by
            have hii : e.1.1 = e'.1.1 := congrArg Prod.snd hc
            have hee : e = e' := List.inj_on_of_nodup_map hzsI he he' hii
            exact Option.noConfusion (hcr.symm.trans (hee ▸ he2))), hdr0d]
        exact hdfresh e.1.1
      unfold spentCreditOf
      rw [hdn]
      rfl
  have hzip2 : tx.coinbase = false →
      tx.inputs.enum.zip (zs.map Prod.snd) = zs := by
    intro hcbf
    rw [← hzs1 hcbf]
    exact zip_fst_snd zs
  obtain ⟨dr1', hrec1', hEc1, hEc2, hEC1, hEC2, hEs1, hEs2, hEd1, hEd2,
      hEpc, hEpu, hEpcf, hEpt, hEpcm, hEft, hEfm, hEfp, hEfh, hEfT, hEfM,
      hEfP, hEfH, hEfb, hEfr, hEfR, hEfl⟩ :=
    eraseInputs_chars B1.db tx zs (Draft.start B1) []
      (fun e he cr hcr => ⟨(hcredZ e he cr hcr).2.2.1,
        (hcredZ e he cr hcr).2.2.2.1, (hcredZ e he cr hcr).2.2.2.2.1⟩)
      hzsK hzsI
  obtain ⟨dr2', hrec2', hFc1, hFc2, hFC1, hFC2, hFpc, hFpu, hFpcf, hFpt,
      hFpcm, hFft, hFfm, hFfp, hFfh, hFfs, hFfd, hFfT, hFfM, hFfP, hFfH,
      hFfb, hFfr, hFfR, hFfl⟩ :=
    eraseOutputs_chars B1.db tx tx.outputs.enum dr1'
      (pushList (credAccounts zs) []) (enum_fst_nodup _)
  obtain ⟨hYt1, hYt2, hYm1, hYm2, hYp1, hYp2, hYp3, hYh1, hYh2, hYh3,
      hYr1, hYr2, hYT1, hYT2, hYM1, hYM2, hYP1, hYP2, hYP3, hYH1, hYH2,
      hYH3, hYc, hYd, hYs, hYb1, hYb2, hYb3, hYC, hYR, hYpend,
      hYflag⟩ := eraseIndex_chars B1.db tx accsF dr2'
  set drF2 : Draft := eraseIndex B1.db tx accsF dr2' with hdrF2
  set B2 : TXDB := ⟨drF2.db, drF2.pending, drF2.cache⟩ with hB2def
  have hstep1E : (if tx.coinbase = true
        then Except.ok (Draft.start B1, ([] : List Nat))
        else eraseInputs B1.db tx
          (tx.inputs.enum.zip (getSpentCredits B1.db tx)) (Draft.start B1) [])
      = .ok (dr1', pushList (credAccounts zs) []) := by
    by_cases hcb : tx.coinbase = true
    · rw [if_pos hcb, ← hrec1', hzs0 hcb]
      rfl
    · rw [if_neg hcb, hspcZ (hcbOf hcb), hzip2 (hcbOf hcb), hrec1']
  have hErase : eraseTX B1.db tx (Draft.start B1) = .ok (drF2, accsF) := by
    unfold eraseTX
    dsimp only
    rw [hstep1E]
    dsimp only
    rw [hrec2']
  have hrm1 : (removeTX (F + 1) B1 tx.hash).1.1 = B2 := by
    unfold removeTX
    rw [hgettx]
    dsimp only
    unfold removeRecursive
    rw [hremS]
    dsimp only
    rw [hErase]
    dsimp only
    rw [show B1.commitDraft drF2 = (B2, drF2.events) from by
      unfold TXDB.commitDraft
      rw [hYflag]
      simp only [if_true]]
  have hsB1 : B1.state = { dr2.pending with tx := dr2.pending.tx + 1 } := hXpend
  have sStartU : (Draft.start B1).pending.unconfirmed = dr2.pending.unconfirmed := by
    show B1.state.unconfirmed = _
    rw [hsB1]
  have sStartC : (Draft.start B1).pending.coin = dr2.pending.coin := by
    show B1.state.coin = _
    rw [hsB1]
  have sStartT : (Draft.start B1).pending.tx = dr2.pending.tx + 1 := by
    show B1.state.tx = _
    rw [hsB1]
  have sStartF : (Draft.start B1).pending.confirmed = dr2.pending.confirmed := by
    show B1.state.confirmed = _
    rw [hsB1]
  have hdr0u : dr0.pending.unconfirmed = b.state.unconfirmed := by
    rw [hdr0pend]
    rfl
  have hdr0co : dr0.pending.coin = b.state.coin := by
    rw [hdr0pend]
    rfl
  have hdr0tx : dr0.pending.tx = b.state.tx := by
    rw [hdr0pend]
    rfl
  have hdr0cf : dr0.pending.confirmed = b.state.confirmed := by
    rw [hdr0pend]
    rfl
  have hstate : ({ dr2'.pending with tx := dr2'.pending.tx - 1 } : TXDBState)
      = b.state := by
    have sU : dr2'.pending.unconfirmed = b.state.unconfirmed := by
      rw [hFpu, hEpu, sStartU, hOpu, hIpu, hdr0u]
      ring
    have sC : dr2'.pending.coin = b.state.coin := by
      rw [hFpc, hEpc, sStartC, hOpc, hIpc, hdr0co]
      ring
    have sT : dr2'.pending.tx - 1 = b.state.tx := by
      rw [hFpt, hEpt, sStartT, hOpt, hIpt, hdr0tx]
      ring
    have sF : dr2'.pending.confirmed = b.state.confirmed := by
      rw [hFpcf, hEpcf, sStartF, hOpcf, hIpcf, hdr0cf]
      ring
    have sM : dr2'.pending.committed = b.state.committed := by
      rw [hFpcm, hEpcm, show (Draft.start B1).pending.committed = false from rfl,
        hcommitted]
    calc ({ dr2'.pending with tx := dr2'.pending.tx - 1 } : TXDBState)
        = ⟨dr2'.pending.tx - 1, dr2'.pending.coin, dr2'.pending.unconfirmed,
            dr2'.pending.confirmed, dr2'.pending.committed⟩ := rfl
      _ = ⟨b.state.tx, b.state.coin, b.state.unconfirmed,
            b.state.confirmed, b.state.committed⟩ := by
          rw [sT, sC, sU, sF, sM]
      _ = b.state := rfl
  have hfin : (removeTX (F + 1) (b.commitDraft drF).1 tx.hash).1.1 = B2 := by
    rw [hcd1]
    exact hrm1
  refine ⟨drF, accsF, hInsert, hXflag, ?_, ?_, ?_, ?_, ?_, ?_, ?_, ?_, ?_,
    ?_, ?_, ?_, ?_, ?_, ?_, ?_⟩
  · rw [hfin]
    show drF2.pending = b.state
    rw [hYpend]
    exact hstate
  · rw [hfin]
    show drF2.db.R = b.db.R
    rw [hYR, hstate, hR]
  · intro k
    rw [hfin]
    show findA drF2.db.t k = findA b.db.t k
    by_cases hk : k = tx.hash
    · subst hk
      rw [hYt1]
      exact htfresh.symm
    · rw [hYt2 k hk, hFft, hEft]
      show findA drF.db.t k = findA b.db.t k
      rw [hXt2 k hk, hOft, hIft, hdr0t]
  · intro k
    rw [hfin]
    show findA drF2.db.c k = findA b.db.c k
    rw [hYc]
    by_cases hk1 : ∃ e, e ∈ zs ∧ ∃ cr, e.2 = some cr ∧ k = prevoutKey e.1.2
    · obtain ⟨e, he, cr, hcr, rfl⟩ := hk1
      rw [hFc2 _ (fun pr hpr hqs hc =>
          hforeignZ e he (congrArg Prod.fst hc)),
        hEc1 e he cr hcr]
      exact ((hcredZ e he cr hcr).1).symm
    · by_cases hk2 : ∃ pr, pr ∈ tx.outputs.enum ∧ pr.2.account.isSome = true ∧
          k = ((tx.hash, pr.1) : Nat × Nat)
      · obtain ⟨pr, hpr, hqs, rfl⟩ := hk2
        rw [hFc1 pr hpr hqs]
        exact (hcfresh pr.1).symm
      · have hnk2 : ∀ pr ∈ tx.outputs.enum, pr.2.account.isSome = true →
            k ≠ ((tx.hash, pr.1) : Nat × Nat) :=
          fun pr hpr hqs hc => hk2 ⟨pr, hpr, hqs, hc⟩
        have hnk1 : ∀ e ∈ zs, ∀ cr, e.2 = some cr → k ≠ prevoutKey e.1.2 :=
          fun e he cr hcr hc => hk1 ⟨e, he, cr, hcr, hc⟩
        rw [hFc2 k hnk2, hEc2 k hnk1]
        show findA drF.db.c k = findA b.db.c k
        rw [hXc, hOc2 k hnk2, hIc2 k hnk1, hdr0c]
  · intro k
    rw [hfin]
    show findA drF2.db.d k = findA b.db.d k
    rw [hYd, hFfd]
    by_cases hk1 : ∃ e, e ∈ zs ∧ ∃ cr, e.2 = some cr ∧
        k = ((tx.hash, e.1.1) : Nat × Nat)
    · obtain ⟨e, he, cr, hcr, rfl⟩ := hk1
      rw [hEd1 e he cr hcr]
      exact (hdfresh e.1.1).symm
    · have hnk1 : ∀ e ∈ zs, ∀ cr, e.2 = some cr →
          k ≠ ((tx.hash, e.1.1) : Nat × Nat) :=
        fun e he cr hcr hc => hk1 ⟨e, he, cr, hcr, hc⟩
      rw [hEd2 k hnk1]
      show findA drF.db.d k = findA b.db.d k
      rw [hXd, hOfd, hId2 k hnk1, hdr0d]
  · intro k
    rw [hfin]
    show findA drF2.db.s k = findA b.db.s k
    rw [hYs, hFfs]
    by_cases hk1 : ∃ e, e ∈ zs ∧ k = prevoutKey e.1.2
    · obtain ⟨e, he, rfl⟩ := hk1
      rw [hEs1 e he]
      exact (hsfreshZ e he).symm
    · have hnk1 : ∀ e ∈ zs, k ≠ prevoutKey e.1.2 :=
        fun e he hc => hk1 ⟨e, he, hc⟩
      rw [hEs2 k hnk1]
      show findA drF.db.s k = findA b.db.s k
      rw [hXs, hOfs, hIs2 k hnk1, hdr0s]
  · intro k
    rw [hfin]
    show findA drF2.db.p k = findA b.db.p k
    by_cases hht : tx.height = -1
    · by_cases hk : k = tx.hash
      · subst hk
        rw [hYp1 hht]
        exact (hpfresh hht).symm
      · rw [hYp2 k hk, hFfp, hEfp]
        show findA drF.db.p k = findA b.db.p k
        rw [hXp2 k hk, hOfp, hIfp, hdr0p]
    · rw [hYp3 hht, hFfp, hEfp]
      show findA drF.db.p k = findA b.db.p k
      rw [hXp3 hht, hOfp, hIfp, hdr0p]
  · intro k
    rw [hfin]
    show findA drF2.db.m k = findA b.db.m k
    by_cases hk : k = ((tx.ps, tx.hash) : Nat × Nat)
    · subst hk
      rw [hYm1]
      exact hmfresh.symm
    · rw [hYm2 k hk, hFfm, hEfm]
      show findA drF.db.m k = findA b.db.m k
      rw [hXm2 k hk, hOfm, hIfm, hdr0m]
  · intro k
    rw [hfin]
    show findA drF2.db.r k = findA b.db.r k
    by_cases hk : k = tx.hash
    · subst hk
      rw [hYr1]
      exact hrfresh.symm
    · rw [hYr2 k hk, hFfr, hEfr]
      show findA drF.db.r k = findA b.db.r k
      rw [hXr, hOfr, hIfr]
      exact hdr0r k hk
  · intro k
    rw [hfin]
    show findA drF2.db.C k = findA b.db.C k
    rw [hYC]
    by_cases hk1 : ∃ e, e ∈ zs ∧ ∃ cr, e.2 = some cr ∧
        k = ((cr.coin.account.getD 0, e.1.2.prevout.hash,
          e.1.2.prevout.index) : Nat × Nat × Nat)
    · obtain ⟨e, he, cr, hcr, rfl⟩ := hk1
      rw [hFC2 _ (fun pr hpr hqs hc => hforeignZ e he
          (congrArg (fun t : Nat × Nat × Nat => t.2.1) hc)),
        hEC1 e he cr hcr]
      exact ((hcredZ e he cr hcr).2.2.2.2.2).symm
    · by_cases hk2 : ∃ pr, pr ∈ tx.outputs.enum ∧ pr.2.account.isSome = true ∧
          k = ((pr.2.account.getD 0, tx.hash, pr.1) : Nat × Nat × Nat)
      · obtain ⟨pr, hpr, hqs, rfl⟩ := hk2
        rw [hFC1 pr hpr hqs]
        exact (hCfresh (pr.2.account.getD 0) pr.1).symm
      · have hnk2 : ∀ pr ∈ tx.outputs.enum, pr.2.account.isSome = true →
            k ≠ ((pr.2.account.getD 0, tx.hash, pr.1) : Nat × Nat × Nat) :=
          fun pr hpr hqs hc => hk2 ⟨pr, hpr, hqs, hc⟩
        have hnk1 : ∀ e ∈ zs, ∀ cr, e.2 = some cr →
            k ≠ ((cr.coin.account.getD 0, e.1.2.prevout.hash,
              e.1.2.prevout.index) : Nat × Nat × Nat) :=
          fun e he cr hcr hc => hk1 ⟨e, he, cr, hcr, hc⟩
        rw [hFC2 k hnk2, hEC2 k hnk1]
        show findA drF.db.C k = findA b.db.C k
        rw [hXC, hOC2 k hnk2, hIC2 k hnk1, hdr0C]
  · intro k
    rw [hfin]
    show findA drF2.db.T k = findA b.db.T k
    by_cases hk : ∃ a, a ∈ accsF ∧ k = ((a, tx.hash) : Nat × Nat)
    · obtain ⟨a, ha, rfl⟩ := hk
      rw [hYT1 a ha]
      exact (hTfresh a).symm
    · have hnk : ∀ a ∈ accsF, k ≠ ((a, tx.hash) : Nat × Nat) :=
        fun a ha hc => hk ⟨a, ha, hc⟩
      rw [hYT2 k hnk, hFfT, hEfT]
      show findA drF.db.T k = findA b.db.T k
      rw [hXT2 k hnk, hOfT, hIfT, hdr0T]
  · intro k
    rw [hfin]
    show findA drF2.db.M k = findA b.db.M k
    by_cases hk : ∃ a, a ∈ accsF ∧ k = ((a, tx.ps, tx.hash) : Nat × Nat × Nat)
    · obtain ⟨a, ha, rfl⟩ := hk
      rw [hYM1 a ha]
      exact (hMfresh a).symm
    · have hnk : ∀ a ∈ accsF, k ≠ ((a, tx.ps, tx.hash) : Nat × Nat × Nat) :=
        fun a ha hc => hk ⟨a, ha, hc⟩
      rw [hYM2 k hnk, hFfM, hEfM]
      show findA drF.db.M k = findA b.db.M k
      rw [hXM2 k hnk, hOfM, hIfM, hdr0M]
  · intro k
    rw [hfin]
    show findA drF2.db.P k = findA b.db.P k
    by_cases hht : tx.height = -1
    · by_cases hk : ∃ a, a ∈ accsF ∧ k = ((a, tx.hash) : Nat × Nat)
      · obtain ⟨a, ha, rfl⟩ := hk
        rw [hYP1 hht a ha]
        exact (hPfresh hht a).symm
      · have hnk : ∀ a ∈ accsF, k ≠ ((a, tx.hash) : Nat × Nat) :=
          fun a ha hc => hk ⟨a, ha, hc⟩
        rw [hYP2 k hnk, hFfP, hEfP]
        show findA drF.db.P k = findA b.db.P k
        rw [hXP2 k hnk, hOfP, hIfP, hdr0P]
    · rw [hYP3 hht, hFfP, hEfP]
      show findA drF.db.P k = findA b.db.P k
      rw [hXP3 hht, hOfP, hIfP, hdr0P]
  · intro k
    rw [hfin]
    show findA drF2.db.h k = findA b.db.h k
    by_cases hht : tx.height = -1
    · rw [hYh3 hht, hFfh, hEfh]
      show findA drF.db.h k = findA b.db.h k
      rw [hXh3 hht, hOfh, hIfh, hdr0h]
    · by_cases hk : k = ((tx.height, tx.hash) : Int × Nat)
      · subst hk
        rw [hYh1 hht]
        exact (hhfresh hht).symm
      · rw [hYh2 k hk, hFfh, hEfh]
        show findA drF.db.h k = findA b.db.h k
        rw [hXh2 k hk, hOfh, hIfh, hdr0h]
  · intro k
    rw [hfin]
    show findA drF2.db.H k = findA b.db.H k
    by_cases hht : tx.height = -1
    · rw [hYH3 hht, hFfH, hEfH]
      show findA drF.db.H k = findA b.db.H k
      rw [hXH3 hht, hOfH, hIfH, hdr0H]
    · by_cases hk : ∃ a, a ∈ accsF ∧
          k = ((a, tx.height, tx.hash) : Nat × Int × Nat)
      · obtain ⟨a, ha, rfl⟩ := hk
        rw [hYH1 hht a ha]
        exact (hHfresh hht a).symm
      · have hnk : ∀ a ∈ accsF, k ≠ ((a, tx.height, tx.hash) : Nat × Int × Nat) :=
          fun a ha hc => hk ⟨a, ha, hc⟩
        rw [hYH2 k hnk, hFfH, hEfH]
        show findA drF.db.H k = findA b.db.H k
        rw [hXH2 k hnk, hOfH, hIfH, hdr0H]
  · intro k
    rw [hfin]
    show findA drF2.db.b k = findA b.db.b k
    by_cases hht : tx.height = -1
    · rw [hYb1 hht, hFfb, hEfb]
      show findA drF.db.b k = findA b.db.b k
      rw [hXb1 hht, hOfb, hIfb, hdr0b]
    · cases hgb0 : getBlock b.db tx.height with
      | none =>
        have hB1b : B1.db.b = insertA b.db.b tx.height
            { bhash := tx.block.getD 0, height := tx.height, ts := tx.ts,
              hashes := [tx.hash] } := by
          show drF.db.b = _
          rw [hXb2 hht hgb0, hOfb, hIfb, hdr0b]
        have hgbB1 : getBlock B1.db tx.height
            = some { bhash := tx.block.getD 0, height := tx.height,
                     ts := tx.ts, hashes := [tx.hash] } := by
          show findA B1.db.b tx.height = _
          rw [hB1b]
          exact findA_insertA_self _ _ _
        have hYbeq := (hYb3 hht _ hgbB1 (by
          show tx.hash ∈ [tx.hash]
          exact List.mem_singleton.mpr rfl)).1 (by
          show [tx.hash].filter (fun x => decide (x ≠ tx.hash)) = []
          simp)
        rw [hYbeq, hFfb, hEfb]
        show findA (eraseA B1.db.b tx.height) k = findA b.db.b k
        by_cases hk : k = tx.height
        · subst hk
          rw [findA_eraseA_self]
          exact hgb0.symm
        · rw [findA_eraseA_ne _ _ _ hk, hB1b]
          exact findA_insertA_ne _ _ _ _ hk
      | some blk =>
        obtain ⟨hnotmem, hne⟩ := hbrec hht blk hgb0
        have hB1b : B1.db.b = insertA b.db.b tx.height
            { blk with hashes := blk.hashes ++ [tx.hash] } := by
          show drF.db.b = _
          rw [hXb3 hht blk hgb0 hnotmem, hOfb, hIfb, hdr0b]
        have hgbB1 : getBlock B1.db tx.height
            = some { blk with hashes := blk.hashes ++ [tx.hash] } := by
          show findA B1.db.b tx.height = _
          rw [hB1b]
          exact findA_insertA_self _ _ _
        have hmem1 : tx.hash ∈ ({ blk with hashes := blk.hashes ++ [tx.hash] }
            : BlockRecord).hashes := by
          show tx.hash ∈ blk.hashes ++ [tx.hash]
          simp
        have hfiltval : ({ blk with hashes := blk.hashes ++ [tx.hash] }
            : BlockRecord).hashes.filter (fun x => decide (x ≠ tx.hash))
              = blk.hashes := by
          show (blk.hashes ++ [tx.hash]).filter (fun x => decide (x ≠ tx.hash))
            = blk.hashes
          have hself : blk.hashes.filter (fun x => decide (x ≠ tx.hash))
              = blk.hashes := by
            refine List.filter_eq_self.mpr ?_
            intro a ha
            refine decide_eq_true ?_
            intro hc
            rw [hc] at ha
            exact hnotmem ha
          rw [List.filter_append,
            show [tx.hash].filter (fun x => decide (x ≠ tx.hash)) = [] from by simp,
            hself, List.append_nil]
        have hYbeq := (hYb3 hht _ hgbB1 hmem1).2 (by
          rw [hfiltval]
          exact hne)
        rw [hYbeq, hfiltval, hFfb, hEfb]
        show findA (insertA B1.db.b tx.height _) k = findA b.db.b k
        by_cases hk : k = tx.height
        · subst hk
          rw [findA_insertA_self,
            show findA b.db.b tx.height = some blk from hgb0]
        · rw [findA_insertA_ne _ _ _ _ hk, hB1b]
          exact findA_insertA_ne _ _ _ _ hk

set_option maxHeartbeats 1600000 in
/-- **C2, amended.**  `add(tx)` followed by removal does NOT restore the
database byte-for-byte in general: the RBF marker `r[tx.hash]` is deleted
unconditionally (by the confirmed-add path and by the unindexing tail of
`erase`) and nothing restores it, so a preexisting `r[tx.hash]` is lost.
*Provided no `r[tx.hash]` marker pre-exists*, the round trip restores every
key family pointwise and the `TXDBState` exactly — at either height
(mempool or mined), for coinbase and non-coinbase transactions, with or
without inputs, and whether or not each input's prevout has a stored
credit (`cs` lists the stored credit, or `none`, per input).  The
remaining hypotheses spell out the well-formedness the original claim
presupposes: the transaction is new, not mutable, not RBF-matched when
unconfirmed, recognized as the wallet's own (a recognized input or an
owned output); recognized inputs spend distinct foreign prevouts whose
stored credits are unspent, key-coherent, owned and `C`-indexed, and no
input's prevout is marked spent; no key the pipeline writes for `tx`
pre-exists (including its mined-block slots); the serialized state `R`
matches the committed state; and the removal recursion has enough fuel. -/
theorem add_remove_roundtrip (fuel : Nat) (b : TXDB) (tx : TX)
    (cs : List (Option Credit))
    (hmut : tx.mutableFlag = false)
    (htfresh : findA b.db.t tx.hash = none)
    (hrbf : tx.height = -1 → isRBF b.db tx = false)
    (hlen : tx.coinbase = false → cs.length = tx.inputs.length)
    (hnodupK : tx.coinbase = false → (tx.inputs.map prevoutKey).Nodup)
    (hforeign : tx.coinbase = false →
      ∀ input ∈ tx.inputs, input.prevout.hash ≠ tx.hash)
    (hcred : tx.coinbase = false → ∀ e ∈ tx.inputs.enum.zip cs, ∀ cr,
      e.2 = some cr →
      findA b.db.c (prevoutKey e.1.2) = some cr ∧
      cr.spent = false ∧
      cr.coin.hash = e.1.2.prevout.hash ∧
      cr.coin.index = e.1.2.prevout.index ∧
      cr.coin.account.isSome ∧
      findA b.db.C (cr.coin.account.getD 0, e.1.2.prevout.hash,
        e.1.2.prevout.index) = some ())
    (hnone : tx.coinbase = false → ∀ e ∈ tx.inputs.enum.zip cs, e.2 = none →
      findA b.db.c (prevoutKey e.1.2) = none)
    (hown : (tx.coinbase = false ∧ cs.any Option.isSome = true)
        ∨ tx.outputs.any (fun o => o.account.isSome) = true)
    (hsfresh : tx.coinbase = false →
      ∀ input ∈ tx.inputs, findA b.db.s (prevoutKey input) = none)
    (hsfresh2 : ∀ i : Nat, findA b.db.s (tx.hash, i) = none)
    (hdfresh : ∀ i : Nat, findA b.db.d (tx.hash, i) = none)
    (hcfresh : ∀ i : Nat, findA b.db.c (tx.hash, i) = none)
    (hCfresh : ∀ a i : Nat, findA b.db.C (a, tx.hash, i) = none)
    (hmfresh : findA b.db.m ((tx.ps, tx.hash) : Nat × Nat) = none)
    (hpfresh : tx.height = -1 → findA b.db.p tx.hash = none)
    (hrfresh : findA b.db.r tx.hash = none)
    (hhfresh : tx.height ≠ -1 →
      findA b.db.h ((tx.height, tx.hash) : Int × Nat) = none)
    (hTfresh : ∀ a : Nat, findA b.db.T ((a, tx.hash) : Nat × Nat) = none)
    (hMfresh : ∀ a : Nat, findA b.db.M ((a, tx.ps, tx.hash) : Nat × Nat × Nat) = none)
    (hPfresh : tx.height = -1 →
      ∀ a : Nat, findA b.db.P ((a, tx.hash) : Nat × Nat) = none)
    (hHfresh : tx.height ≠ -1 →
      ∀ a : Nat, findA b.db.H ((a, tx.height, tx.hash) : Nat × Int × Nat) = none)
    (hbrec : tx.height ≠ -1 → ∀ blk, getBlock b.db tx.height = some blk →
      tx.hash ∉ blk.hashes ∧ blk.hashes ≠ [])
    (hR : b.db.R = some b.state)
    (hcommitted : b.state.committed = false)
    (hfuel : tx.outputs.length + 2 ≤ fuel) :
    (removeTX fuel (add fuel b tx).1 tx.hash).1.1.state = b.state ∧
    (removeTX fuel (add fuel b tx).1 tx.hash).1.1.db.R = b.db.R ∧
    (∀ k, findA (removeTX fuel (add fuel b tx).1 tx.hash).1.1.db.t k
      = findA b.db.t k) ∧
    (∀ k, findA (removeTX fuel (add fuel b tx).1 tx.hash).1.1.db.c k
      = findA b.db.c k) ∧
    (∀ k, findA (removeTX fuel (add fuel b tx).1 tx.hash).1.1.db.d k
      = findA b.db.d k) ∧
    (∀ k, findA (removeTX fuel (add fuel b tx).1 tx.hash).1.1.db.s k
      = findA b.db.s k) ∧
    (∀ k, findA (removeTX fuel (add fuel b tx).1 tx.hash).1.1.db.p k
      = findA b.db.p k) ∧
    (∀ k, findA (removeTX fuel (add fuel b tx).1 tx.hash).1.1.db.m k
      = findA b.db.m k) ∧
    (∀ k, findA (removeTX fuel (add fuel b tx).1 tx.hash).1.1.db.r k
      = findA b.db.r k) ∧
    (∀ k, findA (removeTX fuel (add fuel b tx).1 tx.hash).1.1.db.C k
      = findA b.db.C k) ∧
    (∀ k, findA (removeTX fuel (add fuel b tx).1 tx.hash).1.1.db.T k
      = findA b.db.T k) ∧
    (∀ k, findA (removeTX fuel (add fuel b tx).1 tx.hash).1.1.db.M k
      = findA b.db.M k) ∧
    (∀ k, findA (removeTX fuel (add fuel b tx).1 tx.hash).1.1.db.P k
      = findA b.db.P k) ∧
    (∀ k, findA (removeTX fuel (add fuel b tx).1 tx.hash).1.1.db.h k
      = findA b.db.h k) ∧
    (∀ k, findA (removeTX fuel (add fuel b tx).1 tx.hash).1.1.db.H k
      = findA b.db.H k) ∧
    (∀ k, findA (removeTX fuel (add fuel b tx).1 tx.hash).1.1.db.b k
      = findA b.db.b k) := by
  obtain ⟨F, rfl⟩ := Nat.exists_eq_succ_of_ne_zero
    (show fuel ≠ 0 by omega)
  have hcbOf : ¬tx.coinbase = true → tx.coinbase = false := by
    intro h
    revert h
    cases tx.coinbase <;> simp
  set zs : List ((Nat × Input) × Option Credit) :=
    if tx.coinbase = true then [] else tx.inputs.enum.zip cs with hzsdef
  have hzs0 : tx.coinbase = true → zs = [] := by
    intro h
    rw [hzsdef, if_pos h]
  have hzs1' : tx.coinbase = false → zs = tx.inputs.enum.zip cs := by
    intro h
    rw [hzsdef, if_neg (fun hc => Bool.noConfusion (h.symm.trans hc))]
  have hzs1 : tx.coinbase = false → zs.map Prod.fst = tx.inputs.enum := by
    intro hcbf
    rw [hzs1' hcbf]
    exact List.map_fst_zip _ _ (by
      rw [List.enum_length]
      exact (hlen hcbf).symm.le)
  have hcredZ : ∀ e ∈ zs, ∀ cr, e.2 = some cr →
      findA b.db.c (prevoutKey e.1.2) = some cr ∧
      cr.spent = false ∧
      cr.coin.hash = e.1.2.prevout.hash ∧
      cr.coin.index = e.1.2.prevout.index ∧
      cr.coin.account.isSome ∧
      findA b.db.C (cr.coin.account.getD 0, e.1.2.prevout.hash,
        e.1.2.prevout.index) = some () := by
    intro e he cr hcr
    by_cases hcb : tx.coinbase = true
    · rw [hzs0 hcb] at he
      exact absurd he (List.not_mem_nil e)
    · rw [hzs1' (hcbOf hcb)] at he
      exact hcred (hcbOf hcb) e he cr hcr
  have hnoneZ : ∀ e ∈ zs, e.2 = none →
      findA b.db.c (prevoutKey e.1.2) = none := by
    intro e he hn
    by_cases hcb : tx.coinbase = true
    · rw [hzs0 hcb] at he
      exact absurd he (List.not_mem_nil e)
    · rw [hzs1' (hcbOf hcb)] at he
      exact hnone (hcbOf hcb) e he hn
  have hmemInput : ∀ e ∈ zs, e.1.2 ∈ tx.inputs := by
    intro e he
    by_cases hcb : tx.coinbase = true
    · rw [hzs0 hcb] at he
      exact absurd he (List.not_mem_nil e)
    · rw [hzs1' (hcbOf hcb)] at he
      exact mem_snd_of_mem_enum (List.of_mem_zip he).1
  have hforeignZ : ∀ e ∈ zs, e.1.2.prevout.hash ≠ tx.hash := by
    intro e he
    by_cases hcb : tx.coinbase = true
    · rw [hzs0 hcb] at he
      exact absurd he (List.not_mem_nil e)
    · exact hforeign (hcbOf hcb) e.1.2 (hmemInput e he)
  have hsfreshZ : ∀ e ∈ zs, findA b.db.s (prevoutKey e.1.2) = none := by
    intro e he
    by_cases hcb : tx.coinbase = true
    · rw [hzs0 hcb] at he
      exact absurd he (List.not_mem_nil e)
    · exact hsfresh (hcbOf hcb) e.1.2 (hmemInput e he)
  have hzsK : (zs.map (fun e => prevoutKey e.1.2)).Nodup := by
    by_cases hcb : tx.coinbase = true
    · rw [hzs0 hcb]
      exact List.nodup_nil
    · have h1 : zs.map (fun e => prevoutKey e.1.2)
          = (zs.map Prod.fst).map (fun pr => prevoutKey pr.2) := by
        rw [List.map_map]
        rfl
      rw [h1, hzs1 (hcbOf hcb), enum_map_snd_comp tx.inputs prevoutKey]
      exact hnodupK (hcbOf hcb)
  have hzsI : (zs.map (fun e => e.1.1)).Nodup := by
    by_cases hcb : tx.coinbase = true
    · rw [hzs0 hcb]
      exact List.nodup_nil
    · have h1 : zs.map (fun e => e.1.1)
          = (zs.map Prod.fst).map Prod.fst := by
        rw [List.map_map]
        rfl
      rw [h1, hzs1 (hcbOf hcb)]
      exact enum_fst_nodup _
  have hownZ : zs.any (fun e => e.2.isSome) = true
      ∨ tx.outputs.enum.any (fun pr => pr.2.account.isSome) = true := by
    rcases hown with ⟨hcbf, hcs⟩ | hout
    · left
      have hmapsnd : (tx.inputs.enum.zip cs).map Prod.snd = cs :=
        List.map_snd_zip _ _ (by
          rw [List.enum_length]
          exact (hlen hcbf).le)
      have heq : cs.any Option.isSome = zs.any (fun e => e.2.isSome) := by
        rw [hzs1' hcbf]
        conv_lhs => rw [← hmapsnd]
        rw [any_map_eq]
      rw [← heq]
      exact hcs
    · right
      have heq : tx.outputs.any (fun o => o.account.isSome)
          = tx.outputs.enum.any (fun pr => pr.2.account.isSome) := by
        conv_lhs => rw [← List.enum_map_snd tx.outputs]
        rw [any_map_eq]
      rw [← heq]
      exact hout
  have hrcAll : ∀ conf, removeConflicts (F + 1) b (Draft.start b) tx conf
      = ((b, []), .ok (Draft.start b, true)) := by
    intro conf
    by_cases hcb : tx.coinbase = true
    · unfold removeConflicts
      rw [if_pos hcb]
    · refine removeConflicts_noforeign (F + 1) b (Draft.start b) tx conf ?_
      intro input hin spent hsp
      have h0 : getSpent b.db input.prevout.hash input.prevout.index = none :=
        hsfresh (hcbOf hcb) input hin
      rw [h0] at hsp
      exact absurd hsp (by simp)
  by_cases hht : tx.height = -1
  · obtain ⟨drF, accsF, hInsert, hflagF, hconcl⟩ :=
      roundtrip_core F b tx zs (Draft.start b) hzs0 hzs1 hcredZ hnoneZ hzsK
        hzsI hforeignZ hownZ hsfreshZ hsfresh2 hdfresh hcfresh hCfresh
        htfresh hmfresh hpfresh hrfresh hhfresh hTfresh hMfresh hPfresh
        hHfresh hbrec rfl rfl rfl rfl rfl rfl rfl rfl rfl rfl rfl rfl rfl
        (fun k _ => rfl) rfl hR hcommitted (by omega)
    have hb1 : (add (F + 1) b tx).1 = (b.commitDraft drF).1 := by
      unfold add addBody
      rw [hmut]
      simp only [Bool.false_eq_true, if_false]
      rw [show getTX b.db tx.hash = none from htfresh]
      dsimp only
      rw [if_pos hht, hrbf hht]
      simp only [Bool.false_eq_true, if_false]
      rw [hrcAll true]
      dsimp only
      rw [hInsert]
    rw [hb1]
    exact hconcl
  · obtain ⟨drF, accsF, hInsert, hflagF, hconcl⟩ :=
      roundtrip_core F b tx zs
        { Draft.start b with db :=
            { (Draft.start b).db with r := eraseA (Draft.start b).db.r tx.hash } }
        hzs0 hzs1 hcredZ hnoneZ hzsK
        hzsI hforeignZ hownZ hsfreshZ hsfresh2 hdfresh hcfresh hCfresh
        htfresh hmfresh hpfresh hrfresh hhfresh hTfresh hMfresh hPfresh
        hHfresh hbrec rfl rfl rfl rfl rfl rfl rfl rfl rfl rfl rfl rfl rfl
        (fun k hk => findA_eraseA_ne _ _ _ hk) rfl hR hcommitted (by omega)
    have hb1 : (add (F + 1) b tx).1 = (b.commitDraft drF).1 := by
      unfold add addBody
      rw [hmut]
      simp only [Bool.false_eq_true, if_false]
      rw [show getTX b.db tx.hash = none from htfresh]
      dsimp only
      rw [if_neg hht, hrcAll false]
      dsimp only
      rw [hInsert]
    rw [hb1]
    exact hconcl

/-- Witness fixture: the credit spent by the round-trip transaction. -/
def crW2 : Credit := { coin := ⟨10, 0, 5, -1, some 1⟩, spent := false }

/-- Witness fixture: a committed database holding one unspent credit and a
serialized state. -/
def b0W2 : TXDB :=
  { db := { c := [((10, 0), crW2)], C := [((1, 10, 0), ())], R := some {} },
    state := {}, cache := [] }

/-- Witness fixture: a mempool transaction spending the stored credit into
one owned output. -/
def txW2 : TX :=
  { hash := 20, inputs := [⟨⟨10, 0⟩, none⟩], outputs := [⟨5, some 1⟩],
    height := -1, block := none, ts := 0, index := -1, ps := 0, rbf := false,
    mutableFlag := false, coinbase := false }

/-- Witness fixture: like `b0W2` but carrying a mined-block record at
height 100 for the confirmed round trip. -/
def b0W3 : TXDB :=
  { db := { c := [((10, 0), crW2)], C := [((1, 10, 0), ())],
            b := [((100 : Int), ⟨77, 100, 50, [9]⟩)], R := some {} },
    state := {}, cache := [] }

/-- Witness fixture: a mined transaction spending the stored credit into
one owned output. -/
def txW3 : TX :=
  { hash := 21, inputs := [⟨⟨10, 0⟩, none⟩], outputs := [⟨5, some 1⟩],
    height := 100, block := some 77, ts := 50, index := 0, ps := 30,
    rbf := false, mutableFlag := false, coinbase := false }

theorem add_remove_roundtrip_witness :
    ((removeTX 3 (add 3 b0W2 txW2).1 20).1.1.state = b0W2.state ∧
     findA (removeTX 3 (add 3 b0W2 txW2).1 20).1.1.db.c (10, 0)
       = findA b0W2.db.c (10, 0)) ∧
    ((removeTX 3 (add 3 b0W3 txW3).1 21).1.1.state = b0W3.state ∧
     findA (removeTX 3 (add 3 b0W3 txW3).1 21).1.1.db.b 100
       = findA b0W3.db.b 100) := by
  have hcred2 : txW2.coinbase = false → ∀ e ∈ txW2.inputs.enum.zip [some crW2],
      ∀ cr, e.2 = some cr →
      findA b0W2.db.c (prevoutKey e.1.2) = some cr ∧
      cr.spent = false ∧
      cr.coin.hash = e.1.2.prevout.hash ∧
      cr.coin.index = e.1.2.prevout.index ∧
      cr.coin.account.isSome ∧
      findA b0W2.db.C (cr.coin.account.getD 0, e.1.2.prevout.hash,
        e.1.2.prevout.index) = some () := by
    intro _ e he cr hcr
    have he' : e = ((0, (⟨⟨10, 0⟩, none⟩ : Input)), some crW2) := by
      have he2 : e ∈ [((0, (⟨⟨10, 0⟩, none⟩ : Input)), some crW2)] := he
      exact List.mem_singleton.mp he2
    subst he'
    have hcr' : crW2 = cr := by
      injection hcr with h
    subst hcr'
    exact ⟨rfl, rfl, rfl, rfl, rfl, rfl⟩
  have hnone2 : txW2.coinbase = false → ∀ e ∈ txW2.inputs.enum.zip [some crW2],
      e.2 = none → findA b0W2.db.c (prevoutKey e.1.2) = none := by
    intro _ e he hn
    have he' : e = ((0, (⟨⟨10, 0⟩, none⟩ : Input)), some crW2) := by
      have he2 : e ∈ [((0, (⟨⟨10, 0⟩, none⟩ : Input)), some crW2)] := he
      exact List.mem_singleton.mp he2
    subst he'
    exact Option.noConfusion hn
  have hCf2 : ∀ a i : Nat, findA b0W2.db.C (a, 20, i) = none := by
    intro a i
    apply findA_eq_none_of_not_mem
    intro hmem
    simp only [b0W2, List.map_cons, List.map_nil, List.mem_singleton] at hmem
    have h2 := congrArg (fun t : Nat × Nat × Nat => t.2.1) hmem
    simp at h2
  have h1 := add_remove_roundtrip 3 b0W2 txW2 [some crW2]
    rfl rfl (fun _ => rfl) (fun _ => rfl) (fun _ => by decide)
    (fun _ => by decide) hcred2 hnone2 (Or.inl ⟨rfl, rfl⟩)
    (fun _ => by decide) (fun i => rfl) (fun i => rfl) (fun i => rfl)
    hCf2 rfl (fun _ => rfl) rfl
    (fun hcon => absurd rfl hcon) (fun a => rfl) (fun a => rfl)
    (fun _ a => rfl) (fun hcon => absurd rfl hcon)
    (fun hcon => absurd rfl hcon) rfl rfl (by decide)
  have hcred3 : txW3.coinbase = false → ∀ e ∈ txW3.inputs.enum.zip [some crW2],
      ∀ cr, e.2 = some cr →
      findA b0W3.db.c (prevoutKey e.1.2) = some cr ∧
      cr.spent = false ∧
      cr.coin.hash = e.1.2.prevout.hash ∧
      cr.coin.index = e.1.2.prevout.index ∧
      cr.coin.account.isSome ∧
      findA b0W3.db.C (cr.coin.account.getD 0, e.1.2.prevout.hash,
        e.1.2.prevout.index) = some () := by
    intro _ e he cr hcr
    have he' : e = ((0, (⟨⟨10, 0⟩, none⟩ : Input)), some crW2) := by
      have he2 : e ∈ [((0, (⟨⟨10, 0⟩, none⟩ : Input)), some crW2)] := he
      exact List.mem_singleton.mp he2
    subst he'
    have hcr' : crW2 = cr := by
      injection hcr with h
    subst hcr'
    exact ⟨rfl, rfl, rfl, rfl, rfl, rfl⟩
  have hnone3 : txW3.coinbase = false → ∀ e ∈ txW3.inputs.enum.zip [some crW2],
      e.2 = none → findA b0W3.db.c (prevoutKey e.1.2) = none := by
    intro _ e he hn
    have he' : e = ((0, (⟨⟨10, 0⟩, none⟩ : Input)), some crW2) := by
      have he2 : e ∈ [((0, (⟨⟨10, 0⟩, none⟩ : Input)), some crW2)] := he
      exact List.mem_singleton.mp he2
    subst he'
    exact Option.noConfusion hn
  have hCf3 : ∀ a i : Nat, findA b0W3.db.C (a, 21, i) = none := by
    intro a i
    apply findA_eq_none_of_not_mem
    intro hmem
    simp only [b0W3, List.map_cons, List.map_nil, List.mem_singleton] at hmem
    have h2 := congrArg (fun t : Nat × Nat × Nat => t.2.1) hmem
    simp at h2
  have hbrec3 : txW3.height ≠ -1 → ∀ blk, getBlock b0W3.db txW3.height = some blk →
      txW3.hash ∉ blk.hashes ∧ blk.hashes ≠ [] := by
    intro _ blk hblk
    have hgb : getBlock b0W3.db txW3.height
        = some (⟨77, 100, 50, [9]⟩ : BlockRecord) := rfl
    rw [hgb] at hblk
    injection hblk with hb
    subst hb
    exact ⟨by decide, by decide⟩
  have h2 := add_remove_roundtrip 3 b0W3 txW3 [some crW2]
    rfl rfl (fun hcon => absurd hcon (by decide)) (fun _ => rfl)
    (fun _ => by decide) (fun _ => by decide) hcred3 hnone3
    (Or.inl ⟨rfl, rfl⟩) (fun _ => by decide) (fun i => rfl) (fun i => rfl)
    (fun i => rfl) hCf3 rfl (fun hcon => absurd hcon (by decide)) rfl
    (fun _ => rfl) (fun a => rfl) (fun a => rfl)
    (fun hcon _ => absurd hcon (by decide)) (fun _ a => rfl)
    hbrec3 rfl rfl (by decide)
  obtain ⟨hs1, _, _, hc1, _⟩ := h1
  obtain ⟨hs2, _, _, _, _, _, _, _, _, _, _, _, _, _, _, hb2⟩ := h2
  exact ⟨⟨hs1, hc1 (10, 0)⟩, ⟨hs2, hb2 100⟩⟩

theorem orphan_cap_amended_witness :
    os21.totalOrphans > 20 ∧
    stashOrphan 7 (8, 0) ⟨orphanFloodTX, 0, none⟩ os21
      = { orphans := insertA [] (8, 0) [⟨orphanFloodTX, 0, none⟩],
          count := insertA [] 7 1, totalOrphans := 1 } ∧
    ((verifyInputs {} orphanFloodTX none os21).2).totalOrphans ≤ 21 := by
  refine ⟨by decide,
    (orphan_cap_amended os21 7 (8, 0) ⟨orphanFloodTX, 0, none⟩).1 (by decide),
    (orphan_cap_amended os21 7 (8, 0) ⟨orphanFloodTX, 0, none⟩).2.2
      {} orphanFloodTX none (by decide)⟩

end Txdb
